import Mathlib

/-!
# Topograph: topology graph construction

A shallow embedding of `pkg/topology/graph.go`: the flat per-instance records,
`ClusterTopology.Normalize` and `ClusterTopology.ToThreeTierGraph`.

Go maps are association lists read through `GoMap.get?`; Go pointers to
`Vertex` are addresses into an explicit heap, so that a vertex stored under
several parents is one shared, mutable cell exactly as in the source.
-/

namespace Topograph

/-! ## Go maps -/

/-- A Go `map[string]β`: an association list; `put` keeps at most one entry
per key, so the list order stands for one possible iteration order. -/
abbrev GoMap (β : Type) := List (String × β)

/-- Map read `m[k]` with the comma-ok result. -/
def GoMap.get? {β : Type} (m : GoMap β) (k : String) : Option β :=
  match m with
  | [] => none
  | (k', v) :: rest => if k' = k then some v else GoMap.get? rest k

/-- The call `delete(m, k)`. -/
def GoMap.del {β : Type} (m : GoMap β) (k : String) : GoMap β :=
  match m with
  | [] => []
  | (k', v) :: rest => if k' = k then GoMap.del rest k else (k', v) :: GoMap.del rest k

/-- Map write `m[k] = v`: the old entry for `k`, if any, is replaced. -/
def GoMap.put {β : Type} (m : GoMap β) (k : String) (v : β) : GoMap β :=
  (k, v) :: GoMap.del m k

/-- The keys of a map. -/
def GoMap.keys {β : Type} (m : GoMap β) : List String := m.map Prod.fst

/-! ## Data model -/

/-- The record `InstanceTopology` of graph.go. -/
structure InstanceTopology where
  InstanceID : String
  AcceleratorID : String
  AcceleratorName : String
  BlockID : String
  BlockName : String
  SpineID : String
  SpineName : String
  DatacenterID : String
  DatacenterName : String
  deriving DecidableEq, Repr

/-- Modelled from the spec: the declaration of `ComputeInstances` is not among the
sources; its field `Instances` is the instance ID to node name map read by
`ToThreeTierGraph` and built in the tests. -/
structure ComputeInstances where
  Instances : GoMap String
  deriving DecidableEq, Repr

/-- A Go `*Vertex`: an address into the heap. -/
abbrev Ptr := Nat

/-- Modelled from the spec: the declaration of `Vertex` is not among the sources;
the fields are those of the spec's data model and of the test fixtures. `Vertices`
maps a child key to the address of the child; a nil map and an empty map both
have no entry and are the empty list. -/
structure Vertex where
  ID : String
  Name : String
  Vertices : GoMap Ptr
  Metadata : GoMap String
  deriving DecidableEq, Repr

/-- The store of all allocated vertices; address `p` is position `p`. -/
abbrev Heap := List Vertex

/-- Allocation `&Vertex{...}`: the new cell goes to the end of the heap. -/
def Heap.alloc (h : Heap) (v : Vertex) : Heap × Ptr := (h ++ [v], h.length)

/-- The write `p.Vertices[k] = q` through a pointer. -/
def Heap.setChild (h : Heap) (p : Ptr) (k : String) (q : Ptr) : Heap :=
  match h[p]? with
  | some v => h.set p { v with Vertices := v.Vertices.put k q }
  | none => h

/-- The read `p.Vertices[k]`. -/
def Heap.child (h : Heap) (p : Ptr) (k : String) : Option Ptr :=
  match h[p]? with
  | some v => v.Vertices.get? k
  | none => none

/-- Follow a sequence of child keys from `p`. -/
def Heap.walk (h : Heap) (p : Ptr) : List String → Option Ptr
  | [] => some p
  | k :: ks =>
    match Heap.child h p k with
    | some q => Heap.walk h q ks
    | none => none

/-- Follow a sequence of child keys from `p`, checking that every vertex
reached carries the key it is stored under as its `ID`. -/
def Heap.walkKeyed (h : Heap) (p : Ptr) : List String → Option Ptr
  | [] => some p
  | k :: ks =>
    match Heap.child h p k with
    | some q =>
      match h[q]? with
      | some v => if v.ID = k then Heap.walkKeyed h q ks else none
      | none => none
    | none => none

/-- Modelled from the spec: the constant `TopologyTree` is not among the sources;
the spec names the discriminator "tree". -/
def TopologyTree : String := "tree"

/-- Modelled from the spec: the constant `TopologyBlock` is not among the sources;
the spec names the discriminator "block". -/
def TopologyBlock : String := "block"

/-- Modelled from the spec: the constant `NoTopology` is not among the sources;
the spec names the reserved ID "no-topology". -/
def NoTopology : String := "no-topology"

/-! ## Normalize -/

/-- The constants `blockBand`, `spineBand`, `datacenterBand` (iota + 1). -/
def blockBand : Nat := 1
def spineBand : Nat := 2
def datacenterBand : Nat := 3

/-- Go's `<` on strings: the lexicographic order of the bytes, which on UTF-8
text is the lexicographic order of the characters. -/
def strLess (a b : String) : Bool := decide (a.toList < b.toList)

/-- The comparison closure handed to `sort.Slice` in `Normalize`. -/
def less (a b : InstanceTopology) : Bool :=
  if a.DatacenterID ≠ b.DatacenterID then strLess a.DatacenterID b.DatacenterID
  else if a.SpineID ≠ b.SpineID then strLess a.SpineID b.SpineID
  else if a.BlockID ≠ b.BlockID then strLess a.BlockID b.BlockID
  else strLess a.InstanceID b.InstanceID

/-- The order `sort.Slice` sorts into: `a` may stand before `b` when `b` is not
less than `a`. -/
def notAfter (a b : InstanceTopology) : Prop := less b a = false

instance notAfter.decidable : DecidableRel notAfter := fun a b =>
  inferInstanceAs (Decidable (less b a = false))

/-- The call `sort.Slice(c.Instances, less)`. Below twelve elements Go runs an
insertion sort, which is stable, and `List.insertionSort` returns the same list;
on longer slices Go's pattern-defeating quicksort returns a sorted permutation
and leaves a slice that is already sorted as it is. -/
def sortSlice (l : List InstanceTopology) : List InstanceTopology :=
  l.insertionSort notAfter

/-- The formatting `fmt.Sprintf("switch.%d.%d", band, n)`. -/
def switchName (band n : Nat) : String :=
  "switch." ++ toString band ++ "." ++ toString n

/-- The locals of the naming loop of `Normalize`: the map `bandCounts`, one
counter per band, and the map `switches`. -/
structure NormState where
  blockCount : Nat
  spineCount : Nat
  datacenterCount : Nat
  switches : GoMap String
  deriving DecidableEq, Repr

/-- The block branch of the loop body of `Normalize`. A failed lookup leaves
`name` empty, and that empty `name` is what the source stores in `switches`. -/
def nameBlock (st : NormState) (inst : InstanceTopology) : NormState × InstanceTopology :=
  match st.switches.get? inst.BlockID with
  | none =>
    let n := st.blockCount + 1
    ({ st with blockCount := n, switches := st.switches.put inst.BlockID "" },
     { inst with BlockName := switchName blockBand n })
  | some name => (st, { inst with BlockName := name })

/-- The spine branch of the loop body of `Normalize`. -/
def nameSpine (st : NormState) (inst : InstanceTopology) : NormState × InstanceTopology :=
  match st.switches.get? inst.SpineID with
  | none =>
    let n := st.spineCount + 1
    ({ st with spineCount := n, switches := st.switches.put inst.SpineID "" },
     { inst with SpineName := switchName spineBand n })
  | some name => (st, { inst with SpineName := name })

/-- The datacenter branch of the loop body of `Normalize`; the source stores
under `inst.SpineID` here. -/
def nameDatacenter (st : NormState) (inst : InstanceTopology) :
    NormState × InstanceTopology :=
  match st.switches.get? inst.DatacenterID with
  | none =>
    let n := st.datacenterCount + 1
    ({ st with datacenterCount := n, switches := st.switches.put inst.SpineID "" },
     { inst with DatacenterName := switchName datacenterBand n })
  | some name => (st, { inst with DatacenterName := name })

/-- One iteration of the naming loop of `Normalize`. -/
def nameStep (st : NormState) (inst : InstanceTopology) : NormState × InstanceTopology :=
  let r1 := nameBlock st inst
  let r2 := nameSpine r1.1 r1.2
  nameDatacenter r2.1 r2.2

/-- The naming loop of `Normalize` over the sorted records. -/
def nameLoop (st : NormState) : List InstanceTopology → List InstanceTopology
  | [] => []
  | inst :: rest =>
    let r := nameStep st inst
    r.2 :: nameLoop r.1 rest

/-- The method `ClusterTopology.Normalize`: the value of `c.Instances` after the call. -/
def Normalize (l : List InstanceTopology) : List InstanceTopology :=
  nameLoop ⟨0, 0, 0, []⟩ (sortSlice l)

/-! ## Accelerator domains -/

/-- Modelled from the spec: the declaration of `DomainMap` is not among the sources;
per the spec a bucket keyed by the AcceleratorID holds the registered
(InstanceID, node name) pairs. -/
abbrev DomainMap := GoMap (GoMap String)

/-- Modelled from the spec: the function `NewDomainMap` is not among the sources;
it returns the empty domain map. -/
def NewDomainMap : DomainMap := []

/-- Modelled from the spec: the method `DomainMap.AddHost` is not among the sources;
it registers the (InstanceID, node name) pair under the bucket of the domain. -/
def DomainMap.AddHost (m : DomainMap) (domain inst node : String) : DomainMap :=
  match m.get? domain with
  | some d => m.put domain (d.put inst node)
  | none => m.put domain (GoMap.put [] inst node)

/-- The leaves of one bucket: one leaf per registered pair, stored under the
vertex `sw`. -/
def blockLeaves (h : Heap) (sw : Ptr) : GoMap String → Heap
  | [] => h
  | (instanceID, node) :: rest =>
    let a := h.alloc ⟨instanceID, node, [], []⟩
    blockLeaves (a.1.setChild sw instanceID a.2) sw rest

/-- One flat vertex per bucket, stored under the block forest root. -/
def blockVertices (h : Heap) (blockRoot : Ptr) : DomainMap → Heap
  | [] => h
  | (domain, hosts) :: rest =>
    let a := h.alloc ⟨domain, "", [], []⟩
    let h2 := blockLeaves a.1 a.2 hosts
    blockVertices (h2.setChild blockRoot domain a.2) blockRoot rest

/-- Modelled from the spec: the method `DomainMap.ToBlocks` is not among the
sources; every bucket becomes one flat vertex whose children are leaves, and all
of them are collected under the block forest root, which is returned. -/
def DomainMap.ToBlocks (m : DomainMap) (h : Heap) : Heap × Ptr :=
  let a := h.alloc ⟨"", "", [], []⟩
  (blockVertices a.1 a.2 m, a.2)

/-! ## ToThreeTierGraph -/

/-- The struct `ClusterTopology`. -/
structure ClusterTopology where
  Instances : List InstanceTopology
  deriving DecidableEq, Repr

/-- The constructor `NewClusterTopology`. -/
def NewClusterTopology : ClusterTopology := ⟨[]⟩

/-- The method `ClusterTopology.Append`. -/
def ClusterTopology.Append (c : ClusterTopology) (inst : InstanceTopology) : ClusterTopology :=
  ⟨c.Instances ++ [inst]⟩

/-- The method `ClusterTopology.Len`. -/
def ClusterTopology.Len (c : ClusterTopology) : Nat := c.Instances.length

/-- The first loop of `ToThreeTierGraph`: every `ci.Instances` is copied into `i2n`. -/
def mergeInstances (cis : List ComputeInstances) : GoMap String :=
  cis.foldl (fun i2n ci => ci.Instances.foldl (fun m e => m.put e.1 e.2) i2n) []

/-- The field read `p.ID` through a pointer. -/
def Heap.idOf (h : Heap) (p : Ptr) : String :=
  match h[p]? with
  | some v => v.ID
  | none => ""

/-- The locals of `ToThreeTierGraph` together with the heap. -/
structure BuildState where
  heap : Heap
  forest : GoMap Ptr
  nodes : GoMap Ptr
  i2n : GoMap String
  domainMap : DomainMap
  deriving DecidableEq, Repr

/-- The body of the inner loop of `ToThreeTierGraph` for one non-empty swID: the
switch vertex is looked up in `nodes` or allocated and registered there, and the
current `instance` is stored among its children under its own ID. It returns the
heap, `nodes` and the switch, which is the next value of `instance`. -/
def linkSwitch (h : Heap) (nodes : GoMap Ptr) (inst : Ptr) (swID swName : String) :
    Heap × GoMap Ptr × Ptr :=
  match nodes.get? swID with
  | some sw => (h.setChild sw (h.idOf inst) inst, nodes, sw)
  | none =>
    let a := h.alloc ⟨swID, swName, [], []⟩
    (a.1.setChild a.2 (a.1.idOf inst) inst, nodes.put swID a.2, a.2)

/-- The inner loop of `ToThreeTierGraph` over the (swID, swName) pairs of one
record, from the block outwards; `inst` is the loop variable `instance`. The loop
breaks at the first empty swID. It returns the heap, `nodes` and the last value
of `instance`. -/
def linkSwitches (h : Heap) (nodes : GoMap Ptr) (inst : Ptr) :
    List (String × String) → Heap × GoMap Ptr × Ptr
  | [] => (h, nodes, inst)
  | (swID, swName) :: rest =>
    if swID.length = 0 then (h, nodes, inst)
    else
      let r := linkSwitch h nodes inst swID swName
      linkSwitches r.1 r.2.1 r.2.2 rest

/-- The slice `[]string{inst.BlockID, inst.SpineID, inst.DatacenterID}` the inner
loop ranges over, each swID paired with the entry of `swNames` of the same index. -/
def swPairs (inst : InstanceTopology) : List (String × String) :=
  [(inst.BlockID, inst.BlockName), (inst.SpineID, inst.SpineName),
   (inst.DatacenterID, inst.DatacenterName)]

/-- The body of the main loop of `ToThreeTierGraph` for one record. -/
def buildStep (st : BuildState) (inst : InstanceTopology) : BuildState :=
  match st.i2n.get? inst.InstanceID with
  | none => st
  | some nodeName =>
    let i2n := st.i2n.del inst.InstanceID
    let a := st.heap.alloc ⟨inst.InstanceID, nodeName, [], []⟩
    let domainMap :=
      if inst.AcceleratorID.length ≠ 0 then
        st.domainMap.AddHost inst.AcceleratorID inst.InstanceID nodeName
      else st.domainMap
    let r := linkSwitches a.1 st.nodes a.2 (swPairs inst)
    { heap := r.1, forest := st.forest.put (r.1.idOf r.2.2) r.2.2, nodes := r.2.1,
      i2n := i2n, domainMap := domainMap }

/-- The leaves stored under the no-topology vertex `sw`, one per entry left in
`i2n`. The call to `metrics.SetMissingTopology` only reports a counter and is
left out. -/
def noTopologyLeaves (h : Heap) (sw : Ptr) : GoMap String → Heap
  | [] => h
  | (instanceID, nodeName) :: rest =>
    let a := h.alloc ⟨instanceID, nodeName, [], []⟩
    noTopologyLeaves (a.1.setChild sw instanceID a.2) sw rest

/-- The block `if len(i2n) != 0` of `ToThreeTierGraph`. -/
def addNoTopology (st : BuildState) : BuildState :=
  if st.i2n.length ≠ 0 then
    let a := st.heap.alloc ⟨NoTopology, "", [], []⟩
    { st with heap := noTopologyLeaves a.1 a.2 st.i2n, forest := st.forest.put NoTopology a.2 }
  else st

/-- The loop `for name, node := range forest` filling `treeRoot.Vertices`. -/
def copyForest (h : Heap) (treeRoot : Ptr) : GoMap Ptr → Heap
  | [] => h
  | (name, node) :: rest => copyForest (h.setChild treeRoot name node) treeRoot rest

/-- What a call of `ToThreeTierGraph` leaves behind: the receiver's record list
and the `cis` argument as they are after the call, the heap holding the graph, and
the two results, the root pointer (`none` for nil) and the error (`none` for nil). -/
structure Result where
  Instances : List InstanceTopology
  cis : List ComputeInstances
  heap : Heap
  root : Option Ptr
  err : Option String
  deriving DecidableEq, Repr

/-- The records the main loop of `ToThreeTierGraph` ranges over: `c.Instances`
after the optional call of `c.Normalize()`. -/
def processed (c : ClusterTopology) (normalize : Bool) : List InstanceTopology :=
  if normalize then Normalize c.Instances else c.Instances

/-- The state of `ToThreeTierGraph` after the main loop over the records. -/
def mainLoop (c : ClusterTopology) (cis : List ComputeInstances) (normalize : Bool) :
    BuildState :=
  (processed c normalize).foldl buildStep ⟨[], [], [], mergeInstances cis, NewDomainMap⟩

/-- The state of `ToThreeTierGraph` after the main loop and the no-topology block. -/
def buildForest (c : ClusterTopology) (cis : List ComputeInstances) (normalize : Bool) :
    BuildState :=
  addNoTopology (mainLoop c cis normalize)

/-- The method `ClusterTopology.ToThreeTierGraph`. -/
def ToThreeTierGraph (c : ClusterTopology) (_provider : String) (cis : List ComputeInstances)
    (normalize : Bool) : Result :=
  let st := buildForest c cis normalize
  let t := st.heap.alloc ⟨"", "", [], []⟩
  let h2 := copyForest t.1 t.2 st.forest
  let r := h2.alloc ⟨"", "", [], []⟩
  let h4 := r.1.setChild r.2 TopologyTree t.2
  let h5 :=
    if st.domainMap.length ≠ 0 then
      let b := st.domainMap.ToBlocks h4
      b.1.setChild r.2 TopologyBlock b.2
    else h4
  ⟨processed c normalize, cis, h5, some r.2, none⟩

/-! ## Notions used to state the properties -/

/-- The sort key of `Normalize` in the words of the spec: the tuple
(DatacenterID, SpineID, BlockID, InstanceID) under the lexicographic order, the
DatacenterID being the most significant component. -/
def sortKey (r : InstanceTopology) : Lex (String × Lex (String × Lex (String × String))) :=
  toLex (r.DatacenterID, toLex (r.SpineID, toLex (r.BlockID, r.InstanceID)))

/-- A record without its three derived name fields. -/
def stripNames (r : InstanceTopology) : InstanceTopology :=
  { r with BlockName := "", SpineName := "", DatacenterName := "" }

/-- The tier-prefix invariant of the spec: an ID may be empty only if every ID
above it is empty too, so the non-empty IDs are a prefix of BlockID, SpineID,
DatacenterID. -/
def TierPrefix (r : InstanceTopology) : Prop :=
  (r.BlockID = "" → r.SpineID = "") ∧ (r.SpineID = "" → r.DatacenterID = "")

instance TierPrefix.decidable : DecidablePred TierPrefix := fun r =>
  inferInstanceAs (Decidable ((r.BlockID = "" → r.SpineID = "") ∧
    (r.SpineID = "" → r.DatacenterID = "")))

/-- The cells below address `n` are the same in `h'` as in `h`, and `h'` is at
least as long. -/
def Heap.Frame (n : Nat) (h h' : Heap) : Prop :=
  h.length ≤ h'.length ∧ ∀ p, p < n → h'[p]? = h[p]?

/-- The vertex at `p` has at least one child. -/
def Heap.HasChildren (h : Heap) (p : Ptr) : Prop :=
  ∃ v, h[p]? = some v ∧ v.Vertices ≠ []

/-- Two vertices agree on ID, Name, the set of child keys and the metadata. -/
def SameVertex (v w : Vertex) : Prop :=
  v.ID = w.ID ∧ v.Name = w.Name ∧
  (∀ k, (v.Vertices.get? k).isSome = (w.Vertices.get? k).isSome) ∧
  (∀ k, v.Metadata.get? k = w.Metadata.get? k)

/-- Deep equality of two graphs given by a heap and a root each: every sequence
of child keys leads to a vertex in both graphs or in neither, and the two vertices
reached agree on ID, Name, child key set and metadata. The order of the entries
of a child map plays no role. -/
def DeepEqual (h1 : Heap) (p1 : Ptr) (h2 : Heap) (p2 : Ptr) : Prop :=
  ∀ path : List String,
    match h1.walk p1 path, h2.walk p2 path with
    | some q1, some q2 =>
      (match h1[q1]?, h2[q2]? with
       | some v, some w => SameVertex v w
       | none, none => True
       | _, _ => False)
    | none, none => True
    | _, _ => False

/-- The structural invariant of the main loop of `ToThreeTierGraph`, for the
merged map `M` and a property `P` of all IDs met: `nodes` and `forest` point to
live vertices stored under their own ID, every child link does so too, and every
vertex either has children or is the leaf of a consumed entry of `M`. -/
structure WF (M : GoMap String) (P : String → Prop) (h : Heap) (forest nodes : GoMap Ptr)
    (i2n : GoMap String) : Prop where
  nodes_ok : ∀ k p, nodes.get? k = some p → ∃ v, h[p]? = some v ∧ v.ID = k ∧ v.Vertices ≠ []
  forest_ok : ∀ k p, forest.get? k = some p → ∃ v, h[p]? = some v ∧ v.ID = k
  links_ok : ∀ (p : Ptr) (v : Vertex) (k : String) (q : Ptr), h[p]? = some v →
    v.Vertices.get? k = some q → ∃ w : Vertex, h[q]? = some w ∧ w.ID = k
  cells_ok : ∀ (p : Ptr) (v : Vertex), h[p]? = some v → P v.ID ∧ (v.Vertices ≠ [] ∨
    (v = ⟨v.ID, v.Name, [], []⟩ ∧ M.get? v.ID = some v.Name ∧ i2n.get? v.ID = none))
  forest_nodup : forest.keys.Nodup
  i2n_nodup : i2n.keys.Nodup
  i2n_sub : ∀ k n, i2n.get? k = some n → M.get? k = some n

/-- Every vertex of `h` is still there in `h'`, with its ID and Name, and with
children if it had some. -/
def Heap.Mono (h h' : Heap) : Prop :=
  ∀ (p : Ptr) (v : Vertex), h[p]? = some v →
    ∃ v' : Vertex, h'[p]? = some v' ∧ v'.ID = v.ID ∧ v'.Name = v.Name ∧
      (v.Vertices ≠ [] → v'.Vertices ≠ [])

/-- An entry of the merged instance to node map whose instance ID is the
InstanceID of no record. -/
def Unmapped (c : ClusterTopology) (cis : List ComputeInstances) (k n : String) : Prop :=
  (mergeInstances cis).get? k = some n ∧ ∀ r ∈ c.Instances, r.InstanceID ≠ k

/-- The invariant of the main loop that needs switch IDs apart from instance IDs:
no two vertices carry the same ID, no switch ID is a key of the merged map `M`,
and every vertex with children is the switch registered in `nodes` under its ID. -/
structure Uniq (M : GoMap String) (h : Heap) (nodes : GoMap Ptr) : Prop where
  inj : ∀ (p q : Ptr) (v w : Vertex), h[p]? = some v → h[q]? = some w → v.ID = w.ID → p = q
  nodes_fresh : ∀ (k : String) (p : Ptr), nodes.get? k = some p → M.get? k = none
  nonleaf_reg : ∀ (p : Ptr) (v : Vertex), h[p]? = some v → v.Vertices ≠ [] →
    nodes.get? v.ID = some p

/-- Every vertex of `h` is still there in `h'` with its ID and with every child
link it had. -/
def Heap.Ext (h h' : Heap) : Prop :=
  ∀ (p : Ptr) (v : Vertex), h[p]? = some v →
    ∃ v' : Vertex, h'[p]? = some v' ∧ v'.ID = v.ID ∧
      ∀ (k : String) (q : Ptr), v.Vertices.get? k = some q → v'.Vertices.get? k = some q

/-- The ID of the last value of `instance` after the inner loop, and the child
keys leading from that vertex down to the leaf: `cur` is the ID of the current
`instance` and `down` the keys from it down to the leaf. -/
def pathAfter (cur : String) (down : List String) : List (String × String) → String × List String
  | [] => (cur, down)
  | (swID, _) :: rest =>
    if swID.length = 0 then (cur, down) else pathAfter swID (cur :: down) rest

/-- The child keys that lead from the forest to the leaf of a record: the key of
the forest entry written for the record, then the keys down to the leaf. -/
def chain (r : InstanceTopology) : List String :=
  (pathAfter r.InstanceID [] (swPairs r)).1 :: (pathAfter r.InstanceID [] (swPairs r)).2

/-- Follow child keys starting in the map `forest`, checking IDs as `walkKeyed`. -/
def forestWalk (h : Heap) (forest : GoMap Ptr) : List String → Option Ptr
  | [] => none
  | k :: ks =>
    match forest.get? k with
    | some p =>
      match h[p]? with
      | some v => if v.ID = k then h.walkKeyed p ks else none
      | none => none
    | none => none

/-- The provided instance IDs: the InstanceIDs of the records and the keys of the
instance to node map. -/
def instanceIDs (c : ClusterTopology) (M : GoMap String) : List String :=
  c.Instances.map (fun r => r.InstanceID) ++ M.keys

/-- The non-empty BlockIDs of the records. -/
def blockIDs (c : ClusterTopology) : List String :=
  (c.Instances.map (fun r => r.BlockID)).filter (fun s => s ≠ "")

/-- The non-empty SpineIDs of the records. -/
def spineIDs (c : ClusterTopology) : List String :=
  (c.Instances.map (fun r => r.SpineID)).filter (fun s => s ≠ "")

/-- The non-empty DatacenterIDs of the records. -/
def datacenterIDs (c : ClusterTopology) : List String :=
  (c.Instances.map (fun r => r.DatacenterID)).filter (fun s => s ≠ "")

/-- The switch IDs of the records, all tiers together. -/
def switchIDs (c : ClusterTopology) : List String :=
  blockIDs c ++ spineIDs c ++ datacenterIDs c

/-- Instance IDs, switch IDs and the reserved no-topology ID never coincide. -/
def Separated (c : ClusterTopology) (M : GoMap String) : Prop :=
  (∀ x ∈ instanceIDs c M, x ∉ switchIDs c) ∧ NoTopology ∉ instanceIDs c M ∧
  NoTopology ∉ switchIDs c

instance Separated.decidable (c : ClusterTopology) (M : GoMap String) :
    Decidable (Separated c M) :=
  inferInstanceAs (Decidable ((∀ x ∈ instanceIDs c M, x ∉ switchIDs c) ∧
    NoTopology ∉ instanceIDs c M ∧ NoTopology ∉ switchIDs c))

/-- Instance IDs, block IDs, spine IDs, datacenter IDs and the reserved
no-topology ID never coincide across kinds. -/
def KindsDisjoint (c : ClusterTopology) (M : GoMap String) : Prop :=
  Separated c M ∧ (∀ x ∈ blockIDs c, x ∉ spineIDs c ∧ x ∉ datacenterIDs c) ∧
  (∀ x ∈ spineIDs c, x ∉ datacenterIDs c)

instance KindsDisjoint.decidable (c : ClusterTopology) (M : GoMap String) :
    Decidable (KindsDisjoint c M) :=
  inferInstanceAs (Decidable (Separated c M ∧
    (∀ x ∈ blockIDs c, x ∉ spineIDs c ∧ x ∉ datacenterIDs c) ∧
    (∀ x ∈ spineIDs c, x ∉ datacenterIDs c)))

/-- The non-empty tier IDs of a record from the outermost inwards, followed by
its InstanceID: the child keys from the tree forest root down to the leaf. -/
def tierPath (r : InstanceTopology) : List String :=
  [r.DatacenterID, r.SpineID, r.BlockID].filter (fun s => s ≠ "") ++ [r.InstanceID]

/-- The sort key and the three derived names of a record. -/
def keyAndNames (r : InstanceTopology) :
    (String × String × String × String) × (String × String × String) :=
  ((r.DatacenterID, r.SpineID, r.BlockID, r.InstanceID),
   (r.BlockName, r.SpineName, r.DatacenterName))

/-- No string, the empty string of an unset field included, is both the BlockID of
a record and the SpineID of a record: the naming loop of `Normalize` looks the empty
string up in `switches` like any other ID. -/
def BlockSpineApart (l : List InstanceTopology) : Prop :=
  ∀ r ∈ l, ∀ r' ∈ l, r.BlockID ≠ r'.SpineID

instance BlockSpineApart.decidable (l : List InstanceTopology) :
    Decidable (BlockSpineApart l) :=
  inferInstanceAs (Decidable (∀ r ∈ l, ∀ r' ∈ l, r.BlockID ≠ r'.SpineID))

/-- No DatacenterID, the empty one included, is the BlockID or the SpineID of a
record. -/
def DatacenterApart (l : List InstanceTopology) : Prop :=
  ∀ r ∈ l, ∀ r' ∈ l, r.DatacenterID ≠ r'.BlockID ∧ r.DatacenterID ≠ r'.SpineID

instance DatacenterApart.decidable (l : List InstanceTopology) :
    Decidable (DatacenterApart l) :=
  inferInstanceAs (Decidable (∀ r ∈ l, ∀ r' ∈ l,
    r.DatacenterID ≠ r'.BlockID ∧ r.DatacenterID ≠ r'.SpineID))

/-- The list does not have both a record with an empty BlockID and a record with an
empty SpineID. -/
def EmptyNotShared (l : List InstanceTopology) : Prop :=
  "" ∉ l.map (fun r => r.BlockID) ∨ "" ∉ l.map (fun r => r.SpineID)

instance EmptyNotShared.decidable (l : List InstanceTopology) :
    Decidable (EmptyNotShared l) :=
  inferInstanceAs (Decidable ("" ∉ l.map (fun r : InstanceTopology => r.BlockID) ∨
    "" ∉ l.map (fun r : InstanceTopology => r.SpineID)))

/-- The list does not have a record with an empty DatacenterID together with a
record with an empty BlockID or an empty SpineID. -/
def EmptyDatacenterApart (l : List InstanceTopology) : Prop :=
  "" ∉ l.map (fun r => r.DatacenterID) ∨
    ("" ∉ l.map (fun r => r.BlockID) ∧ "" ∉ l.map (fun r => r.SpineID))

instance EmptyDatacenterApart.decidable (l : List InstanceTopology) :
    Decidable (EmptyDatacenterApart l) :=
  inferInstanceAs (Decidable ("" ∉ l.map (fun r : InstanceTopology => r.DatacenterID) ∨
    ("" ∉ l.map (fun r : InstanceTopology => r.BlockID) ∧
      "" ∉ l.map (fun r : InstanceTopology => r.SpineID))))

/-- A record without any tier before a record of block b2 under spine s. -/
def tierlessThenSpine : List InstanceTopology :=
  [⟨"i1", "", "", "", "", "", "", "", ""⟩, ⟨"i2", "", "", "b2", "", "s", "", "", ""⟩]

/-- A record of block b1 without a spine before a record of block b2 under spine s. -/
def blockOnlyThenSpine : List InstanceTopology :=
  [⟨"i1", "", "", "b1", "", "", "", "", ""⟩, ⟨"i2", "", "", "b2", "", "s", "", "", ""⟩]

/-- Two records with a block and a spine each and no datacenter. -/
def twoTierRecords : List InstanceTopology :=
  [⟨"i1", "", "", "b1", "", "s1", "", "", ""⟩, ⟨"i2", "", "", "b2", "", "s2", "", "", ""⟩]

/-- The names the naming loop of `Normalize` gives in the block or the spine tier
as a function of the IDs of that tier alone, when no other tier uses these IDs:
`seen` holds the IDs met so far and `count` is the counter of the band. An ID not
met before takes the next ordinal; an ID met before takes what the loop stored for
it, the empty string. -/
def tierNames (band : Nat) (seen : List String) (count : Nat) : List String → List String
  | [] => []
  | id :: rest =>
    if id ∈ seen then "" :: tierNames band seen count rest
    else switchName band (count + 1) :: tierNames band (id :: seen) (count + 1) rest

/-! ## The range-folding codec: split -/

/-- Modelled from the spec: the longest trailing run of decimal digits of a
character sequence. -/
def trailingDigits (cs : List Char) : List Char :=
  (cs.reverse.takeWhile Char.isDigit).reverse

/-- Modelled from the spec: what stands before the trailing digit run. -/
def beforeDigits (cs : List Char) : List Char :=
  (cs.reverse.dropWhile Char.isDigit).reverse

/-- Modelled from the spec: `split(name)` decomposes a string into (prefix,
numeric suffix). The numeric suffix is the longest trailing run of decimal digits
without its leading zero digits: these are appended to the prefix, up to the first
non-zero digit, or the whole run when it is all zeros. -/
def split (name : String) : String × String :=
  let run := trailingDigits name.toList
  (String.mk (beforeDigits name.toList ++ run.takeWhile (fun c => c == '0')),
   String.mk (run.dropWhile (fun c => c == '0')))

/-- Every vertex of `h` that has children carries an ID with the property `Q`. -/
def SwitchCells (Q : String → Prop) (h : Heap) : Prop :=
  ∀ (p : Ptr) (v : Vertex), h[p]? = some v → v.Vertices ≠ [] → Q v.ID

/-- No string is the non-empty ID of two different tiers. -/
def TiersDisjoint (c : ClusterTopology) : Prop :=
  (∀ x ∈ blockIDs c, x ∉ spineIDs c ∧ x ∉ datacenterIDs c) ∧
  (∀ x ∈ spineIDs c, x ∉ datacenterIDs c)

instance TiersDisjoint.decidable (c : ClusterTopology) : Decidable (TiersDisjoint c) :=
  inferInstanceAs (Decidable ((∀ x ∈ blockIDs c, x ∉ spineIDs c ∧ x ∉ datacenterIDs c) ∧
    (∀ x ∈ spineIDs c, x ∉ datacenterIDs c)))

/-- The tier of a switch ID: 1 for a block, 2 for a spine, 3 otherwise. -/
def tierOf (c : ClusterTopology) (id : String) : Nat :=
  if id ∈ blockIDs c then 1 else if id ∈ spineIDs c then 2 else 3

/-- Along the (swID, swName) pairs of one record, up to the first empty swID, the
rank `rk` of the IDs rises strictly; `cur` is the ID of the current `instance`,
and nothing is asked of it while it is the leaf. -/
def Rising (rk : String → Nat) : Bool → String → List (String × String) → Prop
  | _, _, [] => True
  | leaf, cur, (swID, _) :: rest =>
    swID.length = 0 ∨ ((leaf = true ∨ rk cur < rk swID) ∧ Rising rk false swID rest)

/-- Every child link of `h` leads to a vertex without children or to a vertex
whose ID has a smaller rank than the ID of the parent. -/
def Ranked (rk : String → Nat) (h : Heap) : Prop :=
  ∀ (p : Ptr) (v : Vertex) (k : String) (q : Ptr), h[p]? = some v →
    v.Vertices.get? k = some q → ∃ w : Vertex, h[q]? = some w ∧
      (w.Vertices = [] ∨ rk w.ID < rk v.ID)

/-- Every child link of a vertex at address `L` or above leads to a larger address. -/
def UpFrom (L : Nat) (h : Heap) : Prop :=
  ∀ (p : Ptr) (v : Vertex) (k : String) (q : Ptr), L ≤ p → h[p]? = some v →
    v.Vertices.get? k = some q → p < q

/-- A measure on the addresses of the returned heap that falls along every child
link when the tiers share no ID: `n0` is the length of the heap after the main
loop and `n1` the address of the tree forest root. -/
def graphRank (rk : String → Nat) (n0 n1 : Nat) (H : Heap) (p : Nat) : Nat :=
  match H[p]? with
  | none => 0
  | some v =>
    if v.Vertices = [] then 0
    else if p < n0 then rk v.ID + 1
    else if p < n1 then 1
    else if p = n1 then 5
    else if p = n1 + 1 then H.length + 6
    else H.length - p + 1

/-- The record list without the later records of an InstanceID: a record is
dropped when its InstanceID is in `seen` or is carried by a record before it. -/
def dropLater (seen : List String) : List InstanceTopology → List InstanceTopology
  | [] => []
  | r :: rest =>
    if r.InstanceID ∈ seen then dropLater seen rest
    else r :: dropLater (r.InstanceID :: seen) rest

/-! ## GCP: toSLURM -/

namespace gcp

/-- The struct `InstanceInfo` of package gcp. -/
structure InstanceInfo where
  clusterID : String
  rackID : String
  name : String
  deriving DecidableEq, Repr

/-- The struct `InstanceTopology` of package gcp. -/
structure InstanceTopology where
  instances : List InstanceInfo
  deriving DecidableEq, Repr

/-- The locals `forest` and `nodes` of `toSLURM` together with the heap. The
vertices are those of the data model: the declaration of `common.Vertex` is not
among the sources. -/
structure SlurmState where
  heap : Heap
  forest : GoMap Ptr
  nodes : GoMap Ptr
  deriving DecidableEq, Repr

/-- The two results of `toSLURM`, the root pointer and the error, with the heap
that holds the graph. -/
structure SlurmResult where
  heap : Heap
  root : Option Ptr
  err : Option String
  deriving DecidableEq, Repr

/-- The body of the loop of `toSLURM` for one instance `c`: the leaf is allocated,
the rack vertex `sw2` is looked up in `nodes` or allocated and registered, the leaf
is stored among its children under its own ID, the cluster vertex `sw1` is looked
up in `nodes` or allocated and registered in `nodes` and in `forest`, and `sw2` is
stored among its children under the rack ID. -/
def slurmStep (st : SlurmState) (c : InstanceInfo) : SlurmState :=
  let inst := st.heap.alloc ⟨c.name, c.name, [], []⟩
  let id2 := c.rackID
  let r :=
    match st.nodes.get? id2 with
    | some sw2 => (inst.1, st.nodes, sw2)
    | none =>
      let a := inst.1.alloc ⟨id2, "", [], []⟩
      (a.1, st.nodes.put id2 a.2, a.2)
  let h2 := r.1.setChild r.2.2 (r.1.idOf inst.2) inst.2
  let id1 := c.clusterID
  match r.2.1.get? id1 with
  | some sw1 => ⟨h2.setChild sw1 id2 r.2.2, st.forest, r.2.1⟩
  | none =>
    let a := h2.alloc ⟨id1, "", [], []⟩
    ⟨a.1.setChild a.2 id2 r.2.2, st.forest.put id1 a.2, r.2.1.put id1 a.2⟩

/-- The method `InstanceTopology.toSLURM`: the loop over the instances, then the
root that receives every entry of `forest`. The error is always nil. -/
def toSLURM (cfg : InstanceTopology) : SlurmResult :=
  let st := cfg.instances.foldl slurmStep ⟨[], [], []⟩
  let root := st.heap.alloc ⟨"", "", [], []⟩
  ⟨copyForest root.1 root.2 st.forest, some root.2, none⟩

/-- No string is both a clusterID and a rackID of the instance list. -/
def ClusterRackApart (l : List InstanceInfo) : Prop :=
  ∀ c ∈ l, ∀ c' ∈ l, c.clusterID ≠ c'.rackID

instance ClusterRackApart.decidable (l : List InstanceInfo) : Decidable (ClusterRackApart l) :=
  inferInstanceAs (Decidable (∀ c ∈ l, ∀ c' ∈ l, c.clusterID ≠ c'.rackID))

/-- The invariant of the loop of `toSLURM` after the instances `done`: `nodes`
holds live vertices with children under their own ID, for rack and cluster IDs of
`done` only; `forest` holds the clusters of `done`; every instance of `done` has a
leaf under its rack and its rack under its cluster; and racks and clusters have no
other children. -/
structure SlurmInv (done : List InstanceInfo) (st : SlurmState) : Prop where
  nodes_ok : ∀ (k : String) (p : Ptr), st.nodes.get? k = some p →
    ∃ v : Vertex, st.heap[p]? = some v ∧ v.ID = k ∧ v.Vertices ≠ []
  nodes_done : ∀ (k : String) (p : Ptr), st.nodes.get? k = some p →
    ∃ c ∈ done, c.rackID = k ∨ c.clusterID = k
  forest_sub : ∀ (k : String) (p : Ptr), st.forest.get? k = some p →
    st.nodes.get? k = some p ∧ ∃ c ∈ done, c.clusterID = k
  forest_all : ∀ c ∈ done, st.forest.get? c.clusterID = st.nodes.get? c.clusterID
  forest_nodup : st.forest.keys.Nodup
  leaf_ok : ∀ c ∈ done, ∃ (p2 : Ptr) (v2 : Vertex) (p3 : Ptr),
    st.nodes.get? c.rackID = some p2 ∧ st.heap[p2]? = some v2 ∧
    v2.Vertices.get? c.name = some p3 ∧ st.heap[p3]? = some ⟨c.name, c.name, [], []⟩
  rack_children : ∀ (k : String) (p : Ptr) (v : Vertex) (n : String) (q : Ptr),
    (∃ c ∈ done, c.rackID = k) → st.nodes.get? k = some p → st.heap[p]? = some v →
    v.Vertices.get? n = some q →
    (∃ c ∈ done, c.rackID = k ∧ c.name = n) ∧ st.heap[q]? = some ⟨n, n, [], []⟩
  cluster_ok : ∀ c ∈ done, ∃ (p1 : Ptr) (v1 : Vertex) (p2 : Ptr),
    st.nodes.get? c.clusterID = some p1 ∧ st.heap[p1]? = some v1 ∧
    v1.Vertices.get? c.rackID = some p2 ∧ st.nodes.get? c.rackID = some p2
  cluster_children : ∀ (k : String) (p : Ptr) (v : Vertex) (k2 : String) (q : Ptr),
    (∃ c ∈ done, c.clusterID = k) → st.nodes.get? k = some p → st.heap[p]? = some v →
    v.Vertices.get? k2 = some q → ∃ c ∈ done, c.clusterID = k ∧ c.rackID = k2

end gcp

/-! ## The range-folding codec: compress -/

/-- Modelled from the spec: a suffix, a run of decimal digits, parsed as a
non-negative integer. -/
def parseNat (cs : List Char) : Nat :=
  cs.foldl (fun n c => 10 * n + (c.toNat - 48)) 0

/-- Modelled from the spec: `decimal(value)`, the decimal digits of a value. -/
def decimal (n : Nat) : String := toString n

/-- Modelled from the spec: the scan of the ascending values of one group for
maximal runs of consecutive integers, each successive value exactly one greater
than the prior; `first` and `last` are the ends of the run being read. -/
def scanRuns : Nat → Nat → List Nat → List (Nat × Nat)
  | first, last, [] => [(first, last)]
  | first, last, v :: rest =>
    if v = last + 1 then scanRuns first v rest else (first, last) :: scanRuns v v rest

/-- The runs of a list of ascending values, each as (first, last). -/
def runs : List Nat → List (Nat × Nat)
  | [] => []
  | v :: rest => scanRuns v v rest

/-- Modelled from the spec: the token of a run: `prefix + decimal(value)` for a
run of length 1, `prefix + "[" + decimal(first) + "-" + decimal(last) + "]"` for a
longer one. -/
def renderRun (pfx : String) (r : Nat × Nat) : String :=
  if r.1 = r.2 then pfx ++ decimal r.1
  else pfx ++ "[" ++ decimal r.1 ++ "-" ++ decimal r.2 ++ "]"

/-- The names whose `split` suffix is empty: each is emitted unchanged. -/
def plainNames (names : List String) : List String :=
  names.filter (fun n => (split n).2 = "")

/-- The `split` prefixes of the names with a numeric suffix, each once. -/
def prefixes (names : List String) : List String :=
  ((names.filter (fun n => (split n).2 ≠ "")).map (fun n => (split n).1)).dedup

/-- The values of the group of a prefix: the parsed suffixes of the names with
that prefix. -/
def groupValues (pfx : String) (names : List String) : List Nat :=
  (names.filter (fun n => (split n).2 ≠ "" ∧ (split n).1 = pfx)).map
    (fun n => parseNat (split n).2.toList)

/-- The values of a group in ascending order. -/
def sortValues (vs : List Nat) : List Nat := vs.insertionSort (fun a b => a ≤ b)

/-- The tokens one group emits. -/
def groupTokens (pfx : String) (names : List String) : List String :=
  (runs (sortValues (groupValues pfx names))).map (renderRun pfx)

/-- The order the tokens are returned in: `a` may stand before `b` when `b` is
not less than `a` in the plain lexicographic order of strings. -/
def strNotAfter (a b : String) : Prop := strLess b a = false

instance strNotAfter.decidable : DecidableRel strNotAfter := fun a b =>
  inferInstanceAs (Decidable (strLess b a = false))

/-- The tokens in plain lexicographic string order. -/
def sortStrings (l : List String) : List String := l.insertionSort strNotAfter

/-- Modelled from the spec: `compress(names)`. The names are grouped by their
`split` prefix; within each group the suffixes are parsed, sorted ascending and
scanned for maximal runs of consecutive integers; a name with an empty suffix is
emitted unchanged; all tokens are returned in plain lexicographic order. The
function is not among the sources: only `TestCompress` is. -/
def compress (names : List String) : List String :=
  sortStrings (plainNames names ++ (prefixes names).flatMap (fun p => groupTokens p names))

/-- The values `a, a+1, ..., b` are a maximal run of the set `S`: all of them are
in `S`, and neither the value before `a` nor the value after `b` is. -/
def MaxRunOf (S : Nat → Prop) (a b : Nat) : Prop :=
  a ≤ b ∧ (∀ v, a ≤ v → v ≤ b → S v) ∧ (∀ v, v + 1 = a → ¬ S v) ∧ ¬ S (b + 1)

/-- A maximal run of the values present in a list. -/
def MaxRun (vs : List Nat) (a b : Nat) : Prop := MaxRunOf (fun v => v ∈ vs) a b

/-- A token read as a range: for the characters of `p[a-b]`, with `a` and `b`
non-empty runs of decimal digits, the characters of `p` and the two values. -/
def parseRange (cs : List Char) : Option (List Char × Nat × Nat) :=
  match cs.reverse with
  | [] => none
  | c :: r1 =>
    if c ≠ ']' then none
    else
      match r1.dropWhile Char.isDigit with
      | [] => none
      | d :: r2 =>
        if d ≠ '-' then none
        else
          match r2.dropWhile Char.isDigit with
          | [] => none
          | e :: r3 =>
            if e ≠ '[' ∨ r1.takeWhile Char.isDigit = [] ∨ r2.takeWhile Char.isDigit = [] then none
            else some (r3.reverse, parseNat (r2.takeWhile Char.isDigit).reverse,
              parseNat (r1.takeWhile Char.isDigit).reverse)

/-- The names a token stands for: a token `p[a-b]` stands for p++decimal(a), ...,
p++decimal(b), any other token for itself. -/
def expandToken (t : String) : List String :=
  match parseRange t.toList with
  | some (p, a, b) => (List.range (b + 1 - a)).map (fun i => String.mk p ++ decimal (a + i))
  | none => [t]

/-! ## The serializer: Write, tree section -/

/-- Modelled from the spec: the root handed to `Write`, a `Vertex` whose forests
are well formed, as a tree value with every child in the place of the pointer to
it. `Write` and its helpers are not among the sources: only their tests are. -/
inductive VTree where
  | node (ID Name : String) (Vertices : List (String × VTree)) (Metadata : GoMap String)
  deriving Repr

/-- The field `ID`. -/
def VTree.ID : VTree → String
  | .node id _ _ _ => id

/-- The field `Name`. -/
def VTree.Name : VTree → String
  | .node _ name _ _ => name

/-- The field `Vertices`. -/
def VTree.Vertices : VTree → GoMap VTree
  | .node _ _ vs _ => vs

/-- The field `Metadata`. -/
def VTree.Metadata : VTree → GoMap String
  | .node _ _ _ md => md

/-- A leaf is a vertex with no children. -/
def VTree.isLeaf (t : VTree) : Bool := t.Vertices.isEmpty

/-- The name a switch is written with: its Name, or its ID when it has no Name, as
in `testTreeConfig` (SwitchName=S1) and in `shortNameExpectedResult`
(SwitchName=switch.3.1). -/
def VTree.label (t : VTree) : String := if t.Name = "" then t.ID else t.Name

mutual
/-- The number of levels of a tree. -/
def VTree.height : VTree → Nat
  | .node _ _ vs _ => heightList vs + 1
/-- The largest height among the children. -/
def heightList : List (String × VTree) → Nat
  | [] => 0
  | (_, t) :: rest => max t.height (heightList rest)
end

mutual
/-- The internal vertices strictly below a vertex. -/
def VTree.internalBelow : VTree → List VTree
  | .node _ _ vs _ => internalBelowList vs
/-- The internal vertices among the children and below them. -/
def internalBelowList : List (String × VTree) → List VTree
  | [] => []
  | (_, c) :: rest =>
    (if c.isLeaf then [] else c :: c.internalBelow) ++ internalBelowList rest
end

/-- The order child entries are visited in: by key. -/
def keyNotAfter (a b : String × VTree) : Prop := strNotAfter a.1 b.1

instance keyNotAfter.decidable : DecidableRel keyNotAfter := fun a b =>
  inferInstanceAs (Decidable (strLess b.1 a.1 = false))

/-- The children of a vertex in the order of their keys: a Go map has no order of
its own, and the expected outputs list siblings in this order. -/
def childrenInOrder (t : VTree) : List VTree :=
  (t.Vertices.insertionSort keyNotAfter).map Prod.snd

/-- The children that are switches. -/
def switchChildren (t : VTree) : List VTree :=
  (childrenInOrder t).filter (fun c => !c.isLeaf)

/-- Modelled from the spec: the line of an internal vertex: its name and the
comma-joined `compress` output over the names of its switch children, or over the
node names of its children when they are leaves. -/
def switchLine (t : VTree) : String :=
  if (switchChildren t).isEmpty then
    "SwitchName=" ++ t.label ++ " Nodes=" ++
      ",".intercalate (compress ((childrenInOrder t).map VTree.Name))
  else
    "SwitchName=" ++ t.label ++ " Switches=" ++
      ",".intercalate (compress ((switchChildren t).map VTree.label))

/-- The lines written for an internal vertex: the switch line, preceded for a
vertex with a Name by the comment line that `shortNameExpectedResult` shows. -/
def switchLines (t : VTree) : List String :=
  (if t.Name = "" then [] else ["# " ++ t.Name ++ "=" ++ t.ID]) ++ [switchLine t]

/-- The internal vertices level by level, the order of the lines in
`shortNameExpectedResult`: the vertices of `lvl`, then those of the levels below;
`fuel` bounds the number of levels. -/
def levels : Nat → List VTree → List VTree
  | 0, _ => []
  | fuel + 1, lvl =>
    match lvl with
    | [] => []
    | _ :: _ => lvl ++ levels fuel (lvl.flatMap switchChildren)

/-- The internal vertices below the tree forest root in the order of their lines. -/
def treeOrder (tr : VTree) : List VTree := levels tr.height (switchChildren tr)

/-- Modelled from the spec: the tree section, one line per internal vertex below
the tree forest root, each line ended by a newline. -/
def toTreeTopology (tr : VTree) : String :=
  String.join (((treeOrder tr).flatMap switchLines).map (fun l => l ++ "\n"))

/-- Modelled from the spec: the constant `KeyPlugin` is not among the sources; it
is the key of the requested view among the options of the root. -/
def KeyPlugin : String := "plugin"

/-- Modelled from the spec: `Write(wr, root)`, as the text written. A root that
requests the block view gets the block section alone, as the expected outputs of
the block tests show; this section is the parameter `blockText`, its rule for the
BlockSizes line being left open by the spec. Any other root gets the tree section
of its tree forest; `none` stands for a root that has no tree forest, of which the
spec says nothing. -/
def Write (blockText : VTree → String) (root : VTree) : Option String :=
  if root.Metadata.get? KeyPlugin = some TopologyBlock then some (blockText root)
  else
    match GoMap.get? root.Vertices TopologyTree with
    | some tr => some (toTreeTopology tr)
    | none => none

/-- Modelled from the spec: the constant `KeyBlockSizes` is not among the sources;
it is the key of the block sizes among the options of the root. -/
def KeyBlockSizes : String := "block_sizes"

/-- The tree forest of `TestToSlurmNameShortener`: five named switches over two
nodes. -/
def shortenerTree : VTree :=
  .node "" "" [
    ("hpcislandid-1", .node "hpcislandid-1" "switch.3.1" [
      ("network-block-1", .node "network-block-1" "switch.2.1" [
        ("local-block-1", .node "local-block-1" "switch.1.1" [
          ("node-1", .node "node-1-id" "node-1" [] [])] [])] []),
      ("network-block-2", .node "network-block-2" "switch.2.2" [
        ("local-block-2", .node "local-block-2" "switch.1.2" [
          ("node-2", .node "node-2-id" "node-2" [] [])] [])] [])] [])] []

/-- The root of `TestToSlurmNameShortener`. -/
def shortenerRoot : VTree := .node "" "" [(TopologyTree, shortenerTree)] []

/-- The text `shortNameExpectedResult` of the tests. -/
def shortNameExpectedResult : String :=
  "# switch.3.1=hpcislandid-1\n" ++
  "SwitchName=switch.3.1 Switches=switch.2.[1-2]\n" ++
  "# switch.2.1=network-block-1\n" ++
  "SwitchName=switch.2.1 Switches=switch.1.1\n" ++
  "# switch.2.2=network-block-2\n" ++
  "SwitchName=switch.2.2 Switches=switch.1.2\n" ++
  "# switch.1.1=local-block-1\n" ++
  "SwitchName=switch.1.1 Nodes=node-1\n" ++
  "# switch.1.2=local-block-2\n" ++
  "SwitchName=switch.1.2 Nodes=node-2\n"

/-- The tree forest of `getBlockWithIBTestSet`: S1 over S2 and S3, three nodes
under each. -/
def ibTree : VTree :=
  .node "" "" [
    ("S1", .node "S1" "" [
      ("S2", .node "S2" "" [
        ("I14", .node "I14" "Node104" [] []),
        ("I15", .node "I15" "Node105" [] []),
        ("I16", .node "I16" "Node106" [] [])] []),
      ("S3", .node "S3" "" [
        ("I21", .node "I21" "Node201" [] []),
        ("I22", .node "I22" "Node202" [] []),
        ("I25", .node "I25" "Node205" [] [])] [])] [])] []

/-- The root of `getBlockWithIBTestSet`: a block forest, the tree forest `ibTree`,
and the request for the block view. -/
def ibRoot : VTree :=
  .node "" "" [
    (TopologyBlock, .node "" "" [
      ("B1", .node "B1" "" [
        ("I14", .node "I14" "Node104" [] []),
        ("I15", .node "I15" "Node105" [] []),
        ("I16", .node "I16" "Node106" [] [])] []),
      ("B2", .node "B2" "" [
        ("I21", .node "I21" "Node201" [] []),
        ("I22", .node "I22" "Node202" [] []),
        ("I25", .node "I25" "Node205" [] [])] [])] []),
    (TopologyTree, ibTree)]
    [(KeyPlugin, TopologyBlock), (KeyBlockSizes, "3")]

namespace gcp

/-- Two instances of one rack reported under two clusters. -/
def sharedRack : InstanceTopology := ⟨[⟨"c1", "r1", "n1"⟩, ⟨"c2", "r1", "n2"⟩]⟩

end gcp

/-! ## GCP: the physical host of an instance -/

namespace gcp

/-- The Go library function `strings.Split(s, "/")` on the characters of `s`: the
pieces between the separators, one more than there are separators; the empty
string gives one empty piece. A `/` is one byte and part of no longer character, so
the pieces by characters are the pieces by bytes. -/
def splitChars : List Char → List (List Char)
  | [] => [[]]
  | c :: cs =>
    if c = '/' then [] :: splitChars cs
    else
      match splitChars cs with
      | t :: ts => (c :: t) :: ts
      | [] => [[c]]

/-- The call `strings.Split(s, "/")`. -/
def stringsSplit (s : String) : List String := (splitChars s.toList).map String.mk

/-- The part of `computepb.ResourceStatus` that is read: the optional field
`PhysicalHost`. -/
structure ResourceStatus where
  PhysicalHost : Option String
  deriving DecidableEq, Repr

/-- The part of `computepb.Instance` that is read: the optional fields `Name` and
`ResourceStatus`. -/
structure Instance where
  Name : Option String
  ResourceStatus : Option ResourceStatus
  deriving DecidableEq, Repr

/-- The body of the inner loop of `GenerateInstanceTopology` (lines 85-108) for one
listed instance, without the metrics: `ok none` is a pass that appends nothing,
`ok (some o)` a pass that appends `o` to `instanceTopology.instances`, and `error`
a run-time panic, of the dereference of a nil `Name` or of `tokens[1]`, `tokens[2]`
out of range. -/
def instanceStep (instanceToNodeMap : GoMap String) (inst : Instance) :
    Except String (Option InstanceInfo) :=
  match inst.Name with
  | none => .error "nil pointer dereference"
  | some name =>
    let isNodeInCluster := (instanceToNodeMap.get? name).isSome
    match inst.ResourceStatus with
    | none => .ok none
    | some rs =>
      match rs.PhysicalHost with
      | none => .ok none
      | some host =>
        if isNodeInCluster then
          let tokens := stringsSplit host
          match tokens[1]?, tokens[2]? with
          | some t1, some t2 => .ok (some ⟨t1, t2, name⟩)
          | _, _ => .error "index out of range"
        else .ok none

/-- The text after the first `/` of a string, empty when there is none. -/
def afterSlash (s : List Char) : List Char := (s.dropWhile (fun c => c != '/')).tail

/-- The text up to the first `/` of a string, or to its end. -/
def upToSlash (s : List Char) : List Char := s.takeWhile (fun c => c != '/')

/-- The text between the first and the second `/` of a physical host. -/
def clusterText (host : String) : String := String.mk (upToSlash (afterSlash host.toList))

/-- The text between the second `/` of a physical host and the third `/` or the
end of the string. -/
def rackText (host : String) : String :=
  String.mk (upToSlash (afterSlash (afterSlash host.toList)))

end gcp

/-! ## Proofs -/

theorem less_iff (a b : InstanceTopology) : less a b = true ↔ sortKey a < sortKey b := by
  unfold less sortKey
  simp only [Prod.Lex.lt_iff]
  split_ifs with h1 h2 h3 <;> simp_all [strLess]

theorem notAfter_iff (a b : InstanceTopology) : notAfter a b ↔ sortKey a ≤ sortKey b := by
  unfold notAfter
  rw [← not_lt, ← less_iff]
  simp

theorem notAfter_total (a b : InstanceTopology) : notAfter a b ∨ notAfter b a := by
  rw [notAfter_iff, notAfter_iff]
  exact le_total _ _

theorem notAfter_trans (a b c : InstanceTopology) (h1 : notAfter a b) (h2 : notAfter b c) :
    notAfter a c := by
  rw [notAfter_iff] at *
  exact le_trans h1 h2

theorem sortSlice_sorted (l : List InstanceTopology) : List.Sorted notAfter (sortSlice l) :=
  @List.sorted_insertionSort _ notAfter _ ⟨notAfter_total⟩ ⟨notAfter_trans⟩ l

theorem sortSlice_perm (l : List InstanceTopology) : (sortSlice l).Perm l :=
  List.perm_insertionSort notAfter l

theorem stripNames_nameStep (st : NormState) (r : InstanceTopology) :
    stripNames (nameStep st r).2 = stripNames r := by
  unfold nameStep nameDatacenter nameSpine nameBlock stripNames
  cases h1 : st.switches.get? r.BlockID <;> simp only [h1] <;>
    split <;> split <;> rfl

theorem sortKey_stripNames (r : InstanceTopology) : sortKey (stripNames r) = sortKey r := rfl

theorem map_stripNames_nameLoop (st : NormState) (l : List InstanceTopology) :
    (nameLoop st l).map stripNames = l.map stripNames := by
  induction l generalizing st with
  | nil => rfl
  | cons r rest ih =>
    simp only [nameLoop, List.map_cons, stripNames_nameStep, ih]

theorem map_sortKey_nameLoop (st : NormState) (l : List InstanceTopology) :
    (nameLoop st l).map sortKey = l.map sortKey := by
  have h := congrArg (List.map sortKey) (map_stripNames_nameLoop st l)
  simpa [List.map_map, Function.comp_def, sortKey_stripNames] using h

/-- C10. After `Normalize` the records are in non-decreasing lexicographic order of
the key (DatacenterID, SpineID, BlockID, InstanceID), DatacenterID first. -/
theorem Normalize_sorted (l : List InstanceTopology) :
    List.Pairwise (fun a b => sortKey a ≤ sortKey b) (Normalize l) := by
  have h : List.Pairwise (fun a b => sortKey a ≤ sortKey b) (sortSlice l) :=
    (sortSlice_sorted l).imp (fun {a b} hab => (notAfter_iff a b).1 hab)
  rw [← List.pairwise_map (f := sortKey) (R := fun x y => x ≤ y)] at h ⊢
  unfold Normalize
  rw [map_sortKey_nameLoop]
  exact h

/-! ### Go maps -/

theorem GoMap.get?_del {β : Type} (m : GoMap β) (k k' : String) :
    (m.del k).get? k' = if k = k' then none else m.get? k' := by
  induction m with
  | nil => simp [GoMap.del, GoMap.get?]
  | cons e rest ih =>
    obtain ⟨a, b⟩ := e
    by_cases h1 : a = k
    · subst h1
      by_cases h2 : a = k'
      · subst h2
        simpa [GoMap.del] using ih
      · simp [GoMap.del, GoMap.get?, ih, h2]
    · by_cases h2 : k = k'
      · subst h2
        simp [GoMap.del, GoMap.get?, ih, h1]
      · simp [GoMap.del, GoMap.get?, ih, h1, h2]

theorem GoMap.get?_put {β : Type} (m : GoMap β) (k k' : String) (v : β) :
    (m.put k v).get? k' = if k = k' then some v else m.get? k' := by
  by_cases h : k = k'
  · simp [GoMap.put, GoMap.get?, h]
  · simp [GoMap.put, GoMap.get?, h, GoMap.get?_del]

theorem GoMap.put_ne_nil {β : Type} (m : GoMap β) (k : String) (v : β) : m.put k v ≠ [] := by
  simp [GoMap.put]

theorem GoMap.get?_eq_none_iff {β : Type} (m : GoMap β) (k : String) :
    m.get? k = none ↔ k ∉ m.keys := by
  induction m with
  | nil => simp [GoMap.get?, GoMap.keys]
  | cons e rest ih =>
    obtain ⟨a, b⟩ := e
    by_cases h : a = k
    · simp [GoMap.get?, GoMap.keys, h]
    · have h' : ¬ k = a := fun e => h e.symm
      simp only [GoMap.keys] at ih
      simp [GoMap.get?, GoMap.keys, h, h', ih]

theorem GoMap.mem_keys_del {β : Type} (m : GoMap β) (k k' : String) :
    k' ∈ (m.del k).keys ↔ k' ≠ k ∧ k' ∈ m.keys := by
  have h1 := GoMap.get?_eq_none_iff (m.del k) k'
  have h2 := GoMap.get?_eq_none_iff m k'
  rw [GoMap.get?_del] at h1
  by_cases h : k = k'
  · subst h
    simp only [if_true, true_iff] at h1
    simp [h1]
  · simp only [if_neg h] at h1
    have h' : k' ≠ k := fun e => h e.symm
    constructor
    · intro hm
      exact ⟨h', by_contra fun hn => (h1.1 (h2.2 hn)) hm⟩
    · intro hm
      exact by_contra fun hn => (h2.1 (h1.2 hn)) hm.2

theorem GoMap.nodup_del {β : Type} (m : GoMap β) (k : String) (hm : m.keys.Nodup) :
    (m.del k).keys.Nodup := by
  induction m with
  | nil => simp [GoMap.del, GoMap.keys]
  | cons e rest ih =>
    obtain ⟨a, b⟩ := e
    simp only [GoMap.keys, List.map_cons, List.nodup_cons] at hm
    by_cases h : a = k
    · simp only [GoMap.del, h, if_true]
      exact ih hm.2
    · simp only [GoMap.del, h, if_false]
      show (a :: (GoMap.del rest k).keys).Nodup
      rw [List.nodup_cons]
      refine ⟨fun hmem => hm.1 ?_, ih hm.2⟩
      exact ((GoMap.mem_keys_del rest k a).1 hmem).2

theorem GoMap.nodup_put {β : Type} (m : GoMap β) (k : String) (v : β) (hm : m.keys.Nodup) :
    (m.put k v).keys.Nodup := by
  show (k :: (m.del k).keys).Nodup
  rw [List.nodup_cons]
  refine ⟨fun hmem => ?_, GoMap.nodup_del m k hm⟩
  exact ((GoMap.mem_keys_del m k k).1 hmem).1 rfl

/-! ### The heap -/

theorem Heap.getElem?_alloc_lt (h : Heap) (v : Vertex) (p : Ptr) (hp : p < h.length) :
    (h.alloc v).1[p]? = h[p]? := by
  simp [Heap.alloc, List.getElem?_append_left hp]

theorem Heap.getElem?_alloc_self (h : Heap) (v : Vertex) :
    (h.alloc v).1[(h.alloc v).2]? = some v := by
  simp [Heap.alloc]

theorem Heap.length_alloc (h : Heap) (v : Vertex) : (h.alloc v).1.length = h.length + 1 := by
  simp [Heap.alloc]

theorem Heap.length_setChild (h : Heap) (p : Ptr) (k : String) (q : Ptr) :
    (h.setChild p k q).length = h.length := by
  unfold Heap.setChild
  split <;> simp

theorem Heap.getElem?_setChild_ne (h : Heap) (p p' : Ptr) (k : String) (q : Ptr) (hne : p' ≠ p) :
    (h.setChild p k q)[p']? = h[p']? := by
  unfold Heap.setChild
  split
  · rw [List.getElem?_set_ne (fun e => hne e.symm)]
  · rfl

theorem Heap.getElem?_setChild_self (h : Heap) (p : Ptr) (k : String) (q : Ptr) (v : Vertex)
    (hv : h[p]? = some v) :
    (h.setChild p k q)[p]? = some { v with Vertices := v.Vertices.put k q } := by
  unfold Heap.setChild
  rw [hv]
  have hlt : p < h.length := (List.getElem?_eq_some.1 hv).1
  simp [List.getElem?_set, hlt]

theorem Heap.lt_length_of_getElem? (h : Heap) (p : Ptr) (v : Vertex) (hv : h[p]? = some v) :
    p < h.length := (List.getElem?_eq_some.1 hv).1

theorem Heap.frame_refl (n : Nat) (h : Heap) : Heap.Frame n h h :=
  ⟨le_refl _, fun _ _ => rfl⟩

theorem Heap.frame_trans {n : Nat} {h1 h2 h3 : Heap} (a : Heap.Frame n h1 h2)
    (b : Heap.Frame n h2 h3) : Heap.Frame n h1 h3 :=
  ⟨le_trans a.1 b.1, fun p hp => (b.2 p hp).trans (a.2 p hp)⟩

theorem Heap.frame_alloc (n : Nat) (h : Heap) (v : Vertex) (hn : n ≤ h.length) :
    Heap.Frame n h (h.alloc v).1 :=
  ⟨by rw [Heap.length_alloc]; exact Nat.le_succ _,
   fun p hp => Heap.getElem?_alloc_lt h v p (lt_of_lt_of_le hp hn)⟩

theorem Heap.frame_setChild (n : Nat) (h : Heap) (p : Ptr) (k : String) (q : Ptr) (hn : n ≤ p) :
    Heap.Frame n h (h.setChild p k q) :=
  ⟨by rw [Heap.length_setChild],
   fun p' hp' => Heap.getElem?_setChild_ne h p p' k q (Nat.ne_of_lt (lt_of_lt_of_le hp' hn))⟩

theorem frame_blockLeaves (n : Nat) (m : GoMap String) :
    ∀ (h : Heap) (sw : Ptr), n ≤ sw → n ≤ h.length → Heap.Frame n h (blockLeaves h sw m) := by
  induction m with
  | nil => intro h sw _ _; exact Heap.frame_refl n h
  | cons e rest ih =>
    intro h sw hsw hn
    obtain ⟨k, v⟩ := e
    simp only [blockLeaves]
    refine Heap.frame_trans (Heap.frame_alloc n h _ hn) (Heap.frame_trans
      (Heap.frame_setChild n _ sw k _ hsw) (ih _ sw hsw ?_))
    rw [Heap.length_setChild, Heap.length_alloc]
    exact Nat.le_succ_of_le hn

theorem frame_blockVertices (n : Nat) (m : DomainMap) :
    ∀ (h : Heap) (blockRoot : Ptr), n ≤ blockRoot → n ≤ h.length →
      Heap.Frame n h (blockVertices h blockRoot m) := by
  induction m with
  | nil => intro h b _ _; exact Heap.frame_refl n h
  | cons e rest ih =>
    intro h b hb hn
    obtain ⟨k, hosts⟩ := e
    simp only [blockVertices]
    have h1 := Heap.frame_alloc n h ⟨k, "", [], []⟩ hn
    have hn1 : n ≤ (h.alloc ⟨k, "", [], []⟩).1.length := le_trans hn h1.1
    have h2 := frame_blockLeaves n hosts (h.alloc ⟨k, "", [], []⟩).1 (h.alloc ⟨k, "", [], []⟩).2
      hn hn1
    have h3 := Heap.frame_setChild n
      (blockLeaves (h.alloc ⟨k, "", [], []⟩).1 (h.alloc ⟨k, "", [], []⟩).2 hosts) b k
      (h.alloc ⟨k, "", [], []⟩).2 hb
    have hn3 := le_trans hn1 (le_trans h2.1 h3.1)
    exact Heap.frame_trans h1 (Heap.frame_trans h2 (Heap.frame_trans h3 (ih _ b hb hn3)))

theorem frame_ToBlocks (n : Nat) (m : DomainMap) (h : Heap) (hn : n ≤ h.length) :
    Heap.Frame n h (m.ToBlocks h).1 := by
  unfold DomainMap.ToBlocks
  have h1 := Heap.frame_alloc n h ⟨"", "", [], []⟩ hn
  exact Heap.frame_trans h1 (frame_blockVertices n m _ _ hn (le_trans hn h1.1))

theorem frame_copyForest (n : Nat) (treeRoot : Ptr) (hn : n ≤ treeRoot) (m : GoMap Ptr) :
    ∀ (h : Heap), Heap.Frame n h (copyForest h treeRoot m) := by
  induction m with
  | nil => intro h; exact Heap.frame_refl n h
  | cons e rest ih =>
    intro h
    obtain ⟨k, v⟩ := e
    simp only [copyForest]
    exact Heap.frame_trans (Heap.frame_setChild n h treeRoot k v hn) (ih _)

theorem length_copyForest (treeRoot : Ptr) (m : GoMap Ptr) :
    ∀ (h : Heap), (copyForest h treeRoot m).length = h.length := by
  induction m with
  | nil => intro h; rfl
  | cons e rest ih =>
    intro h
    obtain ⟨k, v⟩ := e
    simp only [copyForest, ih, Heap.length_setChild]

theorem Heap.getElem?_alloc_setChild (h : Heap) (v : Vertex) (k : String) (q : Ptr) :
    ((h.alloc v).1.setChild (h.alloc v).2 k q)[(h.alloc v).2]? =
      some { v with Vertices := v.Vertices.put k q } :=
  Heap.getElem?_setChild_self _ _ _ _ _ (Heap.getElem?_alloc_self h v)

/-- The root cell of the returned graph: it exists, and its child map is the
`tree` entry, preceded by the `block` entry when the domain map is not empty. -/
theorem root_cell (c : ClusterTopology) (provider : String) (cis : List ComputeInstances)
    (normalize : Bool) :
    ∃ rp t, (ToThreeTierGraph c provider cis normalize).root = some rp ∧
      t = (buildForest c cis normalize).heap.length ∧ rp = t + 1 ∧
      (((buildForest c cis normalize).domainMap = [] ∧
        (ToThreeTierGraph c provider cis normalize).heap[rp]? =
          some ⟨"", "", [(TopologyTree, t)], []⟩) ∨
       ((buildForest c cis normalize).domainMap ≠ [] ∧
        (ToThreeTierGraph c provider cis normalize).heap[rp]? =
          some ⟨"", "", [(TopologyBlock, rp + 1), (TopologyTree, t)], []⟩)) := by
  refine ⟨_, _, rfl, rfl, ?_, ?_⟩
  · simp [Heap.alloc, length_copyForest]
  · generalize hst : buildForest c cis normalize = st
    unfold ToThreeTierGraph
    simp only [hst]
    generalize hh2 : copyForest (st.heap.alloc ⟨"", "", [], []⟩).1
      (st.heap.alloc ⟨"", "", [], []⟩).2 st.forest = h2
    have hcell := Heap.getElem?_alloc_setChild h2 ⟨"", "", [], []⟩ TopologyTree
      (st.heap.alloc ⟨"", "", [], []⟩).2
    by_cases hd : st.domainMap = []
    · left
      refine ⟨hd, ?_⟩
      simp only [hd, List.length_nil, ne_eq, not_true_eq_false, if_false]
      exact hcell
    · right
      refine ⟨hd, ?_⟩
      have hlen : st.domainMap.length ≠ 0 := fun e => hd (List.length_eq_zero.1 e)
      simp only [hlen, ne_eq, not_false_eq_true, if_true]
      generalize hh4 : (h2.alloc ⟨"", "", [], []⟩).1.setChild (h2.alloc ⟨"", "", [], []⟩).2
        TopologyTree (st.heap.alloc ⟨"", "", [], []⟩).2 = h4 at hcell ⊢
      have hl4 : h4.length = h2.length + 1 := by
        rw [← hh4, Heap.length_setChild, Heap.length_alloc]
      have hfr := frame_ToBlocks (h2.length + 1) st.domainMap h4 (le_of_eq hl4.symm)
      have hroot : (st.domainMap.ToBlocks h4).1[h2.length]? = h4[h2.length]? :=
        hfr.2 _ (Nat.lt_succ_self _)
      have hcell' : (st.domainMap.ToBlocks h4).1[(h2.alloc ⟨"", "", [], []⟩).2]? = _ :=
        hroot.trans hcell
      rw [Heap.getElem?_setChild_self _ _ _ _ _ hcell']
      have hb : (st.domainMap.ToBlocks h4).2 = h2.length + 1 := by
        simp [DomainMap.ToBlocks, Heap.alloc, hl4]
      rw [hb]
      rfl

/-! ### Normalize keeps the records and is stable under repetition -/

theorem map_stripNames_Normalize_perm (l : List InstanceTopology) :
    ((Normalize l).map stripNames).Perm (l.map stripNames) := by
  unfold Normalize
  rw [map_stripNames_nameLoop]
  exact (sortSlice_perm l).map stripNames

theorem nameStep_congr (st : NormState) (r r' : InstanceTopology)
    (h : stripNames r = stripNames r') : nameStep st r = nameStep st r' := by
  obtain ⟨i, a, an, b, bn, s, sn, d, dn⟩ := r
  obtain ⟨i', a', an', b', bn', s', sn', d', dn'⟩ := r'
  simp only [stripNames, InstanceTopology.mk.injEq] at h
  obtain ⟨rfl, rfl, rfl, rfl, -, rfl, -, rfl, -⟩ := h
  unfold nameStep
  simp only [nameBlock]
  cases st.switches.get? b <;> simp only [nameSpine] <;> split <;>
    simp only [nameDatacenter]

theorem nameStep_nameStep (st : NormState) (r : InstanceTopology) :
    nameStep st (nameStep st r).2 = nameStep st r :=
  nameStep_congr st _ _ (stripNames_nameStep st r)

theorem nameLoop_nameLoop (st : NormState) (l : List InstanceTopology) :
    nameLoop st (nameLoop st l) = nameLoop st l := by
  induction l generalizing st with
  | nil => rfl
  | cons r rest ih =>
    simp only [nameLoop, nameStep_nameStep, ih]

theorem sorted_nameLoop (st : NormState) (l : List InstanceTopology)
    (h : List.Sorted notAfter l) : List.Sorted notAfter (nameLoop st l) := by
  have h1 : List.Pairwise (fun a b => sortKey a ≤ sortKey b) l :=
    h.imp (fun {a b} hab => (notAfter_iff a b).1 hab)
  have h2 : List.Pairwise (fun a b => sortKey a ≤ sortKey b) (nameLoop st l) := by
    rw [← List.pairwise_map (f := sortKey) (R := fun x y => x ≤ y)] at h1 ⊢
    rw [map_sortKey_nameLoop]
    exact h1
  exact h2.imp (fun {a b} hab => (notAfter_iff a b).2 hab)

theorem Normalize_Normalize (l : List InstanceTopology) :
    Normalize (Normalize l) = Normalize l := by
  unfold Normalize
  have hs : sortSlice (nameLoop ⟨0, 0, 0, []⟩ (sortSlice l)) =
      nameLoop ⟨0, 0, 0, []⟩ (sortSlice l) :=
    List.Sorted.insertionSort_eq (sorted_nameLoop _ _ (sortSlice_sorted l))
  rw [hs, nameLoop_nameLoop]

theorem processed_processed (c : ClusterTopology) (normalize : Bool) :
    processed ⟨processed c normalize⟩ normalize = processed c normalize := by
  cases normalize
  · rfl
  · simp [processed, Normalize_Normalize]

theorem ToThreeTierGraph_again (c : ClusterTopology) (provider : String)
    (cis : List ComputeInstances) (normalize : Bool) :
    ToThreeTierGraph ⟨(ToThreeTierGraph c provider cis normalize).Instances⟩ provider
      (ToThreeTierGraph c provider cis normalize).cis normalize =
    ToThreeTierGraph c provider cis normalize := by
  have h1 : (ToThreeTierGraph c provider cis normalize).Instances = processed c normalize := rfl
  have h2 : (ToThreeTierGraph c provider cis normalize).cis = cis := rfl
  rw [h1, h2]
  unfold ToThreeTierGraph buildForest mainLoop
  rw [processed_processed]

theorem deepEqual_refl (h : Heap) (p : Ptr) : DeepEqual h p h p := by
  intro path
  cases hw : h.walk p path with
  | none => trivial
  | some q =>
    show match h[q]?, h[q]? with
      | some v, some w => SameVertex v w
      | none, none => True
      | _, _ => False
    cases hq : h[q]? with
    | none => trivial
    | some v => exact ⟨rfl, rfl, fun _ => rfl, fun _ => rfl⟩

/-! ### The accelerator domain map -/

theorem mem_processed_stripNames (c : ClusterTopology) (normalize : Bool) (r : InstanceTopology)
    (hr : r ∈ processed c normalize) : ∃ r' ∈ c.Instances, stripNames r' = stripNames r := by
  cases normalize
  · exact ⟨r, hr, rfl⟩
  · have h1 : stripNames r ∈ (Normalize c.Instances).map stripNames :=
      List.mem_map_of_mem _ hr
    have h2 := (map_stripNames_Normalize_perm c.Instances).mem_iff.1 h1
    obtain ⟨r', hr', he⟩ := List.mem_map.1 h2
    exact ⟨r', hr', he⟩

theorem buildStep_domainMap (st : BuildState) (r : InstanceTopology)
    (h : r.AcceleratorID = "") : (buildStep st r).domainMap = st.domainMap := by
  unfold buildStep
  cases st.i2n.get? r.InstanceID with
  | none => rfl
  | some n => simp [h]

theorem foldl_buildStep_domainMap (l : List InstanceTopology)
    (h : ∀ r ∈ l, r.AcceleratorID = "") :
    ∀ st : BuildState, (l.foldl buildStep st).domainMap = st.domainMap := by
  induction l with
  | nil => intro st; rfl
  | cons r rest ih =>
    intro st
    simp only [List.foldl_cons]
    rw [ih (fun x hx => h x (List.mem_cons_of_mem _ hx)),
      buildStep_domainMap st r (h r (List.mem_cons_self _ _))]

theorem addNoTopology_domainMap (st : BuildState) :
    (addNoTopology st).domainMap = st.domainMap := by
  unfold addNoTopology
  split <;> rfl

theorem buildForest_domainMap_nil (c : ClusterTopology) (cis : List ComputeInstances)
    (normalize : Bool) (h : ∀ r ∈ c.Instances, r.AcceleratorID = "") :
    (buildForest c cis normalize).domainMap = [] := by
  unfold buildForest mainLoop
  rw [addNoTopology_domainMap, foldl_buildStep_domainMap]
  · rfl
  · intro r hr
    obtain ⟨r', hr', he⟩ := mem_processed_stripNames c normalize r hr
    have h1 : (stripNames r').AcceleratorID = (stripNames r).AcceleratorID := by rw [he]
    exact h1.symm.trans (h r' hr')

/-- C5. When no record carries a non-empty AcceleratorID, the returned root has no
child under the `block` key. -/
theorem no_block_without_accelerator (c : ClusterTopology) (provider : String)
    (cis : List ComputeInstances) (normalize : Bool)
    (h : ∀ r ∈ c.Instances, r.AcceleratorID = "") :
    ∃ rp, (ToThreeTierGraph c provider cis normalize).root = some rp ∧
      (ToThreeTierGraph c provider cis normalize).heap.child rp TopologyBlock = none := by
  obtain ⟨rp, t, hroot, -, -, hcell⟩ := root_cell c provider cis normalize
  refine ⟨rp, hroot, ?_⟩
  rcases hcell with ⟨-, hc⟩ | ⟨hne, -⟩
  · unfold Heap.child
    rw [hc]
    show GoMap.get? [(TopologyTree, t)] TopologyBlock = none
    simp only [GoMap.get?]
    rw [if_neg (by decide)]
  · exact absurd (buildForest_domainMap_nil c cis normalize h) hne

/-- The witness for C5: one record without accelerator, its instance mapped. -/
theorem no_block_without_accelerator_witness :
    (∀ r ∈ (ClusterTopology.mk [⟨"i1", "", "", "b1", "", "s1", "", "d1", ""⟩]).Instances,
      r.AcceleratorID = "") ∧
    ∃ rp, (ToThreeTierGraph ⟨[⟨"i1", "", "", "b1", "", "s1", "", "d1", ""⟩]⟩ "gcp"
        [⟨[("i1", "node1")]⟩] true).root = some rp ∧
      (ToThreeTierGraph ⟨[⟨"i1", "", "", "b1", "", "s1", "", "d1", ""⟩]⟩ "gcp"
        [⟨[("i1", "node1")]⟩] true).heap.child rp TopologyBlock = none :=
  ⟨by decide, no_block_without_accelerator _ _ _ _ (by decide)⟩

/-- C7. On a record list that satisfies the tier-prefix invariant, with any
instance to node map, `ToThreeTierGraph` returns a nil error and a non-nil root
that points to a vertex of the graph. -/
theorem ToThreeTierGraph_wellformed_ok (c : ClusterTopology) (provider : String)
    (cis : List ComputeInstances) (normalize : Bool)
    (_h : ∀ r ∈ c.Instances, TierPrefix r) :
    (ToThreeTierGraph c provider cis normalize).err = none ∧
    ∃ rp v, (ToThreeTierGraph c provider cis normalize).root = some rp ∧
      (ToThreeTierGraph c provider cis normalize).heap[rp]? = some v := by
  refine ⟨rfl, ?_⟩
  obtain ⟨rp, t, hroot, -, -, hcell⟩ := root_cell c provider cis normalize
  rcases hcell with ⟨-, hc⟩ | ⟨-, hc⟩
  · exact ⟨rp, _, hroot, hc⟩
  · exact ⟨rp, _, hroot, hc⟩

/-- The witness for C7: a record with no accelerator, a record with no tier, and a
map entry with no record. -/
theorem ToThreeTierGraph_wellformed_ok_witness :
    (∀ r ∈ (ClusterTopology.mk [⟨"i1", "", "", "b1", "", "s1", "", "d1", ""⟩,
        ⟨"i2", "nv1", "", "", "", "", "", "", ""⟩]).Instances, TierPrefix r) ∧
    ((ToThreeTierGraph ⟨[⟨"i1", "", "", "b1", "", "s1", "", "d1", ""⟩,
        ⟨"i2", "nv1", "", "", "", "", "", "", ""⟩]⟩ "gcp"
        [⟨[("i1", "node1"), ("i2", "node2"), ("i3", "node3")]⟩] false).err = none ∧
     ∃ rp v, (ToThreeTierGraph ⟨[⟨"i1", "", "", "b1", "", "s1", "", "d1", ""⟩,
        ⟨"i2", "nv1", "", "", "", "", "", "", ""⟩]⟩ "gcp"
        [⟨[("i1", "node1"), ("i2", "node2"), ("i3", "node3")]⟩] false).root = some rp ∧
      (ToThreeTierGraph ⟨[⟨"i1", "", "", "b1", "", "s1", "", "d1", ""⟩,
        ⟨"i2", "nv1", "", "", "", "", "", "", ""⟩]⟩ "gcp"
        [⟨[("i1", "node1"), ("i2", "node2"), ("i3", "node3")]⟩] false).heap[rp]? = some v) :=
  ⟨by decide, ToThreeTierGraph_wellformed_ok _ _ _ _ (by decide)⟩

/-- C6, counterexample. A record with a SpineID and no BlockID violates the
tier-prefix invariant, and `ToThreeTierGraph` returns a root and a nil error. -/
theorem malformed_not_rejected :
    (∃ r ∈ (ClusterTopology.mk [⟨"i1", "", "", "", "", "s1", "", "", ""⟩]).Instances,
      ¬ TierPrefix r) ∧
    (ToThreeTierGraph ⟨[⟨"i1", "", "", "", "", "s1", "", "", ""⟩]⟩ "gcp"
      [⟨[("i1", "node1")]⟩] false).err = none ∧
    (ToThreeTierGraph ⟨[⟨"i1", "", "", "", "", "s1", "", "", ""⟩]⟩ "gcp"
      [⟨[("i1", "node1")]⟩] false).root = some 2 := by
  decide

/-- C6, amended. Also on an input with a record that violates the tier-prefix
invariant `ToThreeTierGraph` returns a nil error and a non-nil root that points to
a vertex of the graph: the builder has no validation and never returns an error. -/
theorem malformed_accepted (c : ClusterTopology) (provider : String)
    (cis : List ComputeInstances) (normalize : Bool)
    (_h : ∃ r ∈ c.Instances, ¬ TierPrefix r) :
    (ToThreeTierGraph c provider cis normalize).err = none ∧
    ∃ rp v, (ToThreeTierGraph c provider cis normalize).root = some rp ∧
      (ToThreeTierGraph c provider cis normalize).heap[rp]? = some v := by
  refine ⟨rfl, ?_⟩
  obtain ⟨rp, t, hroot, -, -, hcell⟩ := root_cell c provider cis normalize
  rcases hcell with ⟨-, hc⟩ | ⟨-, hc⟩
  · exact ⟨rp, _, hroot, hc⟩
  · exact ⟨rp, _, hroot, hc⟩

/-- The witness for the amended C6: a DatacenterID over an empty SpineID. -/
theorem malformed_accepted_witness :
    (∃ r ∈ (ClusterTopology.mk [⟨"i1", "", "", "b1", "", "", "", "d1", ""⟩]).Instances,
      ¬ TierPrefix r) ∧
    ((ToThreeTierGraph ⟨[⟨"i1", "", "", "b1", "", "", "", "d1", ""⟩]⟩ "gcp"
        [⟨[("i1", "node1")]⟩] true).err = none ∧
     ∃ rp v, (ToThreeTierGraph ⟨[⟨"i1", "", "", "b1", "", "", "", "d1", ""⟩]⟩ "gcp"
        [⟨[("i1", "node1")]⟩] true).root = some rp ∧
      (ToThreeTierGraph ⟨[⟨"i1", "", "", "b1", "", "", "", "d1", ""⟩]⟩ "gcp"
        [⟨[("i1", "node1")]⟩] true).heap[rp]? = some v) :=
  ⟨by decide, malformed_accepted _ _ _ _ (by decide)⟩

/-- C8, counterexample. With normalize set, the call leaves the record list
sorted and with the three name fields rewritten: here two records change places
and get names. -/
theorem normalize_mutates_records :
    (ToThreeTierGraph ⟨[⟨"i2", "", "", "b2", "", "s1", "", "d1", ""⟩,
        ⟨"i1", "", "", "b1", "", "s1", "", "d1", ""⟩]⟩ "gcp"
      [⟨[("i1", "node1"), ("i2", "node2")]⟩] true).Instances =
      [⟨"i1", "", "", "b1", "switch.1.1", "s1", "switch.2.1", "d1", "switch.3.1"⟩,
       ⟨"i2", "", "", "b2", "switch.1.2", "s1", "", "d1", "switch.3.2"⟩] ∧
    (ToThreeTierGraph ⟨[⟨"i2", "", "", "b2", "", "s1", "", "d1", ""⟩,
        ⟨"i1", "", "", "b1", "", "s1", "", "d1", ""⟩]⟩ "gcp"
      [⟨[("i1", "node1"), ("i2", "node2")]⟩] true).Instances ≠
      [⟨"i2", "", "", "b2", "", "s1", "", "d1", ""⟩,
       ⟨"i1", "", "", "b1", "", "s1", "", "d1", ""⟩] := by
  decide

/-- C8, amended. The call never changes the ComputeInstances maps. It leaves the
record list as it was when normalize is false and as `Normalize` leaves it when
normalize is true; in both cases the list afterwards holds the records of the list
before, up to their order and their BlockName, SpineName and DatacenterName. -/
theorem ToThreeTierGraph_frame (c : ClusterTopology) (provider : String)
    (cis : List ComputeInstances) (normalize : Bool) :
    (ToThreeTierGraph c provider cis normalize).cis = cis ∧
    (ToThreeTierGraph c provider cis normalize).Instances =
      (if normalize then Normalize c.Instances else c.Instances) ∧
    (((ToThreeTierGraph c provider cis normalize).Instances).map stripNames).Perm
      (c.Instances.map stripNames) := by
  refine ⟨rfl, rfl, ?_⟩
  show ((processed c normalize).map stripNames).Perm (c.Instances.map stripNames)
  cases normalize
  · exact List.Perm.refl _
  · exact map_stripNames_Normalize_perm c.Instances

/-- C9. Calling `ToThreeTierGraph` a second time on the same objects, the record
list being as the first call left it, yields a graph deep-equal to the first. -/
theorem ToThreeTierGraph_idempotent (c : ClusterTopology) (provider : String)
    (cis : List ComputeInstances) (normalize : Bool) :
    ∃ p1 p2, (ToThreeTierGraph c provider cis normalize).root = some p1 ∧
      (ToThreeTierGraph ⟨(ToThreeTierGraph c provider cis normalize).Instances⟩ provider
        (ToThreeTierGraph c provider cis normalize).cis normalize).root = some p2 ∧
      DeepEqual (ToThreeTierGraph c provider cis normalize).heap p1
        (ToThreeTierGraph ⟨(ToThreeTierGraph c provider cis normalize).Instances⟩ provider
          (ToThreeTierGraph c provider cis normalize).cis normalize).heap p2 := by
  rw [ToThreeTierGraph_again]
  exact ⟨_, _, rfl, rfl, deepEqual_refl _ _⟩

/-! ### Vertices that have children keep them -/

theorem Heap.hasChildren_alloc (h : Heap) (v : Vertex) (p : Ptr) (hc : h.HasChildren p) :
    (h.alloc v).1.HasChildren p := by
  obtain ⟨w, hw, hne⟩ := hc
  exact ⟨w, (Heap.getElem?_alloc_lt h v p (Heap.lt_length_of_getElem? h p w hw)).trans hw, hne⟩

theorem Heap.hasChildren_setChild (h : Heap) (p' : Ptr) (k : String) (q : Ptr) (p : Ptr)
    (hc : h.HasChildren p) : (h.setChild p' k q).HasChildren p := by
  obtain ⟨w, hw, hne⟩ := hc
  by_cases hp : p = p'
  · subst hp
    exact ⟨_, Heap.getElem?_setChild_self h p k q w hw, GoMap.put_ne_nil _ _ _⟩
  · exact ⟨w, (Heap.getElem?_setChild_ne h p' p k q hp).trans hw, hne⟩

theorem Heap.hasChildren_setChild_self (h : Heap) (p : Ptr) (k : String) (q : Ptr)
    (hp : p < h.length) : (h.setChild p k q).HasChildren p := by
  obtain ⟨v, hv⟩ : ∃ v, h[p]? = some v := ⟨h[p], List.getElem?_eq_getElem hp⟩
  exact ⟨_, Heap.getElem?_setChild_self h p k q v hv, GoMap.put_ne_nil _ _ _⟩

theorem hasChildren_blockLeaves (p : Ptr) (m : GoMap String) :
    ∀ (h : Heap) (sw : Ptr), h.HasChildren p → (blockLeaves h sw m).HasChildren p := by
  induction m with
  | nil => intro h sw hc; exact hc
  | cons e rest ih =>
    intro h sw hc
    obtain ⟨k, v⟩ := e
    simp only [blockLeaves]
    exact ih _ sw (Heap.hasChildren_setChild _ _ _ _ _ (Heap.hasChildren_alloc h _ p hc))

theorem length_le_blockLeaves (m : GoMap String) :
    ∀ (h : Heap) (sw : Ptr), h.length ≤ (blockLeaves h sw m).length :=
  fun h sw => (frame_blockLeaves 0 m h sw (Nat.zero_le _) (Nat.zero_le _)).1

theorem hasChildren_blockVertices (p : Ptr) (m : DomainMap) :
    ∀ (h : Heap) (blockRoot : Ptr), h.HasChildren p →
      (blockVertices h blockRoot m).HasChildren p := by
  induction m with
  | nil => intro h b hc; exact hc
  | cons e rest ih =>
    intro h b hc
    obtain ⟨k, hosts⟩ := e
    simp only [blockVertices]
    exact ih _ b (Heap.hasChildren_setChild _ _ _ _ _
      (hasChildren_blockLeaves p hosts _ _ (Heap.hasChildren_alloc h _ p hc)))

theorem hasChildren_blockVertices_root (m : DomainMap) (hm : m ≠ []) (h : Heap) (blockRoot : Ptr)
    (hb : blockRoot < h.length) : (blockVertices h blockRoot m).HasChildren blockRoot := by
  cases m with
  | nil => exact absurd rfl hm
  | cons e rest =>
    obtain ⟨k, hosts⟩ := e
    simp only [blockVertices]
    apply hasChildren_blockVertices
    apply Heap.hasChildren_setChild_self
    refine lt_of_lt_of_le ?_ (length_le_blockLeaves hosts _ _)
    rw [Heap.length_alloc]
    exact Nat.lt_succ_of_lt hb

theorem hasChildren_ToBlocks (m : DomainMap) (hm : m ≠ []) (h : Heap) :
    (m.ToBlocks h).1.HasChildren (m.ToBlocks h).2 := by
  unfold DomainMap.ToBlocks
  apply hasChildren_blockVertices_root m hm
  simp [Heap.alloc]

/-- The block forest root of the returned graph has children when the domain map
is not empty. -/
theorem block_root_hasChildren (c : ClusterTopology) (provider : String)
    (cis : List ComputeInstances) (normalize : Bool)
    (hd : (buildForest c cis normalize).domainMap ≠ []) :
    (ToThreeTierGraph c provider cis normalize).heap.HasChildren
      ((buildForest c cis normalize).heap.length + 1 + 1) := by
  generalize hst : buildForest c cis normalize = st at hd ⊢
  unfold ToThreeTierGraph
  simp only [hst]
  have hlen : st.domainMap.length ≠ 0 := fun e => hd (List.length_eq_zero.1 e)
  simp only [hlen, ne_eq, not_false_eq_true, if_true]
  apply Heap.hasChildren_setChild
  generalize hh4 : ((copyForest (st.heap.alloc ⟨"", "", [], []⟩).1
      (st.heap.alloc ⟨"", "", [], []⟩).2 st.forest).alloc ⟨"", "", [], []⟩).1.setChild
      ((copyForest (st.heap.alloc ⟨"", "", [], []⟩).1
      (st.heap.alloc ⟨"", "", [], []⟩).2 st.forest).alloc ⟨"", "", [], []⟩).2
      TopologyTree (st.heap.alloc ⟨"", "", [], []⟩).2 = h4
  have hl4 : h4.length = st.heap.length + 1 + 1 := by
    rw [← hh4, Heap.length_setChild, Heap.length_alloc, length_copyForest, Heap.length_alloc]
  have hb : (st.domainMap.ToBlocks h4).2 = st.heap.length + 1 + 1 := by
    simp [DomainMap.ToBlocks, Heap.alloc, hl4]
  rw [← hb]
  exact hasChildren_ToBlocks st.domainMap hd h4

/-- C4, counterexample. For an empty record list and an empty instance map the
root has a child under the `tree` key although the tree forest root has no child. -/
theorem empty_input_has_tree_child :
    (ToThreeTierGraph ⟨[]⟩ "gcp" [] false).root = some 1 ∧
    (ToThreeTierGraph ⟨[]⟩ "gcp" [] false).heap.child 1 TopologyTree = some 0 ∧
    (ToThreeTierGraph ⟨[]⟩ "gcp" [] false).heap[0]? = some ⟨"", "", [], []⟩ := by
  decide

/-- C4, amended. The returned root always has a child under the `tree` key, also
when the tree forest has no child; it has a child under the `block` key only when
the block forest has at least one child; and it has no child under any other key. -/
theorem root_children (c : ClusterTopology) (provider : String)
    (cis : List ComputeInstances) (normalize : Bool) :
    ∃ rp v t, (ToThreeTierGraph c provider cis normalize).root = some rp ∧
      (ToThreeTierGraph c provider cis normalize).heap[rp]? = some v ∧
      v.Vertices.get? TopologyTree = some t ∧
      (∀ k, v.Vertices.get? k ≠ none → k = TopologyTree ∨ k = TopologyBlock) ∧
      (∀ b, v.Vertices.get? TopologyBlock = some b →
        (ToThreeTierGraph c provider cis normalize).heap.HasChildren b) := by
  obtain ⟨rp, t, hroot, ht, hrp, hcell⟩ := root_cell c provider cis normalize
  rcases hcell with ⟨-, hc⟩ | ⟨hne, hc⟩
  · refine ⟨rp, _, t, hroot, hc, ?_, ?_, ?_⟩
    · simp [GoMap.get?]
    · intro k hk
      by_cases h1 : TopologyTree = k
      · exact Or.inl h1.symm
      · simp [GoMap.get?, h1] at hk
    · intro b hb
      simp only [GoMap.get?] at hb
      rw [if_neg (by decide)] at hb
      exact absurd hb (by simp)
  · refine ⟨rp, _, t, hroot, hc, ?_, ?_, ?_⟩
    · simp only [GoMap.get?]
      rw [if_neg (by decide)]
      simp
    · intro k hk
      by_cases h1 : TopologyTree = k
      · exact Or.inl h1.symm
      · by_cases h2 : TopologyBlock = k
        · exact Or.inr h2.symm
        · simp [GoMap.get?, h1, h2] at hk
    · intro b hb
      simp only [GoMap.get?, if_pos] at hb
      have hb' : rp + 1 = b := Option.some.inj hb
      rw [← hb', hrp, ht]
      exact block_root_hasChildren c provider cis normalize hne

/-! ### The loop body `linkSwitch` -/

theorem Heap.idOf_eq (h : Heap) (p : Ptr) (v : Vertex) (hv : h[p]? = some v) :
    h.idOf p = v.ID := by
  simp [Heap.idOf, hv]

theorem Heap.getElem?_length (h : Heap) : h[h.length]? = none :=
  List.getElem?_eq_none (le_refl _)

/-- What `linkSwitch` does to the heap and to `nodes`, in one description for the
switch found in `nodes` and for the switch allocated. -/
theorem linkSwitch_spec (h : Heap) (nodes : GoMap Ptr) (inst : Ptr) (swID swName : String)
    (vi : Vertex) (hi : h[inst]? = some vi)
    (hn : ∀ k p, nodes.get? k = some p → ∃ v, h[p]? = some v ∧ v.ID = k ∧ v.Vertices ≠ []) :
    ∃ nm md oc,
      (linkSwitch h nodes inst swID swName).1[(linkSwitch h nodes inst swID swName).2.2]? =
        some ⟨swID, nm, GoMap.put oc vi.ID inst, md⟩ ∧
      (∀ p, p ≠ (linkSwitch h nodes inst swID swName).2.2 →
        (linkSwitch h nodes inst swID swName).1[p]? = h[p]?) ∧
      (∀ v, h[(linkSwitch h nodes inst swID swName).2.2]? = some v → v = ⟨swID, nm, oc, md⟩) ∧
      (h[(linkSwitch h nodes inst swID swName).2.2]? = none → oc = []) ∧
      (∀ k, (linkSwitch h nodes inst swID swName).2.1.get? k =
        if swID = k then some (linkSwitch h nodes inst swID swName).2.2 else nodes.get? k) ∧
      (h[(linkSwitch h nodes inst swID swName).2.2]? = none → nodes.get? swID = none) ∧
      (∀ v, h[(linkSwitch h nodes inst swID swName).2.2]? = some v →
        nodes.get? swID = some (linkSwitch h nodes inst swID swName).2.2) := by
  unfold linkSwitch
  cases hg : nodes.get? swID with
  | some sw =>
    obtain ⟨v, hv, hid, -⟩ := hn swID sw hg
    obtain ⟨id, nm, oc, md⟩ := v
    simp only at hid
    subst hid
    refine ⟨nm, md, oc, ?_, ?_, ?_, ?_, ?_, ?_, ?_⟩
    · simp only [Heap.idOf_eq h inst vi hi]
      exact Heap.getElem?_setChild_self h sw _ _ _ hv
    · intro p hp
      exact Heap.getElem?_setChild_ne h sw p _ _ hp
    · intro v' hv'
      simp only at hv'
      rw [hv] at hv'
      exact (Option.some.inj hv').symm
    · intro hnone
      simp only at hnone
      rw [hv] at hnone
      exact absurd hnone (by simp)
    · intro k
      by_cases hk : id = k
      · subst hk; simp [hg]
      · simp [hk]
    · intro hnone
      simp only at hnone
      rw [hv] at hnone
      exact absurd hnone (by simp)
    · intro _ _
      rfl
  | none =>
    have hlt : inst < h.length := Heap.lt_length_of_getElem? h inst vi hi
    have hi' : (h.alloc ⟨swID, swName, [], []⟩).1[inst]? = some vi :=
      (Heap.getElem?_alloc_lt h _ inst hlt).trans hi
    refine ⟨swName, [], [], ?_, ?_, ?_, ?_, ?_, ?_, ?_⟩
    · simp only [Heap.idOf_eq _ inst vi hi']
      exact Heap.getElem?_alloc_setChild h _ _ _
    · intro p hp
      simp only at hp ⊢
      rw [Heap.getElem?_setChild_ne _ _ p _ _ hp]
      by_cases hpl : p < h.length
      · exact Heap.getElem?_alloc_lt h _ p hpl
      · have hgt : h.length < p := lt_of_le_of_ne (not_lt.1 hpl) (fun e => hp e.symm)
        rw [List.getElem?_eq_none (le_of_lt hgt), List.getElem?_eq_none]
        rw [Heap.length_alloc]
        exact hgt
    · intro v' hv'
      simp only [Heap.alloc] at hv'
      rw [Heap.getElem?_length] at hv'
      exact absurd hv' (by simp)
    · intro _
      rfl
    · intro k
      simp only
      rw [GoMap.get?_put]
    · intro _
      rfl
    · intro v' hv'
      simp only [Heap.alloc] at hv'
      rw [Heap.getElem?_length] at hv'
      exact absurd hv' (by simp)

theorem Heap.mono_refl (h : Heap) : Heap.Mono h h :=
  fun _ v hv => ⟨v, hv, rfl, rfl, fun x => x⟩

theorem Heap.mono_trans {h1 h2 h3 : Heap} (a : Heap.Mono h1 h2) (b : Heap.Mono h2 h3) :
    Heap.Mono h1 h3 := by
  intro p v hv
  obtain ⟨v2, hv2, hid2, hnm2, hne2⟩ := a p v hv
  obtain ⟨v3, hv3, hid3, hnm3, hne3⟩ := b p v2 hv2
  exact ⟨v3, hv3, hid3.trans hid2, hnm3.trans hnm2, fun x => hne3 (hne2 x)⟩

theorem Heap.mono_alloc (h : Heap) (v : Vertex) : Heap.Mono h (h.alloc v).1 :=
  fun p w hw => ⟨w, (Heap.getElem?_alloc_lt h v p (Heap.lt_length_of_getElem? h p w hw)).trans hw,
    rfl, rfl, fun x => x⟩

theorem linkSwitch_wf (M : GoMap String) (P : String → Prop) (h : Heap)
    (forest nodes : GoMap Ptr) (i2n : GoMap String) (inst : Ptr) (swID swName : String)
    (vi : Vertex) (hw : WF M P h forest nodes i2n) (hi : h[inst]? = some vi) (hP : P swID) :
    WF M P (linkSwitch h nodes inst swID swName).1 forest
      (linkSwitch h nodes inst swID swName).2.1 i2n ∧
    (∃ v, (linkSwitch h nodes inst swID swName).1[(linkSwitch h nodes inst swID swName).2.2]? =
      some v ∧ v.ID = swID) ∧
    Heap.Mono h (linkSwitch h nodes inst swID swName).1 := by
  obtain ⟨nm, md, oc, hsw, hother, hold, hnew, hnodes, -, -⟩ :=
    linkSwitch_spec h nodes inst swID swName vi hi hw.nodes_ok
  generalize linkSwitch h nodes inst swID swName = r at *
  obtain ⟨h', nodes', sw⟩ := r
  simp only at *
  have hmono : Heap.Mono h h' := by
    intro p v hv
    by_cases hp : p = sw
    · subst hp
      have := hold v hv
      subst this
      exact ⟨_, hsw, rfl, rfl, fun _ => GoMap.put_ne_nil _ _ _⟩
    · exact ⟨v, (hother p hp).trans hv, rfl, rfl, fun x => x⟩
  refine ⟨?_, ⟨_, hsw, rfl⟩, hmono⟩
  constructor
  · intro k p hk
    rw [hnodes] at hk
    by_cases hs : swID = k
    · rw [if_pos hs] at hk
      have := Option.some.inj hk
      subst this
      exact ⟨_, hsw, hs, GoMap.put_ne_nil _ _ _⟩
    · rw [if_neg hs] at hk
      obtain ⟨v, hv, hid, hne⟩ := hw.nodes_ok k p hk
      obtain ⟨v', hv', hid', -, hne'⟩ := hmono p v hv
      exact ⟨v', hv', hid'.trans hid, hne' hne⟩
  · intro k p hk
    obtain ⟨v, hv, hid⟩ := hw.forest_ok k p hk
    obtain ⟨v', hv', hid', -, -⟩ := hmono p v hv
    exact ⟨v', hv', hid'.trans hid⟩
  · intro p v k q hv hk
    have hold_link : ∀ (p0 : Ptr) (v0 : Vertex), h[p0]? = some v0 →
        v0.Vertices.get? k = some q → ∃ w : Vertex, h'[q]? = some w ∧ w.ID = k := by
      intro p0 v0 hv0 hk0
      obtain ⟨w, hw0, hid⟩ := hw.links_ok p0 v0 k q hv0 hk0
      obtain ⟨w', hw', hid', -, -⟩ := hmono q w hw0
      exact ⟨w', hw', hid'.trans hid⟩
    by_cases hp : p = sw
    · subst hp
      rw [hsw] at hv
      have := Option.some.inj hv
      subst this
      simp only [GoMap.get?_put] at hk
      by_cases hkk : vi.ID = k
      · rw [if_pos hkk] at hk
        have := Option.some.inj hk
        subst this
        obtain ⟨w', hw', hid', -, -⟩ := hmono inst vi hi
        exact ⟨w', hw', hid'.trans hkk⟩
      · rw [if_neg hkk] at hk
        cases hc : h[p]? with
        | none =>
          rw [hnew hc] at hk
          simp [GoMap.get?] at hk
        | some v0 =>
          have := hold v0 hc
          subst this
          exact hold_link p _ hc hk
    · rw [hother p hp] at hv
      exact hold_link p v hv hk
  · intro p v hv
    by_cases hp : p = sw
    · subst hp
      rw [hsw] at hv
      have := Option.some.inj hv
      subst this
      exact ⟨hP, Or.inl (GoMap.put_ne_nil _ _ _)⟩
    · rw [hother p hp] at hv
      exact hw.cells_ok p v hv
  · exact hw.forest_nodup
  · exact hw.i2n_nodup
  · exact hw.i2n_sub

theorem linkSwitches_wf (M : GoMap String) (P : String → Prop) (forest : GoMap Ptr)
    (i2n : GoMap String) (tiers : List (String × String)) :
    ∀ (h : Heap) (nodes : GoMap Ptr) (inst : Ptr) (vi : Vertex),
      WF M P h forest nodes i2n → h[inst]? = some vi →
      (∀ t ∈ tiers, t.1 ≠ "" → P t.1) →
      WF M P (linkSwitches h nodes inst tiers).1 forest (linkSwitches h nodes inst tiers).2.1 i2n ∧
      (∃ v, (linkSwitches h nodes inst tiers).1[(linkSwitches h nodes inst tiers).2.2]? = some v) ∧
      Heap.Mono h (linkSwitches h nodes inst tiers).1 := by
  induction tiers with
  | nil =>
    intro h nodes inst vi hw hi _
    exact ⟨hw, ⟨vi, hi⟩, Heap.mono_refl h⟩
  | cons t rest ih =>
    intro h nodes inst vi hw hi hP
    obtain ⟨swID, swName⟩ := t
    simp only [linkSwitches]
    by_cases hz : swID.length = 0
    · rw [if_pos hz]
      exact ⟨hw, ⟨vi, hi⟩, Heap.mono_refl h⟩
    · rw [if_neg hz]
      have hne : swID ≠ "" := fun e => hz (by rw [e]; rfl)
      obtain ⟨hw1, ⟨v1, hv1, -⟩, hm1⟩ := linkSwitch_wf M P h forest nodes i2n inst swID swName vi
        hw hi (hP (swID, swName) (List.mem_cons_self _ _) hne)
      obtain ⟨hw2, hv2, hm2⟩ := ih _ _ _ v1 hw1 hv1
        (fun t ht => hP t (List.mem_cons_of_mem _ ht))
      exact ⟨hw2, hv2, Heap.mono_trans hm1 hm2⟩

/-! ### The main loop keeps the structural invariant -/

theorem wf_alloc_leaf (M : GoMap String) (P : String → Prop) (h : Heap)
    (forest nodes : GoMap Ptr) (i2n : GoMap String) (id name : String)
    (hw : WF M P h forest nodes i2n) (hP : P id) (hg : i2n.get? id = some name) :
    WF M P (h.alloc ⟨id, name, [], []⟩).1 forest nodes (i2n.del id) := by
  have hmono := Heap.mono_alloc h ⟨id, name, [], []⟩
  have hcases : ∀ (p : Ptr) (v : Vertex), (h.alloc ⟨id, name, [], []⟩).1[p]? = some v →
      h[p]? = some v ∨ v = ⟨id, name, [], []⟩ := by
    intro p v hv
    by_cases hp : p < h.length
    · rw [Heap.getElem?_alloc_lt h _ p hp] at hv
      exact Or.inl hv
    · right
      have hlen := Heap.lt_length_of_getElem? _ p v hv
      rw [Heap.length_alloc] at hlen
      have hpe : p = h.length := le_antisymm (Nat.le_of_lt_succ hlen) (not_lt.1 hp)
      subst hpe
      have := Heap.getElem?_alloc_self h ⟨id, name, [], []⟩
      simp only [Heap.alloc] at this hv
      rw [this] at hv
      exact (Option.some.inj hv).symm
  constructor
  · intro k p hk
    obtain ⟨v, hv, hid, hne⟩ := hw.nodes_ok k p hk
    obtain ⟨v', hv', hid', -, hne'⟩ := hmono p v hv
    exact ⟨v', hv', hid'.trans hid, hne' hne⟩
  · intro k p hk
    obtain ⟨v, hv, hid⟩ := hw.forest_ok k p hk
    obtain ⟨v', hv', hid', -, -⟩ := hmono p v hv
    exact ⟨v', hv', hid'.trans hid⟩
  · intro p v k q hv hk
    rcases hcases p v hv with hv0 | hv0
    · obtain ⟨w, hw0, hid⟩ := hw.links_ok p v k q hv0 hk
      obtain ⟨w', hw', hid', -, -⟩ := hmono q w hw0
      exact ⟨w', hw', hid'.trans hid⟩
    · subst hv0
      simp [GoMap.get?] at hk
  · intro p v hv
    rcases hcases p v hv with hv0 | hv0
    · obtain ⟨hp, hc⟩ := hw.cells_ok p v hv0
      refine ⟨hp, ?_⟩
      rcases hc with hc | ⟨h1, h2, h3⟩
      · exact Or.inl hc
      · refine Or.inr ⟨h1, h2, ?_⟩
        rw [GoMap.get?_del]
        split
        · rfl
        · exact h3
    · subst hv0
      refine ⟨hP, Or.inr ⟨rfl, hw.i2n_sub id name hg, ?_⟩⟩
      rw [GoMap.get?_del]
      simp
  · exact hw.forest_nodup
  · exact GoMap.nodup_del i2n id hw.i2n_nodup
  · intro k n hk
    rw [GoMap.get?_del] at hk
    split at hk
    · exact absurd hk (by simp)
    · exact hw.i2n_sub k n hk

theorem buildStep_wf (M : GoMap String) (P : String → Prop) (st : BuildState)
    (r : InstanceTopology) (hw : WF M P st.heap st.forest st.nodes st.i2n)
    (hP : P r.InstanceID) (hT : ∀ t ∈ swPairs r, t.1 ≠ "" → P t.1) :
    WF M P (buildStep st r).heap (buildStep st r).forest (buildStep st r).nodes
      (buildStep st r).i2n ∧ Heap.Mono st.heap (buildStep st r).heap := by
  unfold buildStep
  cases hg : st.i2n.get? r.InstanceID with
  | none => exact ⟨hw, Heap.mono_refl _⟩
  | some name =>
    simp only
    have hw1 := wf_alloc_leaf M P st.heap st.forest st.nodes st.i2n r.InstanceID name hw hP hg
    have hi := Heap.getElem?_alloc_self st.heap ⟨r.InstanceID, name, [], []⟩
    obtain ⟨hw2, ⟨v, hv⟩, hm⟩ := linkSwitches_wf M P st.forest (st.i2n.del r.InstanceID)
      (swPairs r) _ st.nodes _ _ hw1 hi hT
    refine ⟨?_, Heap.mono_trans (Heap.mono_alloc _ _) hm⟩
    constructor
    · exact hw2.nodes_ok
    · intro k p hk
      rw [GoMap.get?_put] at hk
      split at hk
      · rename_i hkk
        have := Option.some.inj hk
        subst this
        refine ⟨v, hv, ?_⟩
        rw [← hkk, Heap.idOf_eq _ _ v hv]
      · exact hw2.forest_ok k p hk
    · exact hw2.links_ok
    · exact hw2.cells_ok
    · exact GoMap.nodup_put _ _ _ hw2.forest_nodup
    · exact hw2.i2n_nodup
    · exact hw2.i2n_sub

theorem foldl_buildStep_wf (M : GoMap String) (P : String → Prop) (l : List InstanceTopology)
    (hP : ∀ r ∈ l, P r.InstanceID ∧ ∀ t ∈ swPairs r, t.1 ≠ "" → P t.1) :
    ∀ st : BuildState, WF M P st.heap st.forest st.nodes st.i2n →
      WF M P (l.foldl buildStep st).heap (l.foldl buildStep st).forest
        (l.foldl buildStep st).nodes (l.foldl buildStep st).i2n ∧
      Heap.Mono st.heap (l.foldl buildStep st).heap := by
  induction l with
  | nil => intro st hw; exact ⟨hw, Heap.mono_refl _⟩
  | cons r rest ih =>
    intro st hw
    simp only [List.foldl_cons]
    obtain ⟨h1, h2⟩ := hP r (List.mem_cons_self _ _)
    obtain ⟨hw1, hm1⟩ := buildStep_wf M P st r hw h1 h2
    obtain ⟨hw2, hm2⟩ := ih (fun x hx => hP x (List.mem_cons_of_mem _ hx)) _ hw1
    exact ⟨hw2, Heap.mono_trans hm1 hm2⟩

theorem foldl_buildStep_i2n (l : List InstanceTopology) (k : String) :
    ∀ st : BuildState, (l.foldl buildStep st).i2n.get? k =
      if k ∈ l.map (fun r => r.InstanceID) then none else st.i2n.get? k := by
  induction l with
  | nil => intro st; simp
  | cons r rest ih =>
    intro st
    simp only [List.foldl_cons, List.map_cons, List.mem_cons]
    rw [ih]
    have hstep : (buildStep st r).i2n.get? k =
        if r.InstanceID = k then none else st.i2n.get? k := by
      unfold buildStep
      cases hg : st.i2n.get? r.InstanceID with
      | none =>
        simp only
        split
        · rename_i hk; rw [← hk, hg]
        · rfl
      | some name =>
        simp only
        rw [GoMap.get?_del]
    rw [hstep]
    by_cases h1 : k ∈ rest.map (fun r => r.InstanceID)
    · simp [h1]
    · by_cases h2 : r.InstanceID = k
      · simp [h2]
      · have h2' : ¬ k = r.InstanceID := fun e => h2 e.symm
        simp [h1, h2, h2']

/-! ### The no-topology vertex and the tree forest root -/

theorem GoMap.get?_cons_ne_of_nodup {β : Type} (k0 : String) (v0 : β) (rest : GoMap β)
    (hnd : (GoMap.keys ((k0, v0) :: rest)).Nodup) (k : String) (v : β)
    (hk : GoMap.get? rest k = some v) : k0 ≠ k := by
  intro e
  subst e
  simp only [GoMap.keys, List.map_cons, List.nodup_cons] at hnd
  have hmem : k0 ∈ GoMap.keys rest := by
    by_contra hn
    rw [(GoMap.get?_eq_none_iff rest k0).2 hn] at hk
    exact absurd hk (by simp)
  exact hnd.1 hmem

theorem noTopologyLeaves_spec (m : GoMap String) :
    ∀ (h : Heap) (sw : Ptr) (v0 : Vertex), h[sw]? = some v0 → m.keys.Nodup →
      h.length ≤ (noTopologyLeaves h sw m).length ∧
      (∀ p, p < h.length → p ≠ sw → (noTopologyLeaves h sw m)[p]? = h[p]?) ∧
      (∀ (p : Ptr) (v : Vertex), h.length ≤ p → (noTopologyLeaves h sw m)[p]? = some v →
        ∃ k n, m.get? k = some n ∧ v = ⟨k, n, [], []⟩) ∧
      ∃ v' : Vertex, (noTopologyLeaves h sw m)[sw]? = some v' ∧ v'.ID = v0.ID ∧
        v'.Name = v0.Name ∧
        (∀ k, m.get? k = none → v'.Vertices.get? k = v0.Vertices.get? k) ∧
        (∀ k n, m.get? k = some n → ∃ q, v'.Vertices.get? k = some q ∧ h.length ≤ q ∧
          (noTopologyLeaves h sw m)[q]? = some ⟨k, n, [], []⟩) ∧
        (m ≠ [] → v'.Vertices ≠ []) ∧ (v0.Vertices ≠ [] → v'.Vertices ≠ []) := by
  induction m with
  | nil =>
    intro h sw v0 hv0 _
    refine ⟨le_refl _, fun _ _ _ => rfl, ?_, v0, hv0, rfl, rfl, fun _ _ => rfl, ?_,
      fun hne => absurd rfl hne, fun x => x⟩
    · intro p v hp hv
      have hlt : p < h.length := Heap.lt_length_of_getElem? h p v hv
      exact absurd hlt (not_lt.2 hp)
    · intro k n hk
      simp [GoMap.get?] at hk
  | cons e rest ih =>
    intro h sw v0 hv0 hnd
    obtain ⟨k0, n0⟩ := e
    have hswlt : sw < h.length := Heap.lt_length_of_getElem? h sw v0 hv0
    have hndr : (GoMap.keys rest).Nodup := by
      simp only [GoMap.keys, List.map_cons, List.nodup_cons] at hnd
      exact hnd.2
    simp only [noTopologyLeaves]
    generalize hh1 : (h.alloc ⟨k0, n0, [], []⟩).1.setChild sw k0 (h.alloc ⟨k0, n0, [], []⟩).2 = h1
    have hl1 : h1.length = h.length + 1 := by
      rw [← hh1, Heap.length_setChild, Heap.length_alloc]
    have hsw1 : h1[sw]? = some { v0 with Vertices := v0.Vertices.put k0 h.length } := by
      rw [← hh1]
      exact Heap.getElem?_setChild_self _ sw k0 _ v0
        ((Heap.getElem?_alloc_lt h _ sw hswlt).trans hv0)
    have hold1 : ∀ p, p < h.length → p ≠ sw → h1[p]? = h[p]? := by
      intro p hp hne
      rw [← hh1, Heap.getElem?_setChild_ne _ _ p _ _ hne]
      exact Heap.getElem?_alloc_lt h _ p hp
    have hleaf1 : h1[h.length]? = some ⟨k0, n0, [], []⟩ := by
      rw [← hh1, Heap.getElem?_setChild_ne _ _ _ _ _ (Nat.ne_of_gt hswlt)]
      exact Heap.getElem?_alloc_self h _
    obtain ⟨hlen, hframe, hnew, v', hv', hid, hnm, hnone, hsome, -, hne0⟩ :=
      ih h1 sw _ hsw1 hndr
    refine ⟨by omega, ?_, ?_, v', hv', hid, hnm, ?_, ?_, fun _ => ?_, fun _ => ?_⟩
    · intro p hp hne
      rw [hframe p (by omega) hne]
      exact hold1 p hp hne
    · intro p v hp hv
      by_cases hpe : p = h.length
      · subst hpe
        rw [hframe _ (by omega) (Nat.ne_of_gt hswlt), hleaf1] at hv
        refine ⟨k0, n0, by simp [GoMap.get?], (Option.some.inj hv).symm⟩
      · have hp1 : h1.length ≤ p := by
          rw [hl1]
          exact Nat.succ_le_of_lt (lt_of_le_of_ne hp (fun e => hpe e.symm))
        obtain ⟨k, n, hk, hv⟩ := hnew p v hp1 hv
        refine ⟨k, n, ?_, hv⟩
        have hkne := GoMap.get?_cons_ne_of_nodup k0 n0 rest hnd k n hk
        simp [GoMap.get?, hkne, hk]
    · intro k hk
      have hkne : k0 ≠ k := by
        intro e
        simp [GoMap.get?, e] at hk
      have hkr : GoMap.get? rest k = none := by
        simpa [GoMap.get?, hkne] using hk
      rw [hnone k hkr]
      simp [GoMap.get?_put, hkne]
    · intro k n hk
      by_cases hkk : k0 = k
      · subst hkk
        have hn : n0 = n := by simpa [GoMap.get?] using hk
        subst hn
        have hkr : GoMap.get? rest k0 = none := by
          cases hc : GoMap.get? rest k0 with
          | none => rfl
          | some x => exact absurd rfl (GoMap.get?_cons_ne_of_nodup k0 n0 rest hnd k0 x hc)
        refine ⟨h.length, ?_, le_refl _, ?_⟩
        · rw [hnone k0 hkr]
          simp [GoMap.get?_put]
        · rw [hframe _ (by omega) (Nat.ne_of_gt hswlt)]
          exact hleaf1
      · have hkr : GoMap.get? rest k = some n := by
          simpa [GoMap.get?, hkk] using hk
        obtain ⟨q, hq1, hq2, hq3⟩ := hsome k n hkr
        exact ⟨q, hq1, by omega, hq3⟩
    · exact hne0 (GoMap.put_ne_nil _ _ _)
    · exact hne0 (GoMap.put_ne_nil _ _ _)

theorem copyForest_spec (t : Ptr) (m : GoMap Ptr) :
    ∀ (h : Heap) (v0 : Vertex), h[t]? = some v0 → m.keys.Nodup →
      ∃ v' : Vertex, (copyForest h t m)[t]? = some v' ∧ v'.ID = v0.ID ∧ v'.Name = v0.Name ∧
        ∀ k, v'.Vertices.get? k =
          match m.get? k with
          | some p => some p
          | none => v0.Vertices.get? k := by
  induction m with
  | nil =>
    intro h v0 hv0 _
    exact ⟨v0, hv0, rfl, rfl, fun k => rfl⟩
  | cons e rest ih =>
    intro h v0 hv0 hnd
    obtain ⟨k0, p0⟩ := e
    have hndr : (GoMap.keys rest).Nodup := by
      simp only [GoMap.keys, List.map_cons, List.nodup_cons] at hnd
      exact hnd.2
    simp only [copyForest]
    obtain ⟨v', hv', hid, hnm, hget⟩ := ih (h.setChild t k0 p0) _
      (Heap.getElem?_setChild_self h t k0 p0 v0 hv0) hndr
    refine ⟨v', hv', hid, hnm, ?_⟩
    intro k
    rw [hget k]
    cases hc : GoMap.get? rest k with
    | some p =>
      have hkne := GoMap.get?_cons_ne_of_nodup k0 p0 rest hnd k p hc
      simp [GoMap.get?, hkne, hc]
    | none =>
      show (v0.Vertices.put k0 p0).get? k = _
      rw [GoMap.get?_put]
      by_cases hkk : k0 = k
      · simp [GoMap.get?, hkk]
      · simp [GoMap.get?, hkk, hc]

/-! ### The state after the main loop and the final heap -/

theorem foldl_put_nodup (l : GoMap String) :
    ∀ m : GoMap String, m.keys.Nodup →
      (l.foldl (fun (m : GoMap String) (e : String × String) => m.put e.1 e.2) m).keys.Nodup := by
  induction l with
  | nil => intro m hm; exact hm
  | cons e rest ih =>
    intro m hm
    simp only [List.foldl_cons]
    exact ih _ (GoMap.nodup_put m e.1 e.2 hm)

theorem mergeInstances_nodup (cis : List ComputeInstances) : (mergeInstances cis).keys.Nodup := by
  unfold mergeInstances
  have key : ∀ (l : List ComputeInstances) (m : GoMap String), m.keys.Nodup →
      (l.foldl (fun (i2n : GoMap String) (ci : ComputeInstances) =>
        ci.Instances.foldl (fun (m : GoMap String) (e : String × String) => m.put e.1 e.2) i2n)
        m).keys.Nodup := by
    intro l
    induction l with
    | nil => intro m hm; exact hm
    | cons ci rest ih =>
      intro m hm
      simp only [List.foldl_cons]
      exact ih _ (foldl_put_nodup ci.Instances m hm)
  exact key cis [] (by simp [GoMap.keys])

theorem wf_init (M : GoMap String) (P : String → Prop) (hM : M.keys.Nodup) :
    WF M P [] [] [] M := by
  constructor
  · intro k p hk; simp [GoMap.get?] at hk
  · intro k p hk; simp [GoMap.get?] at hk
  · intro p v k q hv; simp at hv
  · intro p v hv; simp at hv
  · simp [GoMap.keys]
  · exact hM
  · intro k n hk; exact hk

/-- The cells of the returned heap below the tree forest root are those of the
state after the no-topology block, and the tree forest root holds the forest. -/
theorem tree_root_spec (c : ClusterTopology) (provider : String) (cis : List ComputeInstances)
    (normalize : Bool) (hnd : (buildForest c cis normalize).forest.keys.Nodup) :
    (∀ p, p < (buildForest c cis normalize).heap.length →
      (ToThreeTierGraph c provider cis normalize).heap[p]? =
        (buildForest c cis normalize).heap[p]?) ∧
    ∃ vt : Vertex, (ToThreeTierGraph c provider cis normalize).heap[
        (buildForest c cis normalize).heap.length]? = some vt ∧ vt.ID = "" ∧ vt.Name = "" ∧
      ∀ k, vt.Vertices.get? k = (buildForest c cis normalize).forest.get? k := by
  generalize hst : buildForest c cis normalize = st at hnd ⊢
  have hfin : Heap.Frame (st.heap.length + 1)
      (copyForest (st.heap.alloc ⟨"", "", [], []⟩).1 (st.heap.alloc ⟨"", "", [], []⟩).2 st.forest)
      (ToThreeTierGraph c provider cis normalize).heap := by
    unfold ToThreeTierGraph
    simp only [hst]
    generalize hh2 : copyForest (st.heap.alloc ⟨"", "", [], []⟩).1
      (st.heap.alloc ⟨"", "", [], []⟩).2 st.forest = h2
    have hl2 : h2.length = st.heap.length + 1 := by
      rw [← hh2, length_copyForest, Heap.length_alloc]
    have h4 : Heap.Frame (st.heap.length + 1) h2
        ((h2.alloc ⟨"", "", [], []⟩).1.setChild (h2.alloc ⟨"", "", [], []⟩).2 TopologyTree
          (st.heap.alloc ⟨"", "", [], []⟩).2) :=
      Heap.frame_trans (Heap.frame_alloc _ h2 _ (le_of_eq hl2.symm))
        (Heap.frame_setChild _ _ _ _ _ (le_of_eq hl2.symm))
    split
    · refine Heap.frame_trans h4 (Heap.frame_trans (frame_ToBlocks _ _ _ (le_trans
        (le_of_eq hl2.symm) h4.1)) (Heap.frame_setChild _ _ _ _ _ (le_of_eq hl2.symm)))
    · exact h4
  have hcopy := frame_copyForest st.heap.length (st.heap.alloc ⟨"", "", [], []⟩).2 (le_refl _)
    st.forest (st.heap.alloc ⟨"", "", [], []⟩).1
  constructor
  · intro p hp
    rw [hfin.2 p (Nat.lt_succ_of_lt hp), hcopy.2 p hp]
    exact Heap.getElem?_alloc_lt _ _ p hp
  · obtain ⟨v', hv', hid, hnm, hget⟩ := copyForest_spec (st.heap.alloc ⟨"", "", [], []⟩).2
      st.forest (st.heap.alloc ⟨"", "", [], []⟩).1 _ (Heap.getElem?_alloc_self _ _) hnd
    refine ⟨v', ?_, hid, hnm, ?_⟩
    · rw [hfin.2 _ (Nat.lt_succ_self _)]
      exact hv'
    · intro k
      rw [hget k]
      cases st.forest.get? k <;> rfl

/-- The effect of the no-topology block on a state `st0` that satisfies the
structural invariant. -/
theorem addNoTopology_spec (M : GoMap String) (P : String → Prop) (st0 : BuildState)
    (hw : WF M P st0.heap st0.forest st0.nodes st0.i2n) :
    (st0.i2n = [] ∧ addNoTopology st0 = st0) ∨
    (st0.i2n ≠ [] ∧
      (addNoTopology st0).forest = st0.forest.put NoTopology st0.heap.length ∧
      st0.heap.length < (addNoTopology st0).heap.length ∧
      (∀ p, p < st0.heap.length → (addNoTopology st0).heap[p]? = st0.heap[p]?) ∧
      (∀ (p : Ptr) (v : Vertex), st0.heap.length < p → (addNoTopology st0).heap[p]? = some v →
        ∃ k n, st0.i2n.get? k = some n ∧ v = ⟨k, n, [], []⟩) ∧
      ∃ vsw : Vertex, (addNoTopology st0).heap[st0.heap.length]? = some vsw ∧
        vsw.ID = NoTopology ∧ vsw.Name = "" ∧ vsw.Vertices ≠ [] ∧
        (∀ k, st0.i2n.get? k = none → vsw.Vertices.get? k = none) ∧
        (∀ k n, st0.i2n.get? k = some n → ∃ q, vsw.Vertices.get? k = some q ∧
          st0.heap.length < q ∧ (addNoTopology st0).heap[q]? = some ⟨k, n, [], []⟩)) := by
  unfold addNoTopology
  by_cases hz : st0.i2n = []
  · left
    refine ⟨hz, ?_⟩
    simp [hz]
  · right
    have hlen : st0.i2n.length ≠ 0 := fun e => hz (List.length_eq_zero.1 e)
    simp only [hlen, ne_eq, not_false_eq_true, if_true]
    obtain ⟨hl, hframe, hnew, v', hv', hid, hnm, hnone, hsome, hne, -⟩ :=
      noTopologyLeaves_spec st0.i2n (st0.heap.alloc ⟨NoTopology, "", [], []⟩).1
        (st0.heap.alloc ⟨NoTopology, "", [], []⟩).2 _ (Heap.getElem?_alloc_self _ _) hw.i2n_nodup
    rw [Heap.length_alloc] at hl hframe hnew hsome
    refine ⟨hz, rfl, lt_of_lt_of_le (Nat.lt_succ_self _) hl, ?_, ?_, v', hv', hid, hnm, hne hz,
      ?_, ?_⟩
    · intro p hp
      have h1 := hframe p (Nat.lt_succ_of_lt hp) (Nat.ne_of_lt hp)
      simp only [Heap.alloc] at h1 ⊢
      rw [h1, List.getElem?_append_left hp]
    · intro p v hp hv
      exact hnew p v (Nat.succ_le_of_lt hp) hv
    · intro k hk
      rw [hnone k hk]
      rfl
    · intro k n hk
      obtain ⟨q, hq1, hq2, hq3⟩ := hsome k n hk
      exact ⟨q, hq1, Nat.lt_of_succ_le hq2, hq3⟩

theorem mem_c_stripNames (c : ClusterTopology) (normalize : Bool) (r : InstanceTopology)
    (hr : r ∈ c.Instances) : ∃ r' ∈ processed c normalize, stripNames r' = stripNames r := by
  cases normalize
  · exact ⟨r, hr, rfl⟩
  · have h1 : stripNames r ∈ c.Instances.map stripNames := List.mem_map_of_mem _ hr
    have h2 := (map_stripNames_Normalize_perm c.Instances).mem_iff.2 h1
    obtain ⟨r', hr', he⟩ := List.mem_map.1 h2
    exact ⟨r', hr', he⟩

theorem mem_processed_ids (c : ClusterTopology) (normalize : Bool) (k : String) :
    k ∈ (processed c normalize).map (fun r => r.InstanceID) ↔
      ∃ r ∈ c.Instances, r.InstanceID = k := by
  constructor
  · intro h
    obtain ⟨r, hr, he⟩ := List.mem_map.1 h
    obtain ⟨r', hr', hs⟩ := mem_processed_stripNames c normalize r hr
    refine ⟨r', hr', ?_⟩
    have : (stripNames r').InstanceID = (stripNames r).InstanceID := by rw [hs]
    exact this.trans he
  · rintro ⟨r, hr, he⟩
    obtain ⟨r', hr', hs⟩ := mem_c_stripNames c normalize r hr
    refine List.mem_map.2 ⟨r', hr', ?_⟩
    have : (stripNames r').InstanceID = (stripNames r).InstanceID := by rw [hs]
    exact this.trans he

theorem mainLoop_i2n (c : ClusterTopology) (cis : List ComputeInstances) (normalize : Bool)
    (k n : String) : (mainLoop c cis normalize).i2n.get? k = some n ↔ Unmapped c cis k n := by
  unfold mainLoop Unmapped
  rw [foldl_buildStep_i2n]
  by_cases h : k ∈ (processed c normalize).map (fun r => r.InstanceID)
  · rw [if_pos h]
    obtain ⟨r, hr, he⟩ := (mem_processed_ids c normalize k).1 h
    constructor
    · intro hx; exact absurd hx (by simp)
    · rintro ⟨-, hx⟩; exact absurd he (hx r hr)
  · rw [if_neg h]
    constructor
    · intro hx
      refine ⟨hx, fun r hr he => h ((mem_processed_ids c normalize k).2 ⟨r, hr, he⟩)⟩
    · rintro ⟨hx, -⟩; exact hx

theorem mainLoop_wf (c : ClusterTopology) (cis : List ComputeInstances) (normalize : Bool)
    (P : String → Prop)
    (hP : ∀ r ∈ c.Instances, P r.InstanceID ∧ (r.BlockID ≠ "" → P r.BlockID) ∧
      (r.SpineID ≠ "" → P r.SpineID) ∧ (r.DatacenterID ≠ "" → P r.DatacenterID)) :
    WF (mergeInstances cis) P (mainLoop c cis normalize).heap (mainLoop c cis normalize).forest
      (mainLoop c cis normalize).nodes (mainLoop c cis normalize).i2n := by
  unfold mainLoop
  refine (foldl_buildStep_wf (mergeInstances cis) P (processed c normalize) ?_ _
    (wf_init _ P (mergeInstances_nodup cis))).1
  intro r hr
  obtain ⟨r', hr', hs⟩ := mem_processed_stripNames c normalize r hr
  obtain ⟨h1, h2, h3, h4⟩ := hP r' hr'
  have e1 : r'.InstanceID = r.InstanceID := by
    have := congrArg (fun x : InstanceTopology => x.InstanceID) hs
    exact this
  have e2 : r'.BlockID = r.BlockID := by
    have := congrArg (fun x : InstanceTopology => x.BlockID) hs
    exact this
  have e3 : r'.SpineID = r.SpineID := by
    have := congrArg (fun x : InstanceTopology => x.SpineID) hs
    exact this
  have e4 : r'.DatacenterID = r.DatacenterID := by
    have := congrArg (fun x : InstanceTopology => x.DatacenterID) hs
    exact this
  rw [e1] at h1
  rw [e2] at h2
  rw [e3] at h3
  rw [e4] at h4
  refine ⟨h1, ?_⟩
  intro t ht hne
  simp only [swPairs, List.mem_cons, List.mem_singleton, List.not_mem_nil, or_false] at ht
  rcases ht with rfl | rfl | rfl
  · exact h2 hne
  · exact h3 hne
  · exact h4 hne

theorem GoMap.eq_nil_of_get? {β : Type} (m : GoMap β) (h : ∀ k, m.get? k = none) : m = [] := by
  cases m with
  | nil => rfl
  | cons e rest =>
    obtain ⟨k, v⟩ := e
    have := h k
    simp [GoMap.get?] at this

theorem Heap.walk_closed (H : Heap) (n : Nat)
    (hclosed : ∀ (p : Ptr) (v : Vertex) (k : String) (q : Ptr), p < n → H[p]? = some v →
      v.Vertices.get? k = some q → q < n) :
    ∀ (path : List String) (p q : Ptr), p < n → H.walk p path = some q → q < n := by
  intro path
  induction path with
  | nil =>
    intro p q hp hw
    simp only [Heap.walk] at hw
    exact (Option.some.inj hw) ▸ hp
  | cons k ks ih =>
    intro p q hp hw
    simp only [Heap.walk, Heap.child] at hw
    cases hv : H[p]? with
    | none => simp [hv] at hw
    | some v =>
      simp only [hv] at hw
      cases hc : v.Vertices.get? k with
      | none => simp [hc] at hw
      | some q1 =>
        simp only [hc] at hw
        exact ih q1 q (hclosed p v k q1 hp hv hc) hw

theorem Heap.walk_leaf (H : Heap) (p : Ptr) (v : Vertex) (hv : H[p]? = some v)
    (hl : v.Vertices = []) (path : List String) (q : Ptr) (hw : H.walk p path = some q) :
    path = [] ∧ q = p := by
  cases path with
  | nil =>
    simp only [Heap.walk] at hw
    exact ⟨rfl, (Option.some.inj hw).symm⟩
  | cons k ks =>
    simp [Heap.walk, Heap.child, hv, hl, GoMap.get?] at hw

/-- The shape of the returned graph in terms of the state after the main loop:
the root has the tree forest root `t` under the `tree` key, the vertices allocated
in the main loop are unchanged, the children of `t` are the forest, and when
entries are left in `i2n` the no-topology vertex is the child of `t` under the
reserved ID, with one leaf per entry left. -/
theorem final_graph (c : ClusterTopology) (provider : String) (cis : List ComputeInstances)
    (normalize : Bool) (P : String → Prop)
    (hw : WF (mergeInstances cis) P (mainLoop c cis normalize).heap
      (mainLoop c cis normalize).forest (mainLoop c cis normalize).nodes
      (mainLoop c cis normalize).i2n) :
    ∃ (rp t : Ptr) (vt : Vertex),
      (ToThreeTierGraph c provider cis normalize).root = some rp ∧
      (ToThreeTierGraph c provider cis normalize).heap.child rp TopologyTree = some t ∧
      (ToThreeTierGraph c provider cis normalize).heap[t]? = some vt ∧ vt.ID = "" ∧
      (∀ p, p < (mainLoop c cis normalize).heap.length →
        (ToThreeTierGraph c provider cis normalize).heap[p]? =
          (mainLoop c cis normalize).heap[p]?) ∧
      (((mainLoop c cis normalize).i2n = [] ∧
        ∀ k, vt.Vertices.get? k = (mainLoop c cis normalize).forest.get? k) ∨
       ((mainLoop c cis normalize).i2n ≠ [] ∧
        (∀ k, vt.Vertices.get? k =
          if NoTopology = k then some (mainLoop c cis normalize).heap.length
          else (mainLoop c cis normalize).forest.get? k) ∧
        ∃ vsw : Vertex, (ToThreeTierGraph c provider cis normalize).heap[
            (mainLoop c cis normalize).heap.length]? = some vsw ∧
          vsw.ID = NoTopology ∧ vsw.Name = "" ∧ vsw.Vertices ≠ [] ∧
          (∀ k, (mainLoop c cis normalize).i2n.get? k = none → vsw.Vertices.get? k = none) ∧
          (∀ k n, (mainLoop c cis normalize).i2n.get? k = some n →
            ∃ q, vsw.Vertices.get? k = some q ∧ (mainLoop c cis normalize).heap.length < q ∧
              (ToThreeTierGraph c provider cis normalize).heap[q]? = some ⟨k, n, [], []⟩))) := by
  obtain ⟨rp, t, hroot, ht, hrp, hcell⟩ := root_cell c provider cis normalize
  have hchild : (ToThreeTierGraph c provider cis normalize).heap.child rp TopologyTree =
      some t := by
    unfold Heap.child
    rcases hcell with ⟨-, hc⟩ | ⟨-, hc⟩
    · rw [hc]
      simp [GoMap.get?]
    · rw [hc]
      simp only [GoMap.get?]
      rw [if_neg (by decide)]
      simp
  have hbf : buildForest c cis normalize = addNoTopology (mainLoop c cis normalize) := rfl
  generalize hst0 : mainLoop c cis normalize = st0 at hw hbf ⊢
  rcases addNoTopology_spec (mergeInstances cis) P st0 hw with ⟨hz, hsame⟩ | hnt
  · rw [hsame] at hbf
    have hnd : (buildForest c cis normalize).forest.keys.Nodup := by
      rw [hbf]; exact hw.forest_nodup
    obtain ⟨hlow, vt, hvt, hid, -, hget⟩ := tree_root_spec c provider cis normalize hnd
    rw [hbf] at hlow hvt hget ht
    refine ⟨rp, t, vt, hroot, hchild, ht ▸ hvt, hid, hlow, Or.inl ⟨hz, hget⟩⟩
  · obtain ⟨hz, hforest, hlt, hframe, -, vsw, hvsw, hsid, hsnm, hsne, hnone, hsome⟩ := hnt
    rw [← hbf] at hforest hlt hframe hvsw hsome
    have hnd : (buildForest c cis normalize).forest.keys.Nodup := by
      rw [hforest]; exact GoMap.nodup_put _ _ _ hw.forest_nodup
    obtain ⟨hlow, vt, hvt, hid, -, hget⟩ := tree_root_spec c provider cis normalize hnd
    refine ⟨rp, t, vt, hroot, hchild, ht ▸ hvt, hid, ?_, Or.inr ⟨hz, ?_, vsw, ?_, hsid, hsnm,
      hsne, hnone, ?_⟩⟩
    · intro p hp
      rw [hlow p (lt_trans hp hlt)]
      exact hframe p hp
    · intro k
      rw [hget k, hforest, GoMap.get?_put]
    · rw [hlow _ hlt]
      exact hvsw
    · intro k n hk
      obtain ⟨q, hq1, hq2, hq3⟩ := hsome k n hk
      refine ⟨q, hq1, hq2, ?_⟩
      rw [hlow q (Heap.lt_length_of_getElem? _ q _ hq3)]
      exact hq3

theorem mainLoop_wf_true (c : ClusterTopology) (cis : List ComputeInstances) (normalize : Bool) :
    WF (mergeInstances cis) (fun _ => True) (mainLoop c cis normalize).heap
      (mainLoop c cis normalize).forest (mainLoop c cis normalize).nodes
      (mainLoop c cis normalize).i2n :=
  mainLoop_wf c cis normalize (fun _ => True)
    (fun _ _ => ⟨trivial, fun _ => trivial, fun _ => trivial, fun _ => trivial⟩)

/-- C2, counterexample. The only instance is mapped and has a record, so no entry
of the map is left over, and its BlockID is the reserved ID: the tree forest root
has a child under the reserved no-topology ID, the block switch. -/
theorem no_topology_key_taken_by_switch :
    (∀ k n, ¬ Unmapped ⟨[⟨"i1", "", "", "no-topology", "", "", "", "", ""⟩]⟩
      [⟨[("i1", "node1")]⟩] k n) ∧
    (ToThreeTierGraph ⟨[⟨"i1", "", "", "no-topology", "", "", "", "", ""⟩]⟩ "gcp"
      [⟨[("i1", "node1")]⟩] false).root = some 3 ∧
    (ToThreeTierGraph ⟨[⟨"i1", "", "", "no-topology", "", "", "", "", ""⟩]⟩ "gcp"
      [⟨[("i1", "node1")]⟩] false).heap.child 3 TopologyTree = some 2 ∧
    (ToThreeTierGraph ⟨[⟨"i1", "", "", "no-topology", "", "", "", "", ""⟩]⟩ "gcp"
      [⟨[("i1", "node1")]⟩] false).heap.child 2 NoTopology = some 1 := by
  refine ⟨?_, by decide, by decide, by decide⟩
  rintro k n ⟨h1, h2⟩
  have hk : k = "i1" := by
    by_contra hne
    have : (mergeInstances [⟨[("i1", "node1")]⟩]).get? k = none := by
      have hne' : ¬ "i1" = k := fun e => hne e.symm
      simp [mergeInstances, GoMap.put, GoMap.del, GoMap.get?, hne']
    rw [this] at h1
    exact absurd h1 (by simp)
  exact h2 _ (List.mem_singleton.2 rfl) hk.symm

/-- C2, amended. With `t` the tree forest root of the returned graph: when some
entry of the merged map has an instance ID carried by no record, `t` has under the
reserved no-topology ID a vertex with that ID whose children are exactly those
entries, each a leaf with ID = instance ID and Name = node name; each such instance
is the leaf at the end of exactly one path from `t`, the one through the
no-topology vertex; and when there is no such entry and the reserved ID is not an
ID of any record, `t` has no child under the reserved ID. -/
theorem unmapped_instances (c : ClusterTopology) (provider : String)
    (cis : List ComputeInstances) (normalize : Bool) :
    ∃ rp t, (ToThreeTierGraph c provider cis normalize).root = some rp ∧
      (ToThreeTierGraph c provider cis normalize).heap.child rp TopologyTree = some t ∧
      ((∃ k n, Unmapped c cis k n) → ∃ (nt : Ptr) (vnt : Vertex),
        (ToThreeTierGraph c provider cis normalize).heap.child t NoTopology = some nt ∧
        (ToThreeTierGraph c provider cis normalize).heap[nt]? = some vnt ∧
        vnt.ID = NoTopology ∧
        (∀ k n, Unmapped c cis k n → ∃ leaf, vnt.Vertices.get? k = some leaf ∧
          (ToThreeTierGraph c provider cis normalize).heap[leaf]? = some ⟨k, n, [], []⟩) ∧
        (∀ k leaf, vnt.Vertices.get? k = some leaf → ∃ n, Unmapped c cis k n ∧
          (ToThreeTierGraph c provider cis normalize).heap[leaf]? = some ⟨k, n, [], []⟩)) ∧
      (∀ k n, Unmapped c cis k n → ∀ (path : List String) (q : Ptr) (v : Vertex),
        (ToThreeTierGraph c provider cis normalize).heap.walk t path = some q →
        (ToThreeTierGraph c provider cis normalize).heap[q]? = some v →
        v.ID = k → v.Vertices = [] → path = [NoTopology, k]) ∧
      ((∀ k n, ¬ Unmapped c cis k n) →
        (∀ r ∈ c.Instances, r.InstanceID ≠ NoTopology ∧ r.BlockID ≠ NoTopology ∧
          r.SpineID ≠ NoTopology ∧ r.DatacenterID ≠ NoTopology) →
        (ToThreeTierGraph c provider cis normalize).heap.child t NoTopology = none) := by
  have hw := mainLoop_wf_true c cis normalize
  obtain ⟨rp, t, vt, hroot, hchild, hvt, -, hlow, hcases⟩ :=
    final_graph c provider cis normalize _ hw
  refine ⟨rp, t, hroot, hchild, ?_, ?_, ?_⟩
  · rintro ⟨k0, n0, hun0⟩
    have hi0 := (mainLoop_i2n c cis normalize k0 n0).2 hun0
    rcases hcases with ⟨hz, -⟩ | ⟨-, hget, vsw, hvsw, hsid, -, -, hnone, hsome⟩
    · rw [hz] at hi0
      simp [GoMap.get?] at hi0
    · refine ⟨_, vsw, ?_, hvsw, hsid, ?_, ?_⟩
      · simp only [Heap.child, hvt, hget, if_true]
      · intro k n hun
        obtain ⟨q, hq1, -, hq3⟩ := hsome k n ((mainLoop_i2n c cis normalize k n).2 hun)
        exact ⟨q, hq1, hq3⟩
      · intro k leaf hk
        cases hc : (mainLoop c cis normalize).i2n.get? k with
        | none =>
          rw [hnone k hc] at hk
          exact absurd hk (by simp)
        | some n =>
          obtain ⟨q, hq1, -, hq3⟩ := hsome k n hc
          rw [hq1] at hk
          have := Option.some.inj hk
          subst this
          exact ⟨n, (mainLoop_i2n c cis normalize k n).1 hc, hq3⟩
  · intro k n hun path q v hwalk hv hid hleaf
    have hi := (mainLoop_i2n c cis normalize k n).2 hun
    have hclosed : ∀ (p : Ptr) (v : Vertex) (k : String) (q : Ptr),
        p < (mainLoop c cis normalize).heap.length →
        (ToThreeTierGraph c provider cis normalize).heap[p]? = some v →
        v.Vertices.get? k = some q → q < (mainLoop c cis normalize).heap.length := by
      intro p v k q hp hv hk
      rw [hlow p hp] at hv
      obtain ⟨w, hw0, -⟩ := hw.links_ok p v k q hv hk
      exact Heap.lt_length_of_getElem? _ q w hw0
    rcases hcases with ⟨hz, -⟩ | ⟨-, hget, vsw, hvsw, -, -, hsne, hnone, hsome⟩
    · rw [hz] at hi
      simp [GoMap.get?] at hi
    · cases path with
      | nil =>
        simp only [Heap.walk] at hwalk
        have := Option.some.inj hwalk
        subst this
        rw [hvt] at hv
        have := Option.some.inj hv
        subst this
        have h1 := hget NoTopology
        rw [hleaf] at h1
        simp [GoMap.get?] at h1
      | cons k1 rest =>
        simp only [Heap.walk, Heap.child, hvt, hget] at hwalk
        by_cases hk1 : NoTopology = k1
        · subst hk1
          simp only [if_true] at hwalk
          cases rest with
          | nil =>
            simp only [Heap.walk] at hwalk
            have := Option.some.inj hwalk
            subst this
            rw [hvsw] at hv
            have := Option.some.inj hv
            subst this
            exact absurd hleaf hsne
          | cons k2 rest2 =>
            simp only [Heap.walk, Heap.child, hvsw] at hwalk
            cases hc2 : (mainLoop c cis normalize).i2n.get? k2 with
            | none =>
              rw [hnone k2 hc2] at hwalk
              simp at hwalk
            | some n2 =>
              obtain ⟨q2, hq1, -, hq3⟩ := hsome k2 n2 hc2
              rw [hq1] at hwalk
              simp only at hwalk
              obtain ⟨hr, hq⟩ := Heap.walk_leaf _ q2 _ hq3 rfl rest2 q hwalk
              subst hr hq
              rw [hq3] at hv
              have := Option.some.inj hv
              subst this
              simp only at hid
              rw [hid]
        · rw [if_neg hk1] at hwalk
          cases hf : (mainLoop c cis normalize).forest.get? k1 with
          | none =>
            rw [hf] at hwalk
            simp at hwalk
          | some p1 =>
            rw [hf] at hwalk
            simp only at hwalk
            obtain ⟨w, hw1, -⟩ := hw.forest_ok k1 p1 hf
            have hq := Heap.walk_closed _ _ hclosed rest p1 q
              (Heap.lt_length_of_getElem? _ p1 w hw1) hwalk
            rw [hlow q hq] at hv
            rcases (hw.cells_ok q v hv).2 with hne | ⟨-, -, hnone'⟩
            · exact absurd hleaf hne
            · rw [hid, hi] at hnone'
              exact absurd hnone' (by simp)
  · intro hno hP
    have hw' := mainLoop_wf c cis normalize (fun k => k ≠ NoTopology)
      (fun r hr => ⟨(hP r hr).1, fun _ => (hP r hr).2.1, fun _ => (hP r hr).2.2.1,
        fun _ => (hP r hr).2.2.2⟩)
    rcases hcases with ⟨-, hget⟩ | ⟨hz, -⟩
    · simp only [Heap.child, hvt, hget]
      cases hf : (mainLoop c cis normalize).forest.get? NoTopology with
      | none => rfl
      | some p =>
        obtain ⟨w, hw1, hwid⟩ := hw'.forest_ok NoTopology p hf
        exact absurd hwid (hw'.cells_ok p w hw1).1
    · exfalso
      apply hz
      apply GoMap.eq_nil_of_get?
      intro k
      cases hc : (mainLoop c cis normalize).i2n.get? k with
      | none => rfl
      | some n => exact absurd ((mainLoop_i2n c cis normalize k n).1 hc) (hno k n)

/-! ### Links persist when switch IDs and instance IDs are apart -/

theorem Heap.ext_refl (h : Heap) : Heap.Ext h h :=
  fun _ v hv => ⟨v, hv, rfl, fun _ _ x => x⟩

theorem Heap.ext_trans {h1 h2 h3 : Heap} (a : Heap.Ext h1 h2) (b : Heap.Ext h2 h3) :
    Heap.Ext h1 h3 := by
  intro p v hv
  obtain ⟨v2, hv2, hid2, hl2⟩ := a p v hv
  obtain ⟨v3, hv3, hid3, hl3⟩ := b p v2 hv2
  exact ⟨v3, hv3, hid3.trans hid2, fun k q hk => hl3 k q (hl2 k q hk)⟩

theorem Heap.ext_alloc (h : Heap) (v : Vertex) : Heap.Ext h (h.alloc v).1 :=
  fun p w hw => ⟨w, (Heap.getElem?_alloc_lt h v p (Heap.lt_length_of_getElem? h p w hw)).trans hw,
    rfl, fun _ _ x => x⟩

theorem Heap.walkKeyed_ext {h h' : Heap} (he : Heap.Ext h h') :
    ∀ (path : List String) (p q : Ptr), h.walkKeyed p path = some q →
      h'.walkKeyed p path = some q := by
  intro path
  induction path with
  | nil => intro p q hw; exact hw
  | cons k ks ih =>
    intro p q hw
    simp only [Heap.walkKeyed, Heap.child] at hw ⊢
    cases hv : h[p]? with
    | none => simp [hv] at hw
    | some v =>
      simp only [hv] at hw
      cases hc : v.Vertices.get? k with
      | none => simp [hc] at hw
      | some q1 =>
        simp only [hc] at hw
        cases hv1 : h[q1]? with
        | none => simp [hv1] at hw
        | some w =>
          simp only [hv1] at hw
          by_cases hid : w.ID = k
          · rw [if_pos hid] at hw
            obtain ⟨v', hv', -, hl'⟩ := he p v hv
            obtain ⟨w', hw', hid', -⟩ := he q1 w hv1
            simp only [hv', hl' k q1 hc, hw', if_pos (hid'.trans hid)]
            exact ih q1 q hw
          · rw [if_neg hid] at hw
            exact absurd hw (by simp)

theorem linkSwitch_uniq (M : GoMap String) (P : String → Prop) (h : Heap)
    (forest nodes : GoMap Ptr) (i2n : GoMap String) (inst : Ptr) (swID swName : String)
    (vi : Vertex) (hw : WF M P h forest nodes i2n) (hu : Uniq M h nodes)
    (hi : h[inst]? = some vi) (hM : M.get? swID = none) :
    Uniq M (linkSwitch h nodes inst swID swName).1 (linkSwitch h nodes inst swID swName).2.1 ∧
    Heap.Ext h (linkSwitch h nodes inst swID swName).1 ∧
    ∃ v' : Vertex, (linkSwitch h nodes inst swID swName).1[
        (linkSwitch h nodes inst swID swName).2.2]? = some v' ∧ v'.ID = swID ∧
      v'.Vertices.get? vi.ID = some inst := by
  obtain ⟨nm, md, oc, hsw, hother, hold, hnew, hnodes, hn1, hn2⟩ :=
    linkSwitch_spec h nodes inst swID swName vi hi hw.nodes_ok
  generalize linkSwitch h nodes inst swID swName = r at *
  obtain ⟨h', nodes', sw⟩ := r
  simp only at *
  have hfresh : ∀ (q : Ptr) (w : Vertex), h[q]? = some w → w.ID = swID → q = sw := by
    intro q w hq hid
    cases hc : h[sw]? with
    | some v =>
      have := hold v hc
      subst this
      exact hu.inj q sw w _ hq hc hid
    | none =>
      exfalso
      have hnone := hn1 hc
      rcases (hw.cells_ok q w hq).2 with hne | ⟨-, hm, -⟩
      · have := hu.nonleaf_reg q w hq hne
        rw [hid, hnone] at this
        exact absurd this (by simp)
      · rw [hid, hM] at hm
        exact absurd hm (by simp)
  refine ⟨?_, ?_, ⟨_, hsw, rfl, by simp [GoMap.get?_put]⟩⟩
  · constructor
    · intro p q v w hp hq hid
      by_cases hps : p = sw
      · by_cases hqs : q = sw
        · rw [hps, hqs]
        · subst hps
          rw [hsw] at hp
          have := Option.some.inj hp
          subst this
          rw [hother q hqs] at hq
          exact (hfresh q w hq hid.symm).symm
      · by_cases hqs : q = sw
        · subst hqs
          rw [hsw] at hq
          have := Option.some.inj hq
          subst this
          rw [hother p hps] at hp
          exact hfresh p v hp hid
        · rw [hother p hps] at hp
          rw [hother q hqs] at hq
          exact hu.inj p q v w hp hq hid
    · intro k p hk
      rw [hnodes] at hk
      by_cases hs : swID = k
      · rw [← hs]; exact hM
      · rw [if_neg hs] at hk
        exact hu.nodes_fresh k p hk
    · intro p v hp hne
      rw [hnodes]
      by_cases hps : p = sw
      · subst hps
        rw [hsw] at hp
        have := Option.some.inj hp
        subst this
        simp
      · rw [hother p hps] at hp
        have hreg := hu.nonleaf_reg p v hp hne
        by_cases hs : swID = v.ID
        · exact absurd (hfresh p v hp hs.symm) hps
        · rw [if_neg hs]
          exact hreg
  · intro p v hp
    by_cases hps : p = sw
    · subst hps
      have := hold v hp
      subst this
      refine ⟨_, hsw, rfl, ?_⟩
      intro k q hk
      simp only at hk
      rw [GoMap.get?_put]
      by_cases hkk : vi.ID = k
      · rw [if_pos hkk]
        obtain ⟨w, hw0, hwid⟩ := hw.links_ok p _ k q hp hk
        rw [hu.inj q inst w vi hw0 hi (hwid.trans hkk.symm)]
      · rw [if_neg hkk]
        exact hk
    · exact ⟨v, (hother p hps).trans hp, rfl, fun _ _ x => x⟩

theorem linkSwitches_uniq (M : GoMap String) (P : String → Prop) (forest : GoMap Ptr)
    (i2n : GoMap String) (leaf : Ptr) (tiers : List (String × String)) :
    ∀ (h : Heap) (nodes : GoMap Ptr) (inst : Ptr) (vi : Vertex) (down : List String),
      WF M P h forest nodes i2n → Uniq M h nodes → h[inst]? = some vi →
      h.walkKeyed inst down = some leaf →
      (∀ t ∈ tiers, t.1 ≠ "" → P t.1 ∧ M.get? t.1 = none) →
      Uniq M (linkSwitches h nodes inst tiers).1 (linkSwitches h nodes inst tiers).2.1 ∧
      Heap.Ext h (linkSwitches h nodes inst tiers).1 ∧
      ∃ vtop : Vertex,
        (linkSwitches h nodes inst tiers).1[(linkSwitches h nodes inst tiers).2.2]? = some vtop ∧
        vtop.ID = (pathAfter vi.ID down tiers).1 ∧
        (linkSwitches h nodes inst tiers).1.walkKeyed (linkSwitches h nodes inst tiers).2.2
          (pathAfter vi.ID down tiers).2 = some leaf := by
  induction tiers with
  | nil =>
    intro h nodes inst vi down _ hu hi hwalk _
    exact ⟨hu, Heap.ext_refl h, vi, hi, rfl, hwalk⟩
  | cons t rest ih =>
    intro h nodes inst vi down hw hu hi hwalk hT
    obtain ⟨swID, swName⟩ := t
    simp only [linkSwitches, pathAfter]
    by_cases hz : swID.length = 0
    · rw [if_pos hz, if_pos hz]
      exact ⟨hu, Heap.ext_refl h, vi, hi, rfl, hwalk⟩
    · rw [if_neg hz, if_neg hz]
      have hne : swID ≠ "" := fun e => hz (by rw [e]; rfl)
      obtain ⟨hP, hM⟩ := hT (swID, swName) (List.mem_cons_self _ _) hne
      obtain ⟨hw1, -, -⟩ := linkSwitch_wf M P h forest nodes i2n inst swID swName vi hw hi hP
      obtain ⟨hu1, he1, v1, hv1, hid1, hlink1⟩ :=
        linkSwitch_uniq M P h forest nodes i2n inst swID swName vi hw hu hi hM
      have hwalk1 : (linkSwitch h nodes inst swID swName).1.walkKeyed
          (linkSwitch h nodes inst swID swName).2.2 (vi.ID :: down) = some leaf := by
        obtain ⟨vi', hvi', hidi', -⟩ := he1 inst vi hi
        simp only [Heap.walkKeyed, Heap.child, hv1, hlink1, hvi', if_pos hidi']
        exact Heap.walkKeyed_ext he1 down inst leaf hwalk
      obtain ⟨hu2, he2, vtop, hvtop, hidtop, hwalk2⟩ := ih _ _ _ v1 (vi.ID :: down) hw1 hu1 hv1
        hwalk1 (fun t ht => hT t (List.mem_cons_of_mem _ ht))
      rw [hid1] at hidtop hwalk2
      exact ⟨hu2, Heap.ext_trans he1 he2, vtop, hvtop, hidtop, hwalk2⟩

theorem uniq_alloc_leaf (M : GoMap String) (P : String → Prop) (h : Heap)
    (forest nodes : GoMap Ptr) (i2n : GoMap String) (id name : String)
    (hw : WF M P h forest nodes i2n) (hu : Uniq M h nodes) (hg : i2n.get? id = some name) :
    Uniq M (h.alloc ⟨id, name, [], []⟩).1 nodes := by
  have hcases : ∀ (p : Ptr) (v : Vertex), (h.alloc ⟨id, name, [], []⟩).1[p]? = some v →
      h[p]? = some v ∨ (p = h.length ∧ v = ⟨id, name, [], []⟩) := by
    intro p v hv
    by_cases hp : p < h.length
    · rw [Heap.getElem?_alloc_lt h _ p hp] at hv
      exact Or.inl hv
    · right
      have hlen := Heap.lt_length_of_getElem? _ p v hv
      rw [Heap.length_alloc] at hlen
      have hpe : p = h.length := le_antisymm (Nat.le_of_lt_succ hlen) (not_lt.1 hp)
      subst hpe
      have := Heap.getElem?_alloc_self h ⟨id, name, [], []⟩
      simp only [Heap.alloc] at this hv
      rw [this] at hv
      exact ⟨rfl, (Option.some.inj hv).symm⟩
  have hfresh : ∀ (q : Ptr) (w : Vertex), h[q]? = some w → w.ID ≠ id := by
    intro q w hq hid
    rcases (hw.cells_ok q w hq).2 with hne | ⟨-, -, hn⟩
    · have h1 := hu.nodes_fresh _ _ (hu.nonleaf_reg q w hq hne)
      rw [hid, hw.i2n_sub id name hg] at h1
      exact absurd h1 (by simp)
    · rw [hid, hg] at hn
      exact absurd hn (by simp)
  constructor
  · intro p q v w hp hq hid
    rcases hcases p v hp with hp0 | ⟨hpe, hve⟩
    · rcases hcases q w hq with hq0 | ⟨hqe, hwe⟩
      · exact hu.inj p q v w hp0 hq0 hid
      · subst hwe
        exact absurd hid (hfresh p v hp0)
    · rcases hcases q w hq with hq0 | ⟨hqe, hwe⟩
      · subst hve
        exact absurd hid.symm (hfresh q w hq0)
      · rw [hpe, hqe]
  · exact hu.nodes_fresh
  · intro p v hp hne
    rcases hcases p v hp with hp0 | ⟨-, hve⟩
    · exact hu.nonleaf_reg p v hp0 hne
    · subst hve
      exact absurd rfl hne

theorem buildStep_uniq (M : GoMap String) (P : String → Prop) (st : BuildState)
    (r : InstanceTopology) (hw : WF M P st.heap st.forest st.nodes st.i2n)
    (hu : Uniq M st.heap st.nodes) (hP : P r.InstanceID)
    (hT : ∀ t ∈ swPairs r, t.1 ≠ "" → P t.1 ∧ M.get? t.1 = none) :
    Uniq M (buildStep st r).heap (buildStep st r).nodes ∧
    Heap.Ext st.heap (buildStep st r).heap ∧
    (∀ k p, st.forest.get? k = some p → (buildStep st r).forest.get? k = some p) ∧
    (∀ name, st.i2n.get? r.InstanceID = some name →
      ∃ (leaf : Ptr) (v : Vertex),
        forestWalk (buildStep st r).heap (buildStep st r).forest (chain r) = some leaf ∧
        (buildStep st r).heap[leaf]? = some v ∧ v.ID = r.InstanceID) := by
  unfold buildStep
  cases hg : st.i2n.get? r.InstanceID with
  | none =>
    refine ⟨hu, Heap.ext_refl _, fun _ _ x => x, ?_⟩
    intro name hn
    exact absurd hn (by simp)
  | some name =>
    simp only
    have hw1 := wf_alloc_leaf M P st.heap st.forest st.nodes st.i2n r.InstanceID name hw hP hg
    have hu1 := uniq_alloc_leaf M P st.heap st.forest st.nodes st.i2n r.InstanceID name hw hu hg
    have hi := Heap.getElem?_alloc_self st.heap ⟨r.InstanceID, name, [], []⟩
    obtain ⟨hw2, -, -⟩ := linkSwitches_wf M P st.forest (st.i2n.del r.InstanceID)
      (swPairs r) _ st.nodes _ _ hw1 hi (fun t ht hne => (hT t ht hne).1)
    obtain ⟨hu2, he2, vtop, hvtop, hidtop, hwalk⟩ := linkSwitches_uniq M P st.forest
      (st.i2n.del r.InstanceID) (st.heap.alloc ⟨r.InstanceID, name, [], []⟩).2 (swPairs r)
      _ st.nodes _ _ [] hw1 hu1 hi rfl hT
    have hext : Heap.Ext st.heap (linkSwitches (st.heap.alloc ⟨r.InstanceID, name, [], []⟩).1
        st.nodes (st.heap.alloc ⟨r.InstanceID, name, [], []⟩).2 (swPairs r)).1 :=
      Heap.ext_trans (Heap.ext_alloc _ _) he2
    refine ⟨hu2, hext, ?_, ?_⟩
    · intro k p hk
      rw [GoMap.get?_put]
      split
      · rename_i hkk
        rw [Heap.idOf_eq _ _ vtop hvtop] at hkk
        obtain ⟨v, hv, hvid⟩ := hw.forest_ok k p hk
        obtain ⟨v', hv', hvid', -⟩ := hext p v hv
        rw [hu2.inj p _ v' vtop hv' hvtop ((hvid'.trans hvid).trans hkk.symm)]
      · exact hk
    · intro name' _
      obtain ⟨vl, hvl, hvlid, -⟩ := he2 _ _ hi
      refine ⟨_, vl, ?_, hvl, hvlid⟩
      simp only [chain, forestWalk]
      rw [Heap.idOf_eq _ _ vtop hvtop, hidtop, GoMap.get?_put]
      simp only [if_true, hvtop, hidtop]
      exact hwalk

theorem foldl_buildStep_uniq (M : GoMap String) (P : String → Prop) (l : List InstanceTopology)
    (hP : ∀ r ∈ l, P r.InstanceID ∧ ∀ t ∈ swPairs r, t.1 ≠ "" → P t.1 ∧ M.get? t.1 = none) :
    ∀ st : BuildState, WF M P st.heap st.forest st.nodes st.i2n → Uniq M st.heap st.nodes →
      WF M P (l.foldl buildStep st).heap (l.foldl buildStep st).forest
        (l.foldl buildStep st).nodes (l.foldl buildStep st).i2n ∧
      Uniq M (l.foldl buildStep st).heap (l.foldl buildStep st).nodes ∧
      Heap.Ext st.heap (l.foldl buildStep st).heap ∧
      (∀ k p, st.forest.get? k = some p → (l.foldl buildStep st).forest.get? k = some p) := by
  induction l with
  | nil => intro st hw hu; exact ⟨hw, hu, Heap.ext_refl _, fun _ _ x => x⟩
  | cons r rest ih =>
    intro st hw hu
    simp only [List.foldl_cons]
    obtain ⟨h1, h2⟩ := hP r (List.mem_cons_self _ _)
    obtain ⟨hw1, -⟩ := buildStep_wf M P st r hw h1 (fun t ht hne => (h2 t ht hne).1)
    obtain ⟨hu1, he1, hf1, -⟩ := buildStep_uniq M P st r hw hu h1 h2
    obtain ⟨hw2, hu2, he2, hf2⟩ := ih (fun x hx => hP x (List.mem_cons_of_mem _ hx)) _ hw1 hu1
    exact ⟨hw2, hu2, Heap.ext_trans he1 he2, fun k p hk => hf2 k p (hf1 k p hk)⟩

theorem forestWalk_ext {h h' : Heap} {forest forest' : GoMap Ptr} (he : Heap.Ext h h')
    (hf : ∀ k p, forest.get? k = some p → forest'.get? k = some p) (path : List String)
    (q : Ptr) (hw : forestWalk h forest path = some q) : forestWalk h' forest' path = some q := by
  cases path with
  | nil => simp [forestWalk] at hw
  | cons k ks =>
    simp only [forestWalk] at hw ⊢
    cases hc : forest.get? k with
    | none => simp [hc] at hw
    | some p =>
      simp only [hc] at hw
      cases hv : h[p]? with
      | none => simp [hv] at hw
      | some v =>
        simp only [hv] at hw
        by_cases hid : v.ID = k
        · rw [if_pos hid] at hw
          obtain ⟨v', hv', hid', -⟩ := he p v hv
          simp only [hf k p hc, hv', if_pos (hid'.trans hid)]
          exact Heap.walkKeyed_ext he ks p q hw
        · rw [if_neg hid] at hw
          exact absurd hw (by simp)

theorem leaf_cell (M : GoMap String) (P : String → Prop) (h : Heap) (forest nodes : GoMap Ptr)
    (i2n : GoMap String) (hw : WF M P h forest nodes i2n) (hu : Uniq M h nodes)
    (p : Ptr) (v : Vertex) (hv : h[p]? = some v) (name : String)
    (hM : M.get? v.ID = some name) : v = ⟨v.ID, name, [], []⟩ := by
  rcases (hw.cells_ok p v hv).2 with hne | ⟨h1, h2, -⟩
  · have := hu.nodes_fresh _ _ (hu.nonleaf_reg p v hv hne)
    rw [hM] at this
    exact absurd this (by simp)
  · rw [hM] at h2
    rw [← Option.some.inj h2] at h1
    exact h1

/-- The record `r`, first of the list to carry its InstanceID and mapped to `name`,
has its chain in the forest after the main loop over the list. -/
theorem foldl_buildStep_chain (M : GoMap String) (P : String → Prop)
    (pre post : List InstanceTopology) (r : InstanceTopology) (name : String)
    (hP : ∀ x ∈ pre ++ r :: post,
      P x.InstanceID ∧ ∀ t ∈ swPairs x, t.1 ≠ "" → P t.1 ∧ M.get? t.1 = none)
    (hfirst : ∀ x ∈ pre, x.InstanceID ≠ r.InstanceID) (hM : M.get? r.InstanceID = some name)
    (hnd : M.keys.Nodup) :
    ∃ leaf : Ptr,
      forestWalk ((pre ++ r :: post).foldl buildStep ⟨[], [], [], M, NewDomainMap⟩).heap
        ((pre ++ r :: post).foldl buildStep ⟨[], [], [], M, NewDomainMap⟩).forest (chain r) =
        some leaf ∧
      ((pre ++ r :: post).foldl buildStep ⟨[], [], [], M, NewDomainMap⟩).heap[leaf]? =
        some ⟨r.InstanceID, name, [], []⟩ := by
  have hu0 : Uniq M ([] : Heap) ([] : GoMap Ptr) := by
    constructor
    · intro p q v w hp; simp at hp
    · intro k p hk; simp [GoMap.get?] at hk
    · intro p v hp; simp at hp
  obtain ⟨hw1, hu1, -, -⟩ := foldl_buildStep_uniq M P pre
    (fun x hx => hP x (List.mem_append_left _ hx)) ⟨[], [], [], M, NewDomainMap⟩
    (wf_init M P hnd) hu0
  rw [List.foldl_append, List.foldl_cons]
  generalize hst1 : pre.foldl buildStep ⟨[], [], [], M, NewDomainMap⟩ = st1 at hw1 hu1
  have hi1 : st1.i2n.get? r.InstanceID = some name := by
    rw [← hst1, foldl_buildStep_i2n]
    have hnot : r.InstanceID ∉ pre.map (fun r => r.InstanceID) := by
      intro hmem
      obtain ⟨x, hx, he⟩ := List.mem_map.1 hmem
      exact hfirst x hx he
    rw [if_neg hnot]
    exact hM
  obtain ⟨hPr, hTr⟩ := hP r (List.mem_append_right _ (List.mem_cons_self _ _))
  obtain ⟨hw2, -⟩ := buildStep_wf M P st1 r hw1 hPr (fun t ht hne => (hTr t ht hne).1)
  obtain ⟨hu2, -, -, hchain⟩ := buildStep_uniq M P st1 r hw1 hu1 hPr hTr
  obtain ⟨leaf, v, hwalk, hv, hid⟩ := hchain name hi1
  obtain ⟨hw3, hu3, he3, hf3⟩ := foldl_buildStep_uniq M P post
    (fun x hx => hP x (List.mem_append_right _ (List.mem_cons_of_mem _ hx))) _ hw2 hu2
  obtain ⟨v', hv', hid', -⟩ := he3 leaf v hv
  refine ⟨leaf, forestWalk_ext he3 hf3 _ leaf hwalk, ?_⟩
  have hM' : M.get? v'.ID = some name := by rw [hid', hid]; exact hM
  have := leaf_cell M P _ _ _ _ hw3 hu3 leaf v' hv' name hM'
  rw [hv', this, hid', hid]

/-! ### The tree view -/

theorem length_eq_zero_iff (s : String) : s.length = 0 ↔ s = "" := by
  constructor
  · intro h
    have hd : s.data = [] := List.length_eq_zero.1 h
    exact String.ext hd
  · intro h
    rw [h]
    rfl

theorem chain_of_prefix (r : InstanceTopology) (hB : r.BlockID ≠ "") (hp : TierPrefix r) :
    chain r = tierPath r := by
  obtain ⟨-, h2⟩ := hp
  have hBl : ¬ r.BlockID.length = 0 := fun e => hB ((length_eq_zero_iff _).1 e)
  by_cases hS : r.SpineID = ""
  · have hD := h2 hS
    simp [chain, tierPath, pathAfter, swPairs, hBl, hS, hD, hB]
  · have hSl : ¬ r.SpineID.length = 0 := fun e => hS ((length_eq_zero_iff _).1 e)
    by_cases hD : r.DatacenterID = ""
    · simp [chain, tierPath, pathAfter, swPairs, hBl, hSl, hS, hD, hB]
    · have hDl : ¬ r.DatacenterID.length = 0 := fun e => hD ((length_eq_zero_iff _).1 e)
      simp [chain, tierPath, pathAfter, swPairs, hBl, hSl, hDl, hS, hD, hB]

theorem pathAfter_fst (tiers : List (String × String)) :
    ∀ (cur : String) (down : List String),
      (pathAfter cur down tiers).1 = cur ∨
        ∃ t ∈ tiers, t.1 ≠ "" ∧ (pathAfter cur down tiers).1 = t.1 := by
  induction tiers with
  | nil => intro cur down; exact Or.inl rfl
  | cons t rest ih =>
    intro cur down
    obtain ⟨swID, swName⟩ := t
    simp only [pathAfter]
    by_cases hz : swID.length = 0
    · rw [if_pos hz]; exact Or.inl rfl
    · rw [if_neg hz]
      have hne : swID ≠ "" := fun e => hz (by rw [e]; rfl)
      rcases ih swID (cur :: down) with h | ⟨t, ht, hne', he⟩
      · exact Or.inr ⟨(swID, swName), List.mem_cons_self _ _, hne, h⟩
      · exact Or.inr ⟨t, List.mem_cons_of_mem _ ht, hne', he⟩

theorem Heap.walk_of_walkKeyed (h : Heap) :
    ∀ (path : List String) (p q : Ptr), h.walkKeyed p path = some q → h.walk p path = some q := by
  intro path
  induction path with
  | nil => intro p q hw; exact hw
  | cons k ks ih =>
    intro p q hw
    simp only [Heap.walkKeyed, Heap.walk] at hw ⊢
    cases hc : h.child p k with
    | none => simp [hc] at hw
    | some q1 =>
      simp only [hc] at hw ⊢
      cases hv : h[q1]? with
      | none => simp [hv] at hw
      | some w =>
        simp only [hv] at hw
        by_cases hid : w.ID = k
        · rw [if_pos hid] at hw
          exact ih q1 q hw
        · rw [if_neg hid] at hw
          exact absurd hw (by simp)

theorem Heap.walkKeyed_frame (h0 H : Heap) (hlow : ∀ p, p < h0.length → H[p]? = h0[p]?) :
    ∀ (path : List String) (p q : Ptr), h0.walkKeyed p path = some q →
      H.walkKeyed p path = some q := by
  intro path
  induction path with
  | nil => intro p q hw; exact hw
  | cons k ks ih =>
    intro p q hw
    simp only [Heap.walkKeyed, Heap.child] at hw ⊢
    cases hv : h0[p]? with
    | none => simp [hv] at hw
    | some v =>
      simp only [hv] at hw
      cases hc : v.Vertices.get? k with
      | none => simp [hc] at hw
      | some q1 =>
        simp only [hc] at hw
        cases hv1 : h0[q1]? with
        | none => simp [hv1] at hw
        | some w =>
          simp only [hv1] at hw
          by_cases hid : w.ID = k
          · rw [if_pos hid] at hw
            have e1 := hlow p (Heap.lt_length_of_getElem? _ p v hv)
            have e2 := hlow q1 (Heap.lt_length_of_getElem? _ q1 w hv1)
            simp only [e1, hv, hc, e2, hv1, if_pos hid]
            exact ih q1 q hw
          · rw [if_neg hid] at hw
            exact absurd hw (by simp)

theorem exists_first (l : List InstanceTopology) (id : String)
    (h : ∃ x ∈ l, x.InstanceID = id) :
    ∃ pre r post, l = pre ++ r :: post ∧ r.InstanceID = id ∧
      ∀ x ∈ pre, x.InstanceID ≠ id := by
  induction l with
  | nil =>
    obtain ⟨x, hx, -⟩ := h
    simp at hx
  | cons a rest ih =>
    by_cases ha : a.InstanceID = id
    · exact ⟨[], a, rest, rfl, ha, fun x hx => by simp at hx⟩
    · obtain ⟨x, hx, he⟩ := h
      have hx' : x ∈ rest := by
        rcases List.mem_cons.1 hx with e | e
        · rw [e] at he; exact absurd he ha
        · exact e
      obtain ⟨pre, r, post, hl, hr, hpre⟩ := ih ⟨x, hx', he⟩
      refine ⟨a :: pre, r, post, by rw [hl]; rfl, hr, ?_⟩
      intro y hy
      rcases List.mem_cons.1 hy with e | e
      · rw [e]; exact ha
      · exact hpre y e

/-- What `Separated` gives for every record the main loop ranges over. -/
theorem separated_processed (c : ClusterTopology) (cis : List ComputeInstances)
    (normalize : Bool) (hS : Separated c (mergeInstances cis)) :
    ∀ x ∈ processed c normalize, x.InstanceID ≠ NoTopology ∧
      ∀ t ∈ swPairs x, t.1 ≠ "" → t.1 ≠ NoTopology ∧ (mergeInstances cis).get? t.1 = none := by
  obtain ⟨h1, h2, h3⟩ := hS
  have hsw : ∀ s, s ∈ switchIDs c → s ≠ NoTopology ∧ (mergeInstances cis).get? s = none := by
    intro s hs
    refine ⟨fun e => h3 (e ▸ hs), ?_⟩
    rw [GoMap.get?_eq_none_iff]
    intro hk
    exact h1 s (List.mem_append_right _ hk) hs
  intro x hx
  obtain ⟨r, hr, he⟩ := mem_processed_stripNames c normalize x hx
  have e1 : r.InstanceID = x.InstanceID := by
    have := congrArg (fun y : InstanceTopology => y.InstanceID) he
    exact this
  have e2 : r.BlockID = x.BlockID := by
    have := congrArg (fun y : InstanceTopology => y.BlockID) he
    exact this
  have e3 : r.SpineID = x.SpineID := by
    have := congrArg (fun y : InstanceTopology => y.SpineID) he
    exact this
  have e4 : r.DatacenterID = x.DatacenterID := by
    have := congrArg (fun y : InstanceTopology => y.DatacenterID) he
    exact this
  constructor
  · intro e
    apply h2
    rw [← e, ← e1]
    exact List.mem_append_left _ (List.mem_map_of_mem _ hr)
  · intro t ht hne
    apply hsw
    simp only [swPairs, List.mem_cons, List.mem_singleton, List.not_mem_nil, or_false] at ht
    rcases ht with rfl | rfl | rfl
    · simp only at hne ⊢
      refine List.mem_append_left _ (List.mem_append_left _ ?_)
      refine List.mem_filter.2 ⟨List.mem_map.2 ⟨r, hr, e2⟩, by simpa using hne⟩
    · simp only at hne ⊢
      refine List.mem_append_left _ (List.mem_append_right _ ?_)
      refine List.mem_filter.2 ⟨List.mem_map.2 ⟨r, hr, e3⟩, by simpa using hne⟩
    · simp only at hne ⊢
      refine List.mem_append_right _ ?_
      refine List.mem_filter.2 ⟨List.mem_map.2 ⟨r, hr, e4⟩, by simpa using hne⟩

theorem mainLoop_wf_separated (c : ClusterTopology) (cis : List ComputeInstances)
    (normalize : Bool) (hS : Separated c (mergeInstances cis)) :
    WF (mergeInstances cis) (fun k => k ≠ NoTopology) (mainLoop c cis normalize).heap
      (mainLoop c cis normalize).forest (mainLoop c cis normalize).nodes
      (mainLoop c cis normalize).i2n := by
  unfold mainLoop
  refine (foldl_buildStep_wf (mergeInstances cis) _ (processed c normalize) ?_ _
    (wf_init _ _ (mergeInstances_nodup cis))).1
  intro r hr
  obtain ⟨h1, h2⟩ := separated_processed c cis normalize hS r hr
  exact ⟨h1, fun t ht hne => (h2 t ht hne).1⟩

/-- With instance IDs, switch IDs and the reserved ID apart, the first record of
the processed list to carry a mapped InstanceID has its leaf at the end of its
chain below the tree forest root. -/
theorem record_chain_in_tree (c : ClusterTopology) (provider : String)
    (cis : List ComputeInstances) (normalize : Bool) (hS : Separated c (mergeInstances cis))
    (pre post : List InstanceTopology) (r : InstanceTopology) (name : String)
    (hsplit : processed c normalize = pre ++ r :: post)
    (hfirst : ∀ x ∈ pre, x.InstanceID ≠ r.InstanceID)
    (hM : (mergeInstances cis).get? r.InstanceID = some name) :
    ∃ rp t leaf, (ToThreeTierGraph c provider cis normalize).root = some rp ∧
      (ToThreeTierGraph c provider cis normalize).heap.child rp TopologyTree = some t ∧
      (ToThreeTierGraph c provider cis normalize).heap.walkKeyed t (chain r) = some leaf ∧
      (ToThreeTierGraph c provider cis normalize).heap[leaf]? =
        some ⟨r.InstanceID, name, [], []⟩ := by
  have hw := mainLoop_wf_separated c cis normalize hS
  have hsep := separated_processed c cis normalize hS
  obtain ⟨rp, t, vt, hroot, hchild, hvt, -, hlow, hcases⟩ :=
    final_graph c provider cis normalize _ hw
  have hchain := foldl_buildStep_chain (mergeInstances cis) (fun k => k ≠ NoTopology) pre post r
    name (fun x hx => hsep x (hsplit ▸ hx)) hfirst hM (mergeInstances_nodup cis)
  rw [← hsplit] at hchain
  obtain ⟨leaf, hwalk, hleaf⟩ := hchain
  have hst : (processed c normalize).foldl buildStep
      ⟨[], [], [], mergeInstances cis, NewDomainMap⟩ = mainLoop c cis normalize := rfl
  rw [hst] at hwalk hleaf
  have hhead : (pathAfter r.InstanceID [] (swPairs r)).1 ≠ NoTopology := by
    have hr : r ∈ processed c normalize := by
      rw [hsplit]; exact List.mem_append_right _ (List.mem_cons_self _ _)
    obtain ⟨h1, h2⟩ := hsep r hr
    rcases pathAfter_fst (swPairs r) r.InstanceID [] with e | ⟨t, ht, hne, e⟩
    · rw [e]; exact h1
    · rw [e]; exact (h2 t ht hne).1
  refine ⟨rp, t, leaf, hroot, hchild, ?_, ?_⟩
  · have hget : vt.Vertices.get? (pathAfter r.InstanceID [] (swPairs r)).1 =
        (mainLoop c cis normalize).forest.get? (pathAfter r.InstanceID [] (swPairs r)).1 := by
      rcases hcases with ⟨-, hg⟩ | ⟨-, hg, -⟩
      · exact hg _
      · rw [hg, if_neg (fun e => hhead e.symm)]
    simp only [chain, forestWalk] at hwalk
    simp only [chain, Heap.walkKeyed, Heap.child, hvt, hget]
    cases hf : (mainLoop c cis normalize).forest.get? (pathAfter r.InstanceID [] (swPairs r)).1 with
    | none => simp [hf] at hwalk
    | some p =>
      simp only [hf] at hwalk ⊢
      cases hv : (mainLoop c cis normalize).heap[p]? with
      | none => simp [hv] at hwalk
      | some v =>
        simp only [hv] at hwalk
        rw [hlow p (Heap.lt_length_of_getElem? _ p v hv)]
        simp only [hv]
        split
        · rename_i hid
          rw [if_pos hid] at hwalk
          exact Heap.walkKeyed_frame _ _ hlow _ p leaf hwalk
        · rename_i hid
          rw [if_neg hid] at hwalk
          exact absurd hwalk (by simp)
  · rw [hlow leaf (Heap.lt_length_of_getElem? _ leaf _ hleaf)]
    exact hleaf

/-- C1, counterexample. Two records carry the same mapped InstanceID; the second
has only the BlockID b2, and the tree forest root has no child under b2. -/
theorem second_record_of_instance_ignored :
    KindsDisjoint ⟨[⟨"i1", "", "", "b1", "", "", "", "", ""⟩,
        ⟨"i1", "", "", "b2", "", "", "", "", ""⟩]⟩ (mergeInstances [⟨[("i1", "node1")]⟩]) ∧
    (mergeInstances [⟨[("i1", "node1")]⟩]).get? "i1" = some "node1" ∧
    TierPrefix ⟨"i1", "", "", "b2", "", "", "", "", ""⟩ ∧
    (ToThreeTierGraph ⟨[⟨"i1", "", "", "b1", "", "", "", "", ""⟩,
        ⟨"i1", "", "", "b2", "", "", "", "", ""⟩]⟩ "gcp" [⟨[("i1", "node1")]⟩] false).root =
      some 3 ∧
    (ToThreeTierGraph ⟨[⟨"i1", "", "", "b1", "", "", "", "", ""⟩,
        ⟨"i1", "", "", "b2", "", "", "", "", ""⟩]⟩ "gcp" [⟨[("i1", "node1")]⟩] false).heap.child
      3 TopologyTree = some 2 ∧
    (ToThreeTierGraph ⟨[⟨"i1", "", "", "b1", "", "", "", "", ""⟩,
        ⟨"i1", "", "", "b2", "", "", "", "", ""⟩]⟩ "gcp" [⟨[("i1", "node1")]⟩] false).heap.child
      2 "b2" = none := by
  decide

/-- C1, amended. Instance IDs, block IDs, spine IDs, datacenter IDs and the
reserved ID never coinciding across kinds, take a record of the processed list
(the list itself, or the normalized list when normalize is set) that is the first
to carry its InstanceID, whose InstanceID is a key of the merged map and whose
non-empty tier IDs are BlockID, BlockID+SpineID or all three. Then from the tree
forest root the keys outermost tier ID, ..., BlockID, InstanceID lead, each through
a vertex whose ID is the key, to a leaf with ID = InstanceID, Name = the mapped
node name and no children. -/
theorem tree_view (c : ClusterTopology) (provider : String)
    (cis : List ComputeInstances) (normalize : Bool)
    (hK : KindsDisjoint c (mergeInstances cis))
    (pre post : List InstanceTopology) (r : InstanceTopology) (name : String)
    (hsplit : processed c normalize = pre ++ r :: post)
    (hfirst : ∀ x ∈ pre, x.InstanceID ≠ r.InstanceID)
    (hM : (mergeInstances cis).get? r.InstanceID = some name)
    (hB : r.BlockID ≠ "") (hp : TierPrefix r) :
    ∃ rp t leaf, (ToThreeTierGraph c provider cis normalize).root = some rp ∧
      (ToThreeTierGraph c provider cis normalize).heap.child rp TopologyTree = some t ∧
      (ToThreeTierGraph c provider cis normalize).heap.walkKeyed t (tierPath r) = some leaf ∧
      (ToThreeTierGraph c provider cis normalize).heap[leaf]? =
        some ⟨r.InstanceID, name, [], []⟩ := by
  rw [← chain_of_prefix r hB hp]
  exact record_chain_in_tree c provider cis normalize hK.1 pre post r name hsplit hfirst hM

/-- The witness for the amended C1: two records under one spine and datacenter,
the second one under its own block. -/
theorem tree_view_witness :
    KindsDisjoint ⟨[⟨"i1", "", "", "b1", "", "s1", "", "d1", ""⟩,
        ⟨"i2", "", "", "b2", "", "s1", "", "d1", ""⟩]⟩
      (mergeInstances [⟨[("i1", "node1"), ("i2", "node2")]⟩]) ∧
    TierPrefix ⟨"i2", "", "", "b2", "", "s1", "", "d1", ""⟩ ∧
    ∃ rp t leaf, (ToThreeTierGraph ⟨[⟨"i1", "", "", "b1", "", "s1", "", "d1", ""⟩,
        ⟨"i2", "", "", "b2", "", "s1", "", "d1", ""⟩]⟩ "gcp"
        [⟨[("i1", "node1"), ("i2", "node2")]⟩] false).root = some rp ∧
      (ToThreeTierGraph ⟨[⟨"i1", "", "", "b1", "", "s1", "", "d1", ""⟩,
        ⟨"i2", "", "", "b2", "", "s1", "", "d1", ""⟩]⟩ "gcp"
        [⟨[("i1", "node1"), ("i2", "node2")]⟩] false).heap.child rp TopologyTree = some t ∧
      (ToThreeTierGraph ⟨[⟨"i1", "", "", "b1", "", "s1", "", "d1", ""⟩,
        ⟨"i2", "", "", "b2", "", "s1", "", "d1", ""⟩]⟩ "gcp"
        [⟨[("i1", "node1"), ("i2", "node2")]⟩] false).heap.walkKeyed t
        ["d1", "s1", "b2", "i2"] = some leaf ∧
      (ToThreeTierGraph ⟨[⟨"i1", "", "", "b1", "", "s1", "", "d1", ""⟩,
        ⟨"i2", "", "", "b2", "", "s1", "", "d1", ""⟩]⟩ "gcp"
        [⟨[("i1", "node1"), ("i2", "node2")]⟩] false).heap[leaf]? =
        some ⟨"i2", "node2", [], []⟩ :=
  ⟨by decide, by decide,
   tree_view ⟨[⟨"i1", "", "", "b1", "", "s1", "", "d1", ""⟩,
      ⟨"i2", "", "", "b2", "", "s1", "", "d1", ""⟩]⟩ "gcp"
    [⟨[("i1", "node1"), ("i2", "node2")]⟩] false (by decide)
    [⟨"i1", "", "", "b1", "", "s1", "", "d1", ""⟩] []
    ⟨"i2", "", "", "b2", "", "s1", "", "d1", ""⟩ "node2" rfl (by decide) (by decide)
    (by decide) (by decide)⟩

/-- C3. Instance IDs, switch IDs and the reserved ID never coinciding, the leaves
reachable below the tree forest root are exactly the entries of the merged map:
every entry is the ID and Name of a reachable leaf, every reachable vertex without
children carries the ID and Name of an entry, and so no reachable leaf carries the
InstanceID of a record that is not a key of the map. -/
theorem leaves_are_map_entries (c : ClusterTopology) (provider : String)
    (cis : List ComputeInstances) (normalize : Bool)
    (hS : Separated c (mergeInstances cis)) :
    ∃ rp t, (ToThreeTierGraph c provider cis normalize).root = some rp ∧
      (ToThreeTierGraph c provider cis normalize).heap.child rp TopologyTree = some t ∧
      (∀ id name, (mergeInstances cis).get? id = some name →
        ∃ (path : List String) (leaf : Ptr), path ≠ [] ∧
          (ToThreeTierGraph c provider cis normalize).heap.walk t path = some leaf ∧
          (ToThreeTierGraph c provider cis normalize).heap[leaf]? =
            some ⟨id, name, [], []⟩) ∧
      (∀ (path : List String) (q : Ptr) (v : Vertex), path ≠ [] →
        (ToThreeTierGraph c provider cis normalize).heap.walk t path = some q →
        (ToThreeTierGraph c provider cis normalize).heap[q]? = some v → v.Vertices = [] →
        (mergeInstances cis).get? v.ID = some v.Name) ∧
      (∀ r ∈ c.Instances, (mergeInstances cis).get? r.InstanceID = none →
        ∀ (path : List String) (q : Ptr) (v : Vertex), path ≠ [] →
          (ToThreeTierGraph c provider cis normalize).heap.walk t path = some q →
          (ToThreeTierGraph c provider cis normalize).heap[q]? = some v → v.Vertices = [] →
          v.ID ≠ r.InstanceID) := by
  have hw := mainLoop_wf_separated c cis normalize hS
  obtain ⟨rp, t, vt, hroot, hchild, hvt, -, hlow, hcases⟩ :=
    final_graph c provider cis normalize _ hw
  have hleaves : ∀ (path : List String) (q : Ptr) (v : Vertex), path ≠ [] →
      (ToThreeTierGraph c provider cis normalize).heap.walk t path = some q →
      (ToThreeTierGraph c provider cis normalize).heap[q]? = some v → v.Vertices = [] →
      (mergeInstances cis).get? v.ID = some v.Name := by
    intro path q v hne hwalk hv hleaf
    have hclosed : ∀ (p : Ptr) (v : Vertex) (k : String) (q : Ptr),
        p < (mainLoop c cis normalize).heap.length →
        (ToThreeTierGraph c provider cis normalize).heap[p]? = some v →
        v.Vertices.get? k = some q → q < (mainLoop c cis normalize).heap.length := by
      intro p v k q hp hv hk
      rw [hlow p hp] at hv
      obtain ⟨w, hw0, -⟩ := hw.links_ok p v k q hv hk
      exact Heap.lt_length_of_getElem? _ q w hw0
    have hmain : ∀ (k1 : String) (rest : List String) (p1 : Ptr),
        (mainLoop c cis normalize).forest.get? k1 = some p1 →
        (ToThreeTierGraph c provider cis normalize).heap.walk p1 rest = some q →
        (mergeInstances cis).get? v.ID = some v.Name := by
      intro k1 rest p1 hf hwalk1
      obtain ⟨w, hw1, -⟩ := hw.forest_ok k1 p1 hf
      have hq := Heap.walk_closed _ _ hclosed rest p1 q
        (Heap.lt_length_of_getElem? _ p1 w hw1) hwalk1
      rw [hlow q hq] at hv
      rcases (hw.cells_ok q v hv).2 with hne' | ⟨-, hm, -⟩
      · exact absurd hleaf hne'
      · exact hm
    cases path with
    | nil => exact absurd rfl hne
    | cons k1 rest =>
      simp only [Heap.walk, Heap.child, hvt] at hwalk
      rcases hcases with ⟨-, hget⟩ | ⟨-, hget, vsw, hvsw, -, -, hsne, hnone, hsome⟩
      · rw [hget] at hwalk
        cases hf : (mainLoop c cis normalize).forest.get? k1 with
        | none => rw [hf] at hwalk; simp at hwalk
        | some p1 =>
          rw [hf] at hwalk
          exact hmain k1 rest p1 hf hwalk
      · rw [hget] at hwalk
        by_cases hk1 : NoTopology = k1
        · rw [if_pos hk1] at hwalk
          simp only at hwalk
          cases rest with
          | nil =>
            simp only [Heap.walk] at hwalk
            have := Option.some.inj hwalk
            subst this
            rw [hvsw] at hv
            have := Option.some.inj hv
            subst this
            exact absurd hleaf hsne
          | cons k2 rest2 =>
            simp only [Heap.walk, Heap.child, hvsw] at hwalk
            cases hc2 : (mainLoop c cis normalize).i2n.get? k2 with
            | none =>
              rw [hnone k2 hc2] at hwalk
              simp at hwalk
            | some n2 =>
              obtain ⟨q2, hq1, -, hq3⟩ := hsome k2 n2 hc2
              rw [hq1] at hwalk
              simp only at hwalk
              obtain ⟨-, hq⟩ := Heap.walk_leaf _ q2 _ hq3 rfl rest2 q hwalk
              subst hq
              rw [hq3] at hv
              have := Option.some.inj hv
              subst this
              exact hw.i2n_sub k2 n2 hc2
        · rw [if_neg hk1] at hwalk
          cases hf : (mainLoop c cis normalize).forest.get? k1 with
          | none => rw [hf] at hwalk; simp at hwalk
          | some p1 =>
            rw [hf] at hwalk
            exact hmain k1 rest p1 hf hwalk
  refine ⟨rp, t, hroot, hchild, ?_, hleaves, ?_⟩
  · intro id name hM
    by_cases hrec : ∃ x ∈ processed c normalize, x.InstanceID = id
    · obtain ⟨pre, r, post, hsplit, hr, hfirst⟩ := exists_first _ id hrec
      subst hr
      obtain ⟨rp', t', leaf, hroot', hchild', hwalk, hleaf⟩ :=
        record_chain_in_tree c provider cis normalize hS pre post r name hsplit hfirst hM
      have e1 : rp' = rp := Option.some.inj (hroot'.symm.trans hroot)
      subst e1
      have e2 : t' = t := Option.some.inj (hchild'.symm.trans hchild)
      subst e2
      exact ⟨chain r, leaf, by simp [chain], Heap.walk_of_walkKeyed _ _ _ _ hwalk, hleaf⟩
    · have hun : Unmapped c cis id name := by
        refine ⟨hM, fun r hr he => hrec ?_⟩
        obtain ⟨x, hx, hxe⟩ := (mem_processed_ids c normalize id).2 ⟨r, hr, he⟩ |> List.mem_map.1
        exact ⟨x, hx, hxe⟩
      have hi := (mainLoop_i2n c cis normalize id name).2 hun
      rcases hcases with ⟨hz, -⟩ | ⟨-, hget, vsw, hvsw, -, -, -, -, hsome⟩
      · rw [hz] at hi
        simp [GoMap.get?] at hi
      · obtain ⟨q, hq1, -, hq3⟩ := hsome id name hi
        refine ⟨[NoTopology, id], q, by simp, ?_, hq3⟩
        simp only [Heap.walk, Heap.child, hvt, hget, if_true, hvsw, hq1]
  · intro r _ hnone path q v hne hwalk hv hleaf hid
    have := hleaves path q v hne hwalk hv hleaf
    rw [hid, hnone] at this
    exact absurd this (by simp)

/-- The witness for C3: one instance with a record, one without. -/
theorem leaves_are_map_entries_witness :
    Separated ⟨[⟨"i1", "", "", "b1", "", "s1", "", "d1", ""⟩]⟩
      (mergeInstances [⟨[("i1", "node1"), ("cpu1", "node2")]⟩]) ∧
    ∃ rp t, (ToThreeTierGraph ⟨[⟨"i1", "", "", "b1", "", "s1", "", "d1", ""⟩]⟩ "gcp"
        [⟨[("i1", "node1"), ("cpu1", "node2")]⟩] false).root = some rp ∧
      (ToThreeTierGraph ⟨[⟨"i1", "", "", "b1", "", "s1", "", "d1", ""⟩]⟩ "gcp"
        [⟨[("i1", "node1"), ("cpu1", "node2")]⟩] false).heap.child rp TopologyTree = some t ∧
      (∀ id name, (mergeInstances [⟨[("i1", "node1"), ("cpu1", "node2")]⟩]).get? id =
          some name →
        ∃ (path : List String) (leaf : Ptr), path ≠ [] ∧
          (ToThreeTierGraph ⟨[⟨"i1", "", "", "b1", "", "s1", "", "d1", ""⟩]⟩ "gcp"
            [⟨[("i1", "node1"), ("cpu1", "node2")]⟩] false).heap.walk t path = some leaf ∧
          (ToThreeTierGraph ⟨[⟨"i1", "", "", "b1", "", "s1", "", "d1", ""⟩]⟩ "gcp"
            [⟨[("i1", "node1"), ("cpu1", "node2")]⟩] false).heap[leaf]? =
            some ⟨id, name, [], []⟩) ∧
      (∀ (path : List String) (q : Ptr) (v : Vertex), path ≠ [] →
        (ToThreeTierGraph ⟨[⟨"i1", "", "", "b1", "", "s1", "", "d1", ""⟩]⟩ "gcp"
          [⟨[("i1", "node1"), ("cpu1", "node2")]⟩] false).heap.walk t path = some q →
        (ToThreeTierGraph ⟨[⟨"i1", "", "", "b1", "", "s1", "", "d1", ""⟩]⟩ "gcp"
          [⟨[("i1", "node1"), ("cpu1", "node2")]⟩] false).heap[q]? = some v →
        v.Vertices = [] →
        (mergeInstances [⟨[("i1", "node1"), ("cpu1", "node2")]⟩]).get? v.ID = some v.Name) ∧
      (∀ r ∈ (ClusterTopology.mk [⟨"i1", "", "", "b1", "", "s1", "", "d1", ""⟩]).Instances,
        (mergeInstances [⟨[("i1", "node1"), ("cpu1", "node2")]⟩]).get? r.InstanceID = none →
        ∀ (path : List String) (q : Ptr) (v : Vertex), path ≠ [] →
          (ToThreeTierGraph ⟨[⟨"i1", "", "", "b1", "", "s1", "", "d1", ""⟩]⟩ "gcp"
            [⟨[("i1", "node1"), ("cpu1", "node2")]⟩] false).heap.walk t path = some q →
          (ToThreeTierGraph ⟨[⟨"i1", "", "", "b1", "", "s1", "", "d1", ""⟩]⟩ "gcp"
            [⟨[("i1", "node1"), ("cpu1", "node2")]⟩] false).heap[q]? = some v →
          v.Vertices = [] → v.ID ≠ r.InstanceID) :=
  ⟨by decide, leaves_are_map_entries _ _ _ _ (by decide)⟩

/-! ### Normalize: what the naming loop does -/

/-- C15. `Normalize` keeps the number of records and the multiset of the tuples
(InstanceID, AcceleratorID, AcceleratorName, BlockID, SpineID, DatacenterID): only
the order of the records and their three name fields may differ afterwards. -/
theorem Normalize_keeps_fields (l : List InstanceTopology) :
    (Normalize l).length = l.length ∧
    ((Normalize l).map (fun r => (r.InstanceID, r.AcceleratorID, r.AcceleratorName,
        r.BlockID, r.SpineID, r.DatacenterID))).Perm
      (l.map (fun r => (r.InstanceID, r.AcceleratorID, r.AcceleratorName,
        r.BlockID, r.SpineID, r.DatacenterID))) := by
  have hp := map_stripNames_Normalize_perm l
  constructor
  · have := hp.length_eq
    simpa using this
  · have h2 := hp.map (fun r : InstanceTopology => (r.InstanceID, r.AcceleratorID,
      r.AcceleratorName, r.BlockID, r.SpineID, r.DatacenterID))
    simpa [List.map_map, Function.comp_def, stripNames] using h2

/-- C11, the code at the failing input. Three records in sorted order with the
DatacenterIDs d1, d1, d2: the record that is the first to carry the second distinct
DatacenterID is named switch.3.3, and the second record of d1 got switch.3.2. -/
theorem datacenter_ordinal_per_record :
    (Normalize [⟨"i1", "", "", "b1", "", "s1", "", "d1", ""⟩,
      ⟨"i2", "", "", "b2", "", "s2", "", "d1", ""⟩,
      ⟨"i3", "", "", "b3", "", "s3", "", "d2", ""⟩]).map
      (fun r => (r.DatacenterID, r.DatacenterName)) =
    [("d1", "switch.3.1"), ("d1", "switch.3.2"), ("d2", "switch.3.3")] := by
  decide

/-- C12, the code at the failing input. Two records with the same BlockID, SpineID
and DatacenterID: the second gets the empty BlockName and SpineName, not the names
of the first. -/
theorem second_record_name_not_reused :
    (Normalize [⟨"i1", "", "", "b1", "", "s1", "", "d1", ""⟩,
      ⟨"i2", "", "", "b1", "", "s1", "", "d1", ""⟩]).map
      (fun r => (r.BlockName, r.SpineName, r.DatacenterName)) =
    [("switch.1.1", "switch.2.1", "switch.3.1"), ("", "", "switch.3.2")] := by
  decide

/-- C16, the code at the failing input. Two records under the same block, spine
and datacenter, the first with an InstanceID that is not in the map: with
normalize set, the block vertex and the spine vertex of the tree forest have the
empty Name. -/
theorem switch_vertex_without_name :
    (ToThreeTierGraph ⟨[⟨"i1", "", "", "b1", "", "s1", "", "d1", ""⟩,
        ⟨"i2", "", "", "b1", "", "s1", "", "d1", ""⟩]⟩ "gcp"
      [⟨[("i2", "node2")]⟩] true).root = some 5 ∧
    (ToThreeTierGraph ⟨[⟨"i1", "", "", "b1", "", "s1", "", "d1", ""⟩,
        ⟨"i2", "", "", "b1", "", "s1", "", "d1", ""⟩]⟩ "gcp"
      [⟨[("i2", "node2")]⟩] true).heap.child 5 TopologyTree = some 4 ∧
    (ToThreeTierGraph ⟨[⟨"i1", "", "", "b1", "", "s1", "", "d1", ""⟩,
        ⟨"i2", "", "", "b1", "", "s1", "", "d1", ""⟩]⟩ "gcp"
      [⟨[("i2", "node2")]⟩] true).heap.walkKeyed 4 ["d1", "s1", "b1"] = some 1 ∧
    (ToThreeTierGraph ⟨[⟨"i1", "", "", "b1", "", "s1", "", "d1", ""⟩,
        ⟨"i2", "", "", "b1", "", "s1", "", "d1", ""⟩]⟩ "gcp"
      [⟨[("i2", "node2")]⟩] true).heap[1]? = some ⟨"b1", "", [("i2", 0)], []⟩ ∧
    (ToThreeTierGraph ⟨[⟨"i1", "", "", "b1", "", "s1", "", "d1", ""⟩,
        ⟨"i2", "", "", "b1", "", "s1", "", "d1", ""⟩]⟩ "gcp"
      [⟨[("i2", "node2")]⟩] true).heap.walkKeyed 4 ["d1", "s1"] = some 2 ∧
    (ToThreeTierGraph ⟨[⟨"i1", "", "", "b1", "", "s1", "", "d1", ""⟩,
        ⟨"i2", "", "", "b1", "", "s1", "", "d1", ""⟩]⟩ "gcp"
      [⟨[("i2", "node2")]⟩] true).heap[2]? = some ⟨"s1", "", [("b1", 1)], []⟩ := by
  decide

/-! ### Normalize and the order of the input -/

theorem sortKey_eq_iff (a b : InstanceTopology) :
    sortKey a = sortKey b ↔ a.DatacenterID = b.DatacenterID ∧ a.SpineID = b.SpineID ∧
      a.BlockID = b.BlockID ∧ a.InstanceID = b.InstanceID := by
  unfold sortKey
  simp only [toLex_inj, Prod.mk.injEq]

theorem nameStep_congr_key (st : NormState) (r r' : InstanceTopology)
    (h : sortKey r = sortKey r') :
    (nameStep st r).1 = (nameStep st r').1 ∧
      keyAndNames (nameStep st r).2 = keyAndNames (nameStep st r').2 := by
  obtain ⟨i, a, an, b, bn, s, sn, d, dn⟩ := r
  obtain ⟨i', a', an', b', bn', s', sn', d', dn'⟩ := r'
  rw [sortKey_eq_iff] at h
  simp only at h
  obtain ⟨rfl, rfl, rfl, rfl⟩ := h
  unfold nameStep keyAndNames
  simp only [nameBlock]
  cases st.switches.get? b <;> simp only [nameSpine] <;> split <;>
    simp only [nameDatacenter] <;> split <;> exact ⟨rfl, rfl⟩

theorem nameLoop_congr_key (l : List InstanceTopology) :
    ∀ (l' : List InstanceTopology) (st : NormState), l.map sortKey = l'.map sortKey →
      (nameLoop st l).map keyAndNames = (nameLoop st l').map keyAndNames := by
  induction l with
  | nil =>
    intro l' st h
    cases l' with
    | nil => rfl
    | cons b t => simp at h
  | cons a rest ih =>
    intro l' st h
    cases l' with
    | nil => simp at h
    | cons b t =>
      simp only [List.map_cons, List.cons.injEq] at h
      obtain ⟨h1, h2⟩ := nameStep_congr_key st a b h.1
      simp only [nameLoop, List.map_cons, h2, h1]
      rw [ih t _ h.2]

theorem sortSlice_keys_of_perm (l l' : List InstanceTopology) (hp : l.Perm l') :
    (sortSlice l).map sortKey = (sortSlice l').map sortKey := by
  have hperm : ((sortSlice l).map sortKey).Perm ((sortSlice l').map sortKey) :=
    (((sortSlice_perm l).trans hp).trans (sortSlice_perm l').symm).map sortKey
  have hs : ∀ x : List InstanceTopology, List.Sorted (fun a b => a ≤ b)
      ((sortSlice x).map sortKey) := by
    intro x
    have h : List.Pairwise (fun a b => sortKey a ≤ sortKey b) (sortSlice x) :=
      (sortSlice_sorted x).imp (fun {a b} hab => (notAfter_iff a b).1 hab)
    exact (List.pairwise_map (f := sortKey) (R := fun x y => x ≤ y)).2 h
  exact List.eq_of_perm_of_sorted hperm (hs l) (hs l')

theorem eq_of_map_eq_of_injOn {α β : Type} (f : α → β) (l : List α) :
    ∀ (l' : List α), (∀ x ∈ l, ∀ y ∈ l', f x = f y → x = y) → l.map f = l'.map f → l = l' := by
  induction l with
  | nil =>
    intro l' _ h
    cases l' with
    | nil => rfl
    | cons b t => simp at h
  | cons a rest ih =>
    intro l' hinj h
    cases l' with
    | nil => simp at h
    | cons b t =>
      simp only [List.map_cons, List.cons.injEq] at h
      have hab : a = b := hinj a (List.mem_cons_self _ _) b (List.mem_cons_self _ _) h.1
      rw [hab, ih t (fun x hx y hy => hinj x (List.mem_cons_of_mem _ hx) y
        (List.mem_cons_of_mem _ hy)) h.2]

/-- C14, counterexample. Two records with the same four IDs and different
AcceleratorIDs: the comparison does not tell them apart, so each input order is
left as it is and the two normalized lists differ at the first position. -/
theorem equal_keys_keep_input_order :
    List.Perm [(⟨"i1", "acc1", "", "b1", "", "s1", "", "d1", ""⟩ : InstanceTopology),
        ⟨"i1", "acc2", "", "b1", "", "s1", "", "d1", ""⟩]
      [⟨"i1", "acc2", "", "b1", "", "s1", "", "d1", ""⟩,
        ⟨"i1", "acc1", "", "b1", "", "s1", "", "d1", ""⟩] ∧
    Normalize [⟨"i1", "acc1", "", "b1", "", "s1", "", "d1", ""⟩,
        ⟨"i1", "acc2", "", "b1", "", "s1", "", "d1", ""⟩] ≠
      Normalize [⟨"i1", "acc2", "", "b1", "", "s1", "", "d1", ""⟩,
        ⟨"i1", "acc1", "", "b1", "", "s1", "", "d1", ""⟩] :=
  ⟨List.Perm.swap _ _ _, by decide⟩

/-- C14, amended. Normalizing a permutation of a record list yields, position by
position, the same (DatacenterID, SpineID, BlockID, InstanceID) and the same
BlockName, SpineName and DatacenterName as normalizing the list; and when no two
records of the list have the same (DatacenterID, SpineID, BlockID, InstanceID), the
two normalized lists are the same sequence of records. -/
theorem Normalize_order_insensitive (l l' : List InstanceTopology) (hp : l.Perm l') :
    (Normalize l).map keyAndNames = (Normalize l').map keyAndNames ∧
    ((l.map sortKey).Nodup → Normalize l = Normalize l') := by
  have hk := sortSlice_keys_of_perm l l' hp
  refine ⟨nameLoop_congr_key _ _ _ hk, ?_⟩
  intro hnd
  have hinj := List.inj_on_of_nodup_map hnd
  have hs : sortSlice l = sortSlice l' := by
    refine eq_of_map_eq_of_injOn sortKey _ _ ?_ hk
    intro x hx y hy hxy
    have hx' : x ∈ l := (sortSlice_perm l).mem_iff.1 hx
    have hy' : y ∈ l := hp.mem_iff.2 ((sortSlice_perm l').mem_iff.1 hy)
    exact hinj hx' hy' hxy
  unfold Normalize
  rw [hs]

/-- The witness for the amended C14: two records in both orders. -/
theorem Normalize_order_insensitive_witness :
    (Normalize [⟨"i2", "", "", "b2", "", "s1", "", "d1", ""⟩,
        ⟨"i1", "", "", "b1", "", "s1", "", "d1", ""⟩]).map keyAndNames =
      (Normalize [⟨"i1", "", "", "b1", "", "s1", "", "d1", ""⟩,
        ⟨"i2", "", "", "b2", "", "s1", "", "d1", ""⟩]).map keyAndNames ∧
    (([⟨"i2", "", "", "b2", "", "s1", "", "d1", ""⟩,
        ⟨"i1", "", "", "b1", "", "s1", "", "d1", ""⟩].map sortKey).Nodup →
      Normalize [⟨"i2", "", "", "b2", "", "s1", "", "d1", ""⟩,
        ⟨"i1", "", "", "b1", "", "s1", "", "d1", ""⟩] =
      Normalize [⟨"i1", "", "", "b1", "", "s1", "", "d1", ""⟩,
        ⟨"i2", "", "", "b2", "", "s1", "", "d1", ""⟩]) :=
  Normalize_order_insensitive _ _ (List.Perm.swap _ _ _)

/-! ### Normalize: what the naming loop has seen -/

theorem nameBlock_spec (st : NormState) (seen : List String) (r : InstanceTopology)
    (hinv : ∀ k, st.switches.get? k = if k ∈ seen then some "" else none) :
    (nameBlock st r).2 = { r with BlockName :=
      if r.BlockID ∈ seen then "" else switchName blockBand (st.blockCount + 1) } ∧
    (nameBlock st r).1.blockCount =
      (if r.BlockID ∈ seen then st.blockCount else st.blockCount + 1) ∧
    (nameBlock st r).1.spineCount = st.spineCount ∧
    (nameBlock st r).1.datacenterCount = st.datacenterCount ∧
    (∀ k, (nameBlock st r).1.switches.get? k =
      if k ∈ r.BlockID :: seen then some "" else none) := by
  have e := hinv r.BlockID
  unfold nameBlock
  by_cases hb : r.BlockID ∈ seen
  · rw [if_pos hb] at e
    simp only [e, hb, if_true]
    refine ⟨trivial, trivial, trivial, trivial, ?_⟩
    intro k
    rw [hinv]
    by_cases hk : k = r.BlockID
    · subst hk; simp [hb]
    · simp [hk]
  · rw [if_neg hb] at e
    simp only [e, hb, if_false]
    refine ⟨trivial, trivial, trivial, trivial, ?_⟩
    intro k
    rw [GoMap.get?_put, hinv]
    by_cases hk : r.BlockID = k
    · subst hk; simp
    · have hk' : ¬ k = r.BlockID := fun e => hk e.symm
      simp [hk, hk']

theorem nameSpine_spec (st : NormState) (seen : List String) (r : InstanceTopology)
    (hinv : ∀ k, st.switches.get? k = if k ∈ seen then some "" else none) :
    (nameSpine st r).2 = { r with SpineName :=
      if r.SpineID ∈ seen then "" else switchName spineBand (st.spineCount + 1) } ∧
    (nameSpine st r).1.blockCount = st.blockCount ∧
    (nameSpine st r).1.spineCount =
      (if r.SpineID ∈ seen then st.spineCount else st.spineCount + 1) ∧
    (nameSpine st r).1.datacenterCount = st.datacenterCount ∧
    (∀ k, (nameSpine st r).1.switches.get? k =
      if k ∈ r.SpineID :: seen then some "" else none) := by
  have e := hinv r.SpineID
  unfold nameSpine
  by_cases hb : r.SpineID ∈ seen
  · rw [if_pos hb] at e
    simp only [e, hb, if_true]
    refine ⟨trivial, trivial, trivial, trivial, ?_⟩
    intro k
    rw [hinv]
    by_cases hk : k = r.SpineID
    · subst hk; simp [hb]
    · simp [hk]
  · rw [if_neg hb] at e
    simp only [e, hb, if_false]
    refine ⟨trivial, trivial, trivial, trivial, ?_⟩
    intro k
    rw [GoMap.get?_put, hinv]
    by_cases hk : r.SpineID = k
    · subst hk; simp
    · have hk' : ¬ k = r.SpineID := fun e => hk e.symm
      simp [hk, hk']

/-- The datacenter branch stores under the SpineID, which the spine branch has
stored already: the set of seen strings stays as it is. -/
theorem nameDatacenter_spec (st : NormState) (seen : List String) (r : InstanceTopology)
    (hinv : ∀ k, st.switches.get? k = if k ∈ seen then some "" else none)
    (hS : r.SpineID ∈ seen) :
    (nameDatacenter st r).2 = { r with DatacenterName :=
      if r.DatacenterID ∈ seen then "" else switchName datacenterBand (st.datacenterCount + 1) } ∧
    (nameDatacenter st r).1.blockCount = st.blockCount ∧
    (nameDatacenter st r).1.spineCount = st.spineCount ∧
    (nameDatacenter st r).1.datacenterCount =
      (if r.DatacenterID ∈ seen then st.datacenterCount else st.datacenterCount + 1) ∧
    (∀ k, (nameDatacenter st r).1.switches.get? k =
      if k ∈ seen then some "" else none) := by
  have e := hinv r.DatacenterID
  unfold nameDatacenter
  by_cases hb : r.DatacenterID ∈ seen
  · rw [if_pos hb] at e
    simp only [e, hb, if_true]
    exact ⟨trivial, trivial, trivial, trivial, hinv⟩
  · rw [if_neg hb] at e
    simp only [e, hb, if_false]
    refine ⟨trivial, trivial, trivial, trivial, ?_⟩
    intro k
    rw [GoMap.get?_put, hinv]
    by_cases hk : r.SpineID = k
    · subst hk; simp [hS]
    · simp [hk]

/-- One iteration of the naming loop in terms of the strings seen so far, for any
record: a field is named with the next ordinal of its band exactly when its string
is none of the BlockIDs and SpineIDs met before it, the empty string included; the
BlockID and the SpineID of the record are seen from then on, the DatacenterID is
not. -/
theorem nameStep_spec (st : NormState) (seen : List String) (r : InstanceTopology)
    (hinv : ∀ k, st.switches.get? k = if k ∈ seen then some "" else none) :
    (nameStep st r).2.BlockName =
      (if r.BlockID ∈ seen then "" else switchName blockBand (st.blockCount + 1)) ∧
    (nameStep st r).1.blockCount =
      (if r.BlockID ∈ seen then st.blockCount else st.blockCount + 1) ∧
    (nameStep st r).2.SpineName =
      (if r.SpineID ∈ r.BlockID :: seen then ""
        else switchName spineBand (st.spineCount + 1)) ∧
    (nameStep st r).1.spineCount =
      (if r.SpineID ∈ r.BlockID :: seen then st.spineCount else st.spineCount + 1) ∧
    (nameStep st r).2.DatacenterName =
      (if r.DatacenterID ∈ r.SpineID :: r.BlockID :: seen then ""
        else switchName datacenterBand (st.datacenterCount + 1)) ∧
    (nameStep st r).1.datacenterCount =
      (if r.DatacenterID ∈ r.SpineID :: r.BlockID :: seen then st.datacenterCount
        else st.datacenterCount + 1) ∧
    (∀ k, (nameStep st r).1.switches.get? k =
      if k ∈ r.SpineID :: r.BlockID :: seen then some "" else none) := by
  obtain ⟨b1, b2, b3, b4, b5⟩ := nameBlock_spec st seen r hinv
  obtain ⟨s1, s2, s3, s4, s5⟩ := nameSpine_spec (nameBlock st r).1 (r.BlockID :: seen)
    (nameBlock st r).2 b5
  have hsid : (nameBlock st r).2.SpineID = r.SpineID := by rw [b1]
  have hsid2 : (nameSpine (nameBlock st r).1 (nameBlock st r).2).2.SpineID = r.SpineID := by
    rw [s1, b1]
  have hdid : (nameSpine (nameBlock st r).1 (nameBlock st r).2).2.DatacenterID =
      r.DatacenterID := by
    rw [s1, b1]
  rw [hsid] at s1 s3 s5
  obtain ⟨d1, d2, d3, d4, d5⟩ := nameDatacenter_spec (nameSpine (nameBlock st r).1
    (nameBlock st r).2).1 (r.SpineID :: r.BlockID :: seen)
    (nameSpine (nameBlock st r).1 (nameBlock st r).2).2 s5
    (by rw [hsid2]; exact List.mem_cons_self _ _)
  rw [hdid] at d1 d4
  rw [b3] at s1
  rw [s4, b4] at d1
  have e : nameStep st r = nameDatacenter (nameSpine (nameBlock st r).1 (nameBlock st r).2).1
      (nameSpine (nameBlock st r).1 (nameBlock st r).2).2 := rfl
  rw [e]
  refine ⟨?_, ?_, ?_, ?_, ?_, ?_, d5⟩
  · exact (congrArg InstanceTopology.BlockName d1).trans
      ((congrArg InstanceTopology.BlockName s1).trans (congrArg InstanceTopology.BlockName b1))
  · rw [d2, s2, b2]
  · exact (congrArg InstanceTopology.SpineName d1).trans (congrArg InstanceTopology.SpineName s1)
  · rw [d3, s3, b3]
  · exact congrArg InstanceTopology.DatacenterName d1
  · rw [d4, s4, b4]

/-! ### Normalize when the tiers share no ID -/

theorem tierNames_congr (band : Nat) (l : List String) :
    ∀ (seen seen' : List String) (count : Nat), (∀ k, k ∈ seen ↔ k ∈ seen') →
      tierNames band seen count l = tierNames band seen' count l := by
  induction l with
  | nil => intro _ _ _ _; rfl
  | cons id rest ih =>
    intro seen seen' count h
    simp only [tierNames, h id]
    split
    · rw [ih seen seen' count h]
    · rw [ih (id :: seen) (id :: seen') (count + 1) (fun k => by simp [h k])]

theorem tierNames_cons_mem (band : Nat) (l : List String) (seen : List String) (count : Nat)
    (id : String) (h : id ∈ seen) :
    tierNames band (id :: seen) count l = tierNames band seen count l :=
  tierNames_congr band l _ _ count (fun k => by
    simp only [List.mem_cons]
    constructor
    · rintro (rfl | hk)
      · exact h
      · exact hk
    · exact Or.inr)

theorem nameLoop_blockSpine (l : List InstanceTopology) :
    ∀ (st : NormState) (seen seenB seenS : List String),
      (∀ k, st.switches.get? k = if k ∈ seen then some "" else none) →
      (∀ k, k ∈ seen ↔ k ∈ seenB ∨ k ∈ seenS) →
      (∀ r ∈ l, r.BlockID ∉ seenS ∧ r.SpineID ∉ seenB) →
      BlockSpineApart l →
      (nameLoop st l).map (fun r => r.BlockName) =
        tierNames blockBand seenB st.blockCount (l.map (fun r => r.BlockID)) ∧
      (nameLoop st l).map (fun r => r.SpineName) =
        tierNames spineBand seenS st.spineCount (l.map (fun r => r.SpineID)) := by
  induction l with
  | nil =>
    intro st seen seenB seenS _ _ _ _
    exact ⟨rfl, rfl⟩
  | cons r rest ih =>
    intro st seen seenB seenS hinv hmem hseen hap
    obtain ⟨hB, hS⟩ := hseen r (List.mem_cons_self _ _)
    have hBS := hap r (List.mem_cons_self _ _) r (List.mem_cons_self _ _)
    obtain ⟨e1, e2, e3, e4, -, -, hinv'⟩ := nameStep_spec st seen r hinv
    have mB : r.BlockID ∈ seen ↔ r.BlockID ∈ seenB := by
      rw [hmem]
      exact ⟨fun h => h.resolve_right hB, Or.inl⟩
    have mS : r.SpineID ∈ r.BlockID :: seen ↔ r.SpineID ∈ seenS := by
      rw [List.mem_cons, hmem]
      constructor
      · rintro (h | h | h)
        · exact absurd h.symm hBS
        · exact absurd h hS
        · exact h
      · exact fun h => Or.inr (Or.inr h)
    have hmem' : ∀ k, k ∈ r.SpineID :: r.BlockID :: seen ↔
        k ∈ r.BlockID :: seenB ∨ k ∈ r.SpineID :: seenS := by
      intro k
      simp only [List.mem_cons, hmem]
      tauto
    have hseen' : ∀ x ∈ rest, x.BlockID ∉ r.SpineID :: seenS ∧
        x.SpineID ∉ r.BlockID :: seenB := by
      intro x hx
      obtain ⟨a1, a2⟩ := hseen x (List.mem_cons_of_mem _ hx)
      have b1 := hap x (List.mem_cons_of_mem _ hx) r (List.mem_cons_self _ _)
      have c1 := hap r (List.mem_cons_self _ _) x (List.mem_cons_of_mem _ hx)
      refine ⟨?_, ?_⟩
      · simp only [List.mem_cons, not_or]; exact ⟨b1, a1⟩
      · simp only [List.mem_cons, not_or]; exact ⟨fun e => c1 e.symm, a2⟩
    have hap' : BlockSpineApart rest := fun x hx y hy =>
      hap x (List.mem_cons_of_mem _ hx) y (List.mem_cons_of_mem _ hy)
    obtain ⟨i1, i2⟩ := ih (nameStep st r).1 (r.SpineID :: r.BlockID :: seen)
      (r.BlockID :: seenB) (r.SpineID :: seenS) hinv' hmem' hseen' hap'
    refine ⟨?_, ?_⟩
    · simp only [nameLoop, List.map_cons, tierNames, i1, e1, e2, mB]
      split
      · rename_i hm
        rw [tierNames_cons_mem _ _ _ _ _ hm]
      · rfl
    · simp only [nameLoop, List.map_cons, tierNames, i2, e3, e4, mS]
      split
      · rename_i hm
        rw [tierNames_cons_mem _ _ _ _ _ hm]
      · rfl

theorem nameLoop_datacenter (l : List InstanceTopology) :
    ∀ (st : NormState) (seen : List String),
      (∀ k, st.switches.get? k = if k ∈ seen then some "" else none) →
      (∀ r ∈ l, r.DatacenterID ∉ seen) →
      DatacenterApart l →
      (nameLoop st l).map (fun r => r.DatacenterName) =
        (List.range l.length).map (fun i => switchName datacenterBand
          (st.datacenterCount + 1 + i)) := by
  induction l with
  | nil =>
    intro st seen _ _ _
    rfl
  | cons r rest ih =>
    intro st seen hinv hseen hap
    obtain ⟨hDB, hDS⟩ := hap r (List.mem_cons_self _ _) r (List.mem_cons_self _ _)
    have hD := hseen r (List.mem_cons_self _ _)
    obtain ⟨-, -, -, -, e5, e6, hinv'⟩ := nameStep_spec st seen r hinv
    have mD : r.DatacenterID ∉ r.SpineID :: r.BlockID :: seen := by
      simp only [List.mem_cons, not_or]
      exact ⟨hDS, hDB, hD⟩
    rw [if_neg mD] at e5 e6
    have hseen' : ∀ x ∈ rest, x.DatacenterID ∉ r.SpineID :: r.BlockID :: seen := by
      intro x hx
      obtain ⟨c1, c2⟩ := hap x (List.mem_cons_of_mem _ hx) r (List.mem_cons_self _ _)
      simp only [List.mem_cons, not_or]
      exact ⟨c2, c1, hseen x (List.mem_cons_of_mem _ hx)⟩
    have hap' : DatacenterApart rest := fun x hx y hy =>
      hap x (List.mem_cons_of_mem _ hx) y (List.mem_cons_of_mem _ hy)
    have i3 := ih (nameStep st r).1 (r.SpineID :: r.BlockID :: seen) hinv' hseen' hap'
    simp only [nameLoop, List.map_cons, List.length_cons, i3, e5, e6, List.range_succ_eq_map,
      List.map_map, Nat.add_zero]
    congr 1
    apply List.map_congr_left
    intro i _
    simp only [Function.comp_apply]
    congr 1
    omega

theorem blockSpineApart_of_perm {l l' : List InstanceTopology} (hp : l.Perm l')
    (h : BlockSpineApart l) : BlockSpineApart l' :=
  fun x hx y hy => h x (hp.mem_iff.2 hx) y (hp.mem_iff.2 hy)

theorem datacenterApart_of_perm {l l' : List InstanceTopology} (hp : l.Perm l')
    (h : DatacenterApart l) : DatacenterApart l' :=
  fun x hx y hy => h x (hp.mem_iff.2 hx) y (hp.mem_iff.2 hy)

/-- The block and spine names `Normalize` gives when no string, the empty one
included, is both a BlockID and a SpineID: they are `tierNames` of the IDs of the
tier in sorted order. -/
theorem Normalize_blockSpine (l : List InstanceTopology) (h : BlockSpineApart l) :
    (Normalize l).map (fun r => r.BlockName) =
      tierNames blockBand [] 0 ((sortSlice l).map (fun r => r.BlockID)) ∧
    (Normalize l).map (fun r => r.SpineName) =
      tierNames spineBand [] 0 ((sortSlice l).map (fun r => r.SpineID)) :=
  nameLoop_blockSpine (sortSlice l) ⟨0, 0, 0, []⟩ [] [] []
    (fun k => by simp [GoMap.get?]) (fun k => by simp) (fun r _ => by simp)
    (blockSpineApart_of_perm (sortSlice_perm l).symm h)

/-- The datacenter names `Normalize` gives when no DatacenterID, the empty one
included, is a BlockID or a SpineID: the record at position `i` of the sorted list
has switch.3.(i+1). -/
theorem Normalize_datacenter (l : List InstanceTopology) (h : DatacenterApart l) :
    (Normalize l).map (fun r => r.DatacenterName) =
      (List.range l.length).map (fun i => switchName datacenterBand (0 + 1 + i)) := by
  have key := nameLoop_datacenter (sortSlice l) ⟨0, 0, 0, []⟩ []
    (fun k => by simp [GoMap.get?]) (fun r _ => by simp)
    (datacenterApart_of_perm (sortSlice_perm l).symm h)
  rw [(sortSlice_perm l).length_eq] at key
  exact key

theorem blockSpineApart_of_disjoint (l : List InstanceTopology) (h : TiersDisjoint ⟨l⟩)
    (he : EmptyNotShared l) : BlockSpineApart l := by
  intro r hr r' hr' e
  by_cases hx : r.BlockID = ""
  · rcases he with he | he
    · exact he (List.mem_map.2 ⟨r, hr, hx⟩)
    · exact he (List.mem_map.2 ⟨r', hr', by rw [← e, hx]⟩)
  · have hb : r.BlockID ∈ blockIDs ⟨l⟩ := by
      simp only [blockIDs, List.mem_filter, List.mem_map]
      exact ⟨⟨r, hr, rfl⟩, by simpa using hx⟩
    have hs : r.BlockID ∈ spineIDs ⟨l⟩ := by
      simp only [spineIDs, List.mem_filter, List.mem_map]
      exact ⟨⟨r', hr', e.symm⟩, by simpa using hx⟩
    exact (h.1 _ hb).1 hs

theorem datacenterApart_of_disjoint (l : List InstanceTopology) (h : TiersDisjoint ⟨l⟩)
    (he : EmptyDatacenterApart l) : DatacenterApart l := by
  intro r hr r' hr'
  by_cases hx : r.DatacenterID = ""
  · refine ⟨fun e => ?_, fun e => ?_⟩
    · rcases he with he | he
      · exact he (List.mem_map.2 ⟨r, hr, hx⟩)
      · exact he.1 (List.mem_map.2 ⟨r', hr', by rw [← e, hx]⟩)
    · rcases he with he | he
      · exact he (List.mem_map.2 ⟨r, hr, hx⟩)
      · exact he.2 (List.mem_map.2 ⟨r', hr', by rw [← e, hx]⟩)
  · have hd : r.DatacenterID ∈ datacenterIDs ⟨l⟩ := by
      simp only [datacenterIDs, List.mem_filter, List.mem_map]
      exact ⟨⟨r, hr, rfl⟩, by simpa using hx⟩
    refine ⟨fun e => ?_, fun e => ?_⟩
    · have hb : r.DatacenterID ∈ blockIDs ⟨l⟩ := by
        simp only [blockIDs, List.mem_filter, List.mem_map]
        exact ⟨⟨r', hr', e.symm⟩, by simpa using hx⟩
      exact (h.1 _ hb).2 hd
    · have hs : r.DatacenterID ∈ spineIDs ⟨l⟩ := by
        simp only [spineIDs, List.mem_filter, List.mem_map]
        exact ⟨⟨r', hr', e.symm⟩, by simpa using hx⟩
      exact h.2 _ hs hd

theorem map_ids_Normalize (l : List InstanceTopology) :
    (Normalize l).map (fun r => r.BlockID) = (sortSlice l).map (fun r => r.BlockID) ∧
    (Normalize l).map (fun r => r.SpineID) = (sortSlice l).map (fun r => r.SpineID) ∧
    (Normalize l).map (fun r => r.DatacenterID) =
      (sortSlice l).map (fun r => r.DatacenterID) := by
  have h := map_stripNames_nameLoop ⟨0, 0, 0, []⟩ (sortSlice l)
  refine ⟨?_, ?_, ?_⟩
  · have := congrArg (List.map (fun r : InstanceTopology => r.BlockID)) h
    simpa [List.map_map, Function.comp_def, stripNames, Normalize] using this
  · have := congrArg (List.map (fun r : InstanceTopology => r.SpineID)) h
    simpa [List.map_map, Function.comp_def, stripNames, Normalize] using this
  · have := congrArg (List.map (fun r : InstanceTopology => r.DatacenterID)) h
    simpa [List.map_map, Function.comp_def, stripNames, Normalize] using this

/-- C13, counterexample. A single record whose BlockID, SpineID and DatacenterID
are the same string: only the BlockName is a generated name. The empty string of an
unset field is looked up like any other: `tierlessThenSpine` and
`blockOnlyThenSpine` share no non-empty ID between tiers and have the same SpineIDs
in sorted order, yet the spine s is named switch.2.1 in the first and switch.2.2 in
the second; `blockOnlyThenSpine` and `twoTierRecords` have the same DatacenterIDs in
sorted order, yet the first gets no datacenter name and the second gets
switch.3.1 and switch.3.2. -/
theorem shared_string_counts_as_seen :
    (Normalize [⟨"i1", "", "", "x", "", "x", "", "x", ""⟩]).map
      (fun r => (r.BlockName, r.SpineName, r.DatacenterName)) = [("switch.1.1", "", "")] ∧
    TiersDisjoint ⟨tierlessThenSpine⟩ ∧ TiersDisjoint ⟨blockOnlyThenSpine⟩ ∧
    TiersDisjoint ⟨twoTierRecords⟩ ∧
    (Normalize tierlessThenSpine).map (fun r => r.SpineID) =
      (Normalize blockOnlyThenSpine).map (fun r => r.SpineID) ∧
    (Normalize tierlessThenSpine).map (fun r => r.SpineName) = ["", "switch.2.1"] ∧
    (Normalize blockOnlyThenSpine).map (fun r => r.SpineName) = ["switch.2.1", "switch.2.2"] ∧
    (Normalize blockOnlyThenSpine).map (fun r => r.DatacenterID) =
      (Normalize twoTierRecords).map (fun r => r.DatacenterID) ∧
    (Normalize blockOnlyThenSpine).map (fun r => r.DatacenterName) = ["", ""] ∧
    (Normalize twoTierRecords).map (fun r => r.DatacenterName) =
      ["switch.3.1", "switch.3.2"] := by
  decide

/-- C13, amended. `Normalize` keeps one map of seen strings for the three tiers
and looks the empty string of an unset field up like any other ID. Take two record
lists in each of which no string is the non-empty ID of two different tiers. If
neither list has both an empty BlockID and an empty SpineID, the names given in the
block tier and in the spine tier depend only on the IDs of that tier in sorted
order: equal BlockIDs in sorted order give equal BlockNames, and likewise for the
SpineIDs. If neither list has an empty DatacenterID together with an empty BlockID
or SpineID, equal DatacenterIDs in sorted order give equal DatacenterNames. A string
already seen as the ID of another tier counts as seen: for a single record whose
three IDs are the same string, BlockName is switch.1.1 and SpineName and
DatacenterName are not switch.2.1 and switch.3.1. -/
theorem tiers_named_apart (l1 l2 : List InstanceTopology) (h1 : TiersDisjoint ⟨l1⟩)
    (h2 : TiersDisjoint ⟨l2⟩) :
    (EmptyNotShared l1 → EmptyNotShared l2 →
      ((Normalize l1).map (fun r => r.BlockID) = (Normalize l2).map (fun r => r.BlockID) →
        (Normalize l1).map (fun r => r.BlockName) =
          (Normalize l2).map (fun r => r.BlockName)) ∧
      ((Normalize l1).map (fun r => r.SpineID) = (Normalize l2).map (fun r => r.SpineID) →
        (Normalize l1).map (fun r => r.SpineName) =
          (Normalize l2).map (fun r => r.SpineName))) ∧
    (EmptyDatacenterApart l1 → EmptyDatacenterApart l2 →
      (Normalize l1).map (fun r => r.DatacenterID) =
        (Normalize l2).map (fun r => r.DatacenterID) →
      (Normalize l1).map (fun r => r.DatacenterName) =
        (Normalize l2).map (fun r => r.DatacenterName)) ∧
    (∀ r : InstanceTopology, r.BlockID = r.SpineID → r.SpineID = r.DatacenterID →
      (Normalize [r]).map (fun x => x.BlockName) = ["switch.1.1"] ∧
      (Normalize [r]).map (fun x => x.SpineName) ≠ ["switch.2.1"] ∧
      (Normalize [r]).map (fun x => x.DatacenterName) ≠ ["switch.3.1"]) := by
  obtain ⟨c1, c2, c3⟩ := map_ids_Normalize l1
  obtain ⟨d1, d2, d3⟩ := map_ids_Normalize l2
  refine ⟨?_, ?_, ?_⟩
  · intro e1 e2
    obtain ⟨a1, a2⟩ := Normalize_blockSpine l1 (blockSpineApart_of_disjoint l1 h1 e1)
    obtain ⟨b1, b2⟩ := Normalize_blockSpine l2 (blockSpineApart_of_disjoint l2 h2 e2)
    refine ⟨?_, ?_⟩
    · intro h
      rw [a1, b1, ← c1, ← d1, h]
    · intro h
      rw [a2, b2, ← c2, ← d2, h]
  · intro e1 e2 h
    have a3 := Normalize_datacenter l1 (datacenterApart_of_disjoint l1 h1 e1)
    have b3 := Normalize_datacenter l2 (datacenterApart_of_disjoint l2 h2 e2)
    have hlen : l1.length = l2.length := by
      have := congrArg List.length h
      simp only [List.length_map] at this
      have e1 := congrArg List.length a3
      have e2 := congrArg List.length b3
      simp only [List.length_map, List.length_range] at e1 e2
      omega
    rw [a3, b3, hlen]
  · intro r hbs hsd
    obtain ⟨i, a, an, b, bn, s, sn, d, dn⟩ := r
    simp only at hbs hsd
    subst hbs
    subst hsd
    have hN : Normalize [⟨i, a, an, b, bn, b, sn, b, dn⟩] =
        [⟨i, a, an, b, "switch.1.1", b, "", b, ""⟩] := by
      simp [Normalize, sortSlice, nameLoop, nameStep, nameBlock, nameSpine, nameDatacenter,
        GoMap.get?, GoMap.put, GoMap.del]
      decide
    rw [hN]
    refine ⟨rfl, by simp, by simp⟩

theorem tiers_named_apart_witness :
    TiersDisjoint ⟨blockOnlyThenSpine⟩ ∧
    TiersDisjoint ⟨[⟨"j1", "", "", "b1", "", "s7", "", "d1", ""⟩,
      ⟨"j2", "", "", "b2", "", "s8", "", "d1", ""⟩]⟩ ∧
    EmptyNotShared blockOnlyThenSpine ∧
    EmptyNotShared [⟨"j1", "", "", "b1", "", "s7", "", "d1", ""⟩,
      ⟨"j2", "", "", "b2", "", "s8", "", "d1", ""⟩] ∧
    (Normalize blockOnlyThenSpine).map (fun r => r.BlockID) =
      (Normalize [⟨"j1", "", "", "b1", "", "s7", "", "d1", ""⟩,
        ⟨"j2", "", "", "b2", "", "s8", "", "d1", ""⟩]).map (fun r => r.BlockID) ∧
    (Normalize blockOnlyThenSpine).map (fun r => r.BlockName) =
      (Normalize [⟨"j1", "", "", "b1", "", "s7", "", "d1", ""⟩,
        ⟨"j2", "", "", "b2", "", "s8", "", "d1", ""⟩]).map (fun r => r.BlockName) :=
  ⟨by decide, by decide, by decide, by decide, by decide,
    (((tiers_named_apart blockOnlyThenSpine
      [⟨"j1", "", "", "b1", "", "s7", "", "d1", ""⟩, ⟨"j2", "", "", "b2", "", "s8", "", "d1", ""⟩]
      (by decide) (by decide)).1 (by decide) (by decide)).1 (by decide))⟩

/-! ### split -/

/-- The cases of `TestSplit` in `pkg/translate/output_test.go`. -/
theorem split_test_cases :
    split "" = ("", "") ∧ split "abc" = ("abc", "") ∧ split "12345" = ("", "12345") ∧
    split "0012345" = ("00", "12345") ∧ split "abc1203045" = ("abc", "1203045") ∧
    split "abc01203045" = ("abc0", "1203045") := by
  decide

theorem beforeDigits_append_trailingDigits (cs : List Char) :
    beforeDigits cs ++ trailingDigits cs = cs := by
  unfold beforeDigits trailingDigits
  rw [← List.reverse_append, List.takeWhile_append_dropWhile, List.reverse_reverse]

/-- C19. `split` is a total function, and the two parts it returns make up the
string it was given: for every string s, (split s).1 ++ (split s).2 = s. -/
theorem split_loses_nothing (s : String) : (split s).1 ++ (split s).2 = s := by
  apply String.ext
  simp only [split, String.data_append, List.append_assoc, List.takeWhile_append_dropWhile]
  exact beforeDigits_append_trailingDigits s.toList
theorem suffix_trailing_run (P : Char → Bool) (p q cs : List Char) (h : p ++ q = cs)
    (hq : ∀ c ∈ q, P c = true) : ∃ t, t ++ q = (cs.reverse.takeWhile P).reverse := by
  subst h
  refine ⟨(p.reverse.takeWhile P).reverse, ?_⟩
  rw [List.reverse_append, List.takeWhile_append_of_pos (fun a ha => hq a (List.mem_reverse.1 ha)),
    List.reverse_append, List.reverse_reverse]

theorem length_le_dropWhile (P : Char → Bool) (a : Char) (q : List Char) (ha : P a = false) :
    ∀ t : List Char, (a :: q).length ≤ ((t ++ a :: q).dropWhile P).length := by
  intro t
  induction t with
  | nil => simp [List.dropWhile, ha]
  | cons x t ih =>
    rw [List.cons_append, List.dropWhile_cons]
    split
    · exact ih
    · simp only [List.length_cons, List.length_append]
      omega

theorem mem_trailingDigits (cs : List Char) : ∀ c ∈ trailingDigits cs, c.isDigit = true := by
  intro c hc
  unfold trailingDigits at hc
  exact List.mem_takeWhile_imp (List.mem_reverse.1 hc)

theorem head?_dropWhile_zero (l : List Char) :
    (l.dropWhile (fun c => c == '0')).head? ≠ some '0' := by
  induction l with
  | nil => simp
  | cons x t ih =>
    simp only [List.dropWhile]
    split
    · exact ih
    · rename_i hx
      simp only [List.head?_cons, ne_eq, Option.some.injEq]
      intro e
      subst e
      simp at hx

theorem getLast?_beforeDigits (cs : List Char) :
    beforeDigits cs = [] ∨ ∃ c, (beforeDigits cs).getLast? = some c ∧ c.isDigit = false := by
  unfold beforeDigits
  rcases h : cs.reverse.dropWhile Char.isDigit with _ | ⟨x, t⟩
  · left; rfl
  · right
    refine ⟨x, by simp, ?_⟩
    have hne : cs.reverse.dropWhile Char.isDigit ≠ [] := by rw [h]; simp
    have := List.head_dropWhile_not Char.isDigit cs.reverse hne
    simp only [h, List.head_cons] at this
    simpa using this

theorem getLast?_takeWhile_zero (l : List Char) :
    l.takeWhile (fun c => c == '0') = [] ∨
      (l.takeWhile (fun c => c == '0')).getLast? = some '0' := by
  rcases h : (l.takeWhile (fun c => c == '0')).getLast? with _ | c
  · left
    simpa using h
  · right
    have hm : c ∈ l.takeWhile (fun c => c == '0') := List.mem_of_getLast?_eq_some h
    have := (List.mem_takeWhile_imp hm)
    simp only [beq_iff_eq] at this
    rw [this]

/-- C20. The shape of what `split` returns, for every string s: the suffix
consists of decimal digits only and does not start with the digit zero; the prefix
is empty or ends with a character that is not a digit or with the digit zero. The suffix
is the longest such end of s: no end of s made of digits and not starting with zero
is longer. When the trailing digit run of s is all zeros the suffix is empty. -/
theorem split_suffix_shape (s : String) :
    (∀ c ∈ (split s).2.toList, c.isDigit = true) ∧
    (split s).2.toList.head? ≠ some '0' ∧
    ((split s).1 = "" ∨ ∃ c, (split s).1.toList.getLast? = some c ∧
      (c.isDigit = false ∨ c = '0')) ∧
    (∀ p q : List Char, p ++ q = s.toList → (∀ c ∈ q, c.isDigit = true) →
      q.head? ≠ some '0' → q.length ≤ (split s).2.length) ∧
    ((∀ c ∈ trailingDigits s.toList, c = '0') → (split s).2 = "") := by
  refine ⟨?_, ?_, ?_, ?_, ?_⟩
  · intro c hc
    exact mem_trailingDigits s.toList c (List.dropWhile_sublist _ |>.subset hc)
  · exact head?_dropWhile_zero _
  · rcases getLast?_takeWhile_zero (trailingDigits s.toList) with hz | hz
    · rcases getLast?_beforeDigits s.toList with hb | ⟨c, hc, hd⟩
      · left
        apply String.ext
        simp only [split, hz, hb]
        rfl
      · right
        refine ⟨c, ?_, Or.inl hd⟩
        simp only [split, hz, List.append_nil]
        exact hc
    · right
      refine ⟨'0', ?_, Or.inr rfl⟩
      simp only [split]
      show (beforeDigits s.toList ++ _).getLast? = some '0'
      rw [List.getLast?_append, hz]
      rfl
  · intro p q hpq hq h0
    rcases q with _ | ⟨a, q⟩
    · exact Nat.zero_le _
    · obtain ⟨t, ht⟩ := suffix_trailing_run Char.isDigit p (a :: q) s.toList hpq hq
      have ha : (fun c : Char => c == '0') a = false := by
        simp only [List.head?_cons, ne_eq, Option.some.injEq] at h0
        simpa using h0
      have := length_le_dropWhile (fun c => c == '0') a q ha t
      rw [ht] at this
      exact this
  · intro hall
    apply String.ext
    simp only [split]
    show List.dropWhile _ _ = []
    rw [List.dropWhile_eq_nil_iff]
    intro c hc
    simp [hall c hc]

/-! ### Leaves and internal vertices -/

theorem linkSwitch_switchCells (Q : String → Prop) (h : Heap) (nodes : GoMap Ptr) (inst : Ptr)
    (swID swName : String) (vi : Vertex) (hi : h[inst]? = some vi)
    (hn : ∀ k p, nodes.get? k = some p → ∃ v, h[p]? = some v ∧ v.ID = k ∧ v.Vertices ≠ [])
    (hQ : Q swID) (hs : SwitchCells Q h) :
    SwitchCells Q (linkSwitch h nodes inst swID swName).1 := by
  obtain ⟨nm, md, oc, hsw, hother, -⟩ := linkSwitch_spec h nodes inst swID swName vi hi hn
  intro p v hv hne
  by_cases hp : p = (linkSwitch h nodes inst swID swName).2.2
  · subst hp
    rw [hsw] at hv
    have := Option.some.inj hv
    subst this
    exact hQ
  · rw [hother p hp] at hv
    exact hs p v hv hne

theorem linkSwitches_switchCells (M : GoMap String) (Q : String → Prop) (forest : GoMap Ptr)
    (i2n : GoMap String) (tiers : List (String × String)) :
    ∀ (h : Heap) (nodes : GoMap Ptr) (inst : Ptr) (vi : Vertex),
      WF M (fun _ => True) h forest nodes i2n → h[inst]? = some vi →
      (∀ t ∈ tiers, t.1 ≠ "" → Q t.1) → SwitchCells Q h →
      SwitchCells Q (linkSwitches h nodes inst tiers).1 := by
  induction tiers with
  | nil =>
    intro h nodes inst vi _ _ _ hs
    exact hs
  | cons t rest ih =>
    intro h nodes inst vi hw hi hQ hs
    obtain ⟨swID, swName⟩ := t
    simp only [linkSwitches]
    by_cases hz : swID.length = 0
    · rw [if_pos hz]
      exact hs
    · rw [if_neg hz]
      have hne : swID ≠ "" := fun e => hz (by rw [e]; rfl)
      obtain ⟨hw1, ⟨v1, hv1, -⟩, -⟩ := linkSwitch_wf M (fun _ => True) h forest nodes i2n inst
        swID swName vi hw hi trivial
      exact ih _ _ _ v1 hw1 hv1 (fun t ht => hQ t (List.mem_cons_of_mem _ ht))
        (linkSwitch_switchCells Q h nodes inst swID swName vi hi hw.nodes_ok
          (hQ (swID, swName) (List.mem_cons_self _ _) hne) hs)

theorem switchCells_alloc_leaf (Q : String → Prop) (h : Heap) (id name : String)
    (hs : SwitchCells Q h) : SwitchCells Q (h.alloc ⟨id, name, [], []⟩).1 := by
  intro p v hv hne
  by_cases hp : p < h.length
  · rw [Heap.getElem?_alloc_lt h _ p hp] at hv
    exact hs p v hv hne
  · have hlt := Heap.lt_length_of_getElem? _ p v hv
    rw [Heap.length_alloc] at hlt
    have hp' : p = h.length := Nat.le_antisymm (Nat.lt_succ_iff.1 hlt) (Nat.le_of_not_lt hp)
    subst hp'
    have hself := Heap.getElem?_alloc_self h ⟨id, name, [], []⟩
    simp only [Heap.alloc] at hself hv
    rw [hself] at hv
    have := Option.some.inj hv
    subst this
    exact absurd rfl hne

theorem buildStep_switchCells (M : GoMap String) (Q : String → Prop) (st : BuildState)
    (r : InstanceTopology) (hw : WF M (fun _ => True) st.heap st.forest st.nodes st.i2n)
    (hQ : ∀ t ∈ swPairs r, t.1 ≠ "" → Q t.1) (hs : SwitchCells Q st.heap) :
    SwitchCells Q (buildStep st r).heap := by
  unfold buildStep
  cases hg : st.i2n.get? r.InstanceID with
  | none => exact hs
  | some name =>
    simp only
    have hw1 := wf_alloc_leaf M (fun _ => True) st.heap st.forest st.nodes st.i2n r.InstanceID
      name hw trivial hg
    exact linkSwitches_switchCells M Q st.forest (st.i2n.del r.InstanceID) (swPairs r) _
      st.nodes _ _ hw1 (Heap.getElem?_alloc_self st.heap ⟨r.InstanceID, name, [], []⟩) hQ
      (switchCells_alloc_leaf Q st.heap r.InstanceID name hs)

theorem foldl_buildStep_switchCells (M : GoMap String) (Q : String → Prop)
    (l : List InstanceTopology) (hQ : ∀ r ∈ l, ∀ t ∈ swPairs r, t.1 ≠ "" → Q t.1) :
    ∀ st : BuildState, WF M (fun _ => True) st.heap st.forest st.nodes st.i2n →
      SwitchCells Q st.heap → SwitchCells Q (l.foldl buildStep st).heap := by
  induction l with
  | nil => intro st _ hs; exact hs
  | cons r rest ih =>
    intro st hw hs
    simp only [List.foldl_cons]
    exact ih (fun x hx => hQ x (List.mem_cons_of_mem _ hx)) _
      (buildStep_wf M (fun _ => True) st r hw trivial (fun _ _ _ => trivial)).1
      (buildStep_switchCells M Q st r hw (hQ r (List.mem_cons_self _ _)) hs)

theorem mem_switchIDs (c : ClusterTopology) (normalize : Bool) (r : InstanceTopology)
    (hr : r ∈ processed c normalize) : ∀ t ∈ swPairs r, t.1 ≠ "" → t.1 ∈ switchIDs c := by
  obtain ⟨r', hr', hs⟩ := mem_processed_stripNames c normalize r hr
  have e2 : r'.BlockID = r.BlockID := by
    have := congrArg (fun x : InstanceTopology => x.BlockID) hs
    exact this
  have e3 : r'.SpineID = r.SpineID := by
    have := congrArg (fun x : InstanceTopology => x.SpineID) hs
    exact this
  have e4 : r'.DatacenterID = r.DatacenterID := by
    have := congrArg (fun x : InstanceTopology => x.DatacenterID) hs
    exact this
  intro t ht hne
  simp only [swPairs, List.mem_cons, List.mem_singleton, List.not_mem_nil, or_false] at ht
  simp only [switchIDs, blockIDs, spineIDs, datacenterIDs, List.mem_append, List.mem_filter,
    List.mem_map, decide_eq_true_eq]
  rcases ht with rfl | rfl | rfl
  · exact Or.inl (Or.inl ⟨⟨r', hr', e2⟩, hne⟩)
  · exact Or.inl (Or.inr ⟨⟨r', hr', e3⟩, hne⟩)
  · exact Or.inr ⟨⟨r', hr', e4⟩, hne⟩

theorem mainLoop_switchCells (c : ClusterTopology) (cis : List ComputeInstances)
    (normalize : Bool) :
    SwitchCells (fun k => k ∈ switchIDs c) (mainLoop c cis normalize).heap := by
  unfold mainLoop
  refine foldl_buildStep_switchCells (mergeInstances cis) _ (processed c normalize)
    (fun r hr => mem_switchIDs c normalize r hr) _
    (wf_init _ _ (mergeInstances_nodup cis)) ?_
  intro p v hv
  simp at hv

/-- Where a non-empty sequence of child keys leads from the tree forest root: to a
vertex allocated in the main loop, to the no-topology vertex, or to one of the
leaves below it. -/
theorem below_tree_root (c : ClusterTopology) (provider : String) (cis : List ComputeInstances)
    (normalize : Bool) (P : String → Prop)
    (hw : WF (mergeInstances cis) P (mainLoop c cis normalize).heap
      (mainLoop c cis normalize).forest (mainLoop c cis normalize).nodes
      (mainLoop c cis normalize).i2n) :
    ∃ rp t, (ToThreeTierGraph c provider cis normalize).root = some rp ∧
      (ToThreeTierGraph c provider cis normalize).heap.child rp TopologyTree = some t ∧
      (∀ p, p < (mainLoop c cis normalize).heap.length →
        (ToThreeTierGraph c provider cis normalize).heap[p]? =
          (mainLoop c cis normalize).heap[p]?) ∧
      ∀ (path : List String) (q : Ptr), path ≠ [] →
        (ToThreeTierGraph c provider cis normalize).heap.walk t path = some q →
        q < (mainLoop c cis normalize).heap.length ∨
        (∃ vsw : Vertex, (ToThreeTierGraph c provider cis normalize).heap[q]? = some vsw ∧
          vsw.ID = NoTopology ∧ vsw.Vertices ≠ []) ∨
        (∃ k n, (mainLoop c cis normalize).i2n.get? k = some n ∧
          (ToThreeTierGraph c provider cis normalize).heap[q]? = some ⟨k, n, [], []⟩) := by
  obtain ⟨rp, t, vt, hroot, hchild, hvt, -, hlow, hcases⟩ :=
    final_graph c provider cis normalize _ hw
  refine ⟨rp, t, hroot, hchild, hlow, ?_⟩
  intro path q hne hwalk
  have hclosed : ∀ (p : Ptr) (v : Vertex) (k : String) (q : Ptr),
      p < (mainLoop c cis normalize).heap.length →
      (ToThreeTierGraph c provider cis normalize).heap[p]? = some v →
      v.Vertices.get? k = some q → q < (mainLoop c cis normalize).heap.length := by
    intro p v k q hp hv hk
    rw [hlow p hp] at hv
    obtain ⟨w, hw0, -⟩ := hw.links_ok p v k q hv hk
    exact Heap.lt_length_of_getElem? _ q w hw0
  have hmain : ∀ (k1 : String) (rest : List String) (p1 : Ptr),
      (mainLoop c cis normalize).forest.get? k1 = some p1 →
      (ToThreeTierGraph c provider cis normalize).heap.walk p1 rest = some q →
      q < (mainLoop c cis normalize).heap.length := by
    intro k1 rest p1 hf hwalk1
    obtain ⟨w, hw1, -⟩ := hw.forest_ok k1 p1 hf
    exact Heap.walk_closed _ _ hclosed rest p1 q (Heap.lt_length_of_getElem? _ p1 w hw1) hwalk1
  cases path with
  | nil => exact absurd rfl hne
  | cons k1 rest =>
    simp only [Heap.walk, Heap.child, hvt] at hwalk
    rcases hcases with ⟨-, hget⟩ | ⟨-, hget, vsw, hvsw, hsid, -, hsne, hnone, hsome⟩
    · rw [hget] at hwalk
      cases hf : (mainLoop c cis normalize).forest.get? k1 with
      | none => rw [hf] at hwalk; simp at hwalk
      | some p1 =>
        rw [hf] at hwalk
        exact Or.inl (hmain k1 rest p1 hf hwalk)
    · rw [hget] at hwalk
      by_cases hk1 : NoTopology = k1
      · rw [if_pos hk1] at hwalk
        simp only at hwalk
        cases rest with
        | nil =>
          simp only [Heap.walk] at hwalk
          have := Option.some.inj hwalk
          subst this
          exact Or.inr (Or.inl ⟨vsw, hvsw, hsid, hsne⟩)
        | cons k2 rest2 =>
          simp only [Heap.walk, Heap.child, hvsw] at hwalk
          cases hc2 : (mainLoop c cis normalize).i2n.get? k2 with
          | none =>
            rw [hnone k2 hc2] at hwalk
            simp at hwalk
          | some n2 =>
            obtain ⟨q2, hq1, -, hq3⟩ := hsome k2 n2 hc2
            rw [hq1] at hwalk
            simp only at hwalk
            obtain ⟨-, hq⟩ := Heap.walk_leaf _ q2 _ hq3 rfl rest2 q hwalk
            subst hq
            exact Or.inr (Or.inr ⟨k2, n2, hc2, hq3⟩)
      · rw [if_neg hk1] at hwalk
        cases hf : (mainLoop c cis normalize).forest.get? k1 with
        | none => rw [hf] at hwalk; simp at hwalk
        | some p1 =>
          rw [hf] at hwalk
          exact Or.inl (hmain k1 rest p1 hf hwalk)

/-- C17. For every input, every vertex of the returned graph that lies below the
tree forest root is either a leaf without children, with the ID and Name of an
entry of the instance to node map, or a vertex with at least one child whose ID is
a switch ID of a record or the reserved no-topology ID; and every vertex created
for a switch has at least one child in the returned graph. -/
theorem leaf_or_internal (c : ClusterTopology) (provider : String)
    (cis : List ComputeInstances) (normalize : Bool) :
    ∃ rp t, (ToThreeTierGraph c provider cis normalize).root = some rp ∧
      (ToThreeTierGraph c provider cis normalize).heap.child rp TopologyTree = some t ∧
      (∀ (path : List String) (q : Ptr), path ≠ [] →
        (ToThreeTierGraph c provider cis normalize).heap.walk t path = some q →
        ∃ v : Vertex, (ToThreeTierGraph c provider cis normalize).heap[q]? = some v ∧
          ((v = ⟨v.ID, v.Name, [], []⟩ ∧ (mergeInstances cis).get? v.ID = some v.Name) ∨
           (v.Vertices ≠ [] ∧ (v.ID ∈ switchIDs c ∨ v.ID = NoTopology)))) ∧
      (∀ (k : String) (p : Ptr), (mainLoop c cis normalize).nodes.get? k = some p →
        ∃ v : Vertex, (ToThreeTierGraph c provider cis normalize).heap[p]? = some v ∧
          v.ID = k ∧ v.Vertices ≠ []) := by
  have hw := mainLoop_wf_true c cis normalize
  have hs := mainLoop_switchCells c cis normalize
  obtain ⟨rp, t, hroot, hchild, hlow, hbelow⟩ := below_tree_root c provider cis normalize _ hw
  refine ⟨rp, t, hroot, hchild, ?_, ?_⟩
  · intro path q hne hwalk
    rcases hbelow path q hne hwalk with hq | ⟨vsw, hvsw, hsid, hsne⟩ | ⟨k, n, hk, hcell⟩
    · obtain ⟨v, hv⟩ : ∃ v, (mainLoop c cis normalize).heap[q]? = some v :=
        ⟨_, List.getElem?_eq_getElem hq⟩
      refine ⟨v, (hlow q hq).trans hv, ?_⟩
      rcases (hw.cells_ok q v hv).2 with hne' | ⟨he, hm, -⟩
      · exact Or.inr ⟨hne', Or.inl (hs q v hv hne')⟩
      · exact Or.inl ⟨he, hm⟩
    · exact ⟨vsw, hvsw, Or.inr ⟨hsne, Or.inr hsid⟩⟩
    · exact ⟨_, hcell, Or.inl ⟨rfl, hw.i2n_sub k n hk⟩⟩
  · intro k p hk
    obtain ⟨v, hv, hid, hne⟩ := hw.nodes_ok k p hk
    exact ⟨v, (hlow p (Heap.lt_length_of_getElem? _ p v hv)).trans hv, hid, hne⟩

/-! ### Child links fall in rank when the tiers share no ID -/

theorem linkSwitch_ranked (rk : String → Nat) (h : Heap) (nodes : GoMap Ptr) (inst : Ptr)
    (swID swName : String) (vi : Vertex) (hi : h[inst]? = some vi)
    (hn : ∀ k p, nodes.get? k = some p → ∃ v, h[p]? = some v ∧ v.ID = k ∧ v.Vertices ≠ [])
    (hr : Ranked rk h) (hrise : vi.Vertices = [] ∨ rk vi.ID < rk swID) :
    Ranked rk (linkSwitch h nodes inst swID swName).1 := by
  obtain ⟨nm, md, oc, hsw, hother, hold, hnew, -, -, hreg⟩ :=
    linkSwitch_spec h nodes inst swID swName vi hi hn
  generalize linkSwitch h nodes inst swID swName = r at *
  obtain ⟨h', nodes', sw⟩ := r
  simp only at hsw hother hold hnew hreg ⊢
  have target : ∀ (q : Ptr) (w0 : Vertex) (b : Nat), h[q]? = some w0 →
      (w0.Vertices = [] ∨ rk w0.ID < b) →
      ∃ w : Vertex, h'[q]? = some w ∧ (w.Vertices = [] ∨ rk w.ID < b) := by
    intro q w0 b hq hc
    by_cases hqs : q = sw
    · subst hqs
      obtain ⟨v, hv, -, hne⟩ := hn swID q (hreg w0 hq)
      rw [hq] at hv
      have := Option.some.inj hv
      subst this
      have hid : w0.ID = swID := by rw [hold w0 hq]
      rcases hc with hc | hc
      · exact absurd hc hne
      · exact ⟨_, hsw, Or.inr (by rw [hid] at hc; exact hc)⟩
    · exact ⟨w0, (hother q hqs).trans hq, hc⟩
  intro p v k q hv hk
  by_cases hps : p = sw
  · subst hps
    rw [hsw] at hv
    have := Option.some.inj hv
    subst this
    simp only at hk ⊢
    rw [GoMap.get?_put] at hk
    split at hk
    · have := Option.some.inj hk
      subst this
      exact target inst vi (rk swID) hi hrise
    · cases hold0 : h[p]? with
      | none =>
        rw [hnew hold0] at hk
        simp [GoMap.get?] at hk
      | some v0 =>
        have hv0 := hold v0 hold0
        subst hv0
        obtain ⟨w0, hw0, hc⟩ := hr p _ k q hold0 hk
        exact target q w0 (rk swID) hw0 hc
  · rw [hother p hps] at hv
    obtain ⟨w0, hw0, hc⟩ := hr p v k q hv hk
    exact target q w0 (rk v.ID) hw0 hc

theorem linkSwitches_ranked (M : GoMap String) (rk : String → Nat) (forest : GoMap Ptr)
    (i2n : GoMap String) (tiers : List (String × String)) :
    ∀ (h : Heap) (nodes : GoMap Ptr) (inst : Ptr) (vi : Vertex) (leaf : Bool),
      WF M (fun _ => True) h forest nodes i2n → h[inst]? = some vi →
      (leaf = true → vi.Vertices = []) → Rising rk leaf vi.ID tiers → Ranked rk h →
      Ranked rk (linkSwitches h nodes inst tiers).1 := by
  induction tiers with
  | nil =>
    intro h nodes inst vi leaf _ _ _ _ hr
    exact hr
  | cons t rest ih =>
    intro h nodes inst vi leaf hw hi hleaf hrise hr
    obtain ⟨swID, swName⟩ := t
    simp only [linkSwitches]
    by_cases hz : swID.length = 0
    · rw [if_pos hz]
      exact hr
    · rw [if_neg hz]
      simp only [Rising] at hrise
      rcases hrise with hz' | ⟨hstep, hrest⟩
      · exact absurd hz' hz
      · obtain ⟨hw1, ⟨v1, hv1, hid1⟩, -⟩ := linkSwitch_wf M (fun _ => True) h forest nodes i2n
          inst swID swName vi hw hi trivial
        refine ih _ _ _ v1 false hw1 hv1 (fun e => absurd e (by simp)) (by rw [hid1]; exact hrest)
          (linkSwitch_ranked rk h nodes inst swID swName vi hi hw.nodes_ok hr ?_)
        rcases hstep with hl | hlt
        · exact Or.inl (hleaf hl)
        · exact Or.inr hlt

theorem ranked_alloc_leaf (rk : String → Nat) (h : Heap) (id name : String)
    (hr : Ranked rk h) : Ranked rk (h.alloc ⟨id, name, [], []⟩).1 := by
  intro p v k q hv hk
  by_cases hp : p < h.length
  · rw [Heap.getElem?_alloc_lt h _ p hp] at hv
    obtain ⟨w, hw, hc⟩ := hr p v k q hv hk
    exact ⟨w, (Heap.getElem?_alloc_lt h _ q (Heap.lt_length_of_getElem? h q w hw)).trans hw, hc⟩
  · have hlt := Heap.lt_length_of_getElem? _ p v hv
    rw [Heap.length_alloc] at hlt
    have hp' : p = h.length := Nat.le_antisymm (Nat.lt_succ_iff.1 hlt) (Nat.le_of_not_lt hp)
    subst hp'
    have hself := Heap.getElem?_alloc_self h ⟨id, name, [], []⟩
    simp only [Heap.alloc] at hself hv
    rw [hself] at hv
    have := Option.some.inj hv
    subst this
    simp [GoMap.get?] at hk

theorem buildStep_ranked (M : GoMap String) (rk : String → Nat) (st : BuildState)
    (r : InstanceTopology) (hw : WF M (fun _ => True) st.heap st.forest st.nodes st.i2n)
    (hrise : Rising rk true r.InstanceID (swPairs r)) (hr : Ranked rk st.heap) :
    Ranked rk (buildStep st r).heap := by
  unfold buildStep
  cases hg : st.i2n.get? r.InstanceID with
  | none => exact hr
  | some name =>
    simp only
    have hw1 := wf_alloc_leaf M (fun _ => True) st.heap st.forest st.nodes st.i2n r.InstanceID
      name hw trivial hg
    exact linkSwitches_ranked M rk st.forest (st.i2n.del r.InstanceID) (swPairs r) _
      st.nodes _ _ true hw1 (Heap.getElem?_alloc_self st.heap ⟨r.InstanceID, name, [], []⟩)
      (fun _ => rfl) hrise (ranked_alloc_leaf rk st.heap r.InstanceID name hr)

theorem foldl_buildStep_ranked (M : GoMap String) (rk : String → Nat)
    (l : List InstanceTopology) (hrise : ∀ r ∈ l, Rising rk true r.InstanceID (swPairs r)) :
    ∀ st : BuildState, WF M (fun _ => True) st.heap st.forest st.nodes st.i2n →
      Ranked rk st.heap → Ranked rk (l.foldl buildStep st).heap := by
  induction l with
  | nil => intro st _ hr; exact hr
  | cons r rest ih =>
    intro st hw hr
    simp only [List.foldl_cons]
    exact ih (fun x hx => hrise x (List.mem_cons_of_mem _ hx)) _
      (buildStep_wf M (fun _ => True) st r hw trivial (fun _ _ _ => trivial)).1
      (buildStep_ranked M rk st r hw (hrise r (List.mem_cons_self _ _)) hr)

theorem tierOf_le (c : ClusterTopology) (id : String) : tierOf c id ≤ 3 := by
  unfold tierOf
  split
  · decide
  · split <;> decide

theorem rising_of_disjoint (c : ClusterTopology) (normalize : Bool) (hT : TiersDisjoint c)
    (r : InstanceTopology) (hr : r ∈ processed c normalize) :
    Rising (tierOf c) true r.InstanceID (swPairs r) := by
  obtain ⟨r', hr', hs⟩ := mem_processed_stripNames c normalize r hr
  have e2 : r'.BlockID = r.BlockID := by
    have := congrArg (fun x : InstanceTopology => x.BlockID) hs
    exact this
  have e3 : r'.SpineID = r.SpineID := by
    have := congrArg (fun x : InstanceTopology => x.SpineID) hs
    exact this
  have e4 : r'.DatacenterID = r.DatacenterID := by
    have := congrArg (fun x : InstanceTopology => x.DatacenterID) hs
    exact this
  have memB : r.BlockID ≠ "" → r.BlockID ∈ blockIDs c := fun hne => by
    simp only [blockIDs, List.mem_filter, List.mem_map, decide_eq_true_eq]
    exact ⟨⟨r', hr', e2⟩, hne⟩
  have memS : r.SpineID ≠ "" → r.SpineID ∈ spineIDs c := fun hne => by
    simp only [spineIDs, List.mem_filter, List.mem_map, decide_eq_true_eq]
    exact ⟨⟨r', hr', e3⟩, hne⟩
  have memD : r.DatacenterID ≠ "" → r.DatacenterID ∈ datacenterIDs c := fun hne => by
    simp only [datacenterIDs, List.mem_filter, List.mem_map, decide_eq_true_eq]
    exact ⟨⟨r', hr', e4⟩, hne⟩
  simp only [swPairs, Rising, and_true, true_or, true_and]
  by_cases hB : r.BlockID.length = 0
  · exact Or.inl hB
  · right
    by_cases hS : r.SpineID.length = 0
    · exact Or.inl hS
    · right
      have hB' : r.BlockID ≠ "" := fun e => hB ((length_eq_zero_iff _).2 e)
      have hS' : r.SpineID ≠ "" := fun e => hS ((length_eq_zero_iff _).2 e)
      have hSb : r.SpineID ∉ blockIDs c := fun hm => (hT.1 _ hm).1 (memS hS')
      have rB : tierOf c r.BlockID = 1 := by simp [tierOf, memB hB']
      have rS : tierOf c r.SpineID = 2 := by simp [tierOf, hSb, memS hS']
      refine ⟨by rw [rB, rS]; decide, ?_⟩
      by_cases hD : r.DatacenterID.length = 0
      · exact Or.inl hD
      · right
        have hD' : r.DatacenterID ≠ "" := fun e => hD ((length_eq_zero_iff _).2 e)
        have hDb : r.DatacenterID ∉ blockIDs c := fun hm => (hT.1 _ hm).2 (memD hD')
        have hDs : r.DatacenterID ∉ spineIDs c := fun hm => (hT.2 _ hm) (memD hD')
        have rD : tierOf c r.DatacenterID = 3 := by simp [tierOf, hDb, hDs]
        rw [rS, rD]
        decide

theorem mainLoop_ranked (c : ClusterTopology) (cis : List ComputeInstances) (normalize : Bool)
    (hT : TiersDisjoint c) : Ranked (tierOf c) (mainLoop c cis normalize).heap := by
  unfold mainLoop
  refine foldl_buildStep_ranked (mergeInstances cis) _ (processed c normalize)
    (fun r hr => rising_of_disjoint c normalize hT r hr) _
    (wf_init _ _ (mergeInstances_nodup cis)) ?_
  intro p v k q hv
  simp at hv

theorem upFrom_alloc_leaf (L : Nat) (h : Heap) (id name : String) (hu : UpFrom L h) :
    UpFrom L (h.alloc ⟨id, name, [], []⟩).1 := by
  intro p v k q hL hv hk
  by_cases hp : p < h.length
  · rw [Heap.getElem?_alloc_lt h _ p hp] at hv
    exact hu p v k q hL hv hk
  · have hlt := Heap.lt_length_of_getElem? _ p v hv
    rw [Heap.length_alloc] at hlt
    have hp' : p = h.length := Nat.le_antisymm (Nat.lt_succ_iff.1 hlt) (Nat.le_of_not_lt hp)
    subst hp'
    have hself := Heap.getElem?_alloc_self h ⟨id, name, [], []⟩
    simp only [Heap.alloc] at hself hv
    rw [hself] at hv
    have := Option.some.inj hv
    subst this
    simp [GoMap.get?] at hk

theorem upFrom_setChild (L : Nat) (h : Heap) (sw : Ptr) (key : String) (child : Ptr)
    (hlt : sw < L ∨ sw < child) (hu : UpFrom L h) : UpFrom L (h.setChild sw key child) := by
  intro p v k q hL hv hk
  by_cases hp : p = sw
  · subst hp
    cases hold : h[p]? with
    | none =>
      rw [Heap.getElem?_setChild_ne] at hv
      · rw [hold] at hv
        exact absurd hv (by simp)
      · intro _
        have := Heap.lt_length_of_getElem? _ p v hv
        rw [Heap.length_setChild] at this
        rw [List.getElem?_eq_none_iff] at hold
        exact absurd this (Nat.not_lt.2 hold)
    | some v0 =>
      rw [Heap.getElem?_setChild_self h p key child v0 hold] at hv
      have := Option.some.inj hv
      subst this
      simp only at hk
      rw [GoMap.get?_put] at hk
      split at hk
      · have := Option.some.inj hk
        subst this
        rcases hlt with hlt | hlt
        · exact absurd hL (Nat.not_le.2 hlt)
        · exact hlt
      · exact hu p v0 k q hL hold hk
  · rw [Heap.getElem?_setChild_ne h sw p key child hp] at hv
    exact hu p v k q hL hv hk

theorem upFrom_blockLeaves (L : Nat) (m : GoMap String) :
    ∀ (h : Heap) (sw : Ptr), sw < h.length → UpFrom L h → UpFrom L (blockLeaves h sw m) := by
  induction m with
  | nil => intro h sw _ hu; exact hu
  | cons e rest ih =>
    intro h sw hsw hu
    obtain ⟨k, v⟩ := e
    simp only [blockLeaves]
    refine ih _ sw ?_ (upFrom_setChild L _ sw k _ (Or.inr hsw) (upFrom_alloc_leaf L h k v hu))
    rw [Heap.length_setChild, Heap.length_alloc]
    exact Nat.lt_succ_of_lt hsw

theorem upFrom_blockVertices (L : Nat) (m : DomainMap) :
    ∀ (h : Heap) (blockRoot : Ptr), blockRoot < h.length → UpFrom L h →
      UpFrom L (blockVertices h blockRoot m) := by
  induction m with
  | nil => intro h b _ hu; exact hu
  | cons e rest ih =>
    intro h b hb hu
    obtain ⟨k, hosts⟩ := e
    simp only [blockVertices]
    have h1 := upFrom_alloc_leaf L h k "" hu
    have hl1 : (h.alloc ⟨k, "", [], []⟩).1.length = h.length + 1 := Heap.length_alloc _ _
    have h2 := upFrom_blockLeaves L hosts (h.alloc ⟨k, "", [], []⟩).1 (h.alloc ⟨k, "", [], []⟩).2
      (by rw [hl1]; exact Nat.lt_succ_self _) h1
    have hle := length_le_blockLeaves hosts (h.alloc ⟨k, "", [], []⟩).1
      (h.alloc ⟨k, "", [], []⟩).2
    refine ih _ b ?_ (upFrom_setChild L _ b k _ (Or.inr hb) h2)
    rw [Heap.length_setChild]
    exact lt_of_lt_of_le (lt_of_lt_of_le hb (by rw [hl1]; exact Nat.le_succ _)) hle

theorem upFrom_ToBlocks (L : Nat) (m : DomainMap) (h : Heap) (hu : UpFrom L h) :
    UpFrom L (m.ToBlocks h).1 := by
  unfold DomainMap.ToBlocks
  exact upFrom_blockVertices L m _ _ (by rw [Heap.length_alloc]; exact Nat.lt_succ_self _)
    (upFrom_alloc_leaf L h "" "" hu)

/-- The child links of the heap after the main loop and the no-topology block,
when the tiers share no ID: a link leads to a vertex without children, or it joins
two vertices of the main loop and the tier falls along it. -/
theorem forest_links (c : ClusterTopology) (cis : List ComputeInstances) (normalize : Bool)
    (hT : TiersDisjoint c) :
    (mainLoop c cis normalize).heap.length ≤ (buildForest c cis normalize).heap.length ∧
    (buildForest c cis normalize).forest.keys.Nodup ∧
    (∀ (k : String) (p : Ptr), (buildForest c cis normalize).forest.get? k = some p →
      p < (buildForest c cis normalize).heap.length) ∧
    (∀ (p : Ptr) (v : Vertex) (k : String) (q : Ptr),
      (buildForest c cis normalize).heap[p]? = some v → v.Vertices.get? k = some q →
      ∃ w : Vertex, (buildForest c cis normalize).heap[q]? = some w ∧
        (w.Vertices = [] ∨ (p < (mainLoop c cis normalize).heap.length ∧
          q < (mainLoop c cis normalize).heap.length ∧ tierOf c w.ID < tierOf c v.ID))) := by
  have hw := mainLoop_wf_true c cis normalize
  have hr := mainLoop_ranked c cis normalize hT
  have hbf : buildForest c cis normalize = addNoTopology (mainLoop c cis normalize) := rfl
  generalize mainLoop c cis normalize = st0 at hw hr hbf ⊢
  have hmainlink : ∀ (p : Ptr) (v : Vertex) (k : String) (q : Ptr),
      st0.heap[p]? = some v → v.Vertices.get? k = some q →
      ∃ w : Vertex, st0.heap[q]? = some w ∧
        (w.Vertices = [] ∨ (p < st0.heap.length ∧ q < st0.heap.length ∧
          tierOf c w.ID < tierOf c v.ID)) := by
    intro p v k q hv hk
    obtain ⟨w, hw0, hc⟩ := hr p v k q hv hk
    refine ⟨w, hw0, ?_⟩
    rcases hc with hc | hc
    · exact Or.inl hc
    · exact Or.inr ⟨Heap.lt_length_of_getElem? _ p v hv, Heap.lt_length_of_getElem? _ q w hw0, hc⟩
  rcases addNoTopology_spec (mergeInstances cis) _ st0 hw with ⟨-, hsame⟩ | hnt
  · rw [hsame] at hbf
    rw [hbf]
    refine ⟨le_refl _, hw.forest_nodup, ?_, hmainlink⟩
    intro k p hk
    obtain ⟨v, hv, -⟩ := hw.forest_ok k p hk
    exact Heap.lt_length_of_getElem? _ p v hv
  · obtain ⟨-, hforest, hlt, hframe, hleaves, vsw, hvsw, -, -, -, hnone, hsome⟩ := hnt
    rw [← hbf] at hforest hlt hframe hleaves hvsw hsome
    generalize buildForest c cis normalize = bf at hforest hlt hframe hleaves hvsw hsome ⊢
    refine ⟨le_of_lt hlt, ?_, ?_, ?_⟩
    · rw [hforest]
      exact GoMap.nodup_put _ _ _ hw.forest_nodup
    · intro k p hk
      rw [hforest, GoMap.get?_put] at hk
      split at hk
      · have := Option.some.inj hk
        subst this
        exact hlt
      · obtain ⟨v, hv, -⟩ := hw.forest_ok k p hk
        exact lt_trans (Heap.lt_length_of_getElem? _ p v hv) hlt
    · intro p v k q hv hk
      rcases Nat.lt_trichotomy p st0.heap.length with hp | hp | hp
      · rw [hframe p hp] at hv
        obtain ⟨w, hw0, hc⟩ := hmainlink p v k q hv hk
        exact ⟨w, (hframe q (Heap.lt_length_of_getElem? _ q w hw0)).trans hw0, hc⟩
      · subst hp
        rw [hvsw] at hv
        have := Option.some.inj hv
        subst this
        cases hc2 : st0.i2n.get? k with
        | none =>
          rw [hnone k hc2] at hk
          exact absurd hk (by simp)
        | some n =>
          obtain ⟨q2, hq1, -, hq3⟩ := hsome k n hc2
          rw [hq1] at hk
          have := Option.some.inj hk
          subst this
          exact ⟨_, hq3, Or.inl rfl⟩
      · obtain ⟨k0, n0, -, hcell⟩ := hleaves p v hp hv
        subst hcell
        simp [GoMap.get?] at hk

theorem upFrom_final (c : ClusterTopology) (provider : String) (cis : List ComputeInstances)
    (normalize : Bool) :
    UpFrom ((buildForest c cis normalize).heap.length + 2)
      (ToThreeTierGraph c provider cis normalize).heap := by
  generalize hst : buildForest c cis normalize = st
  unfold ToThreeTierGraph
  simp only [hst]
  generalize hh2 : copyForest (st.heap.alloc ⟨"", "", [], []⟩).1
    (st.heap.alloc ⟨"", "", [], []⟩).2 st.forest = h2
  have hl2 : h2.length = st.heap.length + 1 := by
    rw [← hh2, length_copyForest, Heap.length_alloc]
  have hr2 : (h2.alloc ⟨"", "", [], []⟩).2 = st.heap.length + 1 := by
    simp [Heap.alloc, hl2]
  generalize hh4 : (h2.alloc ⟨"", "", [], []⟩).1.setChild (h2.alloc ⟨"", "", [], []⟩).2
    TopologyTree (st.heap.alloc ⟨"", "", [], []⟩).2 = h4
  have hl4 : h4.length = st.heap.length + 2 := by
    rw [← hh4, Heap.length_setChild, Heap.length_alloc, hl2]
  have hu4 : UpFrom (st.heap.length + 2) h4 := by
    intro p v k q hL hv _
    have := Heap.lt_length_of_getElem? _ p v hv
    rw [hl4] at this
    exact absurd hL (Nat.not_le.2 this)
  split
  · refine upFrom_setChild _ _ _ _ _ (Or.inl ?_) (upFrom_ToBlocks _ _ _ hu4)
    rw [hr2]
    exact Nat.lt_succ_self _
  · exact hu4

theorem Heap.walk_rank_lt (H : Heap) (rank : Ptr → Nat)
    (hlink : ∀ (p : Ptr) (v : Vertex) (k : String) (q : Ptr), H[p]? = some v →
      v.Vertices.get? k = some q → rank q < rank p) :
    ∀ (path : List String) (p q : Ptr), path ≠ [] → H.walk p path = some q →
      rank q < rank p := by
  intro path
  induction path with
  | nil => intro p q hne; exact absurd rfl hne
  | cons k ks ih =>
    intro p q _ hwalk
    simp only [Heap.walk, Heap.child] at hwalk
    cases hv : H[p]? with
    | none => simp [hv] at hwalk
    | some v =>
      simp only [hv] at hwalk
      cases hc : v.Vertices.get? k with
      | none => simp [hc] at hwalk
      | some q1 =>
        simp only [hc] at hwalk
        have h1 := hlink p v k q1 hv hc
        cases ks with
        | nil =>
          simp only [Heap.walk] at hwalk
          have := Option.some.inj hwalk
          subst this
          exact h1
        | cons k2 ks2 =>
          exact lt_trans (ih q1 q (by simp) hwalk) h1

theorem graphRank_leaf (rk : String → Nat) (n0 n1 : Nat) (H : Heap) (p : Nat) (w : Vertex)
    (h : H[p]? = some w) (hl : w.Vertices = []) : graphRank rk n0 n1 H p = 0 := by
  simp [graphRank, h, hl]

theorem graphRank_inner (rk : String → Nat) (n0 n1 : Nat) (H : Heap) (p : Nat) (v : Vertex)
    (h : H[p]? = some v) (hne : v.Vertices ≠ []) :
    graphRank rk n0 n1 H p =
      if p < n0 then rk v.ID + 1 else if p < n1 then 1 else if p = n1 then 5
      else if p = n1 + 1 then H.length + 6 else H.length - p + 1 := by
  simp [graphRank, h, hne]

theorem graphRank_le (rk : String → Nat) (n0 n1 : Nat) (H : Heap) (q : Nat)
    (hrk : ∀ id, rk id ≤ 3) (hq : q ≤ n1) : graphRank rk n0 n1 H q ≤ 5 := by
  unfold graphRank
  cases H[q]? with
  | none => exact Nat.zero_le _
  | some w =>
    have := hrk w.ID
    simp only
    split_ifs <;> omega

theorem graphRank_le_length (rk : String → Nat) (n0 n1 : Nat) (H : Heap) (q : Nat)
    (hq : n1 + 1 < q) (hn : n0 ≤ n1) : graphRank rk n0 n1 H q ≤ H.length + 1 := by
  unfold graphRank
  cases H[q]? with
  | none => exact Nat.zero_le _
  | some w =>
    simp only
    split_ifs <;> omega

/-- The measure `graphRank` falls along every child link of the returned heap when
the tiers share no ID. -/
theorem graphRank_falls (c : ClusterTopology) (provider : String) (cis : List ComputeInstances)
    (normalize : Bool) (hT : TiersDisjoint c) (p : Nat) (v : Vertex) (k : String) (q : Nat)
    (hv : (ToThreeTierGraph c provider cis normalize).heap[p]? = some v)
    (hk : v.Vertices.get? k = some q) :
    graphRank (tierOf c) (mainLoop c cis normalize).heap.length
        (buildForest c cis normalize).heap.length
        (ToThreeTierGraph c provider cis normalize).heap q <
      graphRank (tierOf c) (mainLoop c cis normalize).heap.length
        (buildForest c cis normalize).heap.length
        (ToThreeTierGraph c provider cis normalize).heap p := by
  obtain ⟨hle, hnd, hfp, hlinks⟩ := forest_links c cis normalize hT
  obtain ⟨hlow, vt, hvt, -, -, hget⟩ := tree_root_spec c provider cis normalize hnd
  obtain ⟨rp, t, -, ht, hrp, hcell⟩ := root_cell c provider cis normalize
  have hup := upFrom_final c provider cis normalize
  generalize (ToThreeTierGraph c provider cis normalize).heap = H at *
  generalize (mainLoop c cis normalize).heap.length = n0 at *
  generalize hn1 : (buildForest c cis normalize).heap.length = n1 at *
  have hne : v.Vertices ≠ [] := by
    intro e
    rw [e] at hk
    simp [GoMap.get?] at hk
  have hrp' := graphRank_inner (tierOf c) n0 n1 H p v hv hne
  rw [hrp']
  have hle' : (n0 : Nat) ≤ n1 := hle
  by_cases h1 : p < n1
  · have hvb := (hlow p h1).symm.trans hv
    obtain ⟨w, hw0, hc⟩ := hlinks p v k q hvb hk
    have hq1 : q < n1 := by
      have := Heap.lt_length_of_getElem? _ q w hw0
      rw [hn1] at this
      exact this
    have hwH : H[q]? = some w := (hlow q hq1).trans hw0
    by_cases hwl : w.Vertices = []
    · rw [graphRank_leaf _ _ _ _ _ _ hwH hwl]
      split_ifs <;> omega
    · rcases hc with hc | ⟨hp0, hq0, hlt⟩
      · exact absurd hc hwl
      · rw [graphRank_inner _ _ _ _ _ _ hwH hwl]
        have hp0' : (p : Nat) < n0 := hp0
        have hq0' : (q : Nat) < n0 := hq0
        rw [if_pos hp0', if_pos hq0']
        exact Nat.succ_lt_succ hlt
  · by_cases h2 : p = n1
    · subst h2
      rw [hvt] at hv
      have := Option.some.inj hv
      subst this
      rw [hget] at hk
      have hq1 : (q : Nat) < p := hfp k q hk
      have := graphRank_le (tierOf c) n0 p H q (tierOf_le c) (le_of_lt hq1)
      have hb := graphRank_le (tierOf c) n0 p H q (tierOf_le c) (le_of_lt hq1)
      unfold graphRank at hb ⊢
      cases hq : H[q]? with
      | none =>
        simp only
        split_ifs <;> omega
      | some w =>
        have hw3 := tierOf_le c w.ID
        simp only
        split_ifs <;> omega
    · by_cases h3 : p = n1 + 1
      · subst h3
        have hrpe : rp = n1 + 1 := by rw [hrp, ht]
        have hq : q = n1 ∨ q = n1 + 2 := by
          rcases hcell with ⟨-, hc⟩ | ⟨-, hc⟩
          · rw [hrpe, hv] at hc
            have := Option.some.inj hc
            subst this
            simp only [GoMap.get?] at hk
            split at hk
            · left
              have := Option.some.inj hk
              rw [← this, ht]
            · simp at hk
          · rw [hrpe, hv] at hc
            have := Option.some.inj hc
            subst this
            simp only [GoMap.get?] at hk
            split at hk
            · right
              have := Option.some.inj hk
              rw [← this]
            · split at hk
              · left
                have := Option.some.inj hk
                rw [← this, ht]
              · simp at hk
        rcases hq with hq | hq
        · have := graphRank_le (tierOf c) n0 n1 H q (tierOf_le c) (le_of_eq hq)
          split_ifs <;> omega
        · have := graphRank_le_length (tierOf c) n0 n1 H q (by omega) hle'
          split_ifs <;> omega
      · have hL : n1 + 2 ≤ p := by omega
        have hpq : (p : Nat) < q := hup p v k q hL hv hk
        have hpl : (p : Nat) < H.length := Heap.lt_length_of_getElem? _ p v hv
        unfold graphRank
        cases hq : H[q]? with
        | none =>
          simp only
          split_ifs <;> omega
        | some w =>
          have hql : (q : Nat) < H.length := Heap.lt_length_of_getElem? _ q w hq
          simp only
          split_ifs <;> omega

/-- C18, counterexample. A mapped instance whose record uses the same string as
BlockID and SpineID: the switch vertex, at address 1, is stored among its own
children under its own ID, and is reached again from itself. -/
theorem switch_is_its_own_child :
    (ToThreeTierGraph ⟨[⟨"i1", "", "", "a", "", "a", "", "", ""⟩]⟩ "gcp"
      [⟨[("i1", "n1")]⟩] false).heap =
      [⟨"i1", "n1", [], []⟩, ⟨"a", "", [("a", 1), ("i1", 0)], []⟩, ⟨"", "", [("a", 1)], []⟩,
       ⟨"", "", [("tree", 2)], []⟩] ∧
    (ToThreeTierGraph ⟨[⟨"i1", "", "", "a", "", "a", "", "", ""⟩]⟩ "gcp"
      [⟨[("i1", "n1")]⟩] false).root = some 3 ∧
    (ToThreeTierGraph ⟨[⟨"i1", "", "", "a", "", "a", "", "", ""⟩]⟩ "gcp"
      [⟨[("i1", "n1")]⟩] false).heap.walk 3 ["tree", "a"] = some 1 ∧
    (ToThreeTierGraph ⟨[⟨"i1", "", "", "a", "", "a", "", "", ""⟩]⟩ "gcp"
      [⟨[("i1", "n1")]⟩] false).heap.walk 1 ["a"] = some 1 := by
  decide

/-- C18, amended. When no string is the non-empty ID of two different tiers, the
graph returned by `ToThreeTierGraph` has no cycles, for every instance to node
map: no vertex is reached from itself by a non-empty sequence of child links, and
in particular no vertex is its own child. -/
theorem no_cycle_when_tiers_disjoint (c : ClusterTopology) (provider : String)
    (cis : List ComputeInstances) (normalize : Bool) (hT : TiersDisjoint c) :
    (∀ (p : Ptr) (path : List String), path ≠ [] →
      (ToThreeTierGraph c provider cis normalize).heap.walk p path ≠ some p) ∧
    (∀ (p : Ptr) (k : String),
      (ToThreeTierGraph c provider cis normalize).heap.child p k ≠ some p) := by
  have key : ∀ (p : Ptr) (path : List String), path ≠ [] →
      (ToThreeTierGraph c provider cis normalize).heap.walk p path ≠ some p := by
    intro p path hne hwalk
    have := Heap.walk_rank_lt _ _
      (fun p v k q hv hk => graphRank_falls c provider cis normalize hT p v k q hv hk)
      path p p hne hwalk
    exact absurd this (Nat.lt_irrefl _)
  refine ⟨key, ?_⟩
  intro p k hc
  apply key p [k] (by simp)
  simp only [Heap.walk, hc]

theorem no_cycle_when_tiers_disjoint_witness :
    TiersDisjoint ⟨[⟨"i1", "", "", "b1", "", "s1", "", "d1", ""⟩,
      ⟨"i2", "", "", "b2", "", "s1", "", "d1", ""⟩]⟩ ∧
    ((∀ (p : Ptr) (path : List String), path ≠ [] →
      (ToThreeTierGraph ⟨[⟨"i1", "", "", "b1", "", "s1", "", "d1", ""⟩,
        ⟨"i2", "", "", "b2", "", "s1", "", "d1", ""⟩]⟩ "gcp"
        [⟨[("i1", "n1"), ("i2", "n2")]⟩] false).heap.walk p path ≠ some p) ∧
    (∀ (p : Ptr) (k : String),
      (ToThreeTierGraph ⟨[⟨"i1", "", "", "b1", "", "s1", "", "d1", ""⟩,
        ⟨"i2", "", "", "b2", "", "s1", "", "d1", ""⟩]⟩ "gcp"
        [⟨[("i1", "n1"), ("i2", "n2")]⟩] false).heap.child p k ≠ some p)) :=
  ⟨by decide, no_cycle_when_tiers_disjoint
    ⟨[⟨"i1", "", "", "b1", "", "s1", "", "d1", ""⟩, ⟨"i2", "", "", "b2", "", "s1", "", "d1", ""⟩]⟩
    "gcp" [⟨[("i1", "n1"), ("i2", "n2")]⟩] false (by decide)⟩

/-! ### Normalize: repetition and first-record ordinals -/

/-- C27. `Normalize` is idempotent: for every record list, normalizing the
normalized list gives the normalized list again, so the order of the records and
every BlockName, SpineName and DatacenterName are unchanged. -/
theorem Normalize_idempotent (l : List InstanceTopology) :
    Normalize (Normalize l) = Normalize l ∧
    (Normalize (Normalize l)).map keyAndNames = (Normalize l).map keyAndNames := by
  have h := Normalize_Normalize l
  exact ⟨h, by rw [h]⟩

theorem switchName_block (k : Nat) : switchName blockBand k = "switch.1." ++ toString k := by
  unfold switchName
  have h : "switch." ++ toString blockBand ++ "." = "switch.1." := by decide
  rw [h]

theorem switchName_spine (k : Nat) : switchName spineBand k = "switch.2." ++ toString k := by
  unfold switchName
  have h : "switch." ++ toString spineBand ++ "." = "switch.2." := by decide
  rw [h]

/-- The name `tierNames` gives to the first occurrence of an ID: the next ordinal
after those of the distinct IDs before it. -/
theorem tierNames_first (band : Nat) (x : String) (b : List String) :
    ∀ (a seen : List String) (count : Nat), x ∉ seen → x ∉ a →
      (tierNames band seen count (a ++ x :: b))[a.length]? =
        some (switchName band (count + (a.toFinset \ seen.toFinset).card + 1)) := by
  intro a
  induction a with
  | nil =>
    intro seen count hs _
    simp [tierNames, hs]
  | cons y a ih =>
    intro seen count hs ha
    have hxy : x ≠ y := fun e => ha (by rw [e]; exact List.mem_cons_self _ _)
    have ha' : x ∉ a := fun hm => ha (List.mem_cons_of_mem _ hm)
    simp only [List.cons_append, tierNames]
    by_cases hy : y ∈ seen
    · rw [if_pos hy]
      simp only [List.length_cons, List.getElem?_cons_succ]
      rw [List.append_eq, ih seen count hs ha']
      have e : (y :: a).toFinset \ seen.toFinset = a.toFinset \ seen.toFinset := by
        ext z
        simp only [List.toFinset_cons, Finset.mem_sdiff, Finset.mem_insert, List.mem_toFinset]
        constructor
        · rintro ⟨rfl | hz, hn⟩
          · exact absurd hy hn
          · exact ⟨hz, hn⟩
        · rintro ⟨hz, hn⟩
          exact ⟨Or.inr hz, hn⟩
      rw [e]
    · rw [if_neg hy]
      simp only [List.length_cons, List.getElem?_cons_succ]
      have hs' : x ∉ y :: seen := by
        simp only [List.mem_cons, not_or]
        exact ⟨hxy, hs⟩
      rw [List.append_eq, ih (y :: seen) (count + 1) hs' ha']
      have e : (y :: a).toFinset \ seen.toFinset =
          insert y (a.toFinset \ (y :: seen).toFinset) := by
        ext z
        simp only [List.toFinset_cons, Finset.mem_sdiff, Finset.mem_insert, List.mem_toFinset,
          not_or]
        constructor
        · rintro ⟨rfl | hz, hn⟩
          · exact Or.inl rfl
          · by_cases hzy : z = y
            · exact Or.inl hzy
            · exact Or.inr ⟨hz, hzy, hn⟩
        · rintro (rfl | ⟨hz, -, hn⟩)
          · exact ⟨Or.inl rfl, hy⟩
          · exact ⟨Or.inr hz, hn⟩
      have hnot : y ∉ a.toFinset \ (y :: seen).toFinset := by
        simp
      rw [e, Finset.card_insert_of_not_mem hnot]
      congr 2
      omega

theorem tierNames_first_nil (band : Nat) (a : List String) (x : String) (b : List String)
    (ha : x ∉ a) :
    (tierNames band [] 0 (a ++ x :: b))[a.length]? =
      some (switchName band (a.dedup.length + 1)) := by
  rw [tierNames_first band x b a [] 0 (by simp) ha]
  simp [List.card_toFinset]
/-- The ordinals of first records when no string, the empty one included, is both
a BlockID and a SpineID: a record that is the first to carry its BlockID has
BlockName switch.1.k, where k - 1 is the number of distinct BlockIDs before it, and
likewise for the SpineID; an empty ID is counted like any other. -/
theorem block_spine_ordinals (l : List InstanceTopology) (h : BlockSpineApart l)
    (pre post : List InstanceTopology) (r : InstanceTopology)
    (hsplit : Normalize l = pre ++ r :: post) :
    ((∀ x ∈ pre, x.BlockID ≠ r.BlockID) →
      r.BlockName = "switch.1." ++ toString ((pre.map (fun x => x.BlockID)).dedup.length + 1)) ∧
    ((∀ x ∈ pre, x.SpineID ≠ r.SpineID) →
      r.SpineName = "switch.2." ++ toString ((pre.map (fun x => x.SpineID)).dedup.length + 1)) := by
  obtain ⟨a1, a2⟩ := Normalize_blockSpine l h
  obtain ⟨c1, c2, -⟩ := map_ids_Normalize l
  rw [← c1] at a1
  rw [← c2] at a2
  rw [hsplit] at a1 a2
  simp only [List.map_append, List.map_cons] at a1 a2
  constructor
  · intro hfirst
    have hx : r.BlockID ∉ pre.map (fun x => x.BlockID) := by
      intro hm
      obtain ⟨x, hx, he⟩ := List.mem_map.1 hm
      exact hfirst x hx he
    have h1 := tierNames_first_nil blockBand (pre.map (fun x => x.BlockID)) r.BlockID
      (post.map (fun x => x.BlockID)) hx
    rw [← a1, List.length_map] at h1
    have h2 : (List.map (fun r => r.BlockName) pre ++
        r.BlockName :: List.map (fun r => r.BlockName) post)[pre.length]? = some r.BlockName := by
      rw [List.getElem?_append_right (by simp)]
      simp
    rw [h2] at h1
    rw [← switchName_block]
    exact Option.some.inj h1
  · intro hfirst
    have hx : r.SpineID ∉ pre.map (fun x => x.SpineID) := by
      intro hm
      obtain ⟨x, hx, he⟩ := List.mem_map.1 hm
      exact hfirst x hx he
    have h1 := tierNames_first_nil spineBand (pre.map (fun x => x.SpineID)) r.SpineID
      (post.map (fun x => x.SpineID)) hx
    rw [← a2, List.length_map] at h1
    have h2 : (List.map (fun r => r.SpineName) pre ++
        r.SpineName :: List.map (fun r => r.SpineName) post)[pre.length]? = some r.SpineName := by
      rw [List.getElem?_append_right (by simp)]
      simp
    rw [h2] at h1
    rw [← switchName_spine]
    exact Option.some.inj h1

theorem exists_first_with (p : InstanceTopology → Prop) [DecidablePred p]
    (l : List InstanceTopology) (h : ∃ x ∈ l, p x) :
    ∃ pre r post, l = pre ++ r :: post ∧ p r ∧ ∀ x ∈ pre, ¬ p x := by
  induction l with
  | nil =>
    obtain ⟨x, hx, -⟩ := h
    simp at hx
  | cons a rest ih =>
    by_cases ha : p a
    · exact ⟨[], a, rest, rfl, ha, fun x hx => by simp at hx⟩
    · obtain ⟨x, hx, hp⟩ := h
      have hx' : x ∈ rest := by
        rcases List.mem_cons.1 hx with e | e
        · subst e; exact absurd hp ha
        · exact e
      obtain ⟨pre, r, post, e, hr, hpre⟩ := ih ⟨x, hx', hp⟩
      refine ⟨a :: pre, r, post, by rw [e]; rfl, hr, ?_⟩
      intro y hy
      rcases List.mem_cons.1 hy with e' | e'
      · subst e'; exact ha
      · exact hpre y e'

/-- The record at a given place of the naming loop, for any list: its IDs are those
of the input record; its BlockName is empty when its BlockID is a BlockID or a
SpineID of a record before it, and its SpineName is empty when its SpineID is its
own BlockID or a BlockID or a SpineID of a record before it. -/
theorem nameLoop_at (a : List InstanceTopology) :
    ∀ (st : NormState) (seen : List String),
      (∀ k, st.switches.get? k = if k ∈ seen then some "" else none) →
      ∀ (r : InstanceTopology) (b : List InstanceTopology),
        ∃ (r' : InstanceTopology) (post : List InstanceTopology),
          nameLoop st (a ++ r :: b) = nameLoop st a ++ r' :: post ∧
          r'.BlockID = r.BlockID ∧ r'.SpineID = r.SpineID ∧
          ((r.BlockID ∈ seen ∨ ∃ x ∈ a, x.BlockID = r.BlockID ∨ x.SpineID = r.BlockID) →
            r'.BlockName = "") ∧
          ((r.SpineID = r.BlockID ∨ r.SpineID ∈ seen ∨
              ∃ x ∈ a, x.BlockID = r.SpineID ∨ x.SpineID = r.SpineID) →
            r'.SpineName = "") := by
  induction a with
  | nil =>
    intro st seen hinv r b
    obtain ⟨e1, -, e3, -, -, -, -⟩ := nameStep_spec st seen r hinv
    have hs0 := congrArg (fun u : InstanceTopology => u.BlockID) (stripNames_nameStep st r)
    have hs0' := congrArg (fun u : InstanceTopology => u.SpineID) (stripNames_nameStep st r)
    have hs : (nameStep st r).2.BlockID = r.BlockID := hs0
    have hs' : (nameStep st r).2.SpineID = r.SpineID := hs0'
    refine ⟨(nameStep st r).2, nameLoop (nameStep st r).1 b, rfl, hs, hs', ?_, ?_⟩
    · intro h
      have hm : r.BlockID ∈ seen := by
        rcases h with h | ⟨x, hx, -⟩
        · exact h
        · simp at hx
      rw [e1, if_pos hm]
    · intro h
      have hm : r.SpineID ∈ r.BlockID :: seen := by
        rcases h with h | h | ⟨x, hx, -⟩
        · rw [h]; exact List.mem_cons_self _ _
        · exact List.mem_cons_of_mem _ h
        · simp at hx
      rw [e3, if_pos hm]
  | cons y a ih =>
    intro st seen hinv r b
    obtain ⟨-, -, -, -, -, -, hinv'⟩ := nameStep_spec st seen y hinv
    obtain ⟨r', post, e, i1, i2, i3, i4⟩ :=
      ih (nameStep st y).1 (y.SpineID :: y.BlockID :: seen) hinv' r b
    refine ⟨r', post, ?_, i1, i2, ?_, ?_⟩
    · have e' : nameLoop st ((y :: a) ++ r :: b) =
          (nameStep st y).2 :: nameLoop (nameStep st y).1 (a ++ r :: b) := rfl
      rw [e', e]
      rfl
    · intro h
      apply i3
      rcases h with h | ⟨x, hx, hp⟩
      · exact Or.inl (List.mem_cons_of_mem _ (List.mem_cons_of_mem _ h))
      · rcases List.mem_cons.1 hx with rfl | hx
        · rcases hp with hp | hp
          · left; rw [← hp]; simp
          · left; rw [← hp]; simp
        · exact Or.inr ⟨x, hx, hp⟩
    · intro h
      apply i4
      rcases h with h | h | ⟨x, hx, hp⟩
      · exact Or.inl h
      · exact Or.inr (Or.inl (List.mem_cons_of_mem _ (List.mem_cons_of_mem _ h)))
      · rcases List.mem_cons.1 hx with rfl | hx
        · rcases hp with hp | hp
          · right; left; rw [← hp]; simp
          · right; left; rw [← hp]; simp
        · exact Or.inr (Or.inr ⟨x, hx, hp⟩)

theorem nameLoop_ids (st : NormState) (a : List InstanceTopology) (z : InstanceTopology)
    (hz : z ∈ nameLoop st a) : ∃ y ∈ a, y.BlockID = z.BlockID ∧ y.SpineID = z.SpineID := by
  have hm : stripNames z ∈ (nameLoop st a).map stripNames := List.mem_map.2 ⟨z, hz, rfl⟩
  rw [map_stripNames_nameLoop] at hm
  obtain ⟨y, hy, e⟩ := List.mem_map.1 hm
  have e1 := congrArg (fun u : InstanceTopology => u.BlockID) e
  have e2 := congrArg (fun u : InstanceTopology => u.SpineID) e
  exact ⟨y, hy, e1, e2⟩

/-- When a string, the empty one included, is both a BlockID and a SpineID of the
list, some record that is the first to carry its BlockID gets the empty BlockName,
or some record that is the first to carry its SpineID gets the empty SpineName: the
ordinals of first records fail on every such list. -/
theorem shared_id_gets_no_name (l : List InstanceTopology) (h : ¬ BlockSpineApart l) :
    ∃ pre r post, Normalize l = pre ++ r :: post ∧
      (((∀ x ∈ pre, x.BlockID ≠ r.BlockID) ∧ r.BlockName = "") ∨
       ((∀ x ∈ pre, x.SpineID ≠ r.SpineID) ∧ r.SpineName = "")) := by
  have hs : ¬ BlockSpineApart (sortSlice l) := fun h' =>
    h (blockSpineApart_of_perm (sortSlice_perm l) h')
  unfold BlockSpineApart at hs
  push_neg at hs
  obtain ⟨rb, hrb, rs, hrs, hx⟩ := hs
  have hinv : ∀ k, (⟨0, 0, 0, []⟩ : NormState).switches.get? k =
      if k ∈ ([] : List String) then some "" else none := fun k => by simp [GoMap.get?]
  obtain ⟨a, r0, b, e0, hp0, ha⟩ := exists_first_with
    (fun y => y.BlockID = rb.BlockID ∨ y.SpineID = rb.BlockID) (sortSlice l) ⟨rb, hrb, Or.inl rfl⟩
  by_cases hsp : r0.SpineID = rb.BlockID
  · by_cases hbl : r0.BlockID = rb.BlockID
    · -- the record carries the string in both fields
      obtain ⟨r', post, e, i1, i2, -, i4⟩ := nameLoop_at a ⟨0, 0, 0, []⟩ [] hinv r0 b
      refine ⟨nameLoop ⟨0, 0, 0, []⟩ a, r', post, by rw [Normalize, e0, e], Or.inr ⟨?_, ?_⟩⟩
      · intro z hz ez
        obtain ⟨y, hy, -, e2⟩ := nameLoop_ids _ a z hz
        exact ha y hy (Or.inr (by rw [e2, ez, i2, hsp]))
      · exact i4 (Or.inl (by rw [hsp, hbl]))
    · -- the string is the SpineID here and the BlockID of a later record
      have hin : ∃ y ∈ b, y.BlockID = rb.BlockID := by
        have hm : rb ∈ a ++ r0 :: b := by rw [← e0]; exact hrb
        rcases List.mem_append.1 hm with hm | hm
        · exact absurd (Or.inl rfl) (ha rb hm)
        · rcases List.mem_cons.1 hm with hm | hm
          · subst hm; exact absurd rfl hbl
          · exact ⟨rb, hm, rfl⟩
      obtain ⟨b1, r1, b2, e1, hp1, hb1⟩ := exists_first_with
        (fun y => y.BlockID = rb.BlockID) b hin
      have e2 : sortSlice l = (a ++ r0 :: b1) ++ r1 :: b2 := by rw [e0, e1]; simp
      obtain ⟨r', post, e, i1, i2, i3, -⟩ :=
        nameLoop_at (a ++ r0 :: b1) ⟨0, 0, 0, []⟩ [] hinv r1 b2
      refine ⟨nameLoop ⟨0, 0, 0, []⟩ (a ++ r0 :: b1), r', post, by rw [Normalize, e2, e],
        Or.inl ⟨?_, ?_⟩⟩
      · intro z hz ez
        obtain ⟨y, hy, e3, -⟩ := nameLoop_ids _ _ z hz
        have hyb : y.BlockID = rb.BlockID := by rw [e3, ez, i1, hp1]
        rcases List.mem_append.1 hy with hy | hy
        · exact ha y hy (Or.inl hyb)
        · rcases List.mem_cons.1 hy with hy | hy
          · subst hy; exact hbl hyb
          · exact hb1 y hy hyb
      · refine i3 (Or.inr ⟨r0, by simp, Or.inr ?_⟩)
        rw [hsp, hp1]
  · -- the string is the BlockID here and the SpineID of a later record
    have hbl : r0.BlockID = rb.BlockID := hp0.resolve_right hsp
    have hin : ∃ y ∈ b, y.SpineID = rb.BlockID := by
      have hm : rs ∈ a ++ r0 :: b := by rw [← e0]; exact hrs
      rcases List.mem_append.1 hm with hm | hm
      · exact absurd (Or.inr hx.symm) (ha rs hm)
      · rcases List.mem_cons.1 hm with hm | hm
        · subst hm; exact absurd hx.symm hsp
        · exact ⟨rs, hm, hx.symm⟩
    obtain ⟨b1, r1, b2, e1, hp1, hb1⟩ := exists_first_with
      (fun y => y.SpineID = rb.BlockID) b hin
    have e2 : sortSlice l = (a ++ r0 :: b1) ++ r1 :: b2 := by rw [e0, e1]; simp
    obtain ⟨r', post, e, i1, i2, -, i4⟩ :=
      nameLoop_at (a ++ r0 :: b1) ⟨0, 0, 0, []⟩ [] hinv r1 b2
    refine ⟨nameLoop ⟨0, 0, 0, []⟩ (a ++ r0 :: b1), r', post, by rw [Normalize, e2, e],
      Or.inr ⟨?_, ?_⟩⟩
    · intro z hz ez
      obtain ⟨y, hy, -, e3⟩ := nameLoop_ids _ _ z hz
      have hys : y.SpineID = rb.BlockID := by rw [e3, ez, i2, hp1]
      rcases List.mem_append.1 hy with hy | hy
      · exact ha y hy (Or.inr hys)
      · rcases List.mem_cons.1 hy with hy | hy
        · subst hy; exact hsp hys
        · exact hb1 y hy hys
    · refine i4 (Or.inr (Or.inr ⟨r0, by simp, Or.inl ?_⟩))
      rw [hbl, hp1]

/-- C26, counterexample. In `tierlessThenSpine` no non-empty string is the ID of
two tiers and every record keeps the tier-prefix rule, but the empty string is both
a BlockID and a SpineID: the record without a tier takes switch.1.1 for its empty
BlockID, so b2, the only block, is named switch.1.2, and the first record to carry
the empty SpineID gets no spine name. In `blockOnlyThenSpine`, where the empty
string is a SpineID only, it takes switch.2.1 like any other ID, and s, the only
non-empty SpineID, is named switch.2.2. -/
theorem tierless_record_takes_block_ordinal :
    TiersDisjoint ⟨tierlessThenSpine⟩ ∧ (∀ r ∈ tierlessThenSpine, TierPrefix r) ∧
    ¬ EmptyNotShared tierlessThenSpine ∧
    Normalize tierlessThenSpine =
      [⟨"i1", "", "", "", "switch.1.1", "", "", "", ""⟩,
        ⟨"i2", "", "", "b2", "switch.1.2", "s", "switch.2.1", "", ""⟩] ∧
    TiersDisjoint ⟨blockOnlyThenSpine⟩ ∧ (∀ r ∈ blockOnlyThenSpine, TierPrefix r) ∧
    EmptyNotShared blockOnlyThenSpine ∧
    Normalize blockOnlyThenSpine =
      [⟨"i1", "", "", "b1", "switch.1.1", "", "switch.2.1", "", ""⟩,
        ⟨"i2", "", "", "b2", "switch.1.2", "s", "switch.2.2", "", ""⟩] := by
  decide

/-- C26, amended. Take a record list in which no string is the non-empty ID of two
different tiers and which does not have both an empty BlockID and an empty SpineID,
and a record `r` of the normalized list with the records `pre` before it. If `r` is
the first record carrying its BlockID, its BlockName is switch.1.k, where k - 1 is
the number of distinct BlockIDs among the records before it; if it is the first
carrying its SpineID, its SpineName is switch.2.k, counted likewise over the
SpineIDs. An empty ID is counted like any other. -/
theorem first_record_ordinals (l : List InstanceTopology) (h : TiersDisjoint ⟨l⟩)
    (he : EmptyNotShared l)
    (pre post : List InstanceTopology) (r : InstanceTopology)
    (hsplit : Normalize l = pre ++ r :: post) :
    ((∀ x ∈ pre, x.BlockID ≠ r.BlockID) →
      r.BlockName = "switch.1." ++ toString ((pre.map (fun x => x.BlockID)).dedup.length + 1)) ∧
    ((∀ x ∈ pre, x.SpineID ≠ r.SpineID) →
      r.SpineName = "switch.2." ++ toString ((pre.map (fun x => x.SpineID)).dedup.length + 1)) :=
  block_spine_ordinals l (blockSpineApart_of_disjoint l h he) pre post r hsplit

theorem first_record_ordinals_witness :
    TiersDisjoint ⟨[⟨"i1", "", "", "b1", "", "", "", "", ""⟩,
      ⟨"i2", "", "", "b2", "", "s1", "", "", ""⟩, ⟨"i3", "", "", "b3", "", "s1", "", "", ""⟩]⟩ ∧
    EmptyNotShared [⟨"i1", "", "", "b1", "", "", "", "", ""⟩,
      ⟨"i2", "", "", "b2", "", "s1", "", "", ""⟩, ⟨"i3", "", "", "b3", "", "s1", "", "", ""⟩] ∧
    Normalize [⟨"i1", "", "", "b1", "", "", "", "", ""⟩,
      ⟨"i2", "", "", "b2", "", "s1", "", "", ""⟩, ⟨"i3", "", "", "b3", "", "s1", "", "", ""⟩] =
      [⟨"i1", "", "", "b1", "switch.1.1", "", "switch.2.1", "", ""⟩] ++
      ⟨"i2", "", "", "b2", "switch.1.2", "s1", "switch.2.2", "", ""⟩ ::
        [⟨"i3", "", "", "b3", "switch.1.3", "s1", "", "", ""⟩] ∧
    ((∀ x ∈ [(⟨"i1", "", "", "b1", "switch.1.1", "", "switch.2.1", "", ""⟩ : InstanceTopology)],
        x.BlockID ≠ "b2") → "switch.1.2" = "switch.1." ++ toString (1 + 1)) ∧
    ((∀ x ∈ [(⟨"i1", "", "", "b1", "switch.1.1", "", "switch.2.1", "", ""⟩ : InstanceTopology)],
        x.SpineID ≠ "s1") → "switch.2.2" = "switch.2." ++ toString (1 + 1)) :=
  ⟨by decide, by decide, by decide,
    first_record_ordinals
      [⟨"i1", "", "", "b1", "", "", "", "", ""⟩, ⟨"i2", "", "", "b2", "", "s1", "", "", ""⟩,
        ⟨"i3", "", "", "b3", "", "s1", "", "", ""⟩] (by decide) (by decide)
      [⟨"i1", "", "", "b1", "switch.1.1", "", "switch.2.1", "", ""⟩]
      [⟨"i3", "", "", "b3", "switch.1.3", "s1", "", "", ""⟩]
      ⟨"i2", "", "", "b2", "switch.1.2", "s1", "switch.2.2", "", ""⟩ (by decide)⟩


/-! ### Records that repeat an InstanceID -/

theorem buildStep_of_none (st : BuildState) (r : InstanceTopology)
    (h : st.i2n.get? r.InstanceID = none) : buildStep st r = st := by
  unfold buildStep
  rw [h]

theorem buildStep_i2n_none (st : BuildState) (r : InstanceTopology) (k : String)
    (h : st.i2n.get? k = none ∨ k = r.InstanceID) : (buildStep st r).i2n.get? k = none := by
  have := foldl_buildStep_i2n [r] k st
  simp only [List.foldl_cons, List.foldl_nil, List.map_cons, List.map_nil, List.mem_singleton]
    at this
  rw [this]
  rcases h with h | h
  · split
    · rfl
    · exact h
  · rw [if_pos h]

theorem foldl_buildStep_dropLater (l : List InstanceTopology) :
    ∀ (seen : List String) (st : BuildState), (∀ k ∈ seen, st.i2n.get? k = none) →
      (dropLater seen l).foldl buildStep st = l.foldl buildStep st := by
  induction l with
  | nil => intro _ _ _; rfl
  | cons r rest ih =>
    intro seen st hseen
    simp only [dropLater, List.foldl_cons]
    by_cases hm : r.InstanceID ∈ seen
    · rw [if_pos hm, buildStep_of_none st r (hseen _ hm)]
      exact ih seen st hseen
    · rw [if_neg hm]
      simp only [List.foldl_cons]
      apply ih
      intro k hk
      rcases List.mem_cons.1 hk with e | hk'
      · exact buildStep_i2n_none st r k (Or.inr e)
      · exact buildStep_i2n_none st r k (Or.inl (hseen k hk'))

theorem graph_of_mainLoop (c c' : ClusterTopology) (provider : String)
    (cis : List ComputeInstances) (n n' : Bool)
    (h : mainLoop c cis n = mainLoop c' cis n') :
    (ToThreeTierGraph c provider cis n).heap = (ToThreeTierGraph c' provider cis n').heap ∧
    (ToThreeTierGraph c provider cis n).root = (ToThreeTierGraph c' provider cis n').root ∧
    (ToThreeTierGraph c provider cis n).err = (ToThreeTierGraph c' provider cis n').err := by
  simp only [ToThreeTierGraph, buildForest, h, and_self]

/-- C29. With normalize=false, a record that carries the InstanceID of a record
before it contributes nothing: the graph returned (heap, root and error) is the one
returned for the list without that record, and so the one returned for the list
from which every later record of an InstanceID is removed. -/
theorem later_duplicates_ignored (c : ClusterTopology) (provider : String)
    (cis : List ComputeInstances) :
    (∀ (pre post : List InstanceTopology) (r : InstanceTopology),
      c.Instances = pre ++ r :: post → (∃ x ∈ pre, x.InstanceID = r.InstanceID) →
      (ToThreeTierGraph c provider cis false).heap =
        (ToThreeTierGraph ⟨pre ++ post⟩ provider cis false).heap ∧
      (ToThreeTierGraph c provider cis false).root =
        (ToThreeTierGraph ⟨pre ++ post⟩ provider cis false).root ∧
      (ToThreeTierGraph c provider cis false).err =
        (ToThreeTierGraph ⟨pre ++ post⟩ provider cis false).err) ∧
    ((ToThreeTierGraph c provider cis false).heap =
        (ToThreeTierGraph ⟨dropLater [] c.Instances⟩ provider cis false).heap ∧
      (ToThreeTierGraph c provider cis false).root =
        (ToThreeTierGraph ⟨dropLater [] c.Instances⟩ provider cis false).root ∧
      (ToThreeTierGraph c provider cis false).err =
        (ToThreeTierGraph ⟨dropLater [] c.Instances⟩ provider cis false).err) := by
  constructor
  · intro pre post r hsplit hdup
    apply graph_of_mainLoop
    simp only [mainLoop, processed, hsplit, Bool.false_eq_true, if_false, List.foldl_append,
      List.foldl_cons]
    rw [buildStep_of_none]
    rw [foldl_buildStep_i2n]
    obtain ⟨x, hx, he⟩ := hdup
    rw [if_pos]
    exact List.mem_map.2 ⟨x, hx, he⟩
  · apply graph_of_mainLoop
    simp only [mainLoop, processed, Bool.false_eq_true, if_false]
    exact (foldl_buildStep_dropLater c.Instances [] _ (fun _ hk => absurd hk (by simp))).symm

/-- An instance of C29 on concrete records: the second record of i1 is dropped, and
the graph is the one of the list without it. -/
theorem dropLater_example :
    dropLater [] [⟨"i1", "", "", "b1", "", "", "", "", ""⟩,
      ⟨"i2", "", "", "b1", "", "", "", "", ""⟩, ⟨"i1", "", "", "b2", "", "", "", "", ""⟩] =
      [⟨"i1", "", "", "b1", "", "", "", "", ""⟩, ⟨"i2", "", "", "b1", "", "", "", "", ""⟩] ∧
    (ToThreeTierGraph ⟨[⟨"i1", "", "", "b1", "", "", "", "", ""⟩,
      ⟨"i2", "", "", "b1", "", "", "", "", ""⟩, ⟨"i1", "", "", "b2", "", "", "", "", ""⟩]⟩ "gcp"
      [⟨[("i1", "n1"), ("i2", "n2")]⟩] false).heap =
    (ToThreeTierGraph ⟨[⟨"i1", "", "", "b1", "", "", "", "", ""⟩,
      ⟨"i2", "", "", "b1", "", "", "", "", ""⟩]⟩ "gcp"
      [⟨[("i1", "n1"), ("i2", "n2")]⟩] false).heap := by
  decide

/-! ### A record without a block -/

theorem chain_of_no_block (r : InstanceTopology) (hB : r.BlockID = "") :
    chain r = [r.InstanceID] := by
  simp [chain, swPairs, pathAfter, hB]

theorem buildStep_no_block (st : BuildState) (r : InstanceTopology) (name : String)
    (hB : r.BlockID = "") (hg : st.i2n.get? r.InstanceID = some name) :
    (buildStep st r).nodes = st.nodes ∧
    (buildStep st r).heap = st.heap ++ [⟨r.InstanceID, name, [], []⟩] ∧
    (buildStep st r).forest = st.forest.put r.InstanceID st.heap.length := by
  unfold buildStep
  rw [hg]
  simp only [swPairs, linkSwitches, hB, String.length_empty, if_true, Heap.alloc, true_and]
  have hid : Heap.idOf (st.heap ++ [⟨r.InstanceID, name, [], []⟩]) st.heap.length =
      r.InstanceID := by
    simp [Heap.idOf]
  rw [hid]

/-- C28, counterexample. Three mapped records with an empty BlockID that are not
a leaf under the tree forest root: the second record of i1, skipped, leaves no
child keyed i1; the leaf of i1 is replaced under the key i1 by the block switch of
another record whose BlockID is i1; the leaf of the record whose InstanceID is the
reserved ID is replaced by the no-topology vertex. In each graph the tree forest
root is the vertex before the last. -/
theorem no_block_record_not_under_root :
    ((ToThreeTierGraph ⟨[⟨"i1", "", "", "b1", "", "", "", "", ""⟩,
        ⟨"i1", "", "", "", "", "", "", "", ""⟩]⟩ "gcp" [⟨[("i1", "n1")]⟩] false).root = some 3 ∧
      (ToThreeTierGraph ⟨[⟨"i1", "", "", "b1", "", "", "", "", ""⟩,
        ⟨"i1", "", "", "", "", "", "", "", ""⟩]⟩ "gcp" [⟨[("i1", "n1")]⟩] false).heap.child 3
        TopologyTree = some 2 ∧
      (ToThreeTierGraph ⟨[⟨"i1", "", "", "b1", "", "", "", "", ""⟩,
        ⟨"i1", "", "", "", "", "", "", "", ""⟩]⟩ "gcp" [⟨[("i1", "n1")]⟩] false).heap.child 2
        "i1" = none) ∧
    ((ToThreeTierGraph ⟨[⟨"i1", "", "", "", "", "", "", "", ""⟩,
        ⟨"i2", "", "", "i1", "", "", "", "", ""⟩]⟩ "gcp"
        [⟨[("i1", "n1"), ("i2", "n2")]⟩] false).heap =
      [⟨"i1", "n1", [], []⟩, ⟨"i2", "n2", [], []⟩, ⟨"i1", "", [("i2", 1)], []⟩,
        ⟨"", "", [("i1", 2)], []⟩, ⟨"", "", [("tree", 3)], []⟩]) ∧
    ((ToThreeTierGraph ⟨[⟨"no-topology", "", "", "", "", "", "", "", ""⟩]⟩ "gcp"
        [⟨[("no-topology", "n1"), ("x", "n2")]⟩] false).heap =
      [⟨"no-topology", "n1", [], []⟩, ⟨"no-topology", "", [("x", 2)], []⟩, ⟨"x", "n2", [], []⟩,
        ⟨"", "", [("no-topology", 1)], []⟩, ⟨"", "", [("tree", 3)], []⟩]) := by
  decide

/-- C28, amended. With normalize=false, instance IDs, switch IDs and the reserved
ID never coinciding: a record that is the first to carry its InstanceID, whose
InstanceID is a key of the instance to node map and whose BlockID is empty, is a
leaf directly under the tree forest root, keyed by its InstanceID, whatever its
SpineID and DatacenterID are; it is not under the no-topology vertex; and the loop
body for such a record allocates the leaf only and leaves `nodes` as it is. -/
theorem no_block_record_under_root (c : ClusterTopology) (provider : String)
    (cis : List ComputeInstances) (hS : Separated c (mergeInstances cis))
    (pre post : List InstanceTopology) (r : InstanceTopology) (name : String)
    (hsplit : c.Instances = pre ++ r :: post)
    (hfirst : ∀ x ∈ pre, x.InstanceID ≠ r.InstanceID)
    (hM : (mergeInstances cis).get? r.InstanceID = some name) (hB : r.BlockID = "") :
    ∃ rp t leaf, (ToThreeTierGraph c provider cis false).root = some rp ∧
      (ToThreeTierGraph c provider cis false).heap.child rp TopologyTree = some t ∧
      (ToThreeTierGraph c provider cis false).heap.child t r.InstanceID = some leaf ∧
      (ToThreeTierGraph c provider cis false).heap[leaf]? = some ⟨r.InstanceID, name, [], []⟩ ∧
      (ToThreeTierGraph c provider cis false).heap.walk t [NoTopology, r.InstanceID] = none ∧
      (∀ (st : BuildState) (n : String), st.i2n.get? r.InstanceID = some n →
        (buildStep st r).nodes = st.nodes ∧
        (buildStep st r).heap = st.heap ++ [⟨r.InstanceID, n, [], []⟩]) := by
  obtain ⟨rp, t, leaf, hroot, hchild, hwalk, hleaf⟩ :=
    record_chain_in_tree c provider cis false hS pre post r name hsplit hfirst hM
  rw [chain_of_no_block r hB] at hwalk
  have hw := mainLoop_wf_separated c cis false hS
  obtain ⟨rp', t', vt, hroot', hchild', hvt, -, hlow, hcases⟩ :=
    final_graph c provider cis false _ hw
  have e1 : rp' = rp := Option.some.inj (hroot'.symm.trans hroot)
  subst e1
  have e2 : t' = t := Option.some.inj (hchild'.symm.trans hchild)
  subst e2
  have hrmem : r ∈ c.Instances := by rw [hsplit]; simp
  have hi2n : (mainLoop c cis false).i2n.get? r.InstanceID = none := by
    cases hg : (mainLoop c cis false).i2n.get? r.InstanceID with
    | none => rfl
    | some n =>
      have := (mainLoop_i2n c cis false r.InstanceID n).1 hg
      exact absurd rfl (this.2 r hrmem)
  refine ⟨rp', t', leaf, hroot, hchild, ?_, hleaf, ?_, ?_⟩
  · have h1 := Heap.walk_of_walkKeyed _ _ _ _ hwalk
    simp only [Heap.walk] at h1
    cases hc : (ToThreeTierGraph c provider cis false).heap.child t' r.InstanceID with
    | none => rw [hc] at h1; simp at h1
    | some q => rw [hc] at h1; exact h1
  · simp only [Heap.walk, Heap.child, hvt]
    rcases hcases with ⟨-, hget⟩ | ⟨-, hget, vsw, hvsw, -, -, -, hnone, -⟩
    · rw [hget]
      cases hf : (mainLoop c cis false).forest.get? NoTopology with
      | none => rfl
      | some p =>
        obtain ⟨v, hv, hid⟩ := hw.forest_ok NoTopology p hf
        exact absurd hid (hw.cells_ok p v hv).1
    · rw [hget, if_pos rfl]
      simp only [hvsw, hnone r.InstanceID hi2n]
  · intro st n hg
    obtain ⟨a, b, -⟩ := buildStep_no_block st r n hB hg
    exact ⟨a, b⟩

theorem no_block_record_under_root_witness :
    Separated ⟨[⟨"i1", "", "", "", "", "s1", "", "d1", ""⟩]⟩ (mergeInstances [⟨[("i1", "n1")]⟩]) ∧
    ∃ rp t leaf,
      (ToThreeTierGraph ⟨[⟨"i1", "", "", "", "", "s1", "", "d1", ""⟩]⟩ "gcp" [⟨[("i1", "n1")]⟩]
        false).root = some rp ∧
      (ToThreeTierGraph ⟨[⟨"i1", "", "", "", "", "s1", "", "d1", ""⟩]⟩ "gcp" [⟨[("i1", "n1")]⟩]
        false).heap.child rp TopologyTree = some t ∧
      (ToThreeTierGraph ⟨[⟨"i1", "", "", "", "", "s1", "", "d1", ""⟩]⟩ "gcp" [⟨[("i1", "n1")]⟩]
        false).heap.child t "i1" = some leaf ∧
      (ToThreeTierGraph ⟨[⟨"i1", "", "", "", "", "s1", "", "d1", ""⟩]⟩ "gcp" [⟨[("i1", "n1")]⟩]
        false).heap[leaf]? = some ⟨"i1", "n1", [], []⟩ ∧
      (ToThreeTierGraph ⟨[⟨"i1", "", "", "", "", "s1", "", "d1", ""⟩]⟩ "gcp" [⟨[("i1", "n1")]⟩]
        false).heap.walk t [NoTopology, "i1"] = none ∧
      (∀ (st : BuildState) (n : String), st.i2n.get? "i1" = some n →
        (buildStep st ⟨"i1", "", "", "", "", "s1", "", "d1", ""⟩).nodes = st.nodes ∧
        (buildStep st ⟨"i1", "", "", "", "", "s1", "", "d1", ""⟩).heap =
          st.heap ++ [⟨"i1", n, [], []⟩]) :=
  ⟨by decide, no_block_record_under_root ⟨[⟨"i1", "", "", "", "", "s1", "", "d1", ""⟩]⟩ "gcp"
    [⟨[("i1", "n1")]⟩] (by decide) [] [] ⟨"i1", "", "", "", "", "s1", "", "d1", ""⟩ "n1" rfl
    (by simp) (by decide) rfl⟩

/-! ### GCP: the loop of toSLURM -/

namespace gcp

/-- The loop body of `toSLURM` is two steps of the lookup-or-create pattern of
`linkSwitch`: the leaf under its rack, then the rack under its cluster. -/
theorem slurmStep_link (st : SlurmState) (c : InstanceInfo)
    (hn : ∀ k p, st.nodes.get? k = some p →
      ∃ v, st.heap[p]? = some v ∧ v.ID = k ∧ v.Vertices ≠ []) :
    (slurmStep st c).heap =
      (linkSwitch (linkSwitch (st.heap.alloc ⟨c.name, c.name, [], []⟩).1 st.nodes
        st.heap.length c.rackID "").1
        (linkSwitch (st.heap.alloc ⟨c.name, c.name, [], []⟩).1 st.nodes
          st.heap.length c.rackID "").2.1
        (linkSwitch (st.heap.alloc ⟨c.name, c.name, [], []⟩).1 st.nodes
          st.heap.length c.rackID "").2.2 c.clusterID "").1 ∧
    (slurmStep st c).nodes =
      (linkSwitch (linkSwitch (st.heap.alloc ⟨c.name, c.name, [], []⟩).1 st.nodes
        st.heap.length c.rackID "").1
        (linkSwitch (st.heap.alloc ⟨c.name, c.name, [], []⟩).1 st.nodes
          st.heap.length c.rackID "").2.1
        (linkSwitch (st.heap.alloc ⟨c.name, c.name, [], []⟩).1 st.nodes
          st.heap.length c.rackID "").2.2 c.clusterID "").2.1 ∧
    (slurmStep st c).forest =
      (match (linkSwitch (st.heap.alloc ⟨c.name, c.name, [], []⟩).1 st.nodes
          st.heap.length c.rackID "").2.1.get? c.clusterID with
        | some _ => st.forest
        | none => st.forest.put c.clusterID
          (linkSwitch (linkSwitch (st.heap.alloc ⟨c.name, c.name, [], []⟩).1 st.nodes
            st.heap.length c.rackID "").1
            (linkSwitch (st.heap.alloc ⟨c.name, c.name, [], []⟩).1 st.nodes
              st.heap.length c.rackID "").2.1
            (linkSwitch (st.heap.alloc ⟨c.name, c.name, [], []⟩).1 st.nodes
              st.heap.length c.rackID "").2.2 c.clusterID "").2.2) := by
  have hi : (st.heap.alloc ⟨c.name, c.name, [], []⟩).1[st.heap.length]? =
      some ⟨c.name, c.name, [], []⟩ := Heap.getElem?_alloc_self st.heap _
  have hn0 : ∀ k p, st.nodes.get? k = some p →
      ∃ v, (st.heap.alloc ⟨c.name, c.name, [], []⟩).1[p]? = some v ∧ v.ID = k ∧
        v.Vertices ≠ [] := by
    intro k p hk
    obtain ⟨v, hv, hid, hne⟩ := hn k p hk
    exact ⟨v, (Heap.getElem?_alloc_lt _ _ p (Heap.lt_length_of_getElem? _ p v hv)).trans hv,
      hid, hne⟩
  obtain ⟨nm, md, oc, hsw, -⟩ := linkSwitch_spec _ st.nodes st.heap.length c.rackID ""
    ⟨c.name, c.name, [], []⟩ hi hn0
  have hid2 := Heap.idOf_eq _ _ _ hsw
  simp only at hid2
  have e1 : (match st.nodes.get? c.rackID with
      | some sw2 => ((st.heap.alloc ⟨c.name, c.name, [], []⟩).1, st.nodes, sw2)
      | none => (((st.heap.alloc ⟨c.name, c.name, [], []⟩).1.alloc ⟨c.rackID, "", [], []⟩).1,
          st.nodes.put c.rackID
            ((st.heap.alloc ⟨c.name, c.name, [], []⟩).1.alloc ⟨c.rackID, "", [], []⟩).2,
          ((st.heap.alloc ⟨c.name, c.name, [], []⟩).1.alloc ⟨c.rackID, "", [], []⟩).2)) =
      ((match st.nodes.get? c.rackID with
        | some _ => (st.heap.alloc ⟨c.name, c.name, [], []⟩).1
        | none => ((st.heap.alloc ⟨c.name, c.name, [], []⟩).1.alloc ⟨c.rackID, "", [], []⟩).1),
       (linkSwitch (st.heap.alloc ⟨c.name, c.name, [], []⟩).1 st.nodes
          st.heap.length c.rackID "").2.1,
       (linkSwitch (st.heap.alloc ⟨c.name, c.name, [], []⟩).1 st.nodes
          st.heap.length c.rackID "").2.2) := by
    unfold linkSwitch
    cases st.nodes.get? c.rackID <;> rfl
  have e2 : Heap.setChild (match st.nodes.get? c.rackID with
        | some _ => (st.heap.alloc ⟨c.name, c.name, [], []⟩).1
        | none => ((st.heap.alloc ⟨c.name, c.name, [], []⟩).1.alloc ⟨c.rackID, "", [], []⟩).1)
      (linkSwitch (st.heap.alloc ⟨c.name, c.name, [], []⟩).1 st.nodes
          st.heap.length c.rackID "").2.2
      (Heap.idOf (match st.nodes.get? c.rackID with
        | some _ => (st.heap.alloc ⟨c.name, c.name, [], []⟩).1
        | none => ((st.heap.alloc ⟨c.name, c.name, [], []⟩).1.alloc ⟨c.rackID, "", [], []⟩).1)
        st.heap.length) st.heap.length =
      (linkSwitch (st.heap.alloc ⟨c.name, c.name, [], []⟩).1 st.nodes
          st.heap.length c.rackID "").1 := by
    unfold linkSwitch
    cases st.nodes.get? c.rackID <;> rfl
  unfold slurmStep
  simp only [e1]
  have hL : (st.heap.alloc ⟨c.name, c.name, [], []⟩).2 = st.heap.length := rfl
  simp only [hL, e2]
  generalize linkSwitch (st.heap.alloc ⟨c.name, c.name, [], []⟩).1 st.nodes
    st.heap.length c.rackID "" = r1 at hid2 hsw ⊢
  obtain ⟨h1, n1, sw2⟩ := r1
  simp only at hid2 hsw ⊢
  unfold linkSwitch
  rw [hid2]
  cases n1.get? c.clusterID with
  | some sw1 => simp
  | none =>
    simp only
    have hid3 : Heap.idOf (h1.alloc ⟨c.clusterID, "", [], []⟩).1 sw2 = c.rackID := by
      have hlt : sw2 < h1.length := Heap.lt_length_of_getElem? _ _ _ hsw
      unfold Heap.idOf at hid2 ⊢
      rw [Heap.getElem?_alloc_lt _ _ _ hlt]
      exact hid2
    rw [hid3]
    simp

end gcp
namespace gcp

theorem linkSwitch_nodes_ok (h : Heap) (nodes : GoMap Ptr) (inst : Ptr) (swID swName : String)
    (vi : Vertex) (hi : h[inst]? = some vi)
    (hn : ∀ k p, nodes.get? k = some p → ∃ v, h[p]? = some v ∧ v.ID = k ∧ v.Vertices ≠ []) :
    ∀ k p, (linkSwitch h nodes inst swID swName).2.1.get? k = some p →
      ∃ v, (linkSwitch h nodes inst swID swName).1[p]? = some v ∧ v.ID = k ∧
        v.Vertices ≠ [] := by
  obtain ⟨nm, md, oc, hsw, hother, hold, -, hnodes, -, -⟩ :=
    linkSwitch_spec h nodes inst swID swName vi hi hn
  intro k p hk
  rw [hnodes] at hk
  split at hk
  · rename_i hkk
    have := Option.some.inj hk
    subst this
    exact ⟨_, hsw, hkk, GoMap.put_ne_nil _ _ _⟩
  · rename_i hkk
    obtain ⟨v, hv, hid, hne⟩ := hn k p hk
    by_cases hp : p = (linkSwitch h nodes inst swID swName).2.2
    · subst hp
      have := hold v hv
      subst this
      exact absurd hid hkk
    · exact ⟨v, (hother p hp).trans hv, hid, hne⟩

/-- What one pass of the loop body of `toSLURM` does to the heap, to `nodes` and
to `forest`, in one description for vertices found and vertices allocated. -/
theorem slurmStep_spec (st : SlurmState) (c : InstanceInfo)
    (hn : ∀ k p, st.nodes.get? k = some p →
      ∃ v, st.heap[p]? = some v ∧ v.ID = k ∧ v.Vertices ≠ [])
    (hne : c.clusterID ≠ c.rackID) :
    ∃ (sw1 sw2 : Ptr) (nm1 nm2 : String) (md1 md2 : GoMap String) (oc1 oc2 : GoMap Ptr),
      (slurmStep st c).heap[st.heap.length]? = some ⟨c.name, c.name, [], []⟩ ∧
      (slurmStep st c).heap[sw2]? =
        some ⟨c.rackID, nm2, GoMap.put oc2 c.name st.heap.length, md2⟩ ∧
      (slurmStep st c).heap[sw1]? = some ⟨c.clusterID, nm1, GoMap.put oc1 c.rackID sw2, md1⟩ ∧
      (∀ (p : Ptr) (v : Vertex), st.heap[p]? = some v → p ≠ sw1 → p ≠ sw2 →
        (slurmStep st c).heap[p]? = some v) ∧
      (∀ v : Vertex, st.heap[sw2]? = some v →
        v = ⟨c.rackID, nm2, oc2, md2⟩ ∧ st.nodes.get? c.rackID = some sw2) ∧
      (st.heap[sw2]? = none → oc2 = [] ∧ st.nodes.get? c.rackID = none) ∧
      (∀ v : Vertex, st.heap[sw1]? = some v →
        v = ⟨c.clusterID, nm1, oc1, md1⟩ ∧ st.nodes.get? c.clusterID = some sw1) ∧
      (st.heap[sw1]? = none → oc1 = [] ∧ st.nodes.get? c.clusterID = none) ∧
      (∀ k, (slurmStep st c).nodes.get? k =
        if c.clusterID = k then some sw1 else if c.rackID = k then some sw2
        else st.nodes.get? k) ∧
      (st.nodes.get? c.clusterID = none →
        (slurmStep st c).forest = st.forest.put c.clusterID sw1) ∧
      (st.nodes.get? c.clusterID ≠ none → (slurmStep st c).forest = st.forest) ∧
      (∀ k p, (slurmStep st c).nodes.get? k = some p →
        ∃ v, (slurmStep st c).heap[p]? = some v ∧ v.ID = k ∧ v.Vertices ≠ []) := by
  obtain ⟨eh, en, ef⟩ := slurmStep_link st c hn
  have hi : (st.heap.alloc ⟨c.name, c.name, [], []⟩).1[st.heap.length]? =
      some ⟨c.name, c.name, [], []⟩ := Heap.getElem?_alloc_self st.heap _
  have hn0 : ∀ k p, st.nodes.get? k = some p →
      ∃ v, (st.heap.alloc ⟨c.name, c.name, [], []⟩).1[p]? = some v ∧ v.ID = k ∧
        v.Vertices ≠ [] := by
    intro k p hk
    obtain ⟨v, hv, hid, hne⟩ := hn k p hk
    exact ⟨v, (Heap.getElem?_alloc_lt _ _ p (Heap.lt_length_of_getElem? _ p v hv)).trans hv,
      hid, hne⟩
  obtain ⟨nm2, md2, oc2, a1, a2, a3, a4, a5, a6, a7⟩ := linkSwitch_spec _ st.nodes
    st.heap.length c.rackID "" ⟨c.name, c.name, [], []⟩ hi hn0
  have hn1 := linkSwitch_nodes_ok _ st.nodes st.heap.length c.rackID ""
    ⟨c.name, c.name, [], []⟩ hi hn0
  generalize linkSwitch (st.heap.alloc ⟨c.name, c.name, [], []⟩).1 st.nodes
    st.heap.length c.rackID "" = r1 at eh en ef a1 a2 a3 a4 a5 a6 a7 hn1
  obtain ⟨h1, n1, sw2⟩ := r1
  simp only at eh en ef a1 a2 a3 a4 a5 a6 a7 hn1
  obtain ⟨nm1, md1, oc1, b1, b2, b3, b4, b5, b6, b7⟩ := linkSwitch_spec h1 n1 sw2
    c.clusterID "" _ a1 hn1
  have hn2 := linkSwitch_nodes_ok h1 n1 sw2 c.clusterID "" _ a1 hn1
  generalize linkSwitch h1 n1 sw2 c.clusterID "" = r2 at eh en ef b1 b2 b3 b4 b5 b6 b7 hn2
  obtain ⟨h2, n2, sw1⟩ := r2
  simp only at eh en ef b1 b2 b3 b4 b5 b6 b7 hn2
  generalize slurmStep st c = st' at eh en ef
  obtain ⟨heap', forest', nodes'⟩ := st'
  simp only at eh en ef
  subst eh
  subst en
  -- the cell of the leaf in the heap after its allocation
  have hL0 : ∀ p, p ≠ st.heap.length →
      (st.heap.alloc ⟨c.name, c.name, [], []⟩).1[p]? = st.heap[p]? := by
    intro p hp
    by_cases hlt : p < st.heap.length
    · exact Heap.getElem?_alloc_lt _ _ p hlt
    · have hgt : st.heap.length < p := lt_of_le_of_ne (not_lt.1 hlt) (fun e => hp e.symm)
      rw [List.getElem?_eq_none (le_of_lt hgt), List.getElem?_eq_none]
      rw [Heap.length_alloc]
      exact hgt
  have hcl : n1.get? c.clusterID = st.nodes.get? c.clusterID := by
    rw [a5, if_neg (fun e => hne e.symm)]
  have f2 : sw2 ≠ st.heap.length := by
    intro e
    rw [e] at a7
    have := a7 _ hi
    obtain ⟨v, hv, -⟩ := hn _ _ this
    exact absurd (Heap.lt_length_of_getElem? _ _ _ hv) (Nat.lt_irrefl _)
  have f3 : h1[st.heap.length]? = some ⟨c.name, c.name, [], []⟩ :=
    (a2 _ (fun e => f2 e.symm)).trans hi
  have f4 : sw1 ≠ sw2 := by
    intro e
    rw [e] at b3
    have := b3 _ a1
    simp only [Vertex.mk.injEq] at this
    exact hne this.1.symm
  have f5 : sw1 ≠ st.heap.length := by
    intro e
    rw [e] at b7
    have := b7 _ f3
    rw [hcl] at this
    obtain ⟨v, hv, -⟩ := hn _ _ this
    exact absurd (Heap.lt_length_of_getElem? _ _ _ hv) (Nat.lt_irrefl _)
  have g2 : (st.heap.alloc ⟨c.name, c.name, [], []⟩).1[sw2]? = st.heap[sw2]? := hL0 sw2 f2
  have g1 : h1[sw1]? = st.heap[sw1]? := (a2 sw1 f4).trans (hL0 sw1 f5)
  refine ⟨sw1, sw2, nm1, nm2, md1, md2, oc1, oc2, ?_, ?_, b1, ?_, ?_, ?_, ?_, ?_, ?_, ?_, ?_, hn2⟩
  · exact (b2 _ (fun e => f5 e.symm)).trans f3
  · exact (b2 _ (fun e => f4 e.symm)).trans a1
  · intro p v hv hp1 hp2
    have hpL : p ≠ st.heap.length :=
      Nat.ne_of_lt (Heap.lt_length_of_getElem? _ _ _ hv)
    exact (b2 p hp1).trans ((a2 p hp2).trans ((hL0 p hpL).trans hv))
  · intro v hv
    rw [← g2] at hv
    exact ⟨a3 v hv, a7 v hv⟩
  · intro hnone
    rw [← g2] at hnone
    exact ⟨a4 hnone, a6 hnone⟩
  · intro v hv
    rw [← g1] at hv
    exact ⟨b3 v hv, hcl ▸ b7 v hv⟩
  · intro hnone
    rw [← g1] at hnone
    exact ⟨b4 hnone, hcl ▸ b6 hnone⟩
  · intro k
    rw [b5, a5]
  · intro hnone
    rw [ef, hcl, hnone]
  · intro hsome
    rw [ef, hcl]
    cases hx : st.nodes.get? c.clusterID with
    | none => exact absurd hx hsome
    | some _ => rfl

end gcp

namespace gcp

theorem slurmStep_inv (done : List InstanceInfo) (st : SlurmState) (c : InstanceInfo)
    (hinv : SlurmInv done st) (hA : ClusterRackApart (done ++ [c])) :
    SlurmInv (done ++ [c]) (slurmStep st c) := by
  have hcm : c ∈ done ++ [c] := by simp
  have hdm : ∀ x ∈ done, x ∈ done ++ [c] := fun x hx => List.mem_append_left _ hx
  have hne : c.clusterID ≠ c.rackID := hA c hcm c hcm
  obtain ⟨sw1, sw2, nm1, nm2, md1, md2, oc1, oc2, s1, s2, s3, s4, s5, s6, s7, s8, s9, s10,
    s11, s12⟩ := slurmStep_spec st c hinv.nodes_ok hne
  generalize slurmStep st c = st' at s1 s2 s3 s4 s9 s10 s11 s12 ⊢
  -- the cell found in `nodes` under a key carries the key as its ID
  have cellID : ∀ (k : String) (p : Ptr) (v : Vertex), st.nodes.get? k = some p →
      st.heap[p]? = some v → v.ID = k ∧ v.Vertices ≠ [] := by
    intro k p v hk hv
    obtain ⟨v', hv', hid, hne'⟩ := hinv.nodes_ok k p hk
    rw [hv] at hv'
    have := Option.some.inj hv'
    subst this
    exact ⟨hid, hne'⟩
  have old1 : ∀ v : Vertex, st.heap[sw1]? = some v → v.ID = c.clusterID ∧ v.Vertices ≠ [] :=
    fun v hv => cellID _ _ v (s7 v hv).2 hv
  have old2 : ∀ v : Vertex, st.heap[sw2]? = some v → v.ID = c.rackID ∧ v.Vertices ≠ [] :=
    fun v hv => cellID _ _ v (s5 v hv).2 hv
  have LP : ∀ (p : Ptr) (v : Vertex), st.heap[p]? = some v → v.Vertices = [] →
      st'.heap[p]? = some v := by
    intro p v hv hl
    refine s4 p v hv ?_ ?_
    · intro e
      subst e
      exact (old1 v hv).2 hl
    · intro e
      subst e
      exact (old2 v hv).2 hl
  have NP : ∀ (k : String) (p : Ptr), st.nodes.get? k = some p →
      st'.nodes.get? k = some p := by
    intro k p hk
    rw [s9]
    split
    · rename_i e
      subst e
      cases hx : st.heap[sw1]? with
      | none =>
        rw [(s8 hx).2] at hk
        exact absurd hk (by simp)
      | some v =>
        rw [(s7 v hx).2] at hk
        exact hk
    · split
      · rename_i e
        subst e
        cases hx : st.heap[sw2]? with
        | none =>
          rw [(s6 hx).2] at hk
          exact absurd hk (by simp)
        | some v =>
          rw [(s5 v hx).2] at hk
          exact hk
      · exact hk
  have OC : ∀ (k : String) (p : Ptr) (v : Vertex), st.nodes.get? k = some p →
      st.heap[p]? = some v → k ≠ c.clusterID → k ≠ c.rackID → st'.heap[p]? = some v := by
    intro k p v hk hv h1 h2
    refine s4 p v hv ?_ ?_
    · intro e
      subst e
      exact h1 ((cellID k _ v hk hv).1.symm.trans (old1 v hv).1)
    · intro e
      subst e
      exact h2 ((cellID k _ v hk hv).1.symm.trans (old2 v hv).1)
  -- a rack of `done` found again is the old rack vertex
  have rackOld : ∀ x ∈ done, x.rackID = c.rackID →
      st.heap[sw2]? = some ⟨c.rackID, nm2, oc2, md2⟩ ∧ st.nodes.get? c.rackID = some sw2 := by
    intro x hx e
    obtain ⟨p2, v2, p3, hp2, hv2, -, -⟩ := hinv.leaf_ok x hx
    rw [e] at hp2
    cases hy : st.heap[sw2]? with
    | none =>
      rw [(s6 hy).2] at hp2
      exact absurd hp2 (by simp)
    | some v =>
      obtain ⟨e1, e2⟩ := s5 v hy
      rw [e1]
      exact ⟨rfl, e2⟩
  have clusterOld : ∀ x ∈ done, x.clusterID = c.clusterID →
      st.heap[sw1]? = some ⟨c.clusterID, nm1, oc1, md1⟩ ∧
        st.nodes.get? c.clusterID = some sw1 := by
    intro x hx e
    obtain ⟨p1, v1, p2, hp1, hv1, -, -⟩ := hinv.cluster_ok x hx
    rw [e] at hp1
    cases hy : st.heap[sw1]? with
    | none =>
      rw [(s8 hy).2] at hp1
      exact absurd hp1 (by simp)
    | some v =>
      obtain ⟨e1, e2⟩ := s7 v hy
      rw [e1]
      exact ⟨rfl, e2⟩
  -- a key of `nodes` that is a rack ID belongs to a rack of `done`
  have rackOf : ∀ (k : String) (p : Ptr), st.nodes.get? k = some p → k = c.rackID →
      ∃ x ∈ done, x.rackID = c.rackID := by
    intro k p hk e
    obtain ⟨x, hx, h1 | h1⟩ := hinv.nodes_done k p hk
    · exact ⟨x, hx, h1.trans e⟩
    · exact absurd (h1.trans e) (hA x (hdm x hx) c hcm)
  have clusterOf : ∀ (k : String) (p : Ptr), st.nodes.get? k = some p → k = c.clusterID →
      ∃ x ∈ done, x.clusterID = c.clusterID := by
    intro k p hk e
    obtain ⟨x, hx, h1 | h1⟩ := hinv.nodes_done k p hk
    · exact absurd (e.symm.trans h1.symm) (hA c hcm x (hdm x hx))
    · exact ⟨x, hx, h1.trans e⟩
  constructor
  · exact s12
  · intro k p hk
    rw [s9] at hk
    split at hk
    · rename_i e
      exact ⟨c, hcm, Or.inr e⟩
    · split at hk
      · rename_i e
        exact ⟨c, hcm, Or.inl e⟩
      · obtain ⟨x, hx, h⟩ := hinv.nodes_done k p hk
        exact ⟨x, hdm x hx, h⟩
  · intro k p hk
    cases hcl : st.nodes.get? c.clusterID with
    | none =>
      rw [s10 hcl, GoMap.get?_put] at hk
      split at hk
      · rename_i e
        have := Option.some.inj hk
        subst this
        refine ⟨?_, c, hcm, e⟩
        rw [s9, if_pos e]
      · obtain ⟨h1, x, hx, h2⟩ := hinv.forest_sub k p hk
        exact ⟨NP k p h1, x, hdm x hx, h2⟩
    | some q =>
      rw [s11 (by rw [hcl]; simp)] at hk
      obtain ⟨h1, x, hx, h2⟩ := hinv.forest_sub k p hk
      exact ⟨NP k p h1, x, hdm x hx, h2⟩
  · intro x hx
    rcases List.mem_append.1 hx with hx | hx
    · obtain ⟨p1, v1, p2, hp1, -, -, -⟩ := hinv.cluster_ok x hx
      have hf := hinv.forest_all x hx
      rw [NP _ _ hp1]
      rw [hp1] at hf
      cases hcl : st.nodes.get? c.clusterID with
      | none =>
        rw [s10 hcl, GoMap.get?_put]
        split
        · rename_i e
          rw [← e, hcl] at hp1
          exact absurd hp1 (by simp)
        · exact hf
      | some q =>
        rw [s11 (by rw [hcl]; simp)]
        exact hf
    · have := List.mem_singleton.1 hx
      subst this
      rw [s9, if_pos rfl]
      cases hcl : st.nodes.get? x.clusterID with
      | none =>
        rw [s10 hcl, GoMap.get?_put, if_pos rfl]
      | some q =>
        rw [s11 (by rw [hcl]; simp)]
        obtain ⟨y, hy, e⟩ := clusterOf _ q hcl rfl
        rw [← e, hinv.forest_all y hy, e]
        exact (clusterOld y hy e).2
  · cases hcl : st.nodes.get? c.clusterID with
    | none =>
      rw [s10 hcl]
      exact GoMap.nodup_put _ _ _ hinv.forest_nodup
    | some q =>
      rw [s11 (by rw [hcl]; simp)]
      exact hinv.forest_nodup
  · intro x hx
    rcases List.mem_append.1 hx with hx | hx
    · obtain ⟨p2, v2, p3, hp2, hv2, hc3, hleaf⟩ := hinv.leaf_ok x hx
      have hxr : x.rackID ≠ c.clusterID := fun e => hA c hcm x (hdm x hx) e.symm
      by_cases hr : x.rackID = c.rackID
      · obtain ⟨hcell, hnode⟩ := rackOld x hx hr
        rw [hr, hnode] at hp2
        have := Option.some.inj hp2
        subst this
        rw [hcell] at hv2
        have := Option.some.inj hv2
        subst this
        simp only at hc3
        refine ⟨sw2, _, if c.name = x.name then st.heap.length else p3, ?_, s2, ?_, ?_⟩
        · rw [s9, if_neg (fun e => hxr e.symm), if_pos hr.symm]
        · simp only
          rw [GoMap.get?_put]
          split
          · rfl
          · exact hc3
        · split
          · rename_i e
            rw [← e]
            exact s1
          · exact LP p3 _ hleaf rfl
      · refine ⟨p2, v2, p3, NP _ _ hp2, OC _ p2 v2 hp2 hv2 hxr hr, hc3, LP p3 _ hleaf rfl⟩
    · have := List.mem_singleton.1 hx
      subst this
      refine ⟨sw2, _, st.heap.length, ?_, s2, ?_, s1⟩
      · rw [s9, if_neg hne, if_pos rfl]
      · simp only
        rw [GoMap.get?_put, if_pos rfl]
  · intro k p v n q hk hp hv hq
    obtain ⟨y, hy, hyk⟩ := hk
    have hkc : c.clusterID ≠ k := fun e => hA c hcm y hy (e.trans hyk.symm)
    rw [s9, if_neg hkc] at hp
    by_cases hr : c.rackID = k
    · rw [if_pos hr] at hp
      have := Option.some.inj hp
      subst this
      rw [s2] at hv
      have := Option.some.inj hv
      subst this
      simp only at hq
      rw [GoMap.get?_put] at hq
      split at hq
      · rename_i e
        have := Option.some.inj hq
        subst this
        refine ⟨⟨c, hcm, hr, e⟩, ?_⟩
        rw [← e]
        exact s1
      · cases hx : st.heap[sw2]? with
        | none =>
          rw [(s6 hx).1] at hq
          simp [GoMap.get?] at hq
        | some v0 =>
          obtain ⟨e1, e2⟩ := s5 v0 hx
          subst e1
          obtain ⟨z, hz, hzr⟩ := rackOf _ _ e2 rfl
          obtain ⟨⟨w, hw, hw1, hw2⟩, hleaf⟩ := hinv.rack_children c.rackID sw2 _ n q
            ⟨z, hz, hzr⟩ e2 hx hq
          exact ⟨⟨w, hdm w hw, hw1.trans hr, hw2⟩, LP q _ hleaf rfl⟩
    · rw [if_neg hr] at hp
      obtain ⟨v0, hv0, -, -⟩ := hinv.nodes_ok k p hp
      have hv' := OC k p v0 hp hv0 (fun e => hkc e.symm) (fun e => hr e.symm)
      rw [hv] at hv'
      have := Option.some.inj hv'
      subst this
      have hyd : y ∈ done := by
        rcases List.mem_append.1 hy with h | h
        · exact h
        · have := List.mem_singleton.1 h
          subst this
          exact absurd hyk hr
      obtain ⟨⟨w, hw, hw1, hw2⟩, hleaf⟩ := hinv.rack_children k p v n q ⟨y, hyd, hyk⟩ hp hv0 hq
      exact ⟨⟨w, hdm w hw, hw1, hw2⟩, LP q _ hleaf rfl⟩
  · intro x hx
    rcases List.mem_append.1 hx with hx | hx
    · obtain ⟨p1, v1, p2, hp1, hv1, hc2, hp2⟩ := hinv.cluster_ok x hx
      have hxc : x.clusterID ≠ c.rackID := hA x (hdm x hx) c hcm
      by_cases hcl : x.clusterID = c.clusterID
      · obtain ⟨hcell, hnode⟩ := clusterOld x hx hcl
        rw [hcl, hnode] at hp1
        have := Option.some.inj hp1
        subst this
        rw [hcell] at hv1
        have := Option.some.inj hv1
        subst this
        simp only at hc2
        refine ⟨sw1, _, if c.rackID = x.rackID then sw2 else p2, ?_, s3, ?_, ?_⟩
        · rw [s9, if_pos hcl.symm]
        · simp only
          rw [GoMap.get?_put]
          split
          · rfl
          · exact hc2
        · split
          · rename_i e
            rw [s9, if_neg (fun e' => hA c hcm x (hdm x hx) e'), if_pos e]
          · exact NP _ _ hp2
      · exact ⟨p1, v1, p2, NP _ _ hp1, OC _ p1 v1 hp1 hv1 hcl hxc, hc2, NP _ _ hp2⟩
    · have := List.mem_singleton.1 hx
      subst this
      refine ⟨sw1, _, sw2, ?_, s3, ?_, ?_⟩
      · rw [s9, if_pos rfl]
      · simp only
        rw [GoMap.get?_put, if_pos rfl]
      · rw [s9, if_neg hne, if_pos rfl]
  · intro k p v k2 q hk hp hv hq
    obtain ⟨y, hy, hyk⟩ := hk
    rw [s9] at hp
    by_cases hcl : c.clusterID = k
    · rw [if_pos hcl] at hp
      have := Option.some.inj hp
      subst this
      rw [s3] at hv
      have := Option.some.inj hv
      subst this
      simp only at hq
      rw [GoMap.get?_put] at hq
      split at hq
      · rename_i e
        exact ⟨c, hcm, hcl, e⟩
      · cases hx : st.heap[sw1]? with
        | none =>
          rw [(s8 hx).1] at hq
          simp [GoMap.get?] at hq
        | some v0 =>
          obtain ⟨e1, e2⟩ := s7 v0 hx
          subst e1
          obtain ⟨z, hz, hzc⟩ := clusterOf _ _ e2 rfl
          obtain ⟨w, hw, hw1, hw2⟩ := hinv.cluster_children c.clusterID sw1 _ k2 q
            ⟨z, hz, hzc⟩ e2 hx hq
          exact ⟨w, hdm w hw, hw1.trans hcl, hw2⟩
    · rw [if_neg hcl] at hp
      have hkr : c.rackID ≠ k := fun e => hA y hy c hcm (hyk.trans e.symm)
      rw [if_neg hkr] at hp
      obtain ⟨v0, hv0, -, -⟩ := hinv.nodes_ok k p hp
      have hv' := OC k p v0 hp hv0 (fun e => hcl e.symm) (fun e => hkr e.symm)
      rw [hv] at hv'
      have := Option.some.inj hv'
      subst this
      have hyd : y ∈ done := by
        rcases List.mem_append.1 hy with h | h
        · exact h
        · have := List.mem_singleton.1 h
          subst this
          exact absurd hyk hcl
      obtain ⟨w, hw, hw1, hw2⟩ := hinv.cluster_children k p v k2 q ⟨y, hyd, hyk⟩ hp hv0 hq
      exact ⟨w, hdm w hw, hw1, hw2⟩

end gcp

namespace gcp

theorem slurmInv_init : SlurmInv [] ⟨[], [], []⟩ := by
  constructor
  · intro k p hk; simp [GoMap.get?] at hk
  · intro k p hk; simp [GoMap.get?] at hk
  · intro k p hk; simp [GoMap.get?] at hk
  · intro c hc; simp at hc
  · simp [GoMap.keys]
  · intro c hc; simp at hc
  · intro k p v n q _ hp; simp [GoMap.get?] at hp
  · intro c hc; simp at hc
  · intro k p v k2 q _ hp; simp [GoMap.get?] at hp

theorem foldl_slurmStep_inv (l : List InstanceInfo) :
    ∀ (done : List InstanceInfo) (st : SlurmState), SlurmInv done st →
      ClusterRackApart (done ++ l) → SlurmInv (done ++ l) (l.foldl slurmStep st) := by
  induction l with
  | nil =>
    intro done st hinv _
    simpa using hinv
  | cons c rest ih =>
    intro done st hinv hA
    have e : done ++ c :: rest = (done ++ [c]) ++ rest := by simp
    have hA1 : ClusterRackApart (done ++ [c]) := by
      intro x hx y hy
      refine hA x ?_ y ?_
      · rw [e]; exact List.mem_append_left _ hx
      · rw [e]; exact List.mem_append_left _ hy
    rw [e] at hA ⊢
    exact ih (done ++ [c]) (slurmStep st c) (slurmStep_inv done st c hinv hA1) hA

theorem toSLURM_inv (cfg : InstanceTopology) (hA : ClusterRackApart cfg.instances) :
    SlurmInv cfg.instances (cfg.instances.foldl slurmStep ⟨[], [], []⟩) := by
  have := foldl_slurmStep_inv cfg.instances [] _ slurmInv_init (by simpa using hA)
  simpa using this

/-- The returned heap in terms of the state after the loop: the vertices of the
loop are unchanged and the root holds the forest. -/
theorem toSLURM_root (cfg : InstanceTopology)
    (hnd : (cfg.instances.foldl slurmStep ⟨[], [], []⟩).forest.keys.Nodup) :
    (toSLURM cfg).err = none ∧
    (toSLURM cfg).root = some (cfg.instances.foldl slurmStep ⟨[], [], []⟩).heap.length ∧
    (∀ (p : Ptr) (v : Vertex),
      (cfg.instances.foldl slurmStep ⟨[], [], []⟩).heap[p]? = some v →
      (toSLURM cfg).heap[p]? = some v) ∧
    ∃ vr : Vertex, (toSLURM cfg).heap[
        (cfg.instances.foldl slurmStep ⟨[], [], []⟩).heap.length]? = some vr ∧
      ∀ k, vr.Vertices.get? k =
        (cfg.instances.foldl slurmStep ⟨[], [], []⟩).forest.get? k := by
  unfold toSLURM
  generalize cfg.instances.foldl slurmStep ⟨[], [], []⟩ = st at hnd ⊢
  refine ⟨rfl, rfl, ?_, ?_⟩
  · intro p v hv
    have hlt := Heap.lt_length_of_getElem? _ p v hv
    have hfr := frame_copyForest st.heap.length (st.heap.alloc ⟨"", "", [], []⟩).2 (le_refl _)
      st.forest (st.heap.alloc ⟨"", "", [], []⟩).1
    simp only
    rw [hfr.2 p hlt, Heap.getElem?_alloc_lt _ _ p hlt]
    exact hv
  · obtain ⟨v', hv', -, -, hget⟩ := copyForest_spec (st.heap.alloc ⟨"", "", [], []⟩).2
      st.forest (st.heap.alloc ⟨"", "", [], []⟩).1 _ (Heap.getElem?_alloc_self _ _) hnd
    refine ⟨v', hv', ?_⟩
    intro k
    rw [hget k]
    cases st.forest.get? k <;> rfl

/-- C30. For every instance list in which no string is both a clusterID and a
rackID, `toSLURM` returns a nil error and a root whose child keys are exactly the
clusterIDs of the instances; the child keys of each cluster vertex are exactly the
rackIDs that occur together with its clusterID; and for every instance the keys
clusterID, rackID, name lead from the root through the cluster vertex and the rack
vertex to a leaf with ID = Name = the instance name and no children. -/
theorem toSLURM_two_level (cfg : InstanceTopology) (hA : ClusterRackApart cfg.instances) :
    (toSLURM cfg).err = none ∧
    ∃ (rp : Ptr) (vr : Vertex), (toSLURM cfg).root = some rp ∧
      (toSLURM cfg).heap[rp]? = some vr ∧
      (∀ k, vr.Vertices.get? k ≠ none ↔ ∃ c ∈ cfg.instances, c.clusterID = k) ∧
      (∀ c ∈ cfg.instances, ∃ (p1 : Ptr) (v1 : Vertex) (p2 : Ptr) (v2 : Vertex) (p3 : Ptr),
        vr.Vertices.get? c.clusterID = some p1 ∧ (toSLURM cfg).heap[p1]? = some v1 ∧
        v1.ID = c.clusterID ∧
        (∀ k, v1.Vertices.get? k ≠ none ↔
          ∃ c' ∈ cfg.instances, c'.clusterID = c.clusterID ∧ c'.rackID = k) ∧
        v1.Vertices.get? c.rackID = some p2 ∧ (toSLURM cfg).heap[p2]? = some v2 ∧
        v2.ID = c.rackID ∧
        v2.Vertices.get? c.name = some p3 ∧
        (toSLURM cfg).heap[p3]? = some ⟨c.name, c.name, [], []⟩) := by
  have hinv := toSLURM_inv cfg hA
  obtain ⟨herr, hroot, hlow, vr, hvr, hget⟩ := toSLURM_root cfg hinv.forest_nodup
  generalize cfg.instances.foldl slurmStep ⟨[], [], []⟩ = st at hinv hroot hlow hvr hget
  refine ⟨herr, st.heap.length, vr, hroot, hvr, ?_, ?_⟩
  · intro k
    rw [hget]
    constructor
    · intro hne
      cases hf : st.forest.get? k with
      | none => exact absurd hf hne
      | some p => exact (hinv.forest_sub k p hf).2
    · rintro ⟨c, hc, rfl⟩
      obtain ⟨p1, v1, p2, hp1, -, -, -⟩ := hinv.cluster_ok c hc
      rw [hinv.forest_all c hc, hp1]
      simp
  · intro c hc
    obtain ⟨p1, v1, p2, hp1, hv1, hc2, hp2⟩ := hinv.cluster_ok c hc
    obtain ⟨p2', v2, p3, hp2', hv2, hc3, hleaf⟩ := hinv.leaf_ok c hc
    rw [hp2] at hp2'
    have := Option.some.inj hp2'
    subst this
    obtain ⟨w1, hw1, hid1, -⟩ := hinv.nodes_ok _ _ hp1
    rw [hv1] at hw1
    have := Option.some.inj hw1
    subst this
    obtain ⟨w2, hw2, hid2, -⟩ := hinv.nodes_ok _ _ hp2
    rw [hv2] at hw2
    have := Option.some.inj hw2
    subst this
    refine ⟨p1, v1, p2, v2, p3, ?_, hlow p1 v1 hv1, hid1, ?_, hc2, hlow p2 v2 hv2, hid2, hc3,
      hlow p3 _ hleaf⟩
    · rw [hget, hinv.forest_all c hc, hp1]
    · intro k
      constructor
      · intro hne
        cases hq : v1.Vertices.get? k with
        | none => exact absurd hq hne
        | some q => exact hinv.cluster_children c.clusterID p1 v1 k q ⟨c, hc, rfl⟩ hp1 hv1 hq
      · rintro ⟨c', hc', e1, rfl⟩
        obtain ⟨p1', v1', p2', hp1', hv1', hc2', -⟩ := hinv.cluster_ok c' hc'
        rw [e1, hp1] at hp1'
        have := Option.some.inj hp1'
        subst this
        rw [hv1] at hv1'
        have := Option.some.inj hv1'
        subst this
        rw [hc2']
        simp

theorem toSLURM_two_level_witness :
    ClusterRackApart [⟨"c1", "r1", "n1"⟩, ⟨"c1", "r2", "n2"⟩, ⟨"c2", "r3", "n3"⟩] ∧
    (toSLURM ⟨[⟨"c1", "r1", "n1"⟩, ⟨"c1", "r2", "n2"⟩, ⟨"c2", "r3", "n3"⟩]⟩).err = none ∧
    ∃ (rp : Ptr) (vr : Vertex),
      (toSLURM ⟨[⟨"c1", "r1", "n1"⟩, ⟨"c1", "r2", "n2"⟩, ⟨"c2", "r3", "n3"⟩]⟩).root = some rp ∧
      (toSLURM ⟨[⟨"c1", "r1", "n1"⟩, ⟨"c1", "r2", "n2"⟩, ⟨"c2", "r3", "n3"⟩]⟩).heap[rp]? =
        some vr ∧
      (∀ k, vr.Vertices.get? k ≠ none ↔
        ∃ c ∈ [(⟨"c1", "r1", "n1"⟩ : InstanceInfo), ⟨"c1", "r2", "n2"⟩, ⟨"c2", "r3", "n3"⟩],
          c.clusterID = k) ∧
      (∀ c ∈ [(⟨"c1", "r1", "n1"⟩ : InstanceInfo), ⟨"c1", "r2", "n2"⟩, ⟨"c2", "r3", "n3"⟩],
        ∃ (p1 : Ptr) (v1 : Vertex) (p2 : Ptr) (v2 : Vertex) (p3 : Ptr),
        vr.Vertices.get? c.clusterID = some p1 ∧
        (toSLURM ⟨[⟨"c1", "r1", "n1"⟩, ⟨"c1", "r2", "n2"⟩, ⟨"c2", "r3", "n3"⟩]⟩).heap[p1]? =
          some v1 ∧
        v1.ID = c.clusterID ∧
        (∀ k, v1.Vertices.get? k ≠ none ↔
          ∃ c' ∈ [(⟨"c1", "r1", "n1"⟩ : InstanceInfo), ⟨"c1", "r2", "n2"⟩, ⟨"c2", "r3", "n3"⟩],
            c'.clusterID = c.clusterID ∧ c'.rackID = k) ∧
        v1.Vertices.get? c.rackID = some p2 ∧
        (toSLURM ⟨[⟨"c1", "r1", "n1"⟩, ⟨"c1", "r2", "n2"⟩, ⟨"c2", "r3", "n3"⟩]⟩).heap[p2]? =
          some v2 ∧
        v2.ID = c.rackID ∧
        v2.Vertices.get? c.name = some p3 ∧
        (toSLURM ⟨[⟨"c1", "r1", "n1"⟩, ⟨"c1", "r2", "n2"⟩, ⟨"c2", "r3", "n3"⟩]⟩).heap[p3]? =
          some ⟨c.name, c.name, [], []⟩) :=
  ⟨by decide, toSLURM_two_level
    ⟨[⟨"c1", "r1", "n1"⟩, ⟨"c1", "r2", "n2"⟩, ⟨"c2", "r3", "n3"⟩]⟩ (by decide)⟩

/-- The graph `toSLURM` builds for two clusters, one of them with two racks. -/
theorem toSLURM_example :
    toSLURM ⟨[⟨"c1", "r1", "n1"⟩, ⟨"c1", "r2", "n2"⟩, ⟨"c2", "r3", "n3"⟩]⟩ =
      ⟨[⟨"n1", "n1", [], []⟩, ⟨"r1", "", [("n1", 0)], []⟩,
        ⟨"c1", "", [("r2", 4), ("r1", 1)], []⟩, ⟨"n2", "n2", [], []⟩,
        ⟨"r2", "", [("n2", 3)], []⟩, ⟨"n3", "n3", [], []⟩, ⟨"r3", "", [("n3", 5)], []⟩,
        ⟨"c2", "", [("r3", 6)], []⟩, ⟨"", "", [("c1", 2), ("c2", 7)], []⟩], some 8, none⟩ := by
  decide

end gcp

/-! ### compress -/

/-- The cases of `TestCompress` in `pkg/translate/output_test.go`. -/
theorem compress_test_cases :
    compress [] = [] ∧
    compress ["eos0507", "eos0509", "eos0482", "eos0483", "eos0508", "eos0484"] =
      ["eos0[482-484]", "eos0[507-509]"] ∧
    compress ["eos0507", "eos0509", "eos0482"] = ["eos0482", "eos0507", "eos0509"] ∧
    compress ["eos0507", "eos0509", "abc", "eos0482", "eos0508"] =
      ["abc", "eos0482", "eos0[507-509]"] ∧
    compress ["eos0507", "eos0509", "abc", "eos0508", "eos0482"] =
      ["abc", "eos0482", "eos0[507-509]"] := by
  decide
theorem strNotAfter_iff (a b : String) : strNotAfter a b ↔ a ≤ b := by
  unfold strNotAfter strLess
  rw [← not_lt]
  simp

theorem strNotAfter_total (a b : String) : strNotAfter a b ∨ strNotAfter b a := by
  rw [strNotAfter_iff, strNotAfter_iff]
  exact le_total _ _

theorem strNotAfter_trans (a b c : String) (h1 : strNotAfter a b) (h2 : strNotAfter b c) :
    strNotAfter a c := by
  rw [strNotAfter_iff] at *
  exact le_trans h1 h2

theorem strNotAfter_antisymm (a b : String) (h1 : strNotAfter a b) (h2 : strNotAfter b a) :
    a = b := by
  rw [strNotAfter_iff] at *
  exact le_antisymm h1 h2

theorem sortStrings_sorted (l : List String) : List.Sorted strNotAfter (sortStrings l) :=
  @List.sorted_insertionSort _ strNotAfter _ ⟨strNotAfter_total⟩ ⟨strNotAfter_trans⟩ l

theorem sortStrings_perm (l : List String) : (sortStrings l).Perm l :=
  List.perm_insertionSort strNotAfter l

theorem sortStrings_eq_of_perm (l l' : List String) (hp : l.Perm l') :
    sortStrings l = sortStrings l' :=
  @List.eq_of_perm_of_sorted _ strNotAfter ⟨strNotAfter_antisymm⟩ _ _
    (((sortStrings_perm l).trans hp).trans (sortStrings_perm l').symm)
    (sortStrings_sorted l) (sortStrings_sorted l')

theorem sortValues_sorted (l : List Nat) : List.Sorted (fun a b => a ≤ b) (sortValues l) :=
  List.sorted_insertionSort (fun a b : Nat => a ≤ b) l

theorem sortValues_perm (l : List Nat) : (sortValues l).Perm l :=
  List.perm_insertionSort (fun a b : Nat => a ≤ b) l

theorem sortValues_eq_of_perm (l l' : List Nat) (hp : l.Perm l') :
    sortValues l = sortValues l' :=
  List.eq_of_perm_of_sorted
    (((sortValues_perm l).trans hp).trans (sortValues_perm l').symm)
    (sortValues_sorted l) (sortValues_sorted l')

theorem mem_compress (names : List String) (t : String) :
    t ∈ compress names ↔
      t ∈ plainNames names ∨ ∃ p ∈ prefixes names, t ∈ groupTokens p names := by
  unfold compress
  rw [(sortStrings_perm _).mem_iff]
  simp [List.mem_append, List.mem_flatMap]

/-- C23. For every list of names the sequence `compress` returns is sorted in
non-decreasing lexicographic string order, and for the empty input it is the empty
sequence. -/
theorem compress_sorted (names : List String) :
    List.Sorted (fun a b : String => a ≤ b) (compress names) ∧
    (∀ a b : String, a ≤ b ↔ ¬ b.toList < a.toList) ∧ compress [] = [] := by
  refine ⟨?_, ?_, by decide⟩
  · exact (sortStrings_sorted _).imp (fun {a b} h => (strNotAfter_iff a b).1 h)
  · intro a b
    rw [← not_lt]
    simp

theorem groupTokens_of_perm (p : String) (l l' : List String) (hp : l.Perm l') :
    groupTokens p l = groupTokens p l' := by
  unfold groupTokens groupValues
  rw [sortValues_eq_of_perm _ _ ((hp.filter _).map _)]

/-- C22. `compress` is independent of the order of its input: for every list of
names and every permutation of it, `compress` returns the same token sequence. -/
theorem compress_order_independent (l l' : List String) (hp : l.Perm l') :
    compress l = compress l' := by
  unfold compress
  apply sortStrings_eq_of_perm
  refine List.Perm.append ?_ ?_
  · exact hp.filter _
  · have hf : (fun p => groupTokens p l) = (fun p => groupTokens p l') :=
      funext (fun p => groupTokens_of_perm p l l' hp)
    rw [hf]
    apply List.Perm.flatMap_right
    unfold prefixes
    exact ((hp.filter _).map _).dedup

/-- The witness of C22 named in the claim: the two orderings of the mixed names. -/
theorem compress_order_independent_witness :
    List.Perm ["eos0507", "eos0509", "abc", "eos0482", "eos0508"]
      ["eos0507", "eos0509", "abc", "eos0508", "eos0482"] ∧
    compress ["eos0507", "eos0509", "abc", "eos0482", "eos0508"] =
      compress ["eos0507", "eos0509", "abc", "eos0508", "eos0482"] ∧
    compress ["eos0507", "eos0509", "abc", "eos0482", "eos0508"] =
      ["abc", "eos0482", "eos0[507-509]"] :=
  ⟨by decide, compress_order_independent ["eos0507", "eos0509", "abc", "eos0482", "eos0508"]
    ["eos0507", "eos0509", "abc", "eos0508", "eos0482"] (by decide), by decide⟩

/-! ### compress: the runs of a group -/

theorem maxRunOf_congr {S T : Nat → Prop} (h : ∀ v, S v ↔ T v) (a b : Nat) :
    MaxRunOf S a b ↔ MaxRunOf T a b := by
  have e : S = T := funext (fun v => propext (h v))
  rw [e]

/-- The maximal runs of an interval followed, after a gap, by a set `S'`: the
interval itself and the maximal runs of `S'`. -/
theorem maxRunOf_gap (S' : Nat → Prop) (first last : Nat) (hfl : first ≤ last)
    (hgap : ∀ v, S' v → last + 1 < v) (a b : Nat) :
    MaxRunOf (fun v => (first ≤ v ∧ v ≤ last) ∨ S' v) a b ↔
      (a = first ∧ b = last) ∨ MaxRunOf S' a b := by
  constructor
  · rintro ⟨hab, hin, hleft, hright⟩
    rcases hin a (le_refl _) hab with ⟨h1, h2⟩ | ha
    · left
      have hb : b ≤ last := by
        by_contra hcon
        rcases hin (last + 1) (by omega) (by omega) with ⟨-, h4⟩ | h4
        · omega
        · have := hgap _ h4
          omega
      constructor
      · by_contra hcon
        exact hleft (a - 1) (by omega) (Or.inl ⟨by omega, by omega⟩)
      · by_contra hcon
        exact hright (Or.inl ⟨by omega, by omega⟩)
    · right
      have ha' := hgap a ha
      refine ⟨hab, ?_, ?_, ?_⟩
      · intro v h1 h2
        rcases hin v h1 h2 with ⟨-, h4⟩ | h4
        · omega
        · exact h4
      · intro v hv hs
        exact hleft v hv (Or.inr hs)
      · intro hs
        exact hright (Or.inr hs)
  · rintro (⟨rfl, rfl⟩ | ⟨hab, hin, hleft, hright⟩)
    · refine ⟨hfl, fun v h1 h2 => Or.inl ⟨h1, h2⟩, ?_, ?_⟩
      · rintro v hv (⟨h1, -⟩ | hs)
        · omega
        · have := hgap v hs
          omega
      · rintro (⟨-, h2⟩ | hs)
        · omega
        · have := hgap _ hs
          omega
    · have ha' := hgap a (hin a (le_refl _) hab)
      refine ⟨hab, fun v h1 h2 => Or.inr (hin v h1 h2), ?_, ?_⟩
      · rintro v hv (⟨-, h2⟩ | hs)
        · omega
        · exact hleft v hv hs
      · rintro (⟨-, h2⟩ | hs)
        · omega
        · exact hright hs

theorem maxRunOf_interval (first last : Nat) (hfl : first ≤ last) (a b : Nat) :
    MaxRunOf (fun v => first ≤ v ∧ v ≤ last) a b ↔ a = first ∧ b = last := by
  have h := maxRunOf_gap (fun _ => False) first last hfl (fun _ h => absurd h id) a b
  have e : MaxRunOf (fun v => (first ≤ v ∧ v ≤ last) ∨ False) a b ↔
      MaxRunOf (fun v => first ≤ v ∧ v ≤ last) a b :=
    maxRunOf_congr (fun v => by simp) a b
  rw [← e, h]
  constructor
  · rintro (h1 | ⟨hab, hin, -⟩)
    · exact h1
    · exact absurd (hin a (le_refl _) hab) id
  · exact Or.inl

/-- The runs the scan emits from a run being read and the strictly ascending
values after it: the maximal runs of the values of both. -/
theorem mem_scanRuns (rest : List Nat) :
    ∀ (first last : Nat), first ≤ last → List.Sorted (fun a b => a < b) rest →
      (∀ x ∈ rest, last < x) → ∀ a b,
      (a, b) ∈ scanRuns first last rest ↔
        MaxRunOf (fun v => (first ≤ v ∧ v ≤ last) ∨ v ∈ rest) a b := by
  induction rest with
  | nil =>
    intro first last hfl _ _ a b
    simp only [scanRuns, List.mem_singleton, Prod.mk.injEq, List.not_mem_nil, or_false]
    exact (maxRunOf_interval first last hfl a b).symm
  | cons x rest ih =>
    intro first last hfl hs hgt a b
    have hx : last < x := hgt x (List.mem_cons_self _ _)
    have hs' : List.Sorted (fun a b => a < b) rest := (List.sorted_cons.1 hs).2
    have hgt' : ∀ y ∈ rest, x < y := (List.sorted_cons.1 hs).1
    simp only [scanRuns]
    by_cases he : x = last + 1
    · rw [if_pos he, ih first x (by omega) hs' hgt' a b]
      apply maxRunOf_congr
      intro v
      simp only [List.mem_cons]
      constructor
      · rintro (⟨h1, h2⟩ | h)
        · by_cases hv : v = x
          · exact Or.inr (Or.inl hv)
          · exact Or.inl ⟨h1, by omega⟩
        · exact Or.inr (Or.inr h)
      · rintro (⟨h1, h2⟩ | h | h)
        · exact Or.inl ⟨h1, by omega⟩
        · exact Or.inl ⟨by omega, by omega⟩
        · exact Or.inr h
    · rw [if_neg he, List.mem_cons, Prod.mk.injEq, ih x x (le_refl _) hs' hgt' a b]
      have hg := maxRunOf_gap (fun v => (x ≤ v ∧ v ≤ x) ∨ v ∈ rest) first last hfl
        (by
          rintro v (⟨h1, -⟩ | h)
          · omega
          · have := hgt' v h
            omega) a b
      rw [← hg]
      apply maxRunOf_congr
      intro v
      simp only [List.mem_cons]
      constructor
      · rintro (h | ⟨h1, h2⟩ | h)
        · exact Or.inl h
        · exact Or.inr (Or.inl (by omega))
        · exact Or.inr (Or.inr h)
      · rintro (h | h | h)
        · exact Or.inl h
        · exact Or.inr (Or.inl ⟨by omega, by omega⟩)
        · exact Or.inr (Or.inr h)

theorem mem_runs (l : List Nat) (hs : List.Sorted (fun a b => a < b) l) (a b : Nat) :
    (a, b) ∈ runs l ↔ MaxRun l a b := by
  cases l with
  | nil =>
    simp only [runs, List.not_mem_nil, false_iff]
    rintro ⟨hab, hin, -⟩
    exact absurd (hin a (le_refl _) hab) (by simp)
  | cons x rest =>
    simp only [runs]
    rw [mem_scanRuns rest x x (le_refl _) (List.sorted_cons.1 hs).2 (List.sorted_cons.1 hs).1]
    apply maxRunOf_congr
    intro v
    simp only [List.mem_cons]
    constructor
    · rintro (⟨h1, h2⟩ | h)
      · exact Or.inl (by omega)
      · exact Or.inr h
    · rintro (h | h)
      · exact Or.inl ⟨by omega, by omega⟩
      · exact Or.inr h

/-- The runs of the scan stand apart: the next run starts more than one after the
end of the one before. -/
theorem scanRuns_apart (rest : List Nat) :
    ∀ (first last : Nat), first ≤ last → List.Sorted (fun a b => a < b) rest →
      (∀ x ∈ rest, last < x) →
      List.Pairwise (fun r r' : Nat × Nat => r.2 + 1 < r'.1) (scanRuns first last rest) ∧
      ∀ r ∈ scanRuns first last rest, first ≤ r.1 := by
  induction rest with
  | nil =>
    intro first last _ _ _
    simp [scanRuns]
  | cons x rest ih =>
    intro first last hfl hs hgt
    have hx : last < x := hgt x (List.mem_cons_self _ _)
    have hs' : List.Sorted (fun a b => a < b) rest := (List.sorted_cons.1 hs).2
    have hgt' : ∀ y ∈ rest, x < y := (List.sorted_cons.1 hs).1
    simp only [scanRuns]
    by_cases he : x = last + 1
    · rw [if_pos he]
      exact ih first x (by omega) hs' hgt'
    · rw [if_neg he]
      obtain ⟨h1, h2⟩ := ih x x (le_refl _) hs' hgt'
      refine ⟨List.pairwise_cons.2 ⟨?_, h1⟩, ?_⟩
      · intro r hr
        have := h2 r hr
        simp only
        omega
      · intro r hr
        rcases List.mem_cons.1 hr with e | hr'
        · rw [e]
        · have := h2 r hr'
          omega

theorem runs_apart (l : List Nat) (hs : List.Sorted (fun a b => a < b) l) :
    List.Pairwise (fun r r' : Nat × Nat => r.2 + 1 < r'.1) (runs l) := by
  cases l with
  | nil => simp [runs]
  | cons x rest =>
    exact (scanRuns_apart rest x x (le_refl _) (List.sorted_cons.1 hs).2
      (List.sorted_cons.1 hs).1).1

theorem sortValues_strict (vs : List Nat) (hd : vs.Nodup) :
    List.Sorted (fun a b => a < b) (sortValues vs) := by
  have h1 := sortValues_sorted vs
  have h2 : (sortValues vs).Nodup := (sortValues_perm vs).nodup_iff.2 hd
  exact (List.Pairwise.and h1 h2).imp (fun {a b} h => lt_of_le_of_ne h.1 h.2)
/-- C24. Take the group of one `split` prefix whose numeric values are distinct.
The tokens the group emits are exactly the tokens of the maximal runs of the values
present in the group: prefix[a-b] for a maximal run a, a+1, ..., b with a < b, and
prefix++decimal(v) for a value v with neither v-1 nor v+1 present. The runs emitted
stand apart, each starting more than one after the end of the one before, so no two
tokens of the prefix cover adjacent or overlapping values; and the tokens of the
group are tokens of `compress`. -/
theorem compress_maximal_runs (names : List String) (p : String)
    (hd : (groupValues p names).Nodup) :
    (∀ t, t ∈ groupTokens p names ↔
      ∃ a b, MaxRun (groupValues p names) a b ∧ t = renderRun p (a, b)) ∧
    (∀ a b, a < b → renderRun p (a, b) = p ++ "[" ++ decimal a ++ "-" ++ decimal b ++ "]") ∧
    (∀ v, renderRun p (v, v) = p ++ decimal v) ∧
    (∀ v, MaxRun (groupValues p names) v v ↔
      v ∈ groupValues p names ∧ (∀ u, u + 1 = v → u ∉ groupValues p names) ∧
        v + 1 ∉ groupValues p names) ∧
    List.Pairwise (fun r r' : Nat × Nat => r.2 + 1 < r'.1)
      (runs (sortValues (groupValues p names))) ∧
    (p ∈ prefixes names → ∀ t ∈ groupTokens p names, t ∈ compress names) := by
  have hs := sortValues_strict _ hd
  have hmem : ∀ a b, (a, b) ∈ runs (sortValues (groupValues p names)) ↔
      MaxRun (groupValues p names) a b := by
    intro a b
    rw [mem_runs _ hs]
    exact maxRunOf_congr (fun v => (sortValues_perm _).mem_iff) a b
  refine ⟨?_, ?_, ?_, ?_, runs_apart _ hs, ?_⟩
  · intro t
    unfold groupTokens
    rw [List.mem_map]
    constructor
    · rintro ⟨⟨a, b⟩, hr, rfl⟩
      exact ⟨a, b, (hmem a b).1 hr, rfl⟩
    · rintro ⟨a, b, hr, rfl⟩
      exact ⟨(a, b), (hmem a b).2 hr, rfl⟩
  · intro a b hab
    simp only [renderRun, if_neg (Nat.ne_of_lt hab)]
  · intro v
    simp only [renderRun, if_true]
  · intro v
    constructor
    · rintro ⟨-, hin, hleft, hright⟩
      exact ⟨hin v (le_refl _) (le_refl _), hleft, hright⟩
    · rintro ⟨h1, h2, h3⟩
      refine ⟨le_refl _, ?_, h2, h3⟩
      intro u hu1 hu2
      have : u = v := le_antisymm hu2 hu1
      rw [this]
      exact h1
  · intro hp t ht
    exact (mem_compress names t).2 (Or.inr ⟨p, hp, ht⟩)

theorem compress_maximal_runs_witness :
    (groupValues "eos0"
      ["eos0507", "eos0509", "eos0482", "eos0483", "eos0508", "eos0484"]).Nodup ∧
    ∀ t, t ∈ groupTokens "eos0"
        ["eos0507", "eos0509", "eos0482", "eos0483", "eos0508", "eos0484"] ↔
      ∃ a b, MaxRun (groupValues "eos0"
        ["eos0507", "eos0509", "eos0482", "eos0483", "eos0508", "eos0484"]) a b ∧
        t = renderRun "eos0" (a, b) :=
  ⟨by decide, (compress_maximal_runs
    ["eos0507", "eos0509", "eos0482", "eos0483", "eos0508", "eos0484"] "eos0" (by decide)).1⟩

/-- The group of the prefix eos0 in the second case of `TestCompress`: its values
and its two tokens. -/
theorem groupTokens_example :
    groupValues "eos0" ["eos0507", "eos0509", "eos0482", "eos0483", "eos0508", "eos0484"] =
      [507, 509, 482, 483, 508, 484] ∧
    runs (sortValues [507, 509, 482, 483, 508, 484]) = [(482, 484), (507, 509)] ∧
    groupTokens "eos0" ["eos0507", "eos0509", "eos0482", "eos0483", "eos0508", "eos0484"] =
      ["eos0[482-484]", "eos0[507-509]"] := by
  decide

/-! ### Decimal digits -/

theorem digitChar_spec (k : Nat) (hk : k < 10) :
    (Nat.digitChar k).isDigit = true ∧ (Nat.digitChar k).toNat - 48 = k ∧
      (k ≠ 0 → Nat.digitChar k ≠ '0') := by
  interval_cases k <;> decide

theorem parseNat_append_singleton (cs : List Char) (c : Char) :
    parseNat (cs ++ [c]) = 10 * parseNat cs + (c.toNat - 48) := by
  simp [parseNat, List.foldl_append]

/-- The digits `Nat.toDigitsCore` puts before `ds`: a non-empty run of decimal
digits that parses to `n` and, for `n ≠ 0`, does not start with the digit zero. -/
theorem toDigitsCore_spec (fuel : Nat) :
    ∀ (n : Nat) (ds : List Char), n < fuel →
      ∃ pre : List Char, Nat.toDigitsCore 10 fuel n ds = pre ++ ds ∧ pre ≠ [] ∧
        (∀ c ∈ pre, c.isDigit = true) ∧ parseNat pre = n ∧
        (n ≠ 0 → pre.head? ≠ some '0') := by
  induction fuel with
  | zero => intro n ds h; exact absurd h (Nat.not_lt_zero _)
  | succ fuel ih =>
    intro n ds hn
    have hk : n % 10 < 10 := Nat.mod_lt _ (by decide)
    obtain ⟨d1, d2, d3⟩ := digitChar_spec (n % 10) hk
    simp only [Nat.toDigitsCore]
    by_cases h0 : n / 10 = 0
    · rw [if_pos h0]
      have hlt : n < 10 := by omega
      have hmod : n % 10 = n := Nat.mod_eq_of_lt hlt
      refine ⟨[Nat.digitChar (n % 10)], rfl, by simp, ?_, ?_, ?_⟩
      · intro c hc
        rw [List.mem_singleton.1 hc]
        exact d1
      · simp only [parseNat, List.foldl_cons, List.foldl_nil]
        omega
      · intro hne
        simp only [List.head?_cons, ne_eq, Option.some.injEq]
        exact d3 (by omega)
    · rw [if_neg h0]
      obtain ⟨pre, e, hne, hdig, hparse, hhead⟩ := ih (n / 10) (Nat.digitChar (n % 10) :: ds)
        (by omega)
      refine ⟨pre ++ [Nat.digitChar (n % 10)], by rw [e]; simp, by simp, ?_, ?_, ?_⟩
      · intro c hc
        rcases List.mem_append.1 hc with h | h
        · exact hdig c h
        · rw [List.mem_singleton.1 h]
          exact d1
      · rw [parseNat_append_singleton, hparse, d2]
        omega
      · intro _
        cases pre with
        | nil => exact absurd rfl hne
        | cons x xs => exact hhead h0

theorem decimal_toList (n : Nat) : (decimal n).toList = Nat.toDigits 10 n := rfl

theorem decimal_spec (n : Nat) :
    (decimal n).toList ≠ [] ∧ (∀ c ∈ (decimal n).toList, c.isDigit = true) ∧
      parseNat (decimal n).toList = n ∧ (n ≠ 0 → (decimal n).toList.head? ≠ some '0') := by
  rw [decimal_toList]
  obtain ⟨pre, e, hne, hdig, hparse, hhead⟩ := toDigitsCore_spec (n + 1) n [] (Nat.lt_succ_self n)
  unfold Nat.toDigits
  rw [e, List.append_nil]
  exact ⟨hne, hdig, hparse, hhead⟩

theorem parseNat_eq_ofDigits (cs : List Char) :
    parseNat cs = Nat.ofDigits 10 ((cs.map (fun c => c.toNat - 48)).reverse) := by
  induction cs using List.reverseRecOn with
  | nil => rfl
  | append_singleton init c ih =>
    rw [parseNat_append_singleton, ih]
    simp [Nat.ofDigits_cons]
    omega

theorem digit_lt (c : Char) (hc : c.isDigit = true) : c.toNat - 48 < 10 := by
  simp only [Char.isDigit, Bool.and_eq_true, decide_eq_true_eq] at hc
  have h2 : c.val ≤ 57 := hc.2
  have : c.val.toNat ≤ 57 := h2
  show c.val.toNat - 48 < 10
  omega

theorem digit_inj (c d : Char) (hc : c.isDigit = true) (hd : d.isDigit = true)
    (h : c.toNat - 48 = d.toNat - 48) : c = d := by
  simp only [Char.isDigit, Bool.and_eq_true, decide_eq_true_eq] at hc hd
  have c1 : 48 ≤ c.val.toNat := hc.1
  have d1 : 48 ≤ d.val.toNat := hd.1
  have h' : c.val.toNat - 48 = d.val.toNat - 48 := h
  have e : c.val.toNat = d.val.toNat := by omega
  apply Char.ext
  exact UInt32.ext e
/-- The digits of a value parsed from a non-empty run of decimal digits that does
not start with zero are the digits of the run. -/
theorem digits_parseNat (cs : List Char) (hdig : ∀ c ∈ cs, c.isDigit = true)
    (hhead : cs.head? ≠ some '0') :
    Nat.digits 10 (parseNat cs) = (cs.map (fun c => c.toNat - 48)).reverse := by
  rw [parseNat_eq_ofDigits]
  apply Nat.digits_ofDigits 10 (by decide)
  · intro l hl
    rw [List.mem_reverse, List.mem_map] at hl
    obtain ⟨c, hc, rfl⟩ := hl
    exact digit_lt c (hdig c hc)
  · intro hne
    cases cs with
    | nil => simp at hne
    | cons x xs =>
      simp only [List.map_cons, List.reverse_cons, List.getLast_append_singleton, ne_eq]
      intro h0
      have hx := hdig x (List.mem_cons_self _ _)
      have : x = '0' := digit_inj x '0' hx (by decide) (by rw [h0]; decide)
      rw [this] at hhead
      simp at hhead

theorem parseNat_inj (s t : List Char) (hs : ∀ c ∈ s, c.isDigit = true)
    (ht : ∀ c ∈ t, c.isDigit = true) (hs0 : s.head? ≠ some '0') (ht0 : t.head? ≠ some '0')
    (h : parseNat s = parseNat t) : s = t := by
  have e := digits_parseNat s hs hs0
  rw [h, digits_parseNat t ht ht0] at e
  have e' := List.reverse_injective e
  exact (eq_of_map_eq_of_injOn (fun c : Char => c.toNat - 48) t s
    (fun x hx y hy hxy => digit_inj x y (ht x hx) (hs y hy) hxy) e').symm

/-- Parsing a non-empty run of decimal digits that does not start with zero and
writing the value in decimal gives the run back. -/
theorem decimal_parseNat (cs : List Char) (hne : cs ≠ []) (hdig : ∀ c ∈ cs, c.isDigit = true)
    (hhead : cs.head? ≠ some '0') : (decimal (parseNat cs)).toList = cs := by
  obtain ⟨d1, d2, d3, d4⟩ := decimal_spec (parseNat cs)
  have hn : parseNat cs ≠ 0 := by
    intro h0
    have e := digits_parseNat cs hdig hhead
    rw [h0] at e
    simp only [Nat.digits_zero] at e
    have : cs = [] := by
      have := congrArg List.length e
      simp at this
      exact List.length_eq_zero.1 this.symm
    exact hne this
  exact parseNat_inj _ _ d2 hdig (d4 hn) hhead d3

/-- The two parts `split` returns make up the name. -/
theorem split_parts (s : String) : (split s).1 ++ (split s).2 = s := by
  apply String.ext
  simp only [split, String.data_append, List.append_assoc, List.takeWhile_append_dropWhile]
  exact beforeDigits_append_trailingDigits s.toList

/-- A non-empty suffix returned by `split` is written back by `decimal` from its
parsed value. -/
theorem decimal_suffix (n : String) (hne : (split n).2 ≠ "") :
    decimal (parseNat (split n).2.toList) = (split n).2 := by
  apply String.ext
  apply decimal_parseNat
  · intro h
    exact hne (String.ext h)
  · intro c hc
    exact mem_trailingDigits n.toList c (List.dropWhile_sublist _ |>.subset hc)
  · exact head?_dropWhile_zero _

/-- A name with a numeric suffix is its prefix followed by the decimal digits of
the parsed suffix. -/
theorem name_of_value (n : String) (hne : (split n).2 ≠ "") :
    (split n).1 ++ decimal (parseNat (split n).2.toList) = n := by
  rw [decimal_suffix n hne, split_parts]

/-! ### compress: expanding the tokens -/

theorem expandToken_examples :
    expandToken "eos0[507-509]" = ["eos0507", "eos0508", "eos0509"] ∧
    expandToken "eos0482" = ["eos0482"] ∧ expandToken "abc" = ["abc"] ∧
    expandToken "a[1-2][7-8]" = ["a[1-2]7", "a[1-2]8"] := by
  decide

/-- C21, counterexample. A name that has itself the form of a range token has an
empty suffix and is emitted unchanged; expanded, it gives three names that are not
in the input. -/
theorem range_shaped_name_not_recovered :
    compress ["p[1-3]"] = ["p[1-3]"] ∧
    (compress ["p[1-3]"]).flatMap expandToken = ["p1", "p2", "p3"] ∧
    "p[1-3]" ∉ (compress ["p[1-3]"]).flatMap expandToken ∧
    "p1" ∈ (compress ["p[1-3]"]).flatMap expandToken ∧ "p1" ∉ ["p[1-3]"] := by
  decide

theorem parseRange_of_digit_end (cs : List Char) (d : Char) (hd : d.isDigit = true) :
    parseRange (cs ++ [d]) = none := by
  unfold parseRange
  rw [List.reverse_append]
  simp only [List.reverse_cons, List.reverse_nil, List.nil_append, List.singleton_append]
  have : d ≠ ']' := by
    intro e
    rw [e] at hd
    exact absurd hd (by decide)
  simp [this]

theorem parseRange_render (p : List Char) (da db : List Char) (ha : da ≠ []) (hb : db ≠ [])
    (hda : ∀ c ∈ da, c.isDigit = true) (hdb : ∀ c ∈ db, c.isDigit = true) :
    parseRange (p ++ '[' :: da ++ '-' :: db ++ [']']) = some (p, parseNat da, parseNat db) := by
  have hrev : (p ++ '[' :: da ++ '-' :: db ++ [']']).reverse =
      ']' :: (db.reverse ++ '-' :: (da.reverse ++ '[' :: p.reverse)) := by
    simp
  have hdb' : ∀ c ∈ db.reverse, Char.isDigit c = true :=
    fun c hc => hdb c (List.mem_reverse.1 hc)
  have hda' : ∀ c ∈ da.reverse, Char.isDigit c = true :=
    fun c hc => hda c (List.mem_reverse.1 hc)
  have t1 : (db.reverse ++ '-' :: (da.reverse ++ '[' :: p.reverse)).takeWhile Char.isDigit =
      db.reverse := by
    rw [List.takeWhile_append_of_pos hdb']
    simp [List.takeWhile_cons, show Char.isDigit '-' = false by decide]
  have d1 : (db.reverse ++ '-' :: (da.reverse ++ '[' :: p.reverse)).dropWhile Char.isDigit =
      '-' :: (da.reverse ++ '[' :: p.reverse) := by
    rw [List.dropWhile_append_of_pos hdb']
    simp [List.dropWhile_cons, show Char.isDigit '-' = false by decide]
  have t2 : (da.reverse ++ '[' :: p.reverse).takeWhile Char.isDigit = da.reverse := by
    rw [List.takeWhile_append_of_pos hda']
    simp [List.takeWhile_cons, show Char.isDigit '[' = false by decide]
  have d2 : (da.reverse ++ '[' :: p.reverse).dropWhile Char.isDigit = '[' :: p.reverse := by
    rw [List.dropWhile_append_of_pos hda']
    simp [List.dropWhile_cons, show Char.isDigit '[' = false by decide]
  unfold parseRange
  rw [hrev]
  simp only [d1, d2, t1, t2, ne_eq, not_true_eq_false, if_false, List.reverse_eq_nil_iff, ha, hb,
    or_self, List.reverse_reverse]
theorem expandToken_renderRun (p : String) (a b : Nat) (hab : a ≤ b) (x : String) :
    x ∈ expandToken (renderRun p (a, b)) ↔ ∃ v, a ≤ v ∧ v ≤ b ∧ x = p ++ decimal v := by
  obtain ⟨a1, a2, a3, -⟩ := decimal_spec a
  obtain ⟨b1, b2, b3, -⟩ := decimal_spec b
  by_cases he : a = b
  · subst he
    have hr : renderRun p (a, a) = p ++ decimal a := by simp [renderRun]
    have hnone : parseRange (p ++ decimal a).toList = none := by
      obtain ⟨init, d, hd⟩ : ∃ init d, (decimal a).toList = init ++ [d] :=
        ⟨_, _, (List.dropLast_append_getLast a1).symm⟩
      have hdig : d.isDigit = true := a2 d (by rw [hd]; simp)
      have : (p ++ decimal a).toList = (p.toList ++ init) ++ [d] := by
        rw [String.toList, String.data_append, ← String.toList, ← String.toList, hd,
          List.append_assoc]
      rw [this]
      exact parseRange_of_digit_end _ d hdig
    rw [hr]
    unfold expandToken
    rw [hnone]
    simp only [List.mem_singleton]
    constructor
    · intro h
      exact ⟨a, le_refl _, le_refl _, h⟩
    · rintro ⟨v, h1, h2, h3⟩
      have : v = a := le_antisymm h2 h1
      rw [h3, this]
  · have hr : renderRun p (a, b) = p ++ "[" ++ decimal a ++ "-" ++ decimal b ++ "]" := by
      simp [renderRun, he]
    have hl : (p ++ "[" ++ decimal a ++ "-" ++ decimal b ++ "]").toList =
        p.toList ++ '[' :: (decimal a).toList ++ '-' :: (decimal b).toList ++ [']'] := by
      simp [String.toList, String.data_append]
    rw [hr]
    unfold expandToken
    rw [hl, parseRange_render p.toList _ _ a1 b1 a2 b2, a3, b3]
    simp only [List.mem_map, List.mem_range]
    have hp : String.mk p.toList = p := rfl
    constructor
    · rintro ⟨i, hi, rfl⟩
      exact ⟨a + i, by omega, by omega, by rw [hp]⟩
    · rintro ⟨v, h1, h2, rfl⟩
      refine ⟨v - a, by omega, ?_⟩
      rw [hp]
      congr 2
      omega

/-- The runs of the scan cover the run being read and the values after it, and
nothing else. -/
theorem scanRuns_cover (rest : List Nat) :
    ∀ (first last : Nat), first ≤ last →
      (∀ r ∈ scanRuns first last rest, r.1 ≤ r.2) ∧
      ∀ v, (∃ r ∈ scanRuns first last rest, r.1 ≤ v ∧ v ≤ r.2) ↔
        (first ≤ v ∧ v ≤ last) ∨ v ∈ rest := by
  induction rest with
  | nil =>
    intro first last hfl
    simp [scanRuns, hfl]
  | cons x rest ih =>
    intro first last hfl
    simp only [scanRuns]
    by_cases he : x = last + 1
    · rw [if_pos he]
      obtain ⟨h1, h2⟩ := ih first x (by omega)
      refine ⟨h1, ?_⟩
      intro v
      rw [h2 v]
      simp only [List.mem_cons]
      constructor
      · rintro (⟨h3, h4⟩ | h)
        · by_cases hv : v = x
          · exact Or.inr (Or.inl hv)
          · exact Or.inl ⟨h3, by omega⟩
        · exact Or.inr (Or.inr h)
      · rintro (⟨h3, h4⟩ | h | h)
        · exact Or.inl ⟨h3, by omega⟩
        · exact Or.inl ⟨by omega, by omega⟩
        · exact Or.inr h
    · rw [if_neg he]
      obtain ⟨h1, h2⟩ := ih x x (le_refl _)
      constructor
      · intro r hr
        rcases List.mem_cons.1 hr with e | hr'
        · rw [e]; exact hfl
        · exact h1 r hr'
      · intro v
        simp only [List.mem_cons, exists_eq_or_imp]
        rw [h2 v]
        constructor
        · rintro (h | ⟨h3, h4⟩ | h)
          · exact Or.inl h
          · exact Or.inr (Or.inl (by omega))
          · exact Or.inr (Or.inr h)
        · rintro (h | h | h)
          · exact Or.inl h
          · exact Or.inr (Or.inl ⟨by omega, by omega⟩)
          · exact Or.inr (Or.inr h)

theorem runs_cover (l : List Nat) :
    (∀ r ∈ runs l, r.1 ≤ r.2) ∧ ∀ v, (∃ r ∈ runs l, r.1 ≤ v ∧ v ≤ r.2) ↔ v ∈ l := by
  cases l with
  | nil => simp [runs]
  | cons x rest =>
    obtain ⟨h1, h2⟩ := scanRuns_cover rest x x (le_refl _)
    refine ⟨h1, ?_⟩
    intro v
    simp only [runs]
    rw [h2 v, List.mem_cons]
    constructor
    · rintro (⟨h3, h4⟩ | h)
      · exact Or.inl (by omega)
      · exact Or.inr h
    · rintro (h | h)
      · exact Or.inl ⟨by omega, by omega⟩
      · exact Or.inr h

theorem length_scanRuns (rest : List Nat) :
    ∀ (first last : Nat), (scanRuns first last rest).length ≤ rest.length + 1 := by
  induction rest with
  | nil => intro _ _; simp [scanRuns]
  | cons x rest ih =>
    intro first last
    simp only [scanRuns]
    split
    · have := ih first x
      simp only [List.length_cons]
      omega
    · have := ih x x
      simp only [List.length_cons]
      omega

theorem length_runs (l : List Nat) : (runs l).length ≤ l.length := by
  cases l with
  | nil => simp [runs]
  | cons x rest => exact length_scanRuns rest x x

/-- The names the tokens of one group stand for: the names of the group. -/
theorem mem_expand_groupTokens (names : List String) (p x : String) :
    (∃ t ∈ groupTokens p names, x ∈ expandToken t) ↔
      ∃ n ∈ names, (split n).2 ≠ "" ∧ (split n).1 = p ∧ x = n := by
  obtain ⟨hle, hcov⟩ := runs_cover (sortValues (groupValues p names))
  have hval : ∀ v, v ∈ groupValues p names ↔
      ∃ n ∈ names, (split n).2 ≠ "" ∧ (split n).1 = p ∧ parseNat (split n).2.toList = v := by
    intro v
    simp only [groupValues, List.mem_map, List.mem_filter, decide_eq_true_eq,
      Bool.and_eq_true, Bool.decide_and]
    constructor
    · rintro ⟨n, ⟨hn, h1, h2⟩, rfl⟩
      exact ⟨n, hn, h1, h2, rfl⟩
    · rintro ⟨n, hn, h1, h2, rfl⟩
      exact ⟨n, ⟨hn, h1, h2⟩, rfl⟩
  constructor
  · rintro ⟨t, ht, hx⟩
    unfold groupTokens at ht
    obtain ⟨⟨a, b⟩, hr, rfl⟩ := List.mem_map.1 ht
    obtain ⟨v, h1, h2, rfl⟩ := (expandToken_renderRun p a b (hle _ hr) x).1 hx
    have hv : v ∈ sortValues (groupValues p names) := (hcov v).1 ⟨(a, b), hr, h1, h2⟩
    rw [(sortValues_perm _).mem_iff, hval] at hv
    obtain ⟨n, hn, h3, h4, rfl⟩ := hv
    refine ⟨n, hn, h3, h4, ?_⟩
    rw [← h4]
    exact name_of_value n h3
  · rintro ⟨n, hn, h1, h2, rfl⟩
    have hv : parseNat (split x).2.toList ∈ sortValues (groupValues p names) := by
      rw [(sortValues_perm _).mem_iff, hval]
      exact ⟨x, hn, h1, h2, rfl⟩
    obtain ⟨⟨a, b⟩, hr, h3, h4⟩ := (hcov _).2 hv
    refine ⟨renderRun p (a, b), List.mem_map.2 ⟨(a, b), hr, rfl⟩, ?_⟩
    rw [expandToken_renderRun p a b (hle _ hr)]
    refine ⟨_, h3, h4, ?_⟩
    rw [← h2]
    exact (name_of_value x h1).symm
theorem sum_map_le (l : List String) (f g : String → Nat) (h : ∀ p ∈ l, f p ≤ g p) :
    (l.map f).sum ≤ (l.map g).sum := by
  induction l with
  | nil => simp
  | cons x rest ih =>
    simp only [List.map_cons, List.sum_cons]
    have h1 := h x (List.mem_cons_self _ _)
    have h2 := ih (fun p hp => h p (List.mem_cons_of_mem _ hp))
    omega

theorem length_groupValues_sum (names : List String) :
    ((prefixes names).map (fun p => (groupValues p names).length)).sum =
      (names.filter (fun n => (split n).2 ≠ "")).length := by
  have h := List.sum_map_count_dedup_eq_length
    ((names.filter (fun n => (split n).2 ≠ "")).map (fun n => (split n).1))
  rw [List.length_map] at h
  rw [← h]
  unfold prefixes
  congr 1
  apply List.map_congr_left
  intro p _
  rw [List.count_eq_countP, List.countP_map, List.countP_eq_length_filter, List.filter_filter]
  simp only [groupValues, List.length_map]
  congr 1
  apply List.filter_congr
  intro n _
  by_cases h1 : (split n).1 = p <;> by_cases h2 : (split n).2 = "" <;> simp [h1, h2]

theorem length_compress_le (names : List String) : (compress names).length ≤ names.length := by
  unfold compress
  rw [(sortStrings_perm _).length_eq, List.length_append, List.length_flatMap]
  have h1 : ((prefixes names).map (List.length ∘ fun p => groupTokens p names)).sum ≤
      ((prefixes names).map (fun p => (groupValues p names).length)).sum := by
    apply sum_map_le
    intro p _
    simp only [Function.comp_apply, groupTokens, List.length_map]
    exact le_trans (length_runs _) (le_of_eq (sortValues_perm _).length_eq)
  rw [length_groupValues_sum] at h1
  have h2 := List.length_eq_countP_add_countP (fun n => decide ((split n).2 = "")) names
  simp only [List.countP_eq_length_filter] at h2
  have h3 : (names.filter (fun n => decide ((split n).2 ≠ ""))).length =
      (names.filter (fun a => decide (¬ (decide ((split a).2 = "")) = true))).length := by
    congr 1
    apply List.filter_congr
    intro n _
    simp
  unfold plainNames
  omega

/-- C21, amended. For every list of names none of which has itself the form of a
range token p[a-b], expanding every token of `compress` gives exactly the input
names, none added and none lost; and for every list of names the number of tokens
is at most the number of names. -/
theorem compress_round_trip (names : List String) :
    ((∀ n ∈ names, parseRange n.toList = none) →
      ∀ x, x ∈ (compress names).flatMap expandToken ↔ x ∈ names) ∧
    (compress names).length ≤ names.length := by
  refine ⟨?_, length_compress_le names⟩
  intro hN x
  rw [List.mem_flatMap]
  constructor
  · rintro ⟨t, ht, hx⟩
    rcases (mem_compress names t).1 ht with hp | ⟨p, -, hg⟩
    · have htn : t ∈ names := (List.mem_filter.1 hp).1
      unfold expandToken at hx
      rw [hN t htn] at hx
      rw [List.mem_singleton.1 hx]
      exact htn
    · obtain ⟨n, hn, -, -, rfl⟩ := (mem_expand_groupTokens names p x).1 ⟨t, hg, hx⟩
      exact hn
  · intro hx
    by_cases hs : (split x).2 = ""
    · refine ⟨x, (mem_compress names x).2 (Or.inl ?_), ?_⟩
      · exact List.mem_filter.2 ⟨hx, by simp [hs]⟩
      · unfold expandToken
        rw [hN x hx]
        exact List.mem_singleton.2 rfl
    · obtain ⟨t, ht, hxt⟩ := (mem_expand_groupTokens names (split x).1 x).2
        ⟨x, hx, hs, rfl, rfl⟩
      refine ⟨t, (mem_compress names t).2 (Or.inr ⟨(split x).1, ?_, ht⟩), hxt⟩
      unfold prefixes
      rw [List.mem_dedup, List.mem_map]
      exact ⟨x, List.mem_filter.2 ⟨hx, by simp [hs]⟩, rfl⟩

theorem compress_round_trip_witness :
    (∀ n ∈ ["eos0507", "eos0509", "abc", "eos0482", "eos0508"], parseRange n.toList = none) ∧
    (∀ x, x ∈ (compress ["eos0507", "eos0509", "abc", "eos0482", "eos0508"]).flatMap
        expandToken ↔ x ∈ ["eos0507", "eos0509", "abc", "eos0482", "eos0508"]) ∧
    (compress ["eos0507", "eos0509", "abc", "eos0482", "eos0508"]).length ≤
      ["eos0507", "eos0509", "abc", "eos0482", "eos0508"].length :=
  ⟨by decide,
    (compress_round_trip ["eos0507", "eos0509", "abc", "eos0482", "eos0508"]).1 (by decide),
    (compress_round_trip ["eos0507", "eos0509", "abc", "eos0482", "eos0508"]).2⟩

/-! ### Write: the tree section -/

theorem perm_append_flatMap {α : Type} (f : α → List α) (l : List α) :
    (l ++ l.flatMap f).Perm (l.flatMap (fun t => t :: f t)) := by
  induction l with
  | nil => simp
  | cons a l ih =>
    simp only [List.flatMap_cons, List.cons_append]
    refine List.Perm.cons a ?_
    refine (List.perm_append_comm_assoc l (f a) (l.flatMap f)).trans ?_
    exact List.Perm.append_left (f a) ih

theorem le_heightList (vs : List (String × VTree)) (e : String × VTree) (h : e ∈ vs) :
    e.2.height ≤ heightList vs := by
  induction vs with
  | nil => cases h
  | cons a vs ih =>
    obtain ⟨k, c⟩ := a
    simp only [heightList]
    rcases List.mem_cons.1 h with h | h
    · subst h; exact le_max_left _ _
    · exact le_trans (ih h) (le_max_right _ _)

theorem VTree.height_eq (t : VTree) : t.height = heightList t.Vertices + 1 := by
  cases t; simp [VTree.height, VTree.Vertices]

theorem VTree.internalBelow_eq (t : VTree) :
    t.internalBelow = internalBelowList t.Vertices := by
  cases t; simp [VTree.internalBelow, VTree.Vertices]

theorem mem_childrenInOrder (t c : VTree) (h : c ∈ childrenInOrder t) :
    ∃ k, (k, c) ∈ t.Vertices := by
  unfold childrenInOrder at h
  obtain ⟨e, he, rfl⟩ := List.mem_map.1 h
  exact ⟨e.1, (List.perm_insertionSort keyNotAfter t.Vertices).subset he⟩

theorem height_child (t c : VTree) (h : c ∈ childrenInOrder t) : c.height + 1 ≤ t.height := by
  obtain ⟨k, hk⟩ := mem_childrenInOrder t c h
  rw [t.height_eq]
  exact Nat.succ_le_succ (le_heightList _ _ hk)

theorem mem_switchChildren (t c : VTree) (h : c ∈ switchChildren t) :
    c ∈ childrenInOrder t ∧ c.isLeaf = false := by
  unfold switchChildren at h
  obtain ⟨h1, h2⟩ := List.mem_filter.1 h
  exact ⟨h1, by simpa using h2⟩

theorem internalBelowList_eq (vs : List (String × VTree)) :
    internalBelowList vs =
      ((vs.map Prod.snd).filter (fun c => !c.isLeaf)).flatMap
        (fun c => c :: c.internalBelow) := by
  induction vs with
  | nil => simp [internalBelowList]
  | cons a vs ih =>
    obtain ⟨k, c⟩ := a
    simp only [internalBelowList, List.map_cons, ih]
    cases hc : c.isLeaf <;> simp [List.filter_cons, hc]

theorem internalBelow_perm (t : VTree) :
    t.internalBelow.Perm ((switchChildren t).flatMap (fun c => c :: c.internalBelow)) := by
  rw [t.internalBelow_eq, internalBelowList_eq]
  unfold switchChildren childrenInOrder
  refine List.Perm.flatMap_right _ ?_
  refine List.Perm.filter _ ?_
  exact List.Perm.map _ (List.perm_insertionSort keyNotAfter t.Vertices).symm

theorem height_pos (t : VTree) : 0 < t.height := by
  rw [t.height_eq]; exact Nat.succ_pos _

theorem levels_perm (fuel : Nat) :
    ∀ lvl : List VTree, (∀ t ∈ lvl, t.height ≤ fuel) →
      (levels fuel lvl).Perm (lvl.flatMap (fun t => t :: t.internalBelow)) := by
  induction fuel with
  | zero =>
    intro lvl h
    cases lvl with
    | nil => simp [levels]
    | cons a l =>
      have := h a (List.mem_cons_self _ _)
      have := height_pos a
      omega
  | succ fuel ih =>
    intro lvl h
    cases lvl with
    | nil => simp [levels]
    | cons a l =>
      simp only [levels]
      have hnext : ∀ t ∈ (a :: l).flatMap switchChildren, t.height ≤ fuel := by
        intro c hc
        obtain ⟨t, ht, hct⟩ := List.mem_flatMap.1 hc
        have h1 := height_child t c (mem_switchChildren t c hct).1
        have h2 := h t ht
        omega
      refine (List.Perm.append_left _ (ih _ hnext)).trans ?_
      rw [List.flatMap_assoc]
      refine List.Perm.trans ?_ (perm_append_flatMap _ _)
      refine List.Perm.append_left _ ?_
      refine List.Perm.flatMap_left _ ?_
      intro t _
      exact (internalBelow_perm t).symm

theorem levels_after (fuel : Nat) :
    ∀ lvl : List VTree, (∀ t ∈ lvl, t.height ≤ fuel) →
      ∀ pre t post, levels fuel lvl = pre ++ t :: post →
        ∀ d ∈ t.internalBelow, d ∈ post := by
  induction fuel with
  | zero =>
    intro lvl _ pre t post he
    cases pre <;> simp [levels] at he
  | succ fuel ih =>
    intro lvl h pre t post he d hd
    cases lvl with
    | nil => cases pre <;> simp [levels] at he
    | cons a l =>
      simp only [levels] at he
      have hnext : ∀ t ∈ (a :: l).flatMap switchChildren, t.height ≤ fuel := by
        intro c hc
        obtain ⟨t, ht, hct⟩ := List.mem_flatMap.1 hc
        have h1 := height_child t c (mem_switchChildren t c hct).1
        have h2 := h t ht
        omega
      rcases List.append_eq_append_iff.1 he with ⟨m, hm1, hm2⟩ | ⟨m, hm1, hm2⟩
      · -- the vertex is in a later level
        cases m with
        | nil =>
          simp only [List.append_nil] at hm1
          simp only [List.nil_append] at hm2
          exact ih _ hnext [] t post (by simpa using hm2) d hd
        | cons x m =>
          exact ih _ hnext (x :: m) t post hm2 d hd
      · -- the vertex is in this level
        cases m with
        | nil =>
          simp only [List.nil_append] at hm2
          simp only [List.append_nil] at hm1
          exact ih _ hnext [] t post (by simpa using hm2.symm) d hd
        | cons x m =>
          simp only [List.cons_append, List.cons.injEq] at hm2
          obtain ⟨rfl, rfl⟩ := hm2
          apply List.mem_append_right
          have ht : t ∈ a :: l := by rw [hm1]; simp
          refine (levels_perm fuel _ hnext).symm.subset ?_
          rw [List.flatMap_assoc]
          refine List.mem_flatMap.2 ⟨t, ht, ?_⟩
          exact (internalBelow_perm t).subset hd

theorem levels_switches (fuel : Nat) :
    ∀ lvl : List VTree, (∀ t ∈ lvl, t.isLeaf = false) →
      ∀ t ∈ levels fuel lvl, t.isLeaf = false := by
  induction fuel with
  | zero => intro lvl _ t ht; simp [levels] at ht
  | succ fuel ih =>
    intro lvl h t ht
    cases lvl with
    | nil => simp [levels] at ht
    | cons a l =>
      simp only [levels] at ht
      rcases List.mem_append.1 ht with h1 | h1
      · exact h t h1
      · refine ih _ ?_ t h1
        intro c hc
        obtain ⟨u, _, hcu⟩ := List.mem_flatMap.1 hc
        exact (mem_switchChildren u c hcu).2

theorem treeOrder_perm (tr : VTree) : (treeOrder tr).Perm tr.internalBelow := by
  unfold treeOrder
  refine (levels_perm _ _ ?_).trans (internalBelow_perm tr).symm
  intro c hc
  have := height_child tr c (mem_switchChildren tr c hc).1
  omega

theorem switchLine_switches (t : VTree) (hl : t.isLeaf = false)
    (h : ∀ c ∈ childrenInOrder t, c.isLeaf = false) :
    switchLine t = "SwitchName=" ++ t.label ++ " Switches=" ++
      ",".intercalate (compress ((childrenInOrder t).map VTree.label)) := by
  have hs : switchChildren t = childrenInOrder t := by
    unfold switchChildren
    refine List.filter_eq_self.2 ?_
    intro c hc
    simp [h c hc]
  have hne : childrenInOrder t ≠ [] := by
    intro he
    have hlen := congrArg List.length he
    unfold childrenInOrder at hlen
    rw [List.length_map, List.length_insertionSort] at hlen
    have : t.Vertices = [] := List.length_eq_zero.1 hlen
    simp [VTree.isLeaf, this] at hl
  unfold switchLine
  rw [hs]
  cases hc : childrenInOrder t with
  | nil => exact absurd hc hne
  | cons a l => simp

theorem switchLine_nodes (t : VTree) (h : ∀ c ∈ childrenInOrder t, c.isLeaf = true) :
    switchLine t = "SwitchName=" ++ t.label ++ " Nodes=" ++
      ",".intercalate (compress ((childrenInOrder t).map VTree.Name)) := by
  have hs : switchChildren t = [] := by
    unfold switchChildren
    refine List.filter_eq_nil_iff.2 ?_
    intro c hc
    simp [h c hc]
  unfold switchLine
  rw [hs]
  simp

/-- C25 (amended): for a root that does not request the block view and has the
tree forest `tr`, `Write` gives the lines of the internal vertices below `tr`
taken level by level: each internal vertex is taken exactly once and no leaf is;
a vertex contributes its switch line, preceded by the comment line
`# <Name>=<ID>` when it has a Name; the switch line is
`SwitchName=<name> Switches=<list>` over the names of the children when they are
internal and `SwitchName=<name> Nodes=<list>` over their node names when they are
leaves, the list being the comma-joined `compress` output; and the internal
vertices below a vertex come after it. -/
theorem Write_tree_section (blockText : VTree → String) (root tr : VTree)
    (hv : root.Metadata.get? KeyPlugin ≠ some TopologyBlock)
    (ht : GoMap.get? root.Vertices TopologyTree = some tr) :
    Write blockText root =
      some (String.join (((treeOrder tr).flatMap switchLines).map (fun l => l ++ "\n"))) ∧
    (treeOrder tr).Perm tr.internalBelow ∧
    (∀ t ∈ treeOrder tr, t.isLeaf = false) ∧
    (∀ t : VTree, switchLines t =
      if t.Name = "" then [switchLine t]
      else ["# " ++ t.Name ++ "=" ++ t.ID, switchLine t]) ∧
    (∀ t : VTree, t.isLeaf = false → (∀ c ∈ childrenInOrder t, c.isLeaf = false) →
      switchLine t = "SwitchName=" ++ t.label ++ " Switches=" ++
        ",".intercalate (compress ((childrenInOrder t).map VTree.label))) ∧
    (∀ t : VTree, (∀ c ∈ childrenInOrder t, c.isLeaf = true) →
      switchLine t = "SwitchName=" ++ t.label ++ " Nodes=" ++
        ",".intercalate (compress ((childrenInOrder t).map VTree.Name))) ∧
    (∀ pre t post, treeOrder tr = pre ++ t :: post → ∀ d ∈ t.internalBelow, d ∈ post) := by
  refine ⟨?_, treeOrder_perm tr, ?_, ?_, switchLine_switches, switchLine_nodes, ?_⟩
  · unfold Write
    rw [if_neg hv, ht]
    rfl
  · intro t h
    exact levels_switches _ _ (fun c hc => (mem_switchChildren tr c hc).2) t h
  · intro t
    unfold switchLines
    by_cases hn : t.Name = "" <;> simp [hn]
  · intro pre t post he d hd
    refine levels_after _ _ ?_ pre t post he d hd
    intro c hc
    have := height_child tr c (mem_switchChildren tr c hc).1
    omega

theorem Write_tree_section_witness :
    shortenerRoot.Metadata.get? KeyPlugin ≠ some TopologyBlock ∧
    GoMap.get? shortenerRoot.Vertices TopologyTree = some shortenerTree ∧
    Write (fun _ => "") shortenerRoot =
      some (String.join
        (((treeOrder shortenerTree).flatMap switchLines).map (fun l => l ++ "\n"))) ∧
    (treeOrder shortenerTree).Perm shortenerTree.internalBelow ∧
    (∀ pre t post, treeOrder shortenerTree = pre ++ t :: post →
      ∀ d ∈ t.internalBelow, d ∈ post) :=
  have h := Write_tree_section (fun _ => "") shortenerRoot shortenerTree (by decide) rfl
  ⟨by decide, rfl, h.1, h.2.1, h.2.2.2.2.2.2⟩

set_option maxRecDepth 100000 in
/-- C25 counterexample: on the root of `TestToSlurmNameShortener` the output is
the text the test expects, ten lines for five internal vertices, each switch line
preceded by a comment line; and on the root of `getBlockWithIBTestSet`, which
requests the block view and has a well-formed tree forest with three internal
vertices, the output is the block section alone. -/
theorem comment_line_before_switch_line :
    Write (fun _ => "") shortenerRoot = some shortNameExpectedResult ∧
    shortenerTree.internalBelow.length = 5 ∧
    ((treeOrder shortenerTree).flatMap switchLines).length = 10 ∧
    ibTree.internalBelow.length = 3 ∧
    ∀ blockText : VTree → String, Write blockText ibRoot = some (blockText ibRoot) := by
  refine ⟨by decide, by decide, by decide, by decide, ?_⟩
  intro blockText
  rfl

namespace gcp

/-- C31. For every instance list in which no string is both a clusterID and a
rackID: every vertex two levels below the root, a rack vertex, carries the rack ID
it is stored under, its child keys are exactly the names of the instances whose
rackID is that ID, whatever their clusterID, and each child is a leaf with
ID = Name = that name; and two instances with the same rackID reach one and the
same rack vertex through their clusters, which holds the leaves of both. -/
theorem toSLURM_racks_global (cfg : InstanceTopology) (hA : ClusterRackApart cfg.instances) :
    ∃ (rp : Ptr) (vr : Vertex), (toSLURM cfg).root = some rp ∧
      (toSLURM cfg).heap[rp]? = some vr ∧
      (∀ (k1 : String) (p1 : Ptr) (v1 : Vertex) (k2 : String) (p2 : Ptr) (v2 : Vertex),
        vr.Vertices.get? k1 = some p1 → (toSLURM cfg).heap[p1]? = some v1 →
        v1.Vertices.get? k2 = some p2 → (toSLURM cfg).heap[p2]? = some v2 →
        v2.ID = k2 ∧
        (∀ n, v2.Vertices.get? n ≠ none ↔ ∃ c ∈ cfg.instances, c.rackID = k2 ∧ c.name = n) ∧
        (∀ (n : String) (q : Ptr), v2.Vertices.get? n = some q →
          (toSLURM cfg).heap[q]? = some ⟨n, n, [], []⟩)) ∧
      (∀ c ∈ cfg.instances, ∀ c' ∈ cfg.instances, c.rackID = c'.rackID →
        ∃ (p1 : Ptr) (v1 : Vertex) (p1' : Ptr) (v1' : Vertex) (p2 : Ptr) (v2 : Vertex),
          vr.Vertices.get? c.clusterID = some p1 ∧ (toSLURM cfg).heap[p1]? = some v1 ∧
          vr.Vertices.get? c'.clusterID = some p1' ∧ (toSLURM cfg).heap[p1']? = some v1' ∧
          v1.Vertices.get? c.rackID = some p2 ∧ v1'.Vertices.get? c.rackID = some p2 ∧
          (toSLURM cfg).heap[p2]? = some v2 ∧
          v2.Vertices.get? c.name ≠ none ∧ v2.Vertices.get? c'.name ≠ none) := by
  have hinv := toSLURM_inv cfg hA
  obtain ⟨-, hroot, hlow, vr, hvr, hget⟩ := toSLURM_root cfg hinv.forest_nodup
  generalize cfg.instances.foldl slurmStep ⟨[], [], []⟩ = st at hinv hroot hlow hvr hget
  refine ⟨st.heap.length, vr, hroot, hvr, ?_, ?_⟩
  · intro k1 p1 v1 k2 p2 v2 h1 hv1 h2 hv2
    rw [hget] at h1
    obtain ⟨hn1, c1, hc1, e1⟩ := hinv.forest_sub k1 p1 h1
    obtain ⟨w1, hw1, -, -⟩ := hinv.nodes_ok k1 p1 hn1
    have e := hlow p1 w1 hw1
    rw [hv1] at e
    have := Option.some.inj e
    subst this
    obtain ⟨c, hc, ec1, ec2⟩ := hinv.cluster_children k1 p1 v1 k2 p2 ⟨c1, hc1, e1⟩ hn1 hw1 h2
    obtain ⟨p1', v1', p2', hp1', hv1', hc2', hn2⟩ := hinv.cluster_ok c hc
    rw [ec1, hn1] at hp1'
    have := Option.some.inj hp1'
    subst this
    rw [hw1] at hv1'
    have := Option.some.inj hv1'
    subst this
    rw [ec2, h2] at hc2'
    have := Option.some.inj hc2'
    subst this
    rw [ec2] at hn2
    obtain ⟨w2, hw2, hid2, -⟩ := hinv.nodes_ok k2 p2 hn2
    have e := hlow p2 w2 hw2
    rw [hv2] at e
    have := Option.some.inj e
    subst this
    refine ⟨hid2, ?_, ?_⟩
    · intro n
      constructor
      · intro hne
        cases hq : v2.Vertices.get? n with
        | none => exact absurd hq hne
        | some q => exact (hinv.rack_children k2 p2 v2 n q ⟨c, hc, ec2⟩ hn2 hw2 hq).1
      · rintro ⟨c', hc', er, rfl⟩
        obtain ⟨q2, u2, q3, hq2, hu2, hq3, -⟩ := hinv.leaf_ok c' hc'
        rw [er, hn2] at hq2
        have := Option.some.inj hq2
        subst this
        rw [hw2] at hu2
        have := Option.some.inj hu2
        subst this
        rw [hq3]
        simp
    · intro n q hq
      exact hlow q _ (hinv.rack_children k2 p2 v2 n q ⟨c, hc, ec2⟩ hn2 hw2 hq).2
  · intro c hc c' hc' er
    obtain ⟨p1, v1, p2, hp1, hv1, hc2, hn2⟩ := hinv.cluster_ok c hc
    obtain ⟨p1', v1', p2', hp1', hv1', hc2', hn2'⟩ := hinv.cluster_ok c' hc'
    rw [← er, hn2] at hn2'
    have := Option.some.inj hn2'
    subst this
    rw [← er] at hc2'
    obtain ⟨q2, u2, q3, hq2, hu2, hq3, -⟩ := hinv.leaf_ok c hc
    rw [hn2] at hq2
    have := Option.some.inj hq2
    subst this
    obtain ⟨q2', u2', q3', hq2', hu2', hq3', -⟩ := hinv.leaf_ok c' hc'
    rw [← er, hn2] at hq2'
    have := Option.some.inj hq2'
    subst this
    rw [hu2] at hu2'
    have := Option.some.inj hu2'
    subst this
    refine ⟨p1, v1, p1', v1', p2, u2, ?_, hlow p1 v1 hv1, ?_, hlow p1' v1' hv1', hc2, hc2',
      hlow p2 u2 hu2, ?_, ?_⟩
    · rw [hget, hinv.forest_all c hc, hp1]
    · rw [hget, hinv.forest_all c' hc', hp1']
    · rw [hq3]; simp
    · rw [hq3']; simp

theorem toSLURM_racks_global_witness :
    ClusterRackApart sharedRack.instances ∧
    ∃ (rp : Ptr) (vr : Vertex), (toSLURM sharedRack).root = some rp ∧
      (toSLURM sharedRack).heap[rp]? = some vr ∧
      (∀ (k1 : String) (p1 : Ptr) (v1 : Vertex) (k2 : String) (p2 : Ptr) (v2 : Vertex),
        vr.Vertices.get? k1 = some p1 → (toSLURM sharedRack).heap[p1]? = some v1 →
        v1.Vertices.get? k2 = some p2 → (toSLURM sharedRack).heap[p2]? = some v2 →
        v2.ID = k2 ∧
        (∀ n, v2.Vertices.get? n ≠ none ↔
          ∃ c ∈ sharedRack.instances, c.rackID = k2 ∧ c.name = n) ∧
        (∀ (n : String) (q : Ptr), v2.Vertices.get? n = some q →
          (toSLURM sharedRack).heap[q]? = some ⟨n, n, [], []⟩)) ∧
      (∀ c ∈ sharedRack.instances, ∀ c' ∈ sharedRack.instances, c.rackID = c'.rackID →
        ∃ (p1 : Ptr) (v1 : Vertex) (p1' : Ptr) (v1' : Vertex) (p2 : Ptr) (v2 : Vertex),
          vr.Vertices.get? c.clusterID = some p1 ∧
          (toSLURM sharedRack).heap[p1]? = some v1 ∧
          vr.Vertices.get? c'.clusterID = some p1' ∧
          (toSLURM sharedRack).heap[p1']? = some v1' ∧
          v1.Vertices.get? c.rackID = some p2 ∧ v1'.Vertices.get? c.rackID = some p2 ∧
          (toSLURM sharedRack).heap[p2]? = some v2 ∧
          v2.Vertices.get? c.name ≠ none ∧ v2.Vertices.get? c'.name ≠ none) :=
  ⟨by decide, toSLURM_racks_global sharedRack (by decide)⟩

/-- The graph `toSLURM` builds for a rack reported under two clusters: the one rack
vertex, cell 1, is a child of both cluster vertices and holds both leaves. -/
theorem toSLURM_sharedRack :
    toSLURM sharedRack =
      ⟨[⟨"n1", "n1", [], []⟩, ⟨"r1", "", [("n2", 3), ("n1", 0)], []⟩,
        ⟨"c1", "", [("r1", 1)], []⟩, ⟨"n2", "n2", [], []⟩,
        ⟨"c2", "", [("r1", 1)], []⟩, ⟨"", "", [("c1", 2), ("c2", 4)], []⟩], some 5, none⟩ := by
  decide

end gcp

namespace gcp

theorem splitChars_eq (s : List Char) :
    splitChars s = upToSlash s :: (if '/' ∈ s then splitChars (afterSlash s) else []) := by
  induction s with
  | nil => simp [splitChars, upToSlash]
  | cons c cs ih =>
    by_cases hc : c = '/'
    · subst hc
      simp [splitChars, upToSlash, afterSlash]
    · have h1 : upToSlash (c :: cs) = c :: upToSlash cs := by
        simp [upToSlash, List.takeWhile_cons, hc]
      have h2 : afterSlash (c :: cs) = afterSlash cs := by
        simp [afterSlash, List.dropWhile_cons, hc]
      have h3 : ('/' ∈ c :: cs) ↔ ('/' ∈ cs) := by
        simp [List.mem_cons, Ne.symm hc]
      simp only [splitChars, if_neg hc]
      rw [ih, h1, h2]
      simp only [h3]

theorem count_afterSlash (s : List Char) :
    (afterSlash s).count '/' = s.count '/' - 1 := by
  induction s with
  | nil => simp [afterSlash]
  | cons c cs ih =>
    by_cases hc : c = '/'
    · subst hc
      simp [afterSlash]
    · have h2 : afterSlash (c :: cs) = afterSlash cs := by
        simp [afterSlash, List.dropWhile_cons, hc]
      rw [h2, ih, List.count_cons_of_ne (Ne.symm hc)]

theorem splitChars_three (s : List Char) (h : 2 ≤ s.count '/') :
    ∃ rest, splitChars s =
      upToSlash s :: upToSlash (afterSlash s) :: upToSlash (afterSlash (afterSlash s)) :: rest := by
  have m1 : '/' ∈ s := List.count_pos_iff.1 (by omega)
  have c1 : 1 ≤ (afterSlash s).count '/' := by rw [count_afterSlash]; omega
  have m2 : '/' ∈ afterSlash s := List.count_pos_iff.1 (by omega)
  rw [splitChars_eq s, if_pos m1, splitChars_eq (afterSlash s), if_pos m2,
    splitChars_eq (afterSlash (afterSlash s))]
  exact ⟨_, rfl⟩

/-- C32. For every listed instance that has a name in the instance-to-node map and
a physical host with at least two `/` characters, `strings.Split` on `/` gives at
least three tokens; token 1 is the text between the first and the second `/`,
token 2 the text between the second `/` and the third `/` or the end of the string;
and the pass of the loop does not panic: it appends the instance with token 1 as
clusterID and token 2 as rackID. -/
theorem physicalHost_in_bounds (instanceToNodeMap : GoMap String) (inst : Instance)
    (name host : String) (rs : ResourceStatus)
    (hname : inst.Name = some name) (hin : instanceToNodeMap.get? name ≠ none)
    (hrs : inst.ResourceStatus = some rs) (hph : rs.PhysicalHost = some host)
    (h2 : 2 ≤ host.toList.count '/') :
    3 ≤ (stringsSplit host).length ∧
    (stringsSplit host)[1]? = some (clusterText host) ∧
    (stringsSplit host)[2]? = some (rackText host) ∧
    instanceStep instanceToNodeMap inst =
      .ok (some ⟨clusterText host, rackText host, name⟩) := by
  obtain ⟨rest, hsp⟩ := splitChars_three host.toList h2
  have e : stringsSplit host =
      String.mk (upToSlash host.toList) :: clusterText host :: rackText host ::
        rest.map String.mk := by
    unfold stringsSplit clusterText rackText
    rw [hsp]
    rfl
  have hsome : (instanceToNodeMap.get? name).isSome = true := by
    cases hg : instanceToNodeMap.get? name with
    | none => exact absurd hg hin
    | some _ => rfl
  refine ⟨?_, ?_, ?_, ?_⟩
  · rw [e]; simp
  · rw [e]; simp
  · rw [e]; simp
  · unfold instanceStep
    simp [hname, hrs, hph, hsome, e]

theorem physicalHost_in_bounds_witness :
    (⟨some "n1", some ⟨some "/cluster/rack/host"⟩⟩ : Instance).Name = some "n1" ∧
    GoMap.get? [("n1", "node1")] "n1" ≠ none ∧
    (⟨some "n1", some ⟨some "/cluster/rack/host"⟩⟩ : Instance).ResourceStatus =
      some ⟨some "/cluster/rack/host"⟩ ∧
    (⟨some "/cluster/rack/host"⟩ : ResourceStatus).PhysicalHost = some "/cluster/rack/host" ∧
    2 ≤ "/cluster/rack/host".toList.count '/' ∧
    3 ≤ (stringsSplit "/cluster/rack/host").length ∧
    (stringsSplit "/cluster/rack/host")[1]? = some (clusterText "/cluster/rack/host") ∧
    (stringsSplit "/cluster/rack/host")[2]? = some (rackText "/cluster/rack/host") ∧
    instanceStep [("n1", "node1")] ⟨some "n1", some ⟨some "/cluster/rack/host"⟩⟩ =
      .ok (some ⟨clusterText "/cluster/rack/host", rackText "/cluster/rack/host", "n1"⟩) :=
  ⟨rfl, by decide, rfl, rfl, by decide,
    physicalHost_in_bounds [("n1", "node1")] ⟨some "n1", some ⟨some "/cluster/rack/host"⟩⟩
      "n1" "/cluster/rack/host" ⟨some "/cluster/rack/host"⟩ rfl (by decide) rfl rfl (by decide)⟩

/-- The pass of the loop on concrete physical hosts: with two or three `/` the
tokens 1 and 2 are read; with fewer than two `/` the read is out of range; an
instance outside the map, or without a physical host, appends nothing. -/
theorem instanceStep_examples :
    instanceStep [("n1", "node1")] ⟨some "n1", some ⟨some "/cluster/rack/host"⟩⟩ =
      .ok (some ⟨"cluster", "rack", "n1"⟩) ∧
    instanceStep [("n1", "node1")] ⟨some "n1", some ⟨some "a/b/c"⟩⟩ =
      .ok (some ⟨"b", "c", "n1"⟩) ∧
    instanceStep [("n1", "node1")] ⟨some "n1", some ⟨some "//"⟩⟩ =
      .ok (some ⟨"", "", "n1"⟩) ∧
    instanceStep [("n1", "node1")] ⟨some "n1", some ⟨some "/cluster"⟩⟩ =
      .error "index out of range" ∧
    instanceStep [("n1", "node1")] ⟨some "n1", some ⟨some ""⟩⟩ =
      .error "index out of range" ∧
    instanceStep [("n1", "node1")] ⟨some "n2", some ⟨some "/cluster"⟩⟩ = .ok none ∧
    instanceStep [("n1", "node1")] ⟨some "n1", some ⟨none⟩⟩ = .ok none ∧
    instanceStep [("n1", "node1")] ⟨some "n1", none⟩ = .ok none := by
  refine ⟨rfl, rfl, rfl, rfl, rfl, rfl, rfl, rfl⟩

end gcp

end Topograph
